import Mathlib

/-!
# scylla-monitor-ctl: archive codec, target-group reconstruction, config rewriting, orchestrators

A shallow embedding of `pkg/migrate/archive.go`, `pkg/prometheus/client.go`
(`QueryTargetGroups`), the text rewriting of `pkg/migrate/clone.go`, the
three orchestrators `ArchiveStack` (export.go), `RestoreStack` (file
`import_.go`) and `CloneStack` (clone.go), and the health checks
`checkPrometheus` and `checkDatasources` of `cmd/check.go`.

Go strings are lists of characters, file contents are lists of bytes, the
file system is a map from cleaned path strings to nodes, and every operation
that touches the disk passes the file system explicitly.

What lies outside the repository is modelled by its documented behaviour:
`path/filepath` (`Clean`, `Join`, `Dir`, on Unix), `os` (`MkdirAll`,
`Create`, `Chmod`; the process may write where it unpacks, and what it
creates gets the permission bits asked for less those of the process umask,
which every function that creates something takes as `umask`), `archive/tar`
with `compress/gzip` (an archive is the list of
the entries its reader yields; what `PackArchive` writes is what
`UnpackArchive` reads back), `encoding/json` (the reply of the metrics store
is its decoded list of active targets) and `regexp` (a backtracking matcher
with the leftmost-first preference of Go).

An orchestrator is a function from the answers of its collaborators (the
dashboard server, the metrics store, the container runtime, the local file
system, the codecs) to the error it returns and the list of the calls it
makes, in order. The packages `grafana` and `docker` are not part of the
sources at hand: what they do is a parameter of every statement.

What an export leaves in a directory of its staging tree is read off its
calls: the staging directory is fresh, so a directory of it holds the entries
that the calls before the packing create there (`stagedEntries`); the world
in which the packed archive is imported is built from these (`importWorld`).
-/

namespace ScyllaMonitor

/-! ## Strings, bytes and paths -/

/-- Go `string`, as the list of its characters. -/
abbrev GoString := List Char

/-- One byte of file content. -/
abbrev Byte := Nat

/-- The pieces of a path between separators (`strings.Split(p, "/")`). -/
def splitSlash : GoString → List GoString
  | [] => [[]]
  | c :: cs =>
    if c = '/' then [] :: splitSlash cs
    else
      match splitSlash cs with
      | [] => [[c]]
      | h :: t => (c :: h) :: t

/-- Pieces joined by the separator (`strings.Join(elems, "/")`). -/
def joinSlash : List GoString → GoString
  | [] => []
  | [a] => a
  | a :: b :: rest => a ++ '/' :: joinSlash (b :: rest)

/-- The `..` path element. -/
def dotdot : GoString := ['.', '.']

/-- One element of `filepath.Clean`, on the stack of kept elements (innermost
first): empty and `.` elements vanish, `..` removes the element before it,
is dropped at the root, and is kept at the start of a relative path. -/
def cleanStep (rooted : Bool) (stack : List GoString) (c : GoString) : List GoString :=
  if c = [] then stack
  else if c = ['.'] then stack
  else if c = dotdot then
    match stack with
    | [] => if rooted then [] else [dotdot]
    | top :: rest =>
      if top = dotdot then (if rooted then stack else dotdot :: stack) else rest
  else c :: stack

/-- Whether a path starts at the root. -/
def isRooted (p : GoString) : Bool :=
  match p with
  | c :: _ => c == '/'
  | [] => false

/-- The kept elements of a path after `filepath.Clean`, outermost first. -/
def cleanElems (p : GoString) : List GoString :=
  ((splitSlash p).foldl (cleanStep (isRooted p)) []).reverse

/-- A path written from its rootedness and elements; the empty relative path
is `.`. -/
def renderPath (rooted : Bool) (elems : List GoString) : GoString :=
  if rooted then '/' :: joinSlash elems
  else if elems = [] then ['.'] else joinSlash elems

/-- Go `filepath.Clean` on Unix: the shortest path equivalent to `p` by purely
lexical processing. -/
def Clean (p : GoString) : GoString :=
  renderPath (isRooted p) (cleanElems p)

/-- Go `filepath.Join` on Unix: leading empty elements are ignored, the rest
is joined with the separator and cleaned; all elements empty gives the empty
string. -/
def Join : List GoString → GoString
  | [] => []
  | e :: rest => if e = [] then Join rest else Clean (joinSlash (e :: rest))

/-- Go `filepath.Dir` on Unix: everything up to the last separator, cleaned. -/
def Dir (p : GoString) : GoString :=
  Clean (p.reverse.dropWhile (fun c => c != '/')).reverse

/-- Go `strings.HasPrefix`. -/
def HasPrefix (s pre : GoString) : Bool := pre.isPrefixOf s

/-! ## The file system -/

/-- What a path names on disk. -/
inductive Node where
  | dir (perm : Nat)
  | file (content : List Byte) (perm : Nat)
  deriving DecidableEq, Repr

/-- The file system: what each cleaned path names, if anything. -/
abbrev FS := GoString → Option Node

/-- The file system with `p` naming `n`. -/
def FS.set (fs : FS) (p : GoString) (n : Node) : FS :=
  fun q => if q = p then some n else fs q

/-- The chain of directories `os.MkdirAll` ensures for a path, outermost
first: the root for a rooted path, then every ancestor, then the path. -/
def dirChain (p : GoString) : List GoString :=
  let elems := cleanElems p
  let pre := (List.range (elems.length + 1)).tail.map
    (fun n => renderPath (isRooted p) (elems.take n))
  if isRooted p then ['/'] :: pre else pre

/-- Errors of the archive codec, one per `fmt.Errorf` of `UnpackArchive` and
`extractFile`. -/
inductive ArchiveError where
  | pathTraversal (name : GoString)
  | creatingDirectory (target : GoString)
  | creatingParent (target : GoString)
  | creatingFile (target : GoString)
  | extracting (target : GoString)
  | settingPermissions (target : GoString)
  deriving DecidableEq, Repr

/-- The directories of a chain made in order: an existing directory is kept,
a missing one is created with `perm`, a regular file in the way fails. -/
def mkdirChain (perm : Nat) : List GoString → FS → Option FS
  | [], fs => some fs
  | q :: qs, fs =>
    match fs q with
    | some (Node.dir _) => mkdirChain perm qs fs
    | some (Node.file _ _) => none
    | none => mkdirChain perm qs (fs.set q (Node.dir perm))

/-- The permission bits of what the process creates with `perm` under the
umask `umask`: the bits of `perm` that are not bits of the umask
(`perm &^ umask`). -/
def applyUmask (perm umask : Nat) : Nat := perm ^^^ (perm &&& umask)

/-- Go `os.MkdirAll(path, perm)` in a process with the given umask: every
missing directory of the chain is made with `perm` less the umask; `none`
for the empty path and when a regular file is in the way. -/
def MkdirAll (umask : Nat) (fs : FS) (path : GoString) (perm : Nat) : Option FS :=
  if path = [] then none
  else mkdirChain (applyUmask perm umask) (dirChain path) fs

/-- Go `os.Create(path)` in a process with the given umask: an existing
regular file is truncated and keeps its mode, a new one is made with mode
0666 less the umask inside an existing directory; the empty path, a
directory at `path` or a missing parent fails. -/
def osCreate (umask : Nat) (fs : FS) (path : GoString) : Option FS :=
  if path = [] then none
  else
    match fs path with
    | some (Node.dir _) => none
    | some (Node.file _ m) => some (fs.set path (Node.file [] m))
    | none =>
      match fs (Dir path) with
      | some (Node.dir _) => some (fs.set path (Node.file [] (applyUmask 0o666 umask)))
      | _ => none

/-- Bytes appended to the regular file at `path` (writes to the open file). -/
def osWrite (fs : FS) (path : GoString) (bytes : List Byte) : FS :=
  match fs path with
  | some (Node.file c m) => fs.set path (Node.file (c ++ bytes) m)
  | _ => fs

/-- Go `os.Chmod(path, mode)`: `none` when nothing is at `path`. -/
def osChmod (fs : FS) (path : GoString) (mode : Nat) : Option FS :=
  match fs path with
  | some (Node.file c _) => some (fs.set path (Node.file c mode))
  | some (Node.dir _) => some (fs.set path (Node.dir mode))
  | none => none

/-! ## The archive -/

/-- Tar type flags (`archive/tar`). -/
def TypeReg : Char := '0'
/-- Hard link. -/
def TypeLink : Char := '1'
/-- Symbolic link. -/
def TypeSymlink : Char := '2'
/-- Character device. -/
def TypeChar : Char := '3'
/-- Block device. -/
def TypeBlock : Char := '4'
/-- Directory. -/
def TypeDir : Char := '5'
/-- Named pipe. -/
def TypeFifo : Char := '6'

/-- One entry of a tar stream as `tarReader.Next()` hands it over: the header
fields the codec reads, and the bytes that follow the header in the stream.
`Size` is what the header claims; `data` is what is really there. -/
structure TarEntry where
  Name : GoString
  Typeflag : Char
  Mode : Int
  Size : Nat
  data : List Byte
  deriving DecidableEq, Repr

/-- The extraction cap of `extractFile`: `const maxSize = 1 << 30`. -/
def maxSize : Nat := 1 <<< 30

/-- The effect of `io.Copy(outFile, io.LimitReader(tarReader, maxSize))`: the
bytes written, and whether the copy ended in a read error. The tar reader
yields the entry's bytes up to the size its header claims and fails when the
stream ends before that; the limiting reader stops it after `maxSize` bytes. -/
def copyLimited (e : TarEntry) : List Byte × Bool :=
  let want := min e.Size maxSize
  (e.data.take want, decide (e.data.length < want))

/-- Go `os.FileMode(mode)`: an `int64` converted to `uint32`. -/
def toFileMode (mode : Int) : Nat := (mode % 2 ^ 32).toNat

/-- The outcome of a step that touches the disk: the error returned, if any,
and the file system it leaves. -/
structure Outcome where
  err : Option ArchiveError
  fs : FS

/-- The `extractFile` of archive.go: create the file, copy at most `maxSize`
bytes of the entry into it, then set its mode to the header's mode masked
with 0750. -/
def extractFile (umask : Nat) (target : GoString) (e : TarEntry) (mode : Int) (fs : FS) :
    Outcome :=
  match osCreate umask fs target with
  | none => ⟨some (.creatingFile target), fs⟩
  | some fs1 =>
    let (bytes, failed) := copyLimited e
    let fs2 := osWrite fs1 target bytes
    if failed then ⟨some (.extracting target), fs2⟩
    else
      match osChmod fs2 target (toFileMode mode &&& 0o750) with
      | none => ⟨some (.settingPermissions target), fs2⟩
      | some fs3 => ⟨none, fs3⟩

/-- The traversal check of `UnpackArchive`:
`strings.HasPrefix(filepath.Clean(target)+"/", filepath.Clean(destDir)+"/")`. -/
def traversalOK (destDir target : GoString) : Bool :=
  HasPrefix (Clean target ++ ['/']) (Clean destDir ++ ['/'])

/-- One round of the loop of `UnpackArchive`, for the entry `e`. -/
def unpackEntry (umask : Nat) (destDir : GoString) (e : TarEntry) (fs : FS) : Outcome :=
  let target := Join [destDir, e.Name]
  if !traversalOK destDir target then ⟨some (.pathTraversal e.Name), fs⟩
  else if e.Typeflag = TypeDir then
    match MkdirAll umask fs target 0o750 with
    | none => ⟨some (.creatingDirectory target), fs⟩
    | some fs1 => ⟨none, fs1⟩
  else if e.Typeflag = TypeReg then
    match MkdirAll umask fs (Dir target) 0o750 with
    | none => ⟨some (.creatingParent target), fs⟩
    | some fs1 => extractFile umask target e e.Mode fs1
  else ⟨none, fs⟩

/-- The `UnpackArchive` of archive.go over the entries of the opened archive,
in a process with the given umask: entries are handled in order and the
first error ends the loop. -/
def UnpackArchive (umask : Nat) (archive : List TarEntry) (destDir : GoString) (fs : FS) :
    Outcome :=
  match archive with
  | [] => ⟨none, fs⟩
  | e :: rest =>
    match unpackEntry umask destDir e fs with
    | ⟨some err, fs1⟩ => ⟨some err, fs1⟩
    | ⟨none, fs1⟩ => UnpackArchive umask rest destDir fs1

/-! ## Containment, as the specification words it -/

/-- The elements of a cleaned path. -/
def pathElems (p : GoString) : List GoString := cleanElems (Clean p)

/-- Whether `target` lies inside `dest` as the specification means it: both
are rooted or both relative, the elements of `dest` start those of `target`,
and what remains never climbs with a `..` element (so that
`filepath.Rel(dest, target)` stays below `dest`). -/
def liesInside (dest target : GoString) : Bool :=
  (isRooted (Clean dest) == isRooted (Clean target)) &&
  (pathElems dest).isPrefixOf (pathElems target) &&
  !((pathElems target).drop (pathElems dest).length).contains dotdot

/-! ## Sample inputs -/

/-- A file system holding only the given directories. -/
def dirsOnly (ds : List GoString) : FS :=
  fun p => if p ∈ ds then some (Node.dir 0o755) else none

/-- The working directory with its parent and grandparent. -/
def fsAbove : FS := dirsOnly [".".toList, "..".toList, "../..".toList]

/-- A regular file entry named `../escape`. -/
def escapeEntry : TarEntry :=
  ⟨"../escape".toList, TypeReg, 0o644, 3, [1, 2, 3]⟩

/-- The root and one empty directory `/d`. -/
def fsD : FS := dirsOnly ["/".toList, "/d".toList]

/-- An entry whose header claims, and whose stream holds, one byte more than
the cap. -/
def bigEntry : TarEntry :=
  ⟨"big".toList, TypeReg, 0o644, 2 ^ 30 + 1, List.replicate (2 ^ 30 + 1) 0⟩

/-- A symbolic link entry. -/
def linkEntry : TarEntry := ⟨"link".toList, TypeSymlink, 0o777, 0, []⟩

/-- A directory entry. -/
def subEntry : TarEntry := ⟨"sub".toList, TypeDir, 0o755, 0, []⟩

/-- A small regular file entry with a wide mode. -/
def fileEntry : TarEntry := ⟨"sub/f".toList, TypeReg, 0o777, 2, [7, 8]⟩

/-! ## Target-group reconstruction (`pkg/prometheus/client.go`) -/

/-- Go `map[string]V` as the list of its bindings; a key's value is that of
its first binding. -/
abbrev GoMap (V : Type) := List (GoString × V)

/-- The value bound to a key, if any (`v, ok := m[k]`). -/
def GoMap.get? {V : Type} : GoMap V → GoString → Option V
  | [], _ => none
  | (a, v) :: m, k => if k = a then some v else GoMap.get? m k

/-- The map after `m[k] = v`: the binding of `k` is replaced, or added. -/
def GoMap.set {V : Type} : GoMap V → GoString → V → GoMap V
  | [], k, v => [(k, v)]
  | (a, w) :: m, k, v => if k = a then (a, v) :: m else (a, w) :: GoMap.set m k v

/-- Go `m[k]` on a `map[string]string`: the empty string for a missing key. -/
def GoMap.index (m : GoMap GoString) (k : GoString) : GoString :=
  (GoMap.get? m k).getD []

/-- Go `TargetGroup`: one file_sd target group. -/
structure TargetGroup where
  Targets : List GoString
  Labels : GoMap GoString
  deriving DecidableEq, Repr

/-- One element of `activeTargets` in the reply of `/api/v1/targets`. -/
structure ActiveTarget where
  DiscoveredLabels : GoMap GoString
  Labels : GoMap GoString
  ScrapePool : GoString
  deriving DecidableEq, Repr

/-- The label key `__address__`. -/
def labelAddress : GoString := "__address__".toList
/-- The label key `__meta_filepath`. -/
def labelMetaFilepath : GoString := "__meta_filepath".toList
/-- The label key `__metrics_path__`. -/
def labelMetricsPath : GoString := "__metrics_path__".toList
/-- The label key `__scheme__`. -/
def labelScheme : GoString := "__scheme__".toList
/-- The label key `__scrape_interval__`. -/
def labelScrapeInterval : GoString := "__scrape_interval__".toList
/-- The label key `__scrape_timeout__`. -/
def labelScrapeTimeout : GoString := "__scrape_timeout__".toList

/-- The six label keys `QueryTargetGroups` leaves out of a group's labels. -/
def isInternalLabel (k : GoString) : Bool :=
  k == labelAddress || k == labelMetaFilepath ||
  k == labelMetricsPath || k == labelScheme ||
  k == labelScrapeInterval || k == labelScrapeTimeout

/-- The copy loop over `t.DiscoveredLabels`: every binding whose key is not
one of the six is copied to the fresh map (a range loop visits each key of a
Go map once). -/
def collectLabels (discovered : GoMap GoString) : GoMap GoString :=
  discovered.filter (fun kv => !isInternalLabel kv.1)

/-- The group appended for a target: its address alone, and its collected
labels. -/
def groupOf (t : ActiveTarget) : TargetGroup :=
  { Targets := [GoMap.index t.DiscoveredLabels labelAddress],
    Labels := collectLabels t.DiscoveredLabels }

/-- One round of the loop of `QueryTargetGroups` over the active targets. -/
def queryStep (fileTargets : GoMap (List TargetGroup)) (t : ActiveTarget) :
    GoMap (List TargetGroup) :=
  let fp := GoMap.index t.DiscoveredLabels labelMetaFilepath
  if fp = [] then fileTargets
  else
    let addr := GoMap.index t.DiscoveredLabels labelAddress
    if addr = [] then fileTargets
    else
      GoMap.set fileTargets fp
        ((GoMap.get? fileTargets fp).getD [] ++
          [{ Targets := [addr], Labels := collectLabels t.DiscoveredLabels }])

/-- The grouping of `QueryTargetGroups`, on the decoded `activeTargets` of the
reply: the map from origin file path to the groups of its targets. -/
def QueryTargetGroups (activeTargets : List ActiveTarget) : GoMap (List TargetGroup) :=
  activeTargets.foldl queryStep []

/-- Whether a target comes from file-based discovery at path `p` and has an
address. -/
def hasOrigin (p : GoString) (t : ActiveTarget) : Bool :=
  decide (GoMap.index t.DiscoveredLabels labelMetaFilepath = p) &&
  decide (GoMap.index t.DiscoveredLabels labelMetaFilepath ≠ []) &&
  decide (GoMap.index t.DiscoveredLabels labelAddress ≠ [])

/-- The groups the specification expects under a path: one per listed target
with that origin and an address, in listing order. -/
def groupsFor (activeTargets : List ActiveTarget) (p : GoString) : List TargetGroup :=
  (activeTargets.filter (hasOrigin p)).map groupOf

/-- A discovered target of file `fp` at address `addr` with one more label. -/
def sdTarget (fp addr job : String) : ActiveTarget :=
  { DiscoveredLabels :=
      [(labelAddress, addr.toList), (labelMetaFilepath, fp.toList),
       (labelScheme, "http".toList), ("job".toList, job.toList)],
    Labels := [("instance".toList, addr.toList), ("job".toList, job.toList)],
    ScrapePool := job.toList }

/-- A statically configured target: no origin label. -/
def staticTarget : ActiveTarget :=
  { DiscoveredLabels :=
      [(labelAddress, "s:9".toList), ("job".toList, "static".toList)],
    Labels := [("job".toList, "static".toList)],
    ScrapePool := "static".toList }

/-- Two targets of file `A`, one without origin, one of file `B`. -/
def sampleListing : List ActiveTarget :=
  [sdTarget "A" "a1:1" "x", staticTarget, sdTarget "B" "b1:1" "y", sdTarget "A" "a2:1" "x"]

/-! ## Packing a directory tree (`PackArchive`) -/

mutual
/-- A directory tree of regular files and subdirectories, as `filepath.Walk`
finds it on disk. -/
inductive DirTree where
  | file (content : List Byte) (perm : Nat)
  | dir (perm : Nat) (entries : DirEntries)
/-- The named entries of a directory, in the order `filepath.Walk` visits
them. -/
inductive DirEntries where
  | nil
  | cons (name : GoString) (t : DirTree) (rest : DirEntries)
end

/-- The path of an entry relative to the walked root
(`filepath.Rel(sourceDir, path)`), from that of its directory. -/
def relJoin (parentRel name : GoString) : GoString :=
  if parentRel = [] then name else parentRel ++ '/' :: name

mutual
/-- The walk function of `PackArchive` on the entry at relative path `rel`
and on everything below it: one header per entry, named by its relative path,
followed by all bytes of a regular file (`tar.FileInfoHeader`, then
`io.Copy`). -/
def walkTree : GoString → DirTree → List TarEntry
  | rel, .file c m => [⟨rel, TypeReg, (m : Int), c.length, c⟩]
  | rel, .dir m es => ⟨rel, TypeDir, (m : Int), 0, []⟩ :: walkEntries rel es
/-- The walk over the entries of the directory at `parentRel`. -/
def walkEntries : GoString → DirEntries → List TarEntry
  | _, .nil => []
  | parentRel, .cons name t rest =>
    walkTree (relJoin parentRel name) t ++ walkEntries parentRel rest
end

/-- The `PackArchive` of archive.go on the tree found at `sourceDir`: the
entries written to the archive. The root itself (relative path `.`) gets no
entry. -/
def PackArchive (source : DirTree) : List TarEntry :=
  match source with
  | .file _ _ => []
  | .dir _ es => walkEntries [] es

/-- A file or directory name: not empty, without separator, neither `.` nor
`..`. -/
def validName (n : GoString) : Bool :=
  decide (n ≠ []) && !n.contains '/' && decide (n ≠ ['.']) && decide (n ≠ dotdot)

mutual
/-- What a tree holds at a relative path given by its names. -/
def DirTree.find : DirTree → List GoString → Option DirTree
  | t, [] => some t
  | .file _ _, _ :: _ => none
  | .dir _ es, n :: ns => es.find n ns
/-- What the entries of a directory hold at the path `n :: ns`. -/
def DirEntries.find : DirEntries → GoString → List GoString → Option DirTree
  | .nil, _, _ => none
  | .cons name t rest, n, ns => if n = name then t.find ns else rest.find n ns
end

/-- The names of the entries of a directory. -/
def DirEntries.names : DirEntries → List GoString
  | .nil => []
  | .cons name _ rest => name :: rest.names

mutual
/-- Every name in the tree is a valid name and no directory holds two
entries of the same name. -/
def DirTree.wellFormed : DirTree → Bool
  | .file _ _ => true
  | .dir _ es => es.wellFormed
/-- Well-formedness of the entries of one directory. -/
def DirEntries.wellFormed : DirEntries → Bool
  | .nil => true
  | .cons name t rest =>
    validName name && !rest.names.contains name && t.wellFormed && rest.wellFormed
end

mutual
/-- No regular file of the tree is larger than the extraction cap. -/
def DirTree.withinCap : DirTree → Bool
  | .file c _ => decide (c.length ≤ maxSize)
  | .dir _ es => es.withinCap
/-- No regular file below the entries is larger than the extraction cap. -/
def DirEntries.withinCap : DirEntries → Bool
  | .nil => true
  | .cons _ t rest => t.withinCap && rest.withinCap
end

/-- What unpacking leaves for an entry of the source tree when new
directories get the mode `dperm`: a regular file with the same bytes and its
permissions masked by 0750, a directory with mode `dperm`, nothing where the
tree has nothing. -/
def restored (dperm : Nat) : Option DirTree → Option Node
  | some (.file c m) => some (Node.file c (m &&& 0o750))
  | some (.dir _ _) => some (Node.dir dperm)
  | none => none

/-- Whether a path holds what the source tree holds at the same relative
path, as the round trip promises it: a regular file with the same bytes and
its permissions masked by 0750 for a regular file, a directory for a
directory, nothing for nothing. -/
def restoredAs : Option DirTree → Option Node → Bool
  | some (.file c m), some (Node.file c2 m2) => decide (c2 = c) && decide (m2 = m &&& 0o750)
  | some (.dir _ _), some (Node.dir _) => true
  | none, none => true
  | _, _ => false

/-- A small source tree: `a.txt`, and `sub/` holding `b.bin` and an empty
directory `e`. -/
def sampleTree : DirTree :=
  .dir 0o755
    (.cons "a.txt".toList (.file [104, 105] 0o644)
      (.cons "sub".toList
        (.dir 0o700
          (.cons "b.bin".toList (.file [0, 255, 7] 0o777)
            (.cons "e".toList (.dir 0o755 .nil) .nil)))
        .nil))

/-- A source tree whose only file is one byte larger than the cap. -/
def bigTree : DirTree :=
  .dir 0o755 (.cons "big".toList (.file (List.replicate (2 ^ 30 + 1) 0) 0o644) .nil)

/-- The archive entry `PackArchive` writes for the file of `bigTree`. -/
def bigPacked : TarEntry :=
  ⟨"big".toList, TypeReg, ((0o644 : Nat) : Int),
    (List.replicate (2 ^ 30 + 1) (0 : Byte)).length, List.replicate (2 ^ 30 + 1) 0⟩

/-! ## Cleaned paths -/

/-- An element `filepath.Clean` keeps: not empty, no separator, not `.`. -/
def isElem (c : GoString) : Prop := c ≠ [] ∧ '/' ∉ c ∧ c ≠ ['.']

/-- The shape of the elements `filepath.Clean` keeps, innermost first: a
`..` element only sits on `..` elements, and only in a relative path. -/
def CleanStack (rooted : Bool) : List GoString → Prop
  | [] => True
  | c :: rest =>
    isElem c ∧ (c = dotdot → rooted = false ∧ ∀ d ∈ rest, d = dotdot) ∧ CleanStack rooted rest

/-- The cleaned path of the relative names `ns` below the destination. -/
def under (dest : GoString) (ns : List GoString) : GoString :=
  renderPath (isRooted dest) (cleanElems dest ++ ns)

/-- The chain of `os.MkdirAll` from a path's rootedness and elements. -/
def chainOf (rooted : Bool) (elems : List GoString) : List GoString :=
  let pre := (List.range (elems.length + 1)).tail.map
    (fun n => renderPath rooted (elems.take n))
  if rooted then ['/'] :: pre else pre

mutual
/-- The file system with the tree `t` restored at the names `ns` below the
destination, new directories getting the mode `dperm`. -/
def plantTree (dperm : Nat) (dest : GoString) : List GoString → DirTree → FS → FS
  | ns, .file c m, fs => fs.set (under dest ns) (Node.file c (m &&& 0o750))
  | ns, .dir _ es, fs =>
    plantEntries dperm dest ns es (fs.set (under dest ns) (Node.dir dperm))
/-- The file system with the entries of the directory at `ns` restored. -/
def plantEntries (dperm : Nat) (dest : GoString) : List GoString → DirEntries → FS → FS
  | _, .nil, fs => fs
  | ns, .cons n t rest, fs =>
    plantEntries dperm dest ns rest (plantTree dperm dest (ns ++ [n]) t fs)
end

/-! ## Regular expressions (`regexp`, as used by clone.go) -/

/-- The part of the RE2 syntax the patterns of clone.go use. -/
inductive Re where
  | eps
  | lit (c : Char)
  | cls (p : Char → Bool)
  | seq (a b : Re)
  | opt (a : Re)
  | star (greedy : Bool) (a : Re)
  | group (n : Nat) (a : Re)

/-- The submatches recorded so far: for a group index, the input left where
the group began and where it ended. -/
abbrev Caps := List (Nat × (GoString × GoString))

/-- The state of a match: the input left, and the submatches. -/
abbrev MatchState := GoString × Caps

/-- The loop of `a*` (greedy) or `a*?` (lazy) of a backtracking matcher: a
greedy loop first tries one more round of the body, a lazy loop first tries
what follows. A round that consumes nothing is not repeated. The number of
rounds left starts at the length of the input, which no loop can exceed. -/
def starLoop (greedy : Bool)
    (body : GoString → Caps → (GoString → Caps → Option MatchState) → Option MatchState)
    (k : GoString → Caps → Option MatchState) : Nat → GoString → Caps → Option MatchState
  | 0, s, c => k s c
  | n + 1, s, c =>
    let more := body s c
      (fun s1 c1 => if s1.length < s.length then starLoop greedy body k n s1 c1 else none)
    if greedy then more.or (k s c) else (k s c).or more

/-- The backtracking matcher: the first way, in the order of preference of
Go's leftmost-first semantics, to match `re` at the start of the input such
that what follows (`k`) succeeds too. -/
def matchRe : Re → GoString → Caps → (GoString → Caps → Option MatchState) →
    Option MatchState
  | .eps, s, c, k => k s c
  | .lit x, s, c, k =>
    match s with
    | y :: t => if y = x then k t c else none
    | [] => none
  | .cls p, s, c, k =>
    match s with
    | y :: t => if p y then k t c else none
    | [] => none
  | .seq a b, s, c, k => matchRe a s c (fun s1 c1 => matchRe b s1 c1 k)
  | .opt a, s, c, k => (matchRe a s c k).or (k s c)
  | .star g a, s, c, k => starLoop g (matchRe a) k s.length s c
  | .group n a, s, c, k => matchRe a s c (fun s1 c1 => k s1 ((n, (s, s1)) :: c1))

/-- A literal string. -/
def Re.str : GoString → Re
  | [] => .eps
  | c :: cs => .seq (.lit c) (Re.str cs)

/-- One or more, greedy (`a+`). -/
def Re.plus (a : Re) : Re := .seq a (.star true a)

/-- A match of `re` at the very start of the input: what is left after it,
and the submatches. -/
def matchHere (re : Re) (s : GoString) : Option MatchState :=
  matchRe re s [] (fun s1 c1 => some (s1, c1))

/-- The leftmost match: the text before it, the input from its start, the
input after it, and the submatches. -/
def findMatch (re : Re) : GoString → Option (GoString × GoString × GoString × Caps)
  | [] => (matchHere re []).map (fun r => ([], [], r.1, r.2))
  | x :: t =>
    match matchHere re (x :: t) with
    | some r => some ([], x :: t, r.1, r.2)
    | none => (findMatch re t).map (fun m => (x :: m.1, m.2))

/-- The text between two points of the input, given by what is left at each. -/
def textBetween (start stop : GoString) : GoString :=
  start.take (start.length - stop.length)

/-- The text of submatch `n`; nothing for a group that did not take part. -/
def groupText (caps : Caps) (n : Nat) : GoString :=
  match caps.lookup n with
  | some (a, b) => textBetween a b
  | none => []

/-- A character of a template name: a letter, a digit or an underscore
(ASCII; Go also takes letters and digits of other scripts). -/
def isNameChar (c : Char) : Bool := c.isAlphanum || c == '_'

/-- The number a template name stands for, if it is one: decimal digits
only, no leading zero, below 10^8 before its last digit. -/
def nameNumber (name : GoString) : Option Nat :=
  let step : Option Nat → Char → Option Nat := fun acc ch =>
    match acc with
    | none => none
    | some v => if ch.isDigit && decide (v < 10 ^ 8) then some (v * 10 + (ch.toNat - 48)) else none
  match name with
  | [] => none
  | d :: ds => if d = '0' ∧ ds ≠ [] then none else (d :: ds).foldl step (some 0)

/-- Go `extract` of `regexp`: the name after a `$`, bare or in braces, its
number if it is one, and the rest of the template. -/
def extract (str : GoString) : Option (GoString × Option Nat × GoString) :=
  match str with
  | [] => none
  | '{' :: body =>
    let name := body.takeWhile isNameChar
    let rest := body.dropWhile isNameChar
    if name = [] then none
    else
      match rest with
      | '}' :: rest1 => some (name, nameNumber name, rest1)
      | _ => none
  | _ =>
    let name := str.takeWhile isNameChar
    if name = [] then none else some (name, nameNumber name, str.dropWhile isNameChar)

/-- Go `Regexp.expand` for a pattern without named groups: `$$` is a dollar
sign, `$n` and `${n}` the text of submatch `n`, a name that is no number
nothing, and a `$` followed by no name a dollar sign. -/
def expand (caps : Caps) : Nat → GoString → GoString
  | 0, t => t
  | _ + 1, [] => []
  | n + 1, c :: t =>
    if c ≠ '$' then c :: expand caps n t
    else
      match t with
      | '$' :: t1 => '$' :: expand caps n t1
      | _ =>
        match extract t with
        | none => '$' :: expand caps n t
        | some (_, some num, rest) => groupText caps num ++ expand caps n rest
        | some (_, none, rest) => expand caps n rest

/-- The loop of Go `Regexp.ReplaceAllString` for a pattern that matches no
empty string: the text before each leftmost match is kept, the match is
replaced by the expanded template, and the search goes on after the match. -/
def replaceLoop (re : Re) (template : GoString) : Nat → GoString → GoString
  | 0, s => s
  | n + 1, s =>
    match findMatch re s with
    | none => s
    | some (before, start, rest, caps) =>
      before ++ expand ((0, (start, rest)) :: caps) (template.length + 1) template ++
        (if rest.length < start.length then replaceLoop re template n rest else rest)

/-- Go `re.ReplaceAllString(src, repl)`. -/
def ReplaceAllString (re : Re) (src repl : GoString) : GoString :=
  replaceLoop re repl (src.length + 1) src

/-- The class `\s` of RE2: tab, newline, form feed, carriage return, space. -/
def isSpace (c : Char) : Bool :=
  c == '\t' || c == '\n' || c == '\x0c' || c == '\r' || c == ' '

/-- The pattern `\s*`. -/
def reSpaces : Re := .star true (.cls isSpace)

/-- The pattern `\s+`. -/
def reSpaces1 : Re := Re.plus (.cls isSpace)

/-- The class of `.`: any character but a newline. -/
def notNewline (c : Char) : Bool := c != '\n'

/-- The class `\S`. -/
def notSpace (c : Char) : Bool := !isSpace c

/-- The pattern `.*\n`: the rest of a line and its newline. -/
def reLine : Re := .seq (.star true (.cls notNewline)) (.lit '\n')

/-- The pattern `(?:.*\n)*?`: as few whole lines as possible. -/
def reLazyLines : Re := .star false reLine

/-- The pattern `(\S+)` of the second group. -/
def reAddress : Re := .group 2 (Re.plus (.cls notSpace))

/-- The pattern `\s+- targets:\s*\n\s+- ` that ends the first group of both
patterns. -/
def reTargetsHead : Re :=
  .seq reSpaces1 (.seq (Re.str "- targets:".toList) (.seq reSpaces (.seq (.lit '\n')
    (.seq reSpaces1 (Re.str "- ".toList)))))

/-- The pattern of `replaceStaticTarget`:
`(- job_name:\s*'?NAME'?\s*\n(?:.*\n)*?\s+- targets:\s*\n\s+- )(\S+)`, where
`NAME` is the job name quoted by `regexp.QuoteMeta`, that is, taken
literally. The flag `(?m)` only changes `^` and `$`, which do not occur. -/
def jobRe (jobName : GoString) : Re :=
  .seq
    (.group 1
      (.seq (Re.str "- job_name:".toList) (.seq reSpaces (.seq (.opt (.lit '\''))
        (.seq (Re.str jobName) (.seq (.opt (.lit '\'')) (.seq reSpaces (.seq (.lit '\n')
          (.seq reLazyLines reTargetsHead)))))))))
    reAddress

/-- The `replaceStaticTarget` of clone.go. -/
def replaceStaticTarget (config jobName newTarget : GoString) : GoString :=
  ReplaceAllString (jobRe jobName) config ("${1}".toList ++ newTarget)

/-! ## The layout of a static job block -/

/-- The single quote a job name may be written in, or nothing. -/
def quoteText (q : Bool) : GoString := if q then ['\''] else []

/-- Lines of text, each ended by a newline. -/
def unlines : List GoString → GoString
  | [] => []
  | l :: ls => l ++ '\n' :: unlines ls

/-- Whether a text starts with blanks that hold a newline: where the pattern
`\s*\n` matches. -/
def endsLine (w : GoString) : Bool := (w.takeWhile isSpace).contains '\n'

/-- Whether a text starts with the name `jobName`, an optional single quote,
and blanks that hold a newline. -/
def nameEndsLine (jobName v : GoString) : Bool :=
  jobName.isPrefixOf v &&
    (endsLine (v.drop jobName.length) ||
      (match v.drop jobName.length with
       | '\'' :: w => endsLine w
       | _ => false))

/-- Whether a text starts with the declaration of the job `jobName` as the
pattern of `replaceStaticTarget` reads it: `- job_name:`, blanks, an
optional single quote, the name, an optional single quote, blanks and a
newline. The declaration of a job whose name only starts with `jobName` is
none. -/
def declaresJob (jobName s : GoString) : Bool :=
  "- job_name:".toList.isPrefixOf s &&
    (nameEndsLine jobName ((s.drop 11).dropWhile isSpace) ||
      (match (s.drop 11).dropWhile isSpace with
       | '\'' :: v => nameEndsLine jobName v
       | _ => false))

/-- A line of a job block before its target list: no newline inside, not
blank, and not the start of a target list. -/
def plainLine (l : GoString) : Bool :=
  !l.contains '\n' && decide (l.dropWhile isSpace ≠ []) &&
    !("- targets:".toList.isPrefixOf (l.dropWhile isSpace))

/-- The last line of a text: what follows its last newline. -/
def lastLine (s : GoString) : GoString :=
  (s.reverse.takeWhile (fun c => c != '\n')).reverse

/-- The indentation of a line: the number of spaces it starts with. -/
def indentOf (l : GoString) : Nat := (l.takeWhile (fun c => c == ' ')).length

/-- A line inside the block of the list item whose dash stands in column
`col`, before the target list of the block: a plain line indented deeper
than the dash. The declaration of the next job, whose dash stands in the
same column, is none. -/
def blockLine (col : Nat) (l : GoString) : Bool :=
  plainLine l && decide (col < indentOf l)


/-- An indentation: blanks, at least one, none of them a newline. -/
def isIndent (w : GoString) : Bool :=
  decide (w ≠ []) && w.all (fun c => isSpace c && c != '\n')

/-- A target address: characters that are no blanks, at least one. -/
def isAddress (a : GoString) : Bool :=
  decide (a ≠ []) && a.all notSpace

/-- Whether a target list written after the indentation `ind1`, with its
first item after the indentation `ind2`, lies inside the block of the list
item that starts right after the text `pre`: the item starts its line after
spaces only, the target list is indented deeper than the dash of the item,
and the first item of the list deeper still. -/
def insideBlock (pre ind1 ind2 : GoString) : Bool :=
  (lastLine pre).all (fun c => c == ' ') &&
    isIndent ind1 && decide ((lastLine pre).length < indentOf ind1) &&
    isIndent ind2 && decide (indentOf ind1 < indentOf ind2)

/-- The text of the block of job `grafana` up to its target address: the
declaration `- job_name:` with the name, bare or in single quotes, the lines
of the block before the target list, then `- targets:` and the `- ` of its
first item, each after an indentation. -/
def jobBlockHead (sp : GoString) (q1 q2 : Bool) (lines : List GoString)
    (ind1 ind2 : GoString) : GoString :=
  "- job_name:".toList ++ (sp ++ (quoteText q1 ++ ("grafana".toList ++ (quoteText q2 ++
    '\n' :: (unlines lines ++ (ind1 ++ ("- targets:".toList ++
      '\n' :: (ind2 ++ "- ".toList))))))))

/-- A scrape configuration with the jobs `prometheus`, `grafana` and `node`. -/
def sampleConfig : GoString :=
  ("scrape_configs:\n- job_name: prometheus\n  static_configs:\n  - targets:\n" ++
   "    - localhost:9090\n- job_name: grafana\n  static_configs:\n  - targets:\n" ++
   "    - old:3000\n- job_name: node\n  static_configs:\n  - targets:\n    - n1:9100\n").toList

/-- A configuration whose job name is written in double quotes. -/
def doubleQuotedConfig : GoString :=
  "- job_name: \"grafana\"\n  static_configs:\n  - targets:\n    - old:3000\n".toList

/-- The part of `sampleConfig` before the block of job `grafana`. -/
def samplePre : GoString :=
  ("scrape_configs:\n- job_name: prometheus\n  static_configs:\n  - targets:\n" ++
   "    - localhost:9090\n").toList

/-- The part of `sampleConfig` after the target address of job `grafana`. -/
def samplePost : GoString :=
  "\n- job_name: node\n  static_configs:\n  - targets:\n    - n1:9100\n".toList

/-- A scrape configuration with the jobs `prometheus`, `grafana2`, `grafana`
and `node`, each with one static target. -/
def threeJobConfig : GoString :=
  ("scrape_configs:\n- job_name: prometheus\n  static_configs:\n  - targets:\n" ++
   "    - localhost:9090\n- job_name: grafana2\n  static_configs:\n  - targets:\n" ++
   "    - g2:3000\n- job_name: grafana\n  static_configs:\n  - targets:\n" ++
   "    - old:3000\n- job_name: node\n  static_configs:\n  - targets:\n    - n1:9100\n").toList

/-- The part of `threeJobConfig` before the block of job `grafana`. -/
def threeJobPre : GoString :=
  ("scrape_configs:\n- job_name: prometheus\n  static_configs:\n  - targets:\n" ++
   "    - localhost:9090\n- job_name: grafana2\n  static_configs:\n  - targets:\n" ++
   "    - g2:3000\n").toList

/-- The block of job `grafana` in `sampleConfig`, up to its address. -/
def sampleHead : GoString :=
  jobBlockHead " ".toList false false ["  static_configs:".toList] "  ".toList "    ".toList

/-! ## replaceAlertmanagerTarget (clone.go) -/

/-- The pattern of `replaceAlertmanagerTarget`:
`(alertmanagers:\s*\n\s+- static_configs:\s*\n\s+- targets:\s*\n\s+- )(\S+)`. -/
def alertRe : Re :=
  .seq
    (.group 1
      (.seq (Re.str "alertmanagers:".toList) (.seq reSpaces (.seq (.lit '\n')
        (.seq reSpaces1 (.seq (Re.str "- static_configs:".toList) (.seq reSpaces
          (.seq (.lit '\n') reTargetsHead))))))))
    reAddress

/-- The `replaceAlertmanagerTarget` of clone.go. -/
def replaceAlertmanagerTarget (config newTarget : GoString) : GoString :=
  ReplaceAllString alertRe config ("${1}".toList ++ newTarget)

/-- Blanks at the end of a line: blanks, possibly none, none of them a
newline. -/
def isTrail (w : GoString) : Bool :=
  w.all (fun c => isSpace c && c != '\n')

/-- The text of an alert-router block up to its first target address: the
key `alertmanagers:`, then `- static_configs:`, `- targets:` and the `- ` of
the first item, each on the next line after an indentation; blanks may end
each of the three lines. -/
def alertBlockHead (w0 ind1 w1 ind2 w2 ind3 : GoString) : GoString :=
  "alertmanagers:".toList ++ (w0 ++ '\n' :: (ind1 ++ ("- static_configs:".toList ++
    (w1 ++ '\n' :: (ind2 ++ ("- targets:".toList ++ (w2 ++ '\n' :: (ind3 ++
      "- ".toList))))))))

/-- A configuration with an alert-router block of two targets and two scrape
jobs. -/
def sampleAlertConfig : GoString :=
  ("global:\n  scrape_interval: 20s\nalerting:\n  alertmanagers:\n  - static_configs:\n" ++
   "    - targets:\n        - old:9093\n        - spare:9093\nscrape_configs:\n" ++
   "- job_name: scylla\n  static_configs:\n  - targets:\n    - n1:9180\n" ++
   "- job_name: grafana\n  static_configs:\n  - targets:\n    - graf:3000\n").toList

/-- The part of `sampleAlertConfig` before the key `alertmanagers:`. -/
def sampleAlertPre : GoString :=
  "global:\n  scrape_interval: 20s\nalerting:\n  ".toList

/-- The part of `sampleAlertConfig` after the first alert-router target. -/
def sampleAlertPost : GoString :=
  ("\n        - spare:9093\nscrape_configs:\n" ++
   "- job_name: scylla\n  static_configs:\n  - targets:\n    - n1:9180\n" ++
   "- job_name: grafana\n  static_configs:\n  - targets:\n    - graf:3000\n").toList

/-- The alert-router block of `sampleAlertConfig`, up to its first address. -/
def sampleAlertHead : GoString :=
  alertBlockHead [] "  ".toList [] "    ".toList [] "        ".toList

/-- A configuration whose key `alertmanagers:` is followed by a comment on the
same line. -/
def commentedAlertConfig : GoString :=
  ("alerting:\n  alertmanagers: # the alert router\n  - static_configs:\n" ++
   "    - targets:\n      - old:9093\n").toList

/-! ## Documents and collaborators of the orchestrators -/

/-- A decoded JSON value, as `json.Unmarshal` yields it for `interface{}`: an
object is a map from key to value. A number is kept as the integer it
denotes. -/
inductive Json where
  | null
  | bool (b : Bool)
  | num (n : Int)
  | str (s : GoString)
  | arr (xs : List Json)
  | obj (kvs : List (GoString × Json))

/-- Go `delete(m, k)`. -/
def GoMap.delete {V : Type} (m : GoMap V) (k : GoString) : GoMap V :=
  m.filter (fun kv => kv.1 != k)

/-- Modelled from the spec: `grafana.APIDatasource`, one element of the
dashboard server's datasource listing. The orchestrators use its id, name,
type (`Type`, here `Type_`) and address; `Rest` stands for all remaining
fields. -/
structure Datasource where
  ID : Int
  Name : GoString
  Type_ : GoString
  URL : GoString
  Rest : GoString
  deriving DecidableEq, Repr

/-- Go `Metadata` of export.go. -/
structure Metadata where
  ExportTimestamp : GoString
  GrafanaURL : GoString
  PrometheusURL : GoString
  IncludesData : Bool
  DashboardCount : Int
  DatasourceCount : Int
  deriving DecidableEq, Repr

/-- Modelled from the spec: `docker.MountConfig`, one bind mount of a
container. -/
structure MountConfig where
  Source : GoString
  Target : GoString
  ReadOnly : Bool
  deriving DecidableEq, Repr

/-- Modelled from the spec: `docker.ContainerConfig`, what a container is
started from. -/
structure ContainerConfig where
  Name : GoString
  Image : GoString
  NetworkName : GoString
  PortBindings : GoMap GoString
  Cmd : List GoString
  Env : List GoString
  Mounts : List MountConfig
  deriving DecidableEq, Repr

/-- A call an orchestrator makes to a collaborator or to change the local
file system, with its arguments. Reads of the local file system are not
recorded. -/
inductive Call where
  | grafanaHealth (url : GoString)
  | searchDashboards (url : GoString)
  | downloadDashboard (url uid : GoString)
  | listDatasources (url : GoString)
  | listFolders (url : GoString)
  | upsertDatasource (url : GoString) (ds : Datasource)
  | uploadDashboard (url : GoString) (dashboard : GoString) (folderID : Int)
      (overwrite : Bool)
  | prometheusHealth (url : GoString)
  | queryTargetGroups (url : GoString)
  | createSnapshot (url : GoString)
  | createNetwork (stackID : Int)
  | startContainer (cfg : ContainerConfig)
  | waitForHealth (url : GoString) (attempts : Nat)
  | mkdirTemp (pattern : GoString)
  | mkdirAll (path : GoString)
  | writeFile (path : GoString) (data : GoString)
  | copyFile (src dst : GoString)
  | copyDir (src dst : GoString)
  | removeAll (path : GoString)
  | packArchive (source dest : GoString)
  | unpackArchive (archivePath destDir : GoString)
  deriving DecidableEq, Repr

/-- How a dashboard server answers: its health probe, the unique
identifiers of its dashboard search, the envelope it sends for an
identifier, its datasource listing and the text of its folder listing. A failed request
is `none`. The outcome of an upsert or upload is only logged by the
orchestrators and is not part of the answers. -/
structure Grafana where
  healthOk : Bool
  search : Option (List GoString)
  download : GoString → Option GoString
  datasources : Option (List Datasource)
  folders : Option GoString

/-- How a metrics store answers: its health probe, the decoded
`activeTargets` of its target listing, and the name of the snapshot it
creates. A failed request is `none`. -/
structure Prometheus where
  healthOk : Bool
  activeTargets : Option (List ActiveTarget)
  snapshot : Option GoString

/-- Modelled from the spec: the container runtime (package `docker`): its
two name-generation helpers, and for each call whether it succeeds. -/
structure Docker where
  ContainerName : GoString → Int → Int → GoString
  NetworkName : Int → GoString
  createNetworkOk : Int → Bool
  startContainerOk : ContainerConfig → Bool
  waitForHealthOk : GoString → Bool

/-- How the local file system answers: the directory `os.MkdirTemp` creates
for a pattern, whether `os.MkdirAll`, `os.WriteFile` on a path and
`PackArchive`, `UnpackArchive` on a pair of paths succeed, what `os.ReadFile`
reads, whether `os.Stat` finds a directory, the entries `os.ReadDir` gives
and whether it succeeds, and the path `filepath.Abs` gives. -/
structure Disk where
  mkdirTemp : GoString → Option GoString
  mkdirAllOk : GoString → Bool
  writeFileOk : GoString → Bool
  readFile : GoString → Option GoString
  stat : GoString → Option Bool
  readDir : GoString → List GoString × Bool
  abs : GoString → Option GoString
  packOk : GoString → GoString → Bool
  unpackOk : GoString → GoString → Bool

/-- The encoders and decoders of `encoding/json` and `yaml.v3`: the value a
JSON text denotes (`json.Unmarshal` into `interface{}`), the texts
`json.Marshal` and `json.MarshalIndent` write for a value, the raw text of
each field of a JSON object (`json.Unmarshal` into
`map[string]json.RawMessage`, which also accepts `null`), and the encoders
and decoders for the records of this program, each of which may fail. -/
structure Codec where
  parse : GoString → Option Json
  marshal : Json → GoString
  marshalIndent : Json → GoString
  rawFields : GoString → Option (GoMap GoString)
  encodeDatasource : Datasource → Option GoString
  decodeDatasource : GoString → Option Datasource
  encodeMetadata : Metadata → Option GoString
  decodeMetadata : GoString → Option Metadata
  encodeTargets : List TargetGroup → Option GoString

/-- Everything outside an orchestrator: the dashboard server and the metrics
store behind each address, the container runtime, the local file system, the
codecs and the clock (`time.Now().UTC().Format(time.RFC3339)`). -/
structure World where
  grafanaAt : GoString → Grafana
  prometheusAt : GoString → Prometheus
  docker : Docker
  disk : Disk
  codec : Codec
  now : GoString

/-- The outcome of an orchestrator: the error it returns, if any, and the
calls it made, in order. -/
structure Run (ε : Type) where
  err : Option ε
  calls : List Call

/-- The documents written by `os.WriteFile` among some calls, in order. -/
def writes : List Call → List (GoString × GoString)
  | [] => []
  | .writeFile p d :: rest => (p, d) :: writes rest
  | _ :: rest => writes rest

/-- The datasources upserted among some calls, in order. -/
def upserts : List Call → List Datasource
  | [] => []
  | .upsertDatasource _ ds :: rest => ds :: upserts rest
  | _ :: rest => upserts rest

/-- The dashboards uploaded among some calls, in order. -/
def uploads : List Call → List GoString
  | [] => []
  | .uploadDashboard _ d _ _ :: rest => d :: uploads rest
  | _ :: rest => uploads rest

/-- Whether a call creates a network or starts a container. -/
def Call.deploys : Call → Bool
  | .createNetwork _ => true
  | .startContainer _ => true
  | _ => false

/-- Whether a call contacts a dashboard server. -/
def Call.contactsGrafana : Call → Bool
  | .grafanaHealth _ => true
  | .searchDashboards _ => true
  | .downloadDashboard _ _ => true
  | .listDatasources _ => true
  | .listFolders _ => true
  | .upsertDatasource _ _ => true
  | .uploadDashboard _ _ _ _ => true
  | _ => false

/-- Whether a call copies a file or a directory, or creates a directory. -/
def Call.restores : Call → Bool
  | .copyFile _ _ => true
  | .copyDir _ _ => true
  | .mkdirAll _ => true
  | _ => false

/-! ## ArchiveStack (export.go) -/

/-- Go `ArchiveOptions`. -/
structure ArchiveOptions where
  PrometheusURL : GoString
  GrafanaURL : GoString
  GrafanaUser : GoString
  GrafanaPassword : GoString
  OutputPath : GoString
  PrometheusConfig : GoString
  AlertRulesDir : GoString
  AlertManagerConfig : GoString
  LokiConfig : GoString
  TargetFiles : List GoString
  deriving DecidableEq, Repr

/-- The errors `ArchiveStack` returns, one for each `return` of an error in
its body; `mkdirAll` is the bare error of `os.MkdirAll`. -/
inductive ArchiveStackError where
  | creatingStagingDirectory
  | mkdirAll (path : GoString)
  | searchingDashboards
  | writingDashboard (uid : GoString)
  | listingDatasources
  | writingDatasource (name : GoString)
  | marshalingMetadata
  | writingMetadata
  | packingArchive
  deriving DecidableEq, Repr

/-- Go `filepath.Base` on Unix. -/
def Base (p : GoString) : GoString :=
  if p = [] then ['.']
  else
    let q := (p.reverse.dropWhile (fun c => c == '/')).reverse
    if q = [] then ['/'] else (q.reverse.takeWhile (fun c => c != '/')).reverse

/-- The value `json.MarshalIndent(parsed, ...)` is given in export.go 80-87,
for a decoded envelope: when the field `dashboard` is an object, the envelope
with the key `id` deleted from that object. -/
def stripEnvelope (parsed : Json) : Json :=
  match parsed with
  | .obj fields =>
    match GoMap.get? fields "dashboard".toList with
    | some (.obj dash) =>
      .obj (GoMap.set fields "dashboard".toList (.obj (GoMap.delete dash "id".toList)))
    | _ => .obj fields
  | other => other

/-- The document written for a downloaded envelope (export.go 80-87):
`json.Unmarshal` into a `map[string]interface{}` succeeds on an object or on
`null`; then the envelope is written again, without the `id` of its
dashboard object; any other text is written as it came. -/
def stripDashboardId (codec : Codec) (data : GoString) : GoString :=
  match codec.parse data with
  | some (.obj fields) => codec.marshalIndent (stripEnvelope (.obj fields))
  | some .null => codec.marshalIndent .null
  | _ => data

/-- What a loop of `ArchiveStack` leaves: the error it returned with, if any,
the number of documents counted, and its calls. -/
structure Staged where
  err : Option ArchiveStackError
  count : Int
  calls : List Call
  deriving DecidableEq, Repr

/-- The loop over the search results (export.go 74-93). -/
def exportDashboardLoop (w : World) (url dashDir : GoString) : List GoString → Staged
  | [] => ⟨none, 0, []⟩
  | uid :: rest =>
    match (w.grafanaAt url).download uid with
    | none =>
      let r := exportDashboardLoop w url dashDir rest
      ⟨r.err, r.count, .downloadDashboard url uid :: r.calls⟩
    | some data =>
      let path := Join [dashDir, uid ++ ".json".toList]
      let made := [Call.downloadDashboard url uid,
        Call.writeFile path (stripDashboardId w.codec data)]
      if w.disk.writeFileOk path then
        let r := exportDashboardLoop w url dashDir rest
        ⟨r.err, r.count + 1, made ++ r.calls⟩
      else ⟨some (.writingDashboard uid), 0, made⟩

/-- The loop over the datasources (export.go 105-115). -/
def exportDatasourceLoop (w : World) (dsDir : GoString) : List Datasource → Staged
  | [] => ⟨none, 0, []⟩
  | ds :: rest =>
    match w.codec.encodeDatasource ds with
    | none => exportDatasourceLoop w dsDir rest
    | some data =>
      let path := Join [dsDir, ds.Name ++ ".json".toList]
      if w.disk.writeFileOk path then
        let r := exportDatasourceLoop w dsDir rest
        ⟨r.err, r.count + 1, .writeFile path data :: r.calls⟩
      else ⟨some (.writingDatasource ds.Name), 0, [.writeFile path data]⟩

/-- What the block for the dashboard server leaves (export.go 60-127): the
error, the two counts and the calls. -/
structure GrafanaStage where
  err : Option ArchiveStackError
  dashboards : Int
  datasources : Int
  calls : List Call
  deriving DecidableEq, Repr

/-- The block of `ArchiveStack` for the dashboard server (export.go 60-127). -/
def exportGrafana (w : World) (opts : ArchiveOptions) (stageDir : GoString) : GrafanaStage :=
  let gc := w.grafanaAt opts.GrafanaURL
  let dashDir := Join [stageDir, "dashboards".toList]
  let c1 := [Call.mkdirAll dashDir]
  if !w.disk.mkdirAllOk dashDir then ⟨some (.mkdirAll dashDir), 0, 0, c1⟩
  else
    let c2 := c1 ++ [Call.searchDashboards opts.GrafanaURL]
    match gc.search with
    | none => ⟨some .searchingDashboards, 0, 0, c2⟩
    | some results =>
      let dl := exportDashboardLoop w opts.GrafanaURL dashDir results
      let c3 := c2 ++ dl.calls
      match dl.err with
      | some e => ⟨some e, dl.count, 0, c3⟩
      | none =>
        let dsDir := Join [stageDir, "datasources".toList]
        let c4 := c3 ++ [Call.mkdirAll dsDir]
        if !w.disk.mkdirAllOk dsDir then ⟨some (.mkdirAll dsDir), dl.count, 0, c4⟩
        else
          let c5 := c4 ++ [Call.listDatasources opts.GrafanaURL]
          match gc.datasources with
          | none => ⟨some .listingDatasources, dl.count, 0, c5⟩
          | some datasources =>
            let sl := exportDatasourceLoop w dsDir datasources
            let c6 := c5 ++ sl.calls
            match sl.err with
            | some e => ⟨some e, dl.count, sl.count, c6⟩
            | none =>
              let folderDir := Join [stageDir, "folders".toList]
              let c7 := c6 ++ [Call.mkdirAll folderDir]
              if !w.disk.mkdirAllOk folderDir then
                ⟨some (.mkdirAll folderDir), dl.count, sl.count, c7⟩
              else
                let c8 := c7 ++ [Call.listFolders opts.GrafanaURL] ++
                  (match gc.folders with
                   | some data => [Call.writeFile (Join [folderDir, "folders.json".toList]) data]
                   | none => [])
                ⟨none, dl.count, sl.count, c8⟩

/-- The copies of the local config files and target files into the staging
tree (export.go 129-157); no outcome is looked at. -/
def collectConfigs (opts : ArchiveOptions) (stageDir : GoString) : List Call :=
  let configDir := Join [stageDir, "prometheus".toList]
  let amDir := Join [stageDir, "alertmanager".toList]
  let lokiDir := Join [stageDir, "loki".toList]
  let targetDir := Join [stageDir, "targets".toList]
  [Call.mkdirAll configDir] ++
  (if opts.PrometheusConfig ≠ [] then
    [Call.copyFile opts.PrometheusConfig (Join [configDir, "prometheus.yml".toList])]
   else []) ++
  (if opts.AlertRulesDir ≠ [] then
    [Call.copyDir opts.AlertRulesDir (Join [configDir, "prom_rules".toList])]
   else []) ++
  (if opts.AlertManagerConfig ≠ [] then
    [Call.mkdirAll amDir,
     Call.copyFile opts.AlertManagerConfig (Join [amDir, "config.yml".toList])]
   else []) ++
  (if opts.LokiConfig ≠ [] then
    [Call.mkdirAll lokiDir, Call.copyFile opts.LokiConfig (Join [lokiDir, "config.yaml".toList])]
   else []) ++
  (if opts.TargetFiles ≠ [] then
    Call.mkdirAll targetDir ::
      opts.TargetFiles.map (fun tf => Call.copyFile tf (Join [targetDir, Base tf]))
   else [])

/-- The outcome of `ArchiveStack`: the error, the calls, and the metadata
given to `yaml.Marshal`, when that point is reached. -/
structure ArchiveRun where
  err : Option ArchiveStackError
  calls : List Call
  metadata : Option Metadata
  deriving DecidableEq, Repr

/-- The body of `ArchiveStack` once the staging directory exists. -/
def archiveStaged (w : World) (opts : ArchiveOptions) (stageDir : GoString) : ArchiveRun :=
  let g : GrafanaStage :=
    if opts.GrafanaURL ≠ [] then exportGrafana w opts stageDir else ⟨none, 0, 0, []⟩
  match g.err with
  | some e => ⟨some e, g.calls, none⟩
  | none =>
    let c1 := g.calls ++ collectConfigs opts stageDir
    let c2 := c1 ++
      (if opts.PrometheusURL ≠ [] then [Call.createSnapshot opts.PrometheusURL] else [])
    let includes : Bool := decide (opts.PrometheusURL ≠ []) ||
      (decide (opts.PrometheusURL ≠ []) && (w.prometheusAt opts.PrometheusURL).snapshot.isSome)
    let metadata : Metadata :=
      { ExportTimestamp := w.now, GrafanaURL := opts.GrafanaURL,
        PrometheusURL := opts.PrometheusURL, IncludesData := includes,
        DashboardCount := g.dashboards, DatasourceCount := g.datasources }
    match w.codec.encodeMetadata metadata with
    | none => ⟨some .marshalingMetadata, c2, some metadata⟩
    | some metaData =>
      let metaPath := Join [stageDir, "metadata.yaml".toList]
      let c3 := c2 ++ [Call.writeFile metaPath metaData]
      if !w.disk.writeFileOk metaPath then ⟨some .writingMetadata, c3, some metadata⟩
      else
        let c4 := c3 ++ [Call.packArchive stageDir opts.OutputPath]
        if !w.disk.packOk stageDir opts.OutputPath then
          ⟨some .packingArchive, c4, some metadata⟩
        else ⟨none, c4, some metadata⟩

/-- The `ArchiveStack` of export.go: the staging directory is created, the
body runs, and the deferred `os.RemoveAll(stageDir)` ends every exit after
that. -/
def ArchiveStack (w : World) (opts : ArchiveOptions) : ArchiveRun :=
  match w.disk.mkdirTemp "scylla-monitor-export-*".toList with
  | none =>
    ⟨some .creatingStagingDirectory, [.mkdirTemp "scylla-monitor-export-*".toList], none⟩
  | some stageDir =>
    let r := archiveStaged w opts stageDir
    ⟨r.err, Call.mkdirTemp "scylla-monitor-export-*".toList :: r.calls ++
      [Call.removeAll stageDir], r.metadata⟩

/-! ## RestoreStack (import_.go) -/

/-- Go `RestoreOptions`. -/
structure RestoreOptions where
  ArchivePath : GoString
  DataDir : GoString
  GrafanaDataDir : GoString
  GrafanaURL : GoString
  GrafanaUser : GoString
  GrafanaPassword : GoString
  GrafanaPort : Int
  PrometheusURL : GoString
  deriving DecidableEq, Repr

/-- The errors `RestoreStack` returns, one for each `return` of an error in
its body. -/
inductive RestoreStackError where
  | accessing
  | creatingExtractDirectory
  | unpackingArchive
  | readingMetadata
  | parsingMetadata
  | grafanaNotReady
  deriving DecidableEq, Repr

/-- The copy of the scrape configuration of a snapshot (import_.go 73-77),
made when `os.Stat` finds it; no outcome is looked at. -/
def restorePromConfig (w : World) (extractDir : GoString) : List Call :=
  let promConfigSrc := Join [extractDir, "prometheus".toList, "prometheus.yml".toList]
  if (w.disk.stat promConfigSrc).isSome then
    [Call.mkdirAll "prometheus/build".toList,
     Call.copyFile promConfigSrc "prometheus/build/prometheus.yml".toList]
  else []

/-- The copy of the alert rules of a snapshot (import_.go 79-82). -/
def restoreRules (w : World) (extractDir : GoString) : List Call :=
  let rulesDir := Join [extractDir, "prometheus".toList, "prom_rules".toList]
  if (w.disk.stat rulesDir).isSome then [Call.copyDir rulesDir "prometheus/prom_rules".toList]
  else []

/-- The copy of the alert-router configuration of a snapshot (import_.go
84-87). -/
def restoreAmConfig (w : World) (extractDir : GoString) : List Call :=
  let amConfigSrc := Join [extractDir, "alertmanager".toList, "config.yml".toList]
  if (w.disk.stat amConfigSrc).isSome then
    [Call.copyFile amConfigSrc "prometheus/rule_config.yml".toList]
  else []

/-- The copies of the target files of a snapshot (import_.go 90-97); the
entries are those `os.ReadDir` gives, whether or not it succeeds. -/
def restoreTargets (w : World) (extractDir : GoString) : List Call :=
  let targetsDir := Join [extractDir, "targets".toList]
  if (w.disk.stat targetsDir).isSome then
    Call.mkdirAll "prometheus".toList ::
      (w.disk.readDir targetsDir).1.map
        (fun e => Call.copyFile (Join [targetsDir, e]) (Join ["prometheus".toList, e]))
  else []

/-- The copies of the config files and target files of a snapshot to their
local paths (import_.go 72-97), one block after the other. -/
def restoreConfigs (w : World) (extractDir : GoString) : List Call :=
  restorePromConfig w extractDir ++ restoreRules w extractDir ++
    restoreAmConfig w extractDir ++ restoreTargets w extractDir

/-- What the import does to a datasource before the upsert (import_.go
120-124). -/
def restoreDatasource (prometheusURL : GoString) (ds : Datasource) : Datasource :=
  let ds1 := { ds with ID := 0 }
  if prometheusURL ≠ [] ∧ ds1.Type_ = "prometheus".toList then { ds1 with URL := prometheusURL }
  else ds1

/-- The loop over the datasource files (import_.go 110-129): a file that
cannot be read or decoded is passed over. -/
def importDatasources (w : World) (opts : RestoreOptions) (dsDir : GoString)
    (entries : List GoString) : List Call :=
  entries.filterMap (fun e =>
    match w.disk.readFile (Join [dsDir, e]) with
    | none => none
    | some data =>
      match w.codec.decodeDatasource data with
      | none => none
      | some ds =>
        some (Call.upsertDatasource opts.GrafanaURL (restoreDatasource opts.PrometheusURL ds)))

/-- The dashboard uploaded for the text of a file (import_.go 140-147): the
raw text of its field `dashboard` if it has one, else the text itself;
nothing when the text is no JSON object. -/
def unwrapDashboard (codec : Codec) (data : GoString) : Option GoString :=
  match codec.rawFields data with
  | none => none
  | some wrapper =>
    match GoMap.get? wrapper "dashboard".toList with
    | some dash => some dash
    | none => some data

/-- The loop over the dashboard files (import_.go 133-152). -/
def importDashboards (w : World) (opts : RestoreOptions) (dashDir : GoString)
    (entries : List GoString) : List Call :=
  entries.filterMap (fun e =>
    match w.disk.readFile (Join [dashDir, e]) with
    | none => none
    | some data =>
      match unwrapDashboard w.codec data with
      | none => none
      | some dashJSON => some (Call.uploadDashboard opts.GrafanaURL dashJSON 0 true))

/-- The block of `RestoreStack` for the dashboard server, after its health
probe (import_.go 108-152): a directory `os.ReadDir` fails on is passed
over. -/
def importGrafana (w : World) (opts : RestoreOptions) (extractDir : GoString) : List Call :=
  let dsDir := Join [extractDir, "datasources".toList]
  let dashDir := Join [extractDir, "dashboards".toList]
  (if (w.disk.readDir dsDir).2 then importDatasources w opts dsDir (w.disk.readDir dsDir).1
   else []) ++
  (if (w.disk.readDir dashDir).2 then importDashboards w opts dashDir (w.disk.readDir dashDir).1
   else [])

/-- The body of `RestoreStack` from the reading of the metadata on
(import_.go 58-155). -/
def restoreExtracted (w : World) (opts : RestoreOptions) (extractDir : GoString) :
    Run RestoreStackError :=
  match w.disk.readFile (Join [extractDir, "metadata.yaml".toList]) with
  | none => ⟨some .readingMetadata, []⟩
  | some metaData =>
    match w.codec.decodeMetadata metaData with
    | none => ⟨some .parsingMetadata, []⟩
    | some _ =>
      let c1 := restoreConfigs w extractDir
      if opts.GrafanaURL ≠ [] then
        let c2 := c1 ++ [Call.grafanaHealth opts.GrafanaURL]
        if !(w.grafanaAt opts.GrafanaURL).healthOk then ⟨some .grafanaNotReady, c2⟩
        else ⟨none, c2 ++ importGrafana w opts extractDir⟩
      else ⟨none, c1⟩

/-- The `RestoreStack` of import_.go: a directory is used as it is; an
archive is unpacked into a fresh directory, which `cleanup` removes after a
failed unpack and, deferred, at every later exit. -/
def RestoreStack (w : World) (opts : RestoreOptions) : Run RestoreStackError :=
  match w.disk.stat opts.ArchivePath with
  | none => ⟨some .accessing, []⟩
  | some true => restoreExtracted w opts opts.ArchivePath
  | some false =>
    match w.disk.mkdirTemp "scylla-monitor-import-*".toList with
    | none => ⟨some .creatingExtractDirectory, [.mkdirTemp "scylla-monitor-import-*".toList]⟩
    | some tmpDir =>
      let c1 := [Call.mkdirTemp "scylla-monitor-import-*".toList,
        Call.unpackArchive opts.ArchivePath tmpDir]
      if !w.disk.unpackOk opts.ArchivePath tmpDir then
        ⟨some .unpackingArchive, c1 ++ [Call.removeAll tmpDir]⟩
      else
        let r := restoreExtracted w opts tmpDir
        ⟨r.err, c1 ++ r.calls ++ [Call.removeAll tmpDir]⟩

/-! ## CloneStack (clone.go) -/

/-- Go `CloneOptions` (the handle of the container runtime left out). -/
structure CloneOptions where
  SourceGrafanaURL : GoString
  SourceGrafanaUser : GoString
  SourceGrafanaPassword : GoString
  SourcePrometheusURL : GoString
  PrometheusPort : Int
  GrafanaPort : Int
  AlertManagerPort : Int
  StackID : Int
  PrometheusImage : GoString
  GrafanaImage : GoString
  AlertManagerImage : GoString
  deriving DecidableEq, Repr

/-- The errors `CloneStack` returns, one for each `return` of an error in
its body. -/
inductive CloneStackError where
  | sourceGrafanaNotReachable
  | exportingDashboards
  | exportingDatasources
  | sourcePrometheusNotReachable
  | queryingSourceTargets
  | creatingStagingDirectory
  | writingTargetFiles
  | readingPrometheusYml
  | writingClonedConfig
  | creatingNetwork
  | startingAlertManager
  | startingPrometheus
  | startingGrafana
  | prometheusHealthCheck
  | grafanaHealthCheck
  deriving DecidableEq, Repr

/-- The errors `writeTargetFiles` returns. -/
inductive WriteTargetsError where
  | creatingTargetDir
  | marshalingTargets
  | writingTargetFile
  deriving DecidableEq, Repr

/-- Go `fmt.Sprintf("%d", n)`. -/
def itoa : Int → GoString
  | .ofNat m => Nat.toDigits 10 m
  | .negSucc m => '-' :: Nat.toDigits 10 (m + 1)

/-- Go `strings.ReplaceAll(s, "/", "_")`. -/
def replaceSlashes (s : GoString) : GoString :=
  s.map (fun c => if c = '/' then '_' else c)

/-- The first loop of `writeTargetFiles`: the target files grouped by their
parent directory, `dir → filename → groups`. -/
def groupByDir (targetGroups : GoMap (List TargetGroup)) :
    GoMap (GoMap (List TargetGroup)) :=
  targetGroups.foldl (fun dirFiles kv =>
    GoMap.set dirFiles (Dir kv.1)
      (GoMap.set ((GoMap.get? dirFiles (Dir kv.1)).getD []) (Base kv.1) kv.2)) []

/-- The inner loop of `writeTargetFiles` over the files of one directory. -/
def writeDirFiles (w : World) (localDir : GoString) :
    List (GoString × List TargetGroup) → Option WriteTargetsError × List Call
  | [] => (none, [])
  | (filename, groups) :: rest =>
    match w.codec.encodeTargets groups with
    | none => (some .marshalingTargets, [])
    | some data =>
      let localPath := Join [localDir, filename]
      if w.disk.writeFileOk localPath then
        let r := writeDirFiles w localDir rest
        (r.1, Call.writeFile localPath data :: r.2)
      else (some .writingTargetFile, [Call.writeFile localPath data])

/-- The second loop of `writeTargetFiles` over the directories, with the
mounts made so far. -/
def writeTargetDirs (w : World) (stageDir : GoString) :
    List (GoString × GoMap (List TargetGroup)) → GoMap GoString →
      Except WriteTargetsError (GoMap GoString) × List Call
  | [], mounts => (.ok mounts, [])
  | (containerDir, files) :: rest, mounts =>
    let localDir := Join [stageDir, "targets".toList, replaceSlashes containerDir]
    if w.disk.mkdirAllOk localDir then
      let f := writeDirFiles w localDir files
      match f.1 with
      | some e => (.error e, Call.mkdirAll localDir :: f.2)
      | none =>
        let r := writeTargetDirs w stageDir rest (GoMap.set mounts localDir containerDir)
        (r.1, Call.mkdirAll localDir :: f.2 ++ r.2)
    else (.error .creatingTargetDir, [Call.mkdirAll localDir])

/-- The `writeTargetFiles` of clone.go: the map from host path to container
path, or an error, and the calls made. A range loop over a Go map visits its
keys in no fixed order; here, in the order of the list. -/
def writeTargetFiles (w : World) (stageDir : GoString)
    (targetGroups : GoMap (List TargetGroup)) :
    Except WriteTargetsError (GoMap GoString) × List Call :=
  writeTargetDirs w stageDir (groupByDir targetGroups) []

/-- What `exportDashboards` keeps for a downloaded envelope (clone.go
256-269): when the envelope is a JSON object with a field `dashboard` that is
an object (or `null`), that object without its key `id`; otherwise the
envelope as it came. -/
def innerDashboard (codec : Codec) (data : GoString) : GoString :=
  match codec.rawFields data with
  | none => data
  | some wrapper =>
    match GoMap.get? wrapper "dashboard".toList with
    | none => data
    | some dash =>
      match codec.parse dash with
      | some (.obj parsed) => codec.marshal (.obj (GoMap.delete parsed "id".toList))
      | some .null => codec.marshal .null
      | _ => data

/-- The `exportDashboards` of clone.go: the map from unique identifier to
dashboard; a dashboard whose download fails is left out. -/
def exportDashboards (codec : Codec) (gc : Grafana) : Option (GoMap GoString) :=
  match gc.search with
  | none => none
  | some results =>
    some (results.foldl (fun dashboards uid =>
      match gc.download uid with
      | none => dashboards
      | some data => GoMap.set dashboards uid (innerDashboard codec data)) [])

/-- The calls `exportDashboards` makes. -/
def exportDashboardsCalls (url : GoString) (gc : Grafana) : List Call :=
  match gc.search with
  | none => [Call.searchDashboards url]
  | some results => Call.searchDashboards url :: results.map (Call.downloadDashboard url)

/-- What the clone does to a datasource before the upsert (clone.go
212-222). -/
def cloneDatasource (promName amName : GoString) (ds : Datasource) : Datasource :=
  let ds1 := { ds with ID := 0 }
  let ds2 :=
    if ds1.Type_ = "prometheus".toList then
      { ds1 with URL := "http://".toList ++ promName ++ ":9090".toList }
    else ds1
  if ds2.Type_ = "alertmanager".toList then
    { ds2 with URL := "http://".toList ++ amName ++ ":9093".toList }
  else ds2

/-- The `absPath` of clone.go. -/
def absPath (w : World) (path : GoString) : GoString :=
  (w.disk.abs path).getD path

/-- The names `CloneStack` generates (clone.go 98-100, 121). -/
structure CloneNames where
  promName : GoString
  grafName : GoString
  amName : GoString
  networkName : GoString
  deriving DecidableEq, Repr

/-- The names `CloneStack` generates: each container name from a role, the
external port and the default port; the network name from the stack
identifier. -/
def cloneNames (d : Docker) (opts : CloneOptions) : CloneNames :=
  { promName := d.ContainerName "aprom".toList opts.PrometheusPort 9090,
    grafName := d.ContainerName "agraf".toList opts.GrafanaPort 3000,
    amName := d.ContainerName "aalert".toList opts.AlertManagerPort 9093,
    networkName := d.NetworkName opts.StackID }

/-- The configuration of the alert-router container (clone.go 127-136). -/
def amCfg (w : World) (opts : CloneOptions) : ContainerConfig :=
  { Name := (cloneNames w.docker opts).amName,
    Image := opts.AlertManagerImage,
    NetworkName := (cloneNames w.docker opts).networkName,
    PortBindings := [("9093/tcp".toList, itoa opts.AlertManagerPort)],
    Cmd := ["--config.file=/etc/alertmanager/config.yml".toList],
    Env := [],
    Mounts := [⟨absPath w "prometheus/rule_config.yml".toList,
      "/etc/alertmanager/config.yml".toList, true⟩] }

/-- The configuration of the metrics-store container (clone.go 142-164). -/
def promCfg (w : World) (opts : CloneOptions) (clonedConfigPath : GoString)
    (targetMounts : GoMap GoString) : ContainerConfig :=
  { Name := (cloneNames w.docker opts).promName,
    Image := opts.PrometheusImage,
    NetworkName := (cloneNames w.docker opts).networkName,
    PortBindings := [("9090/tcp".toList, itoa opts.PrometheusPort)],
    Cmd := ["--config.file=/etc/prometheus/prometheus.yml".toList,
      "--storage.tsdb.path=/prometheus".toList,
      "--web.listen-address=0.0.0.0:9090".toList,
      "--web.enable-lifecycle".toList],
    Env := [],
    Mounts :=
      [⟨clonedConfigPath, "/etc/prometheus/prometheus.yml".toList, true⟩,
       ⟨absPath w "prometheus/prom_rules".toList, "/etc/prometheus/prom_rules".toList, true⟩] ++
      targetMounts.map (fun kv => ⟨kv.1, kv.2, true⟩) }

/-- The configuration of the dashboard-server container (clone.go 170-188). -/
def grafCfg (w : World) (opts : CloneOptions) : ContainerConfig :=
  { Name := (cloneNames w.docker opts).grafName,
    Image := opts.GrafanaImage,
    NetworkName := (cloneNames w.docker opts).networkName,
    PortBindings := [("3000/tcp".toList, itoa opts.GrafanaPort)],
    Cmd := [],
    Env := ["GF_PATHS_PROVISIONING=/var/lib/grafana/provisioning".toList,
      "GF_PLUGINS_ALLOW_LOADING_UNSIGNED_PLUGINS=scylladb-scylla-datasource".toList,
      "GF_DATABASE_WAL=true".toList,
      "GF_AUTH_ANONYMOUS_ENABLED=true".toList,
      "GF_AUTH_ANONYMOUS_ORG_ROLE=Admin".toList],
    Mounts :=
      [⟨absPath w "grafana/build".toList, "/var/lib/grafana/dashboards".toList, false⟩,
       ⟨absPath w "grafana/plugins".toList, "/var/lib/grafana/plugins".toList, false⟩,
       ⟨absPath w "grafana/provisioning".toList, "/var/lib/grafana/provisioning".toList,
         false⟩] }

/-- Steps 7 and 8 of `CloneStack` (clone.go 205-233): every datasource is
upserted and every dashboard uploaded into the new dashboard server; no
outcome is looked at. -/
def cloneImport (w : World) (opts : CloneOptions) (datasources : List Datasource)
    (dashboards : GoMap GoString) : List Call :=
  let target := "http://localhost:".toList ++ itoa opts.GrafanaPort
  datasources.map (fun ds => Call.upsertDatasource target
    (cloneDatasource (cloneNames w.docker opts).promName (cloneNames w.docker opts).amName ds))
  ++ dashboards.map (fun kv => Call.uploadDashboard target kv.2 0 true)

/-- Steps 5 to 8 of `CloneStack` (clone.go 115-240). -/
def cloneDeploy (w : World) (opts : CloneOptions) (clonedConfigPath : GoString)
    (targetMounts : GoMap GoString) (datasources : List Datasource)
    (dashboards : GoMap GoString) : Run CloneStackError :=
  let c1 := [Call.createNetwork opts.StackID]
  if !w.docker.createNetworkOk opts.StackID then ⟨some .creatingNetwork, c1⟩
  else
    let c2 := c1 ++ [Call.startContainer (amCfg w opts)]
    if !w.docker.startContainerOk (amCfg w opts) then ⟨some .startingAlertManager, c2⟩
    else
      let c3 := c2 ++ [Call.startContainer (promCfg w opts clonedConfigPath targetMounts)]
      if !w.docker.startContainerOk (promCfg w opts clonedConfigPath targetMounts) then
        ⟨some .startingPrometheus, c3⟩
      else
        let c4 := c3 ++ [Call.startContainer (grafCfg w opts)]
        if !w.docker.startContainerOk (grafCfg w opts) then ⟨some .startingGrafana, c4⟩
        else
          let promURL := "http://localhost:".toList ++ itoa opts.PrometheusPort ++
            "/-/ready".toList
          let c5 := c4 ++ [Call.waitForHealth promURL 35]
          if !w.docker.waitForHealthOk promURL then ⟨some .prometheusHealthCheck, c5⟩
          else
            let grafURL := "http://localhost:".toList ++ itoa opts.GrafanaPort ++
              "/api/health".toList
            let c6 := c5 ++ [Call.waitForHealth grafURL 35]
            if !w.docker.waitForHealthOk grafURL then ⟨some .grafanaHealthCheck, c6⟩
            else ⟨none, c6 ++ cloneImport w opts datasources dashboards⟩

/-- Steps 3 to 8 of `CloneStack`, once the staging directory exists (clone.go
84-240). -/
def cloneStaged (w : World) (opts : CloneOptions) (stageDir : GoString)
    (targetGroups : GoMap (List TargetGroup)) (datasources : List Datasource)
    (dashboards : GoMap GoString) : Run CloneStackError :=
  let t := writeTargetFiles w stageDir targetGroups
  match t.1 with
  | .error _ => ⟨some .writingTargetFiles, t.2⟩
  | .ok targetMounts =>
    match w.disk.readFile "prometheus/build/prometheus.yml".toList with
    | none => ⟨some .readingPrometheusYml, t.2⟩
    | some promConfigData =>
      let promConfig :=
        replaceAlertmanagerTarget
          (replaceStaticTarget
            (replaceStaticTarget promConfigData "grafana".toList
              ((cloneNames w.docker opts).grafName ++ ":3000".toList))
            "prometheus".toList "localhost:9090".toList)
          ((cloneNames w.docker opts).amName ++ ":9093".toList)
      let clonedConfigPath := Join [stageDir, "prometheus.yml".toList]
      let c1 := t.2 ++ [Call.writeFile clonedConfigPath promConfig]
      if !w.disk.writeFileOk clonedConfigPath then ⟨some .writingClonedConfig, c1⟩
      else
        let r := cloneDeploy w opts clonedConfigPath targetMounts datasources dashboards
        ⟨r.err, c1 ++ r.calls⟩

/-- The `CloneStack` of clone.go; the deferred `os.RemoveAll(stageDir)` ends
every exit after the staging directory is created. -/
def CloneStack (w : World) (opts : CloneOptions) : Run CloneStackError :=
  let gc := w.grafanaAt opts.SourceGrafanaURL
  let pc := w.prometheusAt opts.SourcePrometheusURL
  let c1 := [Call.grafanaHealth opts.SourceGrafanaURL]
  if !gc.healthOk then ⟨some .sourceGrafanaNotReachable, c1⟩
  else
    let c2 := c1 ++ exportDashboardsCalls opts.SourceGrafanaURL gc
    match exportDashboards w.codec gc with
    | none => ⟨some .exportingDashboards, c2⟩
    | some dashboards =>
      let c3 := c2 ++ [Call.listDatasources opts.SourceGrafanaURL]
      match gc.datasources with
      | none => ⟨some .exportingDatasources, c3⟩
      | some datasources =>
        let c4 := c3 ++ [Call.prometheusHealth opts.SourcePrometheusURL]
        if !pc.healthOk then ⟨some .sourcePrometheusNotReachable, c4⟩
        else
          let c5 := c4 ++ [Call.queryTargetGroups opts.SourcePrometheusURL]
          match pc.activeTargets with
          | none => ⟨some .queryingSourceTargets, c5⟩
          | some listing =>
            let c6 := c5 ++ [Call.mkdirTemp "scylla-monitor-clone-*".toList]
            match w.disk.mkdirTemp "scylla-monitor-clone-*".toList with
            | none => ⟨some .creatingStagingDirectory, c6⟩
            | some stageDir =>
              let r := cloneStaged w opts stageDir (QueryTargetGroups listing)
                datasources dashboards
              ⟨r.err, c6 ++ r.calls ++ [Call.removeAll stageDir]⟩

/-- The directory `RestoreStack` reads the snapshot from: the given path when
it is a directory, else the fresh directory the archive is unpacked into. -/
def extractDirOf (w : World) (opts : RestoreOptions) : GoString :=
  match w.disk.stat opts.ArchivePath with
  | some false => (w.disk.mkdirTemp "scylla-monitor-import-*".toList).getD []
  | _ => opts.ArchivePath

/-- Whether the snapshot in a directory has a `metadata.yaml` that can be
read and parsed. -/
def parseableMetadata (w : World) (dir : GoString) : Bool :=
  match w.disk.readFile (Join [dir, "metadata.yaml".toList]) with
  | none => false
  | some metaData => (w.codec.decodeMetadata metaData).isSome

/-- Whether the snapshot is at hand: the given path is a directory, or an
archive that is unpacked into a fresh directory without error. -/
def snapshotAtHand (w : World) (opts : RestoreOptions) : Bool :=
  match w.disk.stat opts.ArchivePath with
  | none => false
  | some true => true
  | some false =>
    match w.disk.mkdirTemp "scylla-monitor-import-*".toList with
    | none => false
    | some tmpDir => w.disk.unpackOk opts.ArchivePath tmpDir

/-- The datasources decoded from the files of `datasources/`, in the order of
the directory; none when the directory cannot be listed. -/
def datasourcesRead (w : World) (dir : GoString) : List Datasource :=
  let dsDir := Join [dir, "datasources".toList]
  if (w.disk.readDir dsDir).2 then
    (w.disk.readDir dsDir).1.filterMap (fun e =>
      (w.disk.readFile (Join [dsDir, e])).bind w.codec.decodeDatasource)
  else []

/-! ## Sample collaborators -/

/-- A datasource of type `prometheus`. -/
def promSource : Datasource :=
  ⟨7, "prometheus".toList, "prometheus".toList, "http://aprom:9090".toList,
    "access=proxy".toList⟩

/-- A datasource of type `alertmanager`. -/
def amSource : Datasource :=
  ⟨8, "alertmanager".toList, "alertmanager".toList, "http://aalert:9093".toList, []⟩

/-- A datasource of another type. -/
def lokiSource : Datasource :=
  ⟨9, "loki".toList, "loki".toList, "http://loki:3100".toList, []⟩

/-- A dashboard object with an `id`. -/
def sampleDashboard : GoMap Json :=
  [("id".toList, .num 5), ("uid".toList, .str "d1".toList),
   ("title".toList, .str "Overview".toList)]

/-- An envelope around `sampleDashboard`. -/
def sampleEnvelope : GoMap Json :=
  [("meta".toList, .obj []), ("dashboard".toList, .obj sampleDashboard)]

/-- The text of `sampleDashboard`. -/
def dashboardText : GoString :=
  "\x7b\"id\":5,\"uid\":\"d1\",\"title\":\"Overview\"\x7d".toList

/-- The text of `sampleEnvelope`. -/
def envelopeText : GoString :=
  ("\x7b\"meta\":\x7b\x7d,\"dashboard\":" ++
   "\x7b\"id\":5,\"uid\":\"d1\",\"title\":\"Overview\"\x7d\x7d").toList

/-- A stand-in for the text of a value: the keys of an object. -/
def keysOf : Json → GoString
  | .obj kvs => kvs.foldl (fun acc kv => acc ++ kv.1 ++ [',']) []
  | _ => "null".toList

/-- A codec that answers for the sample documents only. -/
def sampleCodec : Codec :=
  { parse := fun t =>
      if t = envelopeText then some (.obj sampleEnvelope)
      else if t = dashboardText then some (.obj sampleDashboard) else none,
    marshal := keysOf,
    marshalIndent := keysOf,
    rawFields := fun t =>
      if t = envelopeText then
        some [("meta".toList, "\x7b\x7d".toList), ("dashboard".toList, dashboardText)]
      else none,
    encodeDatasource := fun ds => some ds.Name,
    decodeDatasource := fun t =>
      if t = "prometheus".toList then some promSource
      else if t = "loki".toList then some lokiSource else none,
    encodeMetadata := fun m => some m.ExportTimestamp,
    decodeMetadata := fun t =>
      if t = "2026-01-01T00:00:00Z".toList then some ⟨t, [], [], false, 0, 2⟩ else none,
    encodeTargets := fun _ => some [] }

/-- A dashboard server with two dashboards, the second of which cannot be
downloaded, and three datasources. -/
def sampleGrafana : Grafana :=
  { healthOk := true,
    search := some ["d1".toList, "d2".toList],
    download := fun uid => if uid = "d1".toList then some envelopeText else none,
    datasources := some [promSource, amSource, lokiSource],
    folders := some "[]".toList }

/-- A metrics store that answers with the sample target listing. -/
def samplePrometheus : Prometheus :=
  { healthOk := true, activeTargets := some sampleListing, snapshot := none }

/-- A container runtime on which every call succeeds; a container is named
after its role, and its port when that is not the default one. -/
def sampleDocker : Docker :=
  { ContainerName := fun role port defaultPort =>
      if port = defaultPort then role else role ++ '-' :: itoa port,
    NetworkName := fun id => "monitor-net-".toList ++ itoa id,
    createNetworkOk := fun _ => true,
    startContainerOk := fun _ => true,
    waitForHealthOk := fun _ => true }

/-- A file system on which every change succeeds, with the local scrape
configuration, the unpacked snapshot `/snap` (a metadata document and three
datasource files, one of them unreadable) and the archive `/snap.tar.gz`. -/
def sampleDisk : Disk :=
  { mkdirTemp := fun pattern => some ("/tmp/".toList ++ pattern),
    mkdirAllOk := fun _ => true,
    writeFileOk := fun _ => true,
    readFile := fun p =>
      if p = "prometheus/build/prometheus.yml".toList then some sampleAlertConfig
      else if p = "/snap/metadata.yaml".toList then some "2026-01-01T00:00:00Z".toList
      else if p = "/snap/datasources/prometheus.json".toList then some "prometheus".toList
      else if p = "/snap/datasources/loki.json".toList then some "loki".toList
      else none,
    stat := fun p =>
      if p = "/snap".toList then some true
      else if p = "/snap.tar.gz".toList then some false else none,
    readDir := fun p =>
      if p = "/snap/datasources".toList then
        (["prometheus.json".toList, "broken.json".toList, "loki.json".toList], true)
      else ([], false),
    abs := fun p => some ("/opt/monitoring/".toList ++ p),
    packOk := fun _ _ => true,
    unpackOk := fun _ _ => true }

/-- The sample collaborators together. -/
def sampleWorld : World :=
  { grafanaAt := fun _ => sampleGrafana,
    prometheusAt := fun _ => samplePrometheus,
    docker := sampleDocker,
    disk := sampleDisk,
    codec := sampleCodec,
    now := "2026-01-01T00:00:00Z".toList }

/-- The sample world with a dashboard server that fails its health probe. -/
def grafanaDownWorld : World :=
  { sampleWorld with grafanaAt := fun _ => { sampleGrafana with healthOk := false } }

/-- The sample world with a dashboard server whose dashboard search fails. -/
def searchDownWorld : World :=
  { sampleWorld with grafanaAt := fun _ => { sampleGrafana with search := none } }

/-- A clone request with stack identifier 1. -/
def sampleClone : CloneOptions :=
  { SourceGrafanaURL := "http://localhost:3000".toList,
    SourceGrafanaUser := "admin".toList,
    SourceGrafanaPassword := "admin".toList,
    SourcePrometheusURL := "http://localhost:9090".toList,
    PrometheusPort := 9091, GrafanaPort := 3001, AlertManagerPort := 9095, StackID := 1,
    PrometheusImage := "prom/prometheus".toList,
    GrafanaImage := "grafana/grafana".toList,
    AlertManagerImage := "prom/alertmanager".toList }

/-- The same clone request with stack identifier 2. -/
def sampleCloneTwo : CloneOptions := { sampleClone with StackID := 2 }

/-- An export request for a dashboard server, with no local config paths. -/
def sampleArchive : ArchiveOptions :=
  { PrometheusURL := [], GrafanaURL := "http://localhost:3000".toList,
    GrafanaUser := "admin".toList, GrafanaPassword := "admin".toList,
    OutputPath := "/out/export.tar.gz".toList,
    PrometheusConfig := [], AlertRulesDir := [], AlertManagerConfig := [], LokiConfig := [],
    TargetFiles := [] }

/-- An import request for the unpacked snapshot `/snap`. -/
def sampleRestore : RestoreOptions :=
  { ArchivePath := "/snap".toList, DataDir := [], GrafanaDataDir := [],
    GrafanaURL := "http://localhost:3000".toList, GrafanaUser := "admin".toList,
    GrafanaPassword := "admin".toList, GrafanaPort := 3000,
    PrometheusURL := "http://newprom:9090".toList }

/-- An import request for the archive `/snap.tar.gz`. -/
def sampleRestoreArchive : RestoreOptions :=
  { sampleRestore with ArchivePath := "/snap.tar.gz".toList }

/-! ## What an export writes, in the words of the specification -/

/-- The dashboard documents written for some search results: one for each
result whose download succeeds, named `<uid>.json`, holding the downloaded
envelope without the `id` of its dashboard. -/
def dashboardDocsOf (w : World) (url dashDir : GoString) (results : List GoString) :
    List (GoString × GoString) :=
  results.filterMap (fun uid =>
    ((w.grafanaAt url).download uid).map (fun data =>
      (Join [dashDir, uid ++ ".json".toList], stripDashboardId w.codec data)))

/-- The datasource documents written for some datasources: one for each that
can be encoded, named `<name>.json`. -/
def datasourceDocsOf (w : World) (dsDir : GoString) (datasources : List Datasource) :
    List (GoString × GoString) :=
  datasources.filterMap (fun ds =>
    (w.codec.encodeDatasource ds).map (fun data =>
      (Join [dsDir, ds.Name ++ ".json".toList], data)))

/-- The dashboard documents of an export, under `dashboards/` of its staging
directory. -/
def dashboardDocs (w : World) (opts : ArchiveOptions) (stageDir : GoString) :
    List (GoString × GoString) :=
  if opts.GrafanaURL = [] then []
  else dashboardDocsOf w opts.GrafanaURL (Join [stageDir, "dashboards".toList])
    ((w.grafanaAt opts.GrafanaURL).search.getD [])

/-- The datasource documents of an export, under `datasources/` of its
staging directory. -/
def datasourceDocs (w : World) (opts : ArchiveOptions) (stageDir : GoString) :
    List (GoString × GoString) :=
  if opts.GrafanaURL = [] then []
  else datasourceDocsOf w (Join [stageDir, "datasources".toList])
    ((w.grafanaAt opts.GrafanaURL).datasources.getD [])

/-- The folder listing of an export, written when the listing succeeds. -/
def folderDocs (w : World) (opts : ArchiveOptions) (stageDir : GoString) :
    List (GoString × GoString) :=
  if opts.GrafanaURL = [] then []
  else
    match (w.grafanaAt opts.GrafanaURL).folders with
    | some data => [(Join [Join [stageDir, "folders".toList], "folders.json".toList], data)]
    | none => []

/-- The metadata of an export: the capture time, the two addresses, whether a
metrics-store address was given, and the numbers of dashboard and datasource
documents. -/
def exportMetadata (w : World) (opts : ArchiveOptions) (stageDir : GoString) : Metadata :=
  { ExportTimestamp := w.now, GrafanaURL := opts.GrafanaURL,
    PrometheusURL := opts.PrometheusURL,
    IncludesData := decide (opts.PrometheusURL ≠ []),
    DashboardCount := (dashboardDocs w opts stageDir).length,
    DatasourceCount := (datasourceDocs w opts stageDir).length }

/-- The failures of the block for the dashboard server that make an export
fail: creating one of the three directories, enumerating the dashboards or
the datasources, writing a dashboard or datasource document. -/
def grafanaFailure (w : World) (opts : ArchiveOptions) (stageDir : GoString) : Prop :=
  w.disk.mkdirAllOk (Join [stageDir, "dashboards".toList]) = false ∨
  (w.grafanaAt opts.GrafanaURL).search = none ∨
  (∃ p ∈ dashboardDocs w opts stageDir, w.disk.writeFileOk p.1 = false) ∨
  w.disk.mkdirAllOk (Join [stageDir, "datasources".toList]) = false ∨
  (w.grafanaAt opts.GrafanaURL).datasources = none ∨
  (∃ p ∈ datasourceDocs w opts stageDir, w.disk.writeFileOk p.1 = false) ∨
  w.disk.mkdirAllOk (Join [stageDir, "folders".toList]) = false

/-- The failures that make an export fail: creating the staging directory;
with a dashboard server given, a failure of its block; encoding the
metadata; writing the metadata document; packing the archive. -/
def exportFailure (w : World) (opts : ArchiveOptions) : Prop :=
  match w.disk.mkdirTemp "scylla-monitor-export-*".toList with
  | none => True
  | some stageDir =>
    (opts.GrafanaURL ≠ [] ∧ grafanaFailure w opts stageDir) ∨
    w.codec.encodeMetadata (exportMetadata w opts stageDir) = none ∨
    w.disk.writeFileOk (Join [stageDir, "metadata.yaml".toList]) = false ∨
    w.disk.packOk stageDir opts.OutputPath = false

/-! ## Sample inputs for the check of the destination and for the rewriting -/

/-- A regular file entry with the plain name `f`. -/
def plainEntry : TarEntry := ⟨"f".toList, TypeReg, 0o644, 2, [7, 8]⟩

/-- The root directory alone. -/
def fsRoot : FS := dirsOnly ["/".toList]

/-- A configuration in which the job `grafana` uses file-based discovery only
and is followed by the job `node`, which has a static target list. -/
def discoveryConfig : GoString :=
  ("scrape_configs:\n- job_name: grafana\n  file_sd_configs:\n  - files:\n" ++
   "    - /etc/scylla.d/prometheus/grafana.yml\n" ++
   "- job_name: node\n  static_configs:\n  - targets:\n    - n1:9100\n").toList

/-- The configuration `discoveryConfig` with the target of job `node`
replaced by `new:3000`. -/
def discoveryConfigRewritten : GoString :=
  ("scrape_configs:\n- job_name: grafana\n  file_sd_configs:\n  - files:\n" ++
   "    - /etc/scylla.d/prometheus/grafana.yml\n" ++
   "- job_name: node\n  static_configs:\n  - targets:\n    - new:3000\n").toList

/-- A configuration with the one job `grafana` and the one static target
`old:3000`. -/
def oneJobConfig : GoString :=
  "- job_name: grafana\n  static_configs:\n  - targets:\n    - old:3000\n".toList

/-- A configuration with an alert-router block and the one target
`old:9093`. -/
def oneAlertConfig : GoString :=
  ("alerting:\n  alertmanagers:\n  - static_configs:\n    - targets:\n" ++
   "      - old:9093\n").toList

/-- Two target files in the container directories `/a/b` and `/a_b`. -/
def collidingGroups : GoMap (List TargetGroup) :=
  [("/a/b/x.yml".toList, [⟨["h1:9180".toList], []⟩]),
   ("/a_b/y.yml".toList, [⟨["h2:9180".toList], []⟩])]

/-- The same two target files, met in the other order. -/
def collidingGroupsSwapped : GoMap (List TargetGroup) :=
  [("/a_b/y.yml".toList, [⟨["h2:9180".toList], []⟩]),
   ("/a/b/x.yml".toList, [⟨["h1:9180".toList], []⟩])]

/-- The sample world with a codec that writes, for target groups, their
addresses, one on a line. -/
def targetsWorld : World :=
  { sampleWorld with
    codec := { sampleCodec with
      encodeTargets := fun groups =>
        some (groups.foldr (fun g acc => g.Targets.foldr (fun t a => t ++ '\n' :: a) acc) []) } }

/-! ## Health checks (`cmd/check.go`) -/

/-- Go `checkResult`. -/
structure checkResult where
  Component : GoString
  Check : GoString
  Status : GoString
  Detail : GoString
  deriving DecidableEq, Repr

/-- One element of `result` in the decoded reply to an instant query: its
labels and the two elements of its `value`. -/
structure Sample where
  Metric : GoMap GoString
  Value : Json × Json

/-- How the metrics store answers `checkPrometheus`: the error of its health
probe, if any; the reply to the instant query `up`, or its error; and the
samples `json.Unmarshal` decodes from a reply, if it can. -/
structure PrometheusCheck where
  health : Option GoString
  queryUp : Except GoString GoString
  decode : GoString → Option (List Sample)

/-- The test `v, ok := r.Value[1].(string); ok && v == "1"`. -/
def isUp (r : Sample) : Bool :=
  match r.Value.2 with
  | .str v => v == "1".toList
  | _ => false

/-- The loop of `checkPrometheus` over the samples, from the counts so far to
the counts `(up, down)` after it. The test `len(r.Value) == 2` holds for
every sample, `Value` being an array of two. -/
def countSamples : List Sample → Nat × Nat → Nat × Nat
  | [], counts => counts
  | r :: rest, (up, down) =>
    if isUp r then countSamples rest (up + 1, down) else countSamples rest (up, down + 1)

/-- The status `checkPrometheus` gives for the counts. -/
def scrapeStatus (up down : Nat) : GoString :=
  if down > 0 ∧ up = 0 then "fail".toList
  else if down > 0 then "warn".toList
  else "ok".toList

/-- The `checkPrometheus` of check.go, for the address of the metrics store
and its answers. -/
def checkPrometheus (prometheusURL : GoString) (pc : PrometheusCheck) : List checkResult :=
  match pc.health with
  | some err => [⟨"Prometheus".toList, "API Health".toList, "fail".toList, err⟩]
  | none =>
    let results : List checkResult :=
      [⟨"Prometheus".toList, "API Health".toList, "ok".toList, prometheusURL⟩]
    match pc.queryUp with
    | .error err =>
      results ++ [⟨"Prometheus".toList, "Scrape targets".toList, "warn".toList,
        "could not query targets: ".toList ++ err⟩]
    | .ok data =>
      match pc.decode data with
      | none => results
      | some samples =>
        let counts := countSamples samples (0, 0)
        results ++ [⟨"Prometheus".toList, "Scrape targets".toList,
          scrapeStatus counts.1 counts.2,
          itoa counts.1 ++ " up, ".toList ++ itoa counts.2 ++ " down".toList⟩]

/-- A probe `checkDatasources` makes: the health probe of the datasource with
an id, or the request of the fallback to an address behind the proxy. -/
inductive Probe where
  | health (id : Int)
  | proxy (url : GoString)
  deriving DecidableEq, Repr

/-- How the dashboard server answers `checkDatasources`: its address; its
datasource listing, or the error of the listing; the error of
the health probe of the datasource with an id, if any; the error of
`http.NewRequest` for an address, if any; and for a request sent, the error
of the transport or the status code of the reply. -/
structure DatasourceCheck where
  BaseURL : GoString
  list : Except GoString (List Datasource)
  health : Int → Option GoString
  newRequest : GoString → Option GoString
  httpDo : GoString → Except GoString Int

/-- The address `checkPrometheusDatasourceProxy` queries. -/
def proxyURL (gc : DatasourceCheck) (ds : Datasource) : GoString :=
  gc.BaseURL ++ "/api/datasources/proxy/".toList ++ itoa ds.ID ++
    "/api/v1/query?query=up".toList

/-- The `checkPrometheusDatasourceProxy` of check.go: its error, if any, and
whether the request was sent. -/
def checkPrometheusDatasourceProxy (gc : DatasourceCheck) (ds : Datasource) :
    Option GoString × List Probe :=
  match gc.newRequest (proxyURL gc ds) with
  | some err => (some err, [])
  | none =>
    match gc.httpDo (proxyURL gc ds) with
    | .error err => (some ("proxy query failed: ".toList ++ err), [.proxy (proxyURL gc ds)])
    | .ok code =>
      if code ≠ 200 then
        (some ("proxy query returned status ".toList ++ itoa code), [.proxy (proxyURL gc ds)])
      else (none, [.proxy (proxyURL gc ds)])

/-- One round of the loop of `checkDatasources`: the error left after the
health probe and, for a failed probe of a datasource of type `prometheus`,
after the fallback; and the probes made. -/
def probeDatasource (gc : DatasourceCheck) (ds : Datasource) : Option GoString × List Probe :=
  match gc.health ds.ID with
  | none => (none, [.health ds.ID])
  | some err =>
    if ds.Type_ = "prometheus".toList then
      ((checkPrometheusDatasourceProxy gc ds).1,
        Probe.health ds.ID :: (checkPrometheusDatasourceProxy gc ds).2)
    else (some err, [.health ds.ID])

/-- The result `checkDatasources` appends for a datasource and the error left
after its probes. -/
def datasourceResult (ds : Datasource) (err : Option GoString) : checkResult :=
  match err with
  | none =>
    ⟨"Datasource".toList, ds.Name, "ok".toList, ds.Type_ ++ " -> ".toList ++ ds.URL⟩
  | some e =>
    ⟨"Datasource".toList, ds.Name, "fail".toList,
      ds.Type_ ++ " -> ".toList ++ ds.URL ++ " (".toList ++ e ++ ")".toList⟩

/-- The `checkDatasources` of check.go: its results, and the probes it makes,
in order. -/
def checkDatasources (gc : DatasourceCheck) : List checkResult × List Probe :=
  match gc.list with
  | .error err =>
    ([⟨"Grafana".toList, "Datasources".toList, "warn".toList,
      "could not list datasources: ".toList ++ err⟩], [])
  | .ok datasources =>
    (datasources.map (fun ds => datasourceResult ds (probeDatasource gc ds).1),
     datasources.flatMap (fun ds => (probeDatasource gc ds).2))

/-- Three samples of the query `up`: one up, one with the value `0`, one
whose value is the number 1 and no string. -/
def sampleSamples : List Sample :=
  [⟨[("instance".toList, "n1:9180".toList)], (.num 1700000000, .str "1".toList)⟩,
   ⟨[("instance".toList, "n2:9180".toList)], (.num 1700000000, .str "0".toList)⟩,
   ⟨[("instance".toList, "n3:9180".toList)], (.num 1700000000, .num 1)⟩]

/-- A metrics store that is healthy and answers the query `up` with the three
samples. -/
def samplePrometheusCheck : PrometheusCheck :=
  { health := none,
    queryUp := .ok "up".toList,
    decode := fun data => if data = "up".toList then some sampleSamples else none }

/-- A second datasource of type `prometheus`. -/
def promSecond : Datasource :=
  ⟨10, "prometheus-2".toList, "prometheus".toList, "http://aprom2:9090".toList, []⟩

/-- A dashboard server with four datasources: the health probe fails for all
but the datasource 9; behind the proxy the datasource 7 answers with status
200 and the datasource 10 with status 502. -/
def sampleDatasourceCheck : DatasourceCheck :=
  { BaseURL := "http://localhost:3000".toList,
    list := .ok [promSource, amSource, lokiSource, promSecond],
    health := fun id => if id = 9 then none else some "unhealthy".toList,
    newRequest := fun _ => none,
    httpDo := fun url =>
      if url = "http://localhost:3000/api/datasources/proxy/7/api/v1/query?query=up".toList
      then .ok 200 else .ok 502 }

/-! ## An empty stack -/

/-- The sample world with a dashboard server that lists no dashboard and no
datasource. -/
def emptyStackWorld : World :=
  { sampleWorld with
    grafanaAt := fun _ => { sampleGrafana with search := some [], datasources := some [] } }

/-! ## The staging tree of an export, from its calls -/

/-- The entry of the directory `dir` on the way to the path `p`: the element
of `p` that follows the elements of `dir`, when `p` lies below `dir`. -/
def entryBelow (dir p : GoString) : Option GoString :=
  if isRooted p = isRooted dir ∧ (cleanElems dir).isPrefixOf (cleanElems p) = true then
    (cleanElems p).get? (cleanElems dir).length
  else none

/-- The name under which the path `p` is an entry of the directory `dir`: its
last element, when its elements are those of `dir` and one more. -/
def entryIn (dir p : GoString) : Option GoString :=
  if (cleanElems p).length = (cleanElems dir).length + 1 then entryBelow dir p else none

/-- Whether a directory tree put at `dst` lies over the directory `dir`:
`dir` is `dst` or lies below it. -/
def liesOver (dst dir : GoString) : Bool :=
  (isRooted dst == isRooted dir) && (cleanElems dst).isPrefixOf (cleanElems dir)

/-- The directories `os.MkdirAll` is called on among some calls, in order. -/
def mkdirs : List Call → List GoString
  | [] => []
  | .mkdirAll p :: rest => p :: mkdirs rest
  | _ :: rest => mkdirs rest

/-- The destinations of the `copyFile` calls among some calls, in order. -/
def copiedFiles : List Call → List GoString
  | [] => []
  | .copyFile _ dst :: rest => dst :: copiedFiles rest
  | _ :: rest => copiedFiles rest

/-- The destinations of the `copyDir` calls among some calls, in order. -/
def copiedDirs : List Call → List GoString
  | [] => []
  | .copyDir _ dst :: rest => dst :: copiedDirs rest
  | _ :: rest => copiedDirs rest

/-- The entries of the directory `dir` after the calls of an export, each
once, in a tree that held nothing in `dir` before: the files `os.WriteFile`
and `copyFile` put directly in `dir`, and the directories on the way to a
path `os.MkdirAll` or `copyDir` makes. A call counts whether or not it
reports an error. The answer is `none` when `copyDir` puts a tree at `dir` or
above it: what `dir` then holds is what the source tree holds, which the
calls do not tell. -/
def stagedEntries (dir : GoString) (calls : List Call) : Option (List GoString) :=
  if (copiedDirs calls).any (fun dst => liesOver dst dir) then none
  else
    some ((((writes calls).map Prod.fst ++ copiedFiles calls).filterMap (entryIn dir) ++
      (mkdirs calls ++ copiedDirs calls).filterMap (entryBelow dir)).dedup)

/-- Whether the calls make the directory `dir`: an `os.MkdirAll` is called on
it or on a path below it. -/
def dirMade (dir : GoString) (calls : List Call) : Bool :=
  (mkdirs calls).any (fun p => liesOver dir p)

/-- The text the calls leave in the file at `p`: that of the last
`os.WriteFile` on it. -/
def lastWrite (p : GoString) (calls : List Call) : Option GoString :=
  ((writes calls).reverse.find? (fun x => decide (x.1 = p))).map Prod.snd

/-- The names of the dashboard documents of an export: `<uid>.json` for each
search result whose download succeeds. -/
def dashboardNames (w : World) (opts : ArchiveOptions) : List GoString :=
  if opts.GrafanaURL = [] then []
  else ((w.grafanaAt opts.GrafanaURL).search.getD []).filterMap (fun uid =>
    ((w.grafanaAt opts.GrafanaURL).download uid).map (fun _ => uid ++ ".json".toList))

/-- The names of the datasource documents of an export: `<name>.json` for
each listed datasource that can be encoded. -/
def datasourceNames (w : World) (opts : ArchiveOptions) : List GoString :=
  if opts.GrafanaURL = [] then []
  else ((w.grafanaAt opts.GrafanaURL).datasources.getD []).filterMap (fun ds =>
    (w.codec.encodeDatasource ds).map (fun _ => ds.Name ++ ".json".toList))

/-- The path in the staging tree of the file that is unpacked at `p`, when
`p` names an entry the calls staged in the directory `sub` of the staging
directory; `tmpDir` is the directory the archive is unpacked into. -/
def stagedFile (stageDir tmpDir sub : GoString) (calls : List Call) (p : GoString) :
    Option GoString :=
  ((stagedEntries (Join [stageDir, sub]) calls).getD []).findSome? (fun e =>
    if p = Join [Join [tmpDir, sub], e] then some (Join [Join [stageDir, sub], e]) else none)

/-- The world in which the archive packed by an export is imported, given
the world `w2` the import runs in otherwise: the output path of the export
names a regular file, and the tree unpacked from it holds the metadata
document the export wrote and, in `dashboards/` and `datasources/`, the
entries the export staged there, each with the text the export wrote.
`calls` are the calls of the export before it packs its staging directory
`stageDir`. -/
def importWorld (w2 : World) (opts : ArchiveOptions) (stageDir : GoString)
    (calls : List Call) : World :=
  let tmpDir := (w2.disk.mkdirTemp "scylla-monitor-import-*".toList).getD []
  let listing := fun (sub : GoString) (other : List GoString × Bool) =>
    match stagedEntries (Join [stageDir, sub]) calls with
    | some es => (es, dirMade (Join [stageDir, sub]) calls)
    | none => other
  { w2 with
    disk := { w2.disk with
      stat := fun p => if p = opts.OutputPath then some false else w2.disk.stat p,
      readFile := fun p =>
        if p = Join [tmpDir, "metadata.yaml".toList] then
          lastWrite (Join [stageDir, "metadata.yaml".toList]) calls
        else
          match stagedFile stageDir tmpDir "dashboards".toList calls p with
          | some q => lastWrite q calls
          | none =>
            match stagedFile stageDir tmpDir "datasources".toList calls p with
            | some q => lastWrite q calls
            | none => w2.disk.readFile p,
      readDir := fun p =>
        if p = Join [tmpDir, "dashboards".toList] then
          listing "dashboards".toList (w2.disk.readDir p)
        else if p = Join [tmpDir, "datasources".toList] then
          listing "datasources".toList (w2.disk.readDir p)
        else w2.disk.readDir p } }

/-- The sample world with a dashboard server that lists one datasource, named
`../dashboards/x`, and no dashboard. -/
def climbingNameWorld : World :=
  { sampleWorld with
    grafanaAt := fun _ =>
      { sampleGrafana with
        search := some [],
        datasources := some [⟨3, "../dashboards/x".toList, "loki".toList, [], []⟩] } }

/-- The sample world with a dashboard server whose search lists the
identifier `d1` twice. -/
def repeatedUidWorld : World :=
  { sampleWorld with
    grafanaAt := fun _ =>
      { sampleGrafana with search := some ["d1".toList, "d1".toList], datasources := some [] } }

/-- The calls of an export before it packs its staging directory. -/
def beforePack (calls : List Call) : List Call :=
  calls.takeWhile (fun c => match c with | .packArchive _ _ => false | _ => true)

/-- An import request for the archive written by `sampleArchive`. -/
def restoreExport : RestoreOptions :=
  { sampleRestore with ArchivePath := "/out/export.tar.gz".toList }

/-- No call among `calls` other than an `os.WriteFile` makes an entry in the
directory `dir`, and no copied directory tree lies over it. -/
def leavesAlone (dir : GoString) (calls : List Call) : Prop :=
  (∀ p ∈ copiedFiles calls, entryIn dir p = none) ∧
  (∀ p ∈ mkdirs calls, entryBelow dir p = none) ∧
  (∀ p ∈ copiedDirs calls, entryBelow dir p = none ∧ liesOver p dir = false)

/-! ## Theorems -/

/-! ### Helper lemmas: file-system updates -/

theorem FS.set_same (fs : FS) (p : GoString) (n : Node) : fs.set p n p = some n := by
  simp [FS.set]

theorem FS.set_other (fs : FS) (p q : GoString) (n : Node) (h : q ≠ p) :
    fs.set p n q = fs q := by
  simp [FS.set, h]

theorem maxSize_eq : maxSize = 2 ^ 30 := by decide

theorem copyLimited_length (e : TarEntry) : (copyLimited e).1.length ≤ 2 ^ 30 := by
  simp only [copyLimited, List.length_take, maxSize_eq]
  omega

theorem copyLimited_prefix (e : TarEntry) : (copyLimited e).1 <+: e.data := by
  simp only [copyLimited]
  exact List.take_prefix _ _

/-- After a successful `os.Create`, the path names an empty regular file. -/
theorem osCreate_at {umask : Nat} (fs fs1 : FS) (p : GoString)
    (h : osCreate umask fs p = some fs1) :
    ∃ m, fs1 p = some (Node.file [] m) := by
  unfold osCreate at h
  split at h
  · exact absurd h (by simp)
  · split at h
    · exact absurd h (by simp)
    · rename_i c m hp
      simp only [Option.some.injEq] at h
      exact ⟨m, by rw [← h, FS.set_same]⟩
    · split at h
      · simp only [Option.some.injEq] at h
        exact ⟨_, by rw [← h, FS.set_same]⟩
      · exact absurd h (by simp)

/-- Function `os.Create` touches nothing but its path. -/
theorem osCreate_frame {umask : Nat} (fs fs1 : FS) (p q : GoString)
    (h : osCreate umask fs p = some fs1) (hq : q ≠ p) : fs1 q = fs q := by
  unfold osCreate at h
  split at h
  · exact absurd h (by simp)
  · split at h
    · exact absurd h (by simp)
    · simp only [Option.some.injEq] at h
      rw [← h, FS.set_other _ _ _ _ hq]
    · split at h
      · simp only [Option.some.injEq] at h
        rw [← h, FS.set_other _ _ _ _ hq]
      · exact absurd h (by simp)

/-- What `extractFile` does once the file has been created: the outcome is
decided by the copy alone, and the file holds exactly the copied bytes. -/
theorem extractFile_created {umask : Nat} (target : GoString) (e : TarEntry) (mode : Int)
    (fs fs1 : FS)
    (h : osCreate umask fs target = some fs1) :
    ((extractFile umask target e mode fs).err =
        (if (copyLimited e).2 then some (ArchiveError.extracting target) else none)) ∧
    (∃ m, (extractFile umask target e mode fs).fs target
        = some (Node.file (copyLimited e).1 m) ∧
        ((copyLimited e).2 = false → m = toFileMode mode &&& 0o750)) ∧
    (∀ q, q ≠ target → (extractFile umask target e mode fs).fs q = fs q) := by
  obtain ⟨m0, hm0⟩ := osCreate_at fs fs1 target h
  have hfr := fun q hq => osCreate_frame fs fs1 target q h hq
  have hw : osWrite fs1 target (copyLimited e).1
      = fs1.set target (Node.file (copyLimited e).1 m0) := by
    simp [osWrite, hm0]
  cases hc : (copyLimited e).2 with
  | true =>
    have hx : extractFile umask target e mode fs
        = ⟨some (.extracting target), fs1.set target (Node.file (copyLimited e).1 m0)⟩ := by
      simp [extractFile, h, hc, hw]
    rw [hx]
    refine ⟨by simp, ⟨m0, by simp [FS.set_same]⟩, ?_⟩
    intro q hq
    simp [FS.set_other _ _ _ _ hq, hfr q hq]
  | false =>
    have hx : extractFile umask target e mode fs
        = ⟨none, (fs1.set target (Node.file (copyLimited e).1 m0)).set target
            (Node.file (copyLimited e).1 (toFileMode mode &&& 0o750))⟩ := by
      simp [extractFile, h, hc, hw, osChmod, FS.set_same]
    rw [hx]
    refine ⟨by simp, ⟨toFileMode mode &&& 0o750, by simp [FS.set_same]⟩, ?_⟩
    intro q hq
    simp [FS.set_other _ _ _ _ hq, hfr q hq]

/-- When the file cannot be created, `extractFile` changes nothing. -/
theorem extractFile_not_created {umask : Nat} (target : GoString) (e : TarEntry) (mode : Int)
    (fs : FS)
    (h : osCreate umask fs target = none) :
    extractFile umask target e mode fs = ⟨some (.creatingFile target), fs⟩ := by
  simp [extractFile, h]

/-! ### Helper lemmas: the unpack loop -/

theorem UnpackArchive_nil (umask : Nat) (dest : GoString) (fs : FS) :
    UnpackArchive umask [] dest fs = ⟨none, fs⟩ := rfl

theorem UnpackArchive_cons_ok {umask : Nat} (e : TarEntry) (rest : List TarEntry)
    (dest : GoString) (fs : FS)
    (h : (unpackEntry umask dest e fs).err = none) :
    UnpackArchive umask (e :: rest) dest fs
      = UnpackArchive umask rest dest (unpackEntry umask dest e fs).fs := by
  rw [UnpackArchive]
  cases hu : unpackEntry umask dest e fs with
  | mk err fs1 =>
    rw [hu] at h
    simp only at h
    subst h
    rfl

theorem UnpackArchive_cons_err {umask : Nat} (e : TarEntry) (rest : List TarEntry)
    (dest : GoString) (fs : FS)
    (err : ArchiveError) (h : (unpackEntry umask dest e fs).err = some err) :
    UnpackArchive umask (e :: rest) dest fs = unpackEntry umask dest e fs := by
  rw [UnpackArchive]
  cases hu : unpackEntry umask dest e fs with
  | mk err1 fs1 =>
    rw [hu] at h
    simp only at h
    subst h
    rfl

theorem UnpackArchive_single {umask : Nat} (e : TarEntry) (dest : GoString) (fs : FS)
    (h : (unpackEntry umask dest e fs).err = none) :
    (UnpackArchive umask [e] dest fs).err = none ∧
    (UnpackArchive umask [e] dest fs).fs = (unpackEntry umask dest e fs).fs := by
  rw [UnpackArchive_cons_ok _ _ _ _ h, UnpackArchive_nil umask]
  exact ⟨rfl, rfl⟩

/-- An entry that is neither a directory nor a regular file and passes the
traversal check leaves the file system as it was. -/
theorem unpackEntry_other (umask : Nat) (dest : GoString) (e : TarEntry) (fs : FS)
    (hdir : e.Typeflag ≠ TypeDir) (hreg : e.Typeflag ≠ TypeReg)
    (hok : traversalOK dest (Join [dest, e.Name]) = true) :
    unpackEntry umask dest e fs = ⟨none, fs⟩ := by
  simp [unpackEntry, hok, hdir, hreg]

/-- A regular file entry that passes the check is handed to `extractFile`
once its parent directory exists. -/
theorem unpackEntry_reg {umask : Nat} (dest : GoString) (e : TarEntry) (fs fs1 : FS)
    (hreg : e.Typeflag = TypeReg)
    (hok : traversalOK dest (Join [dest, e.Name]) = true)
    (hmk : MkdirAll umask fs (Dir (Join [dest, e.Name])) 0o750 = some fs1) :
    unpackEntry umask dest e fs = extractFile umask (Join [dest, e.Name]) e e.Mode fs1 := by
  have hne2 : TypeReg ≠ TypeDir := by decide
  simp [unpackEntry, hok, hreg, hne2, hmk]

/-- An entry rejected by the traversal check stops with that error and leaves
the file system as it was. -/
theorem unpackEntry_rejected (umask : Nat) (dest : GoString) (e : TarEntry) (fs : FS)
    (hbad : traversalOK dest (Join [dest, e.Name]) = false) :
    unpackEntry umask dest e fs = ⟨some (.pathTraversal e.Name), fs⟩ := by
  simp [unpackEntry, hbad]

/-- Once the traversal check rejects an entry, the unpack ends there: when
the entries before it were unpacked without error, the result is the
path-traversal error for that entry and the file system those entries left;
nothing is made for the entry and no later entry is looked at. -/
theorem UnpackArchive_stops_at_rejected (umask : Nat) (dest : GoString) (e : TarEntry)
    (post : List TarEntry) (hbad : traversalOK dest (Join [dest, e.Name]) = false) :
    ∀ (pre : List TarEntry) (fs : FS),
    UnpackArchive umask (pre ++ e :: post) dest fs =
      if (UnpackArchive umask pre dest fs).err = none then
        ⟨some (.pathTraversal e.Name), (UnpackArchive umask pre dest fs).fs⟩
      else UnpackArchive umask pre dest fs := by
  intro pre
  induction pre with
  | nil =>
    intro fs
    have h := unpackEntry_rejected umask dest e fs hbad
    rw [List.nil_append, UnpackArchive_cons_err _ _ _ _ (.pathTraversal e.Name) (by rw [h]),
      h, UnpackArchive_nil]
    rfl
  | cons p pre ih =>
    intro fs
    cases hp : (unpackEntry umask dest p fs).err with
    | none =>
      rw [List.cons_append, UnpackArchive_cons_ok _ _ _ _ hp, UnpackArchive_cons_ok _ _ _ _ hp]
      exact ih _
    | some err =>
      rw [List.cons_append, UnpackArchive_cons_err _ _ _ _ err hp,
        UnpackArchive_cons_err _ _ _ _ err hp, if_neg (by rw [hp]; simp)]

/-- The copy of an entry that holds and claims more than the cap: exactly the
first `maxSize` bytes, without a read error. -/
theorem copyLimited_oversized (e : TarEntry) (hsz : maxSize < e.Size)
    (hdata : maxSize ≤ e.data.length) :
    copyLimited e = (e.data.take maxSize, false) := by
  have h1 : min e.Size maxSize = maxSize := Nat.min_eq_right (Nat.le_of_lt hsz)
  simp only [copyLimited, h1]
  congr 1
  exact decide_eq_false (Nat.not_lt.mpr hdata)

/-- An oversized regular entry is extracted, truncated, without an error. -/
theorem unpackEntry_oversized {umask : Nat} (dest : GoString) (e : TarEntry) (fs fs1 fs2 : FS)
    (hreg : e.Typeflag = TypeReg) (hsz : maxSize < e.Size) (hdata : maxSize ≤ e.data.length)
    (hok : traversalOK dest (Join [dest, e.Name]) = true)
    (hmk : MkdirAll umask fs (Dir (Join [dest, e.Name])) 0o750 = some fs1)
    (hcr : osCreate umask fs1 (Join [dest, e.Name]) = some fs2) :
    (unpackEntry umask dest e fs).err = none ∧
    ∃ m, (unpackEntry umask dest e fs).fs (Join [dest, e.Name])
        = some (Node.file (e.data.take maxSize) m) := by
  rw [unpackEntry_reg dest e fs fs1 hreg hok hmk]
  obtain ⟨herr, ⟨m, hm, _⟩, _⟩ := extractFile_created (Join [dest, e.Name]) e e.Mode fs1 fs2 hcr
  rw [copyLimited_oversized e hsz hdata] at herr hm
  exact ⟨by simpa using herr, m, hm⟩

theorem bigEntry_data_length : bigEntry.data.length = 2 ^ 30 + 1 :=
  List.length_replicate _ _

/-- The low 32 bits of an integer, bit by bit. -/
theorem toFileMode_testBit (m : Int) (i : Nat) (hi : i < 32) :
    (toFileMode m).testBit i = m.testBit i := by
  unfold toFileMode
  cases m with
  | ofNat n =>
    have h : ((Int.ofNat n) % 2 ^ 32).toNat = n % 2 ^ 32 := by
      simp only [Int.ofNat_eq_coe]
      omega
    rw [h, Nat.testBit_mod_two_pow]
    simp [hi, Int.testBit]
  | negSucc n =>
    have h : ((Int.negSucc n) % 2 ^ 32).toNat = 2 ^ 32 - (n % 2 ^ 32 + 1) := by
      have hn : Int.negSucc n = -((n : Int) + 1) := rfl
      rw [hn]
      omega
    rw [h, Nat.testBit_two_pow_sub_succ (Nat.mod_lt _ (by norm_num)), Nat.testBit_mod_two_pow]
    simp [hi, Int.testBit]

theorem testBit_0o750_lt (i : Nat) (h : Nat.testBit 0o750 i = true) : i < 32 := by
  by_contra hc
  have h2 : 0o750 < 2 ^ i :=
    lt_of_lt_of_le (by norm_num) (Nat.pow_le_pow_right (by norm_num) (not_lt.mp hc))
  rw [Nat.testBit_lt_two_pow h2] at h
  exact absurd h (by simp)

/-- The masked mode has exactly the bits that are both in 0750 and in the
header's mode. -/
theorem masked_mode_bits (m : Int) (i : Nat) :
    (toFileMode m &&& 0o750).testBit i = (Nat.testBit 0o750 i && m.testBit i) := by
  rw [Nat.testBit_and]
  cases h : Nat.testBit 0o750 i with
  | false => simp
  | true =>
    rw [toFileMode_testBit m i (testBit_0o750_lt i h)]
    simp

/-! ### The archive codec: claims -/

/-- C1 (code defect): with the relative destination `..`, the entry named
`../escape` resolves to `../../escape`, which does not lie inside the
destination, yet the string-prefix check of `UnpackArchive` accepts it: no
error is returned and the file is written outside the destination. The same
archive unpacked into `/d` is rejected with the path-traversal error. This
holds under every umask. -/
theorem unpack_dotdot_dest_escapes :
    ∀ umask : Nat,
    Join ["..".toList, escapeEntry.Name] = "../../escape".toList ∧
    liesInside "..".toList (Join ["..".toList, escapeEntry.Name]) = false ∧
    traversalOK "..".toList (Join ["..".toList, escapeEntry.Name]) = true ∧
    (UnpackArchive umask [escapeEntry] "..".toList fsAbove).err = none ∧
    (UnpackArchive umask [escapeEntry] "..".toList fsAbove).fs "../../escape".toList
      = some (Node.file [1, 2, 3] 0o640) ∧
    (UnpackArchive umask [escapeEntry] "/d".toList fsD).err
      = some (.pathTraversal "../escape".toList) := by
  intro umask
  exact ⟨by decide, by decide, by decide, rfl, rfl, rfl⟩

/-- C3: whatever size the header claims and however many bytes follow it,
`extractFile` either fails to create the file and changes nothing, or leaves
at the target a regular file whose content is a prefix of the entry's bytes
of length at most 2^30. -/
theorem extractFile_at_most_one_gib (umask : Nat) (target : GoString) (e : TarEntry)
    (mode : Int) (fs : FS) :
    (osCreate umask fs target = none ∧ (extractFile umask target e mode fs).fs = fs) ∨
    (∃ c m, (extractFile umask target e mode fs).fs target = some (Node.file c m) ∧
      c.length ≤ 2 ^ 30 ∧ c <+: e.data) := by
  cases h : osCreate umask fs target with
  | none =>
    left
    rw [extractFile_not_created target e mode fs h]
    exact ⟨rfl, rfl⟩
  | some fs1 =>
    right
    obtain ⟨_, ⟨m, hm, _⟩, _⟩ := extractFile_created target e mode fs fs1 h
    exact ⟨_, m, hm, copyLimited_length e, copyLimited_prefix e⟩

/-- Under every umask, an archive whose only entry holds 2^30 + 1 bytes is
unpacked without any error, and the file written has only 2^30 bytes. -/
theorem oversized_entry_any_umask (umask : Nat) :
    bigEntry.Size = 2 ^ 30 + 1 ∧ bigEntry.data.length = 2 ^ 30 + 1 ∧
    (UnpackArchive umask [bigEntry] "/d".toList fsD).err = none ∧
    ∃ c m, (UnpackArchive umask [bigEntry] "/d".toList fsD).fs "/d/big".toList
        = some (Node.file c m) ∧ c.length = 2 ^ 30 := by
  have hsz : maxSize < bigEntry.Size := by
    rw [maxSize_eq]; show 2 ^ 30 < 2 ^ 30 + 1; omega
  have hdata : maxSize ≤ bigEntry.data.length := by
    rw [maxSize_eq, bigEntry_data_length]; omega
  have hj : Join ["/d".toList, bigEntry.Name] = "/d/big".toList := by decide
  have hmk : MkdirAll umask fsD (Dir ("/d/big".toList)) 0o750 = some fsD := rfl
  have hcr : osCreate umask fsD ("/d/big".toList)
      = some (fsD.set "/d/big".toList (Node.file [] (applyUmask 0o666 umask))) := rfl
  have hreg : bigEntry.Typeflag = TypeReg := rfl
  obtain ⟨herr, m, hm⟩ := unpackEntry_oversized "/d".toList bigEntry fsD fsD
    (fsD.set "/d/big".toList (Node.file [] (applyUmask 0o666 umask))) hreg hsz hdata (by decide)
    (by rw [hj]; exact hmk) (by rw [hj]; exact hcr)
  rw [hj] at hm
  obtain ⟨h1, h2⟩ := UnpackArchive_single bigEntry "/d".toList fsD herr
  have hlen : (bigEntry.data.take maxSize).length = 2 ^ 30 := by
    rw [List.length_take, bigEntry_data_length, maxSize_eq]
    omega
  refine ⟨rfl, bigEntry_data_length, h1, ?_⟩
  rw [h2]
  exact ⟨bigEntry.data.take maxSize, m, hm, hlen⟩

/-- C4 (refuted as stated): an archive whose only entry holds 2^30 + 1 bytes
is unpacked, under the umask 022, without any error, and the file written
has only 2^30 bytes. -/
theorem oversized_entry_not_fatal :
    bigEntry.Size = 2 ^ 30 + 1 ∧ bigEntry.data.length = 2 ^ 30 + 1 ∧
    (UnpackArchive 0o022 [bigEntry] "/d".toList fsD).err = none ∧
    ∃ c m, (UnpackArchive 0o022 [bigEntry] "/d".toList fsD).fs "/d/big".toList
        = some (Node.file c m) ∧ c.length = 2 ^ 30 :=
  oversized_entry_any_umask 0o022

/-- C4 (amended): an oversized regular entry is not an error. When the entry
passes the traversal check and its file can be created, `UnpackArchive`
stores exactly the first 2^30 bytes of its content, reports nothing, and
carries on with the entries that follow. -/
theorem oversized_entry_truncated (umask : Nat) (dest : GoString) (e : TarEntry)
    (rest : List TarEntry)
    (fs fs1 fs2 : FS)
    (hreg : e.Typeflag = TypeReg) (hsz : maxSize < e.Size) (hdata : maxSize ≤ e.data.length)
    (hok : traversalOK dest (Join [dest, e.Name]) = true)
    (hmk : MkdirAll umask fs (Dir (Join [dest, e.Name])) 0o750 = some fs1)
    (hcr : osCreate umask fs1 (Join [dest, e.Name]) = some fs2) :
    (unpackEntry umask dest e fs).err = none ∧
    (∃ m, (unpackEntry umask dest e fs).fs (Join [dest, e.Name])
        = some (Node.file (e.data.take maxSize) m)) ∧
    (e.data.take maxSize).length = 2 ^ 30 ∧
    UnpackArchive umask (e :: rest) dest fs
      = UnpackArchive umask rest dest (unpackEntry umask dest e fs).fs := by
  obtain ⟨herr, hfile⟩ := unpackEntry_oversized dest e fs fs1 fs2 hreg hsz hdata hok hmk hcr
  refine ⟨herr, hfile, ?_, UnpackArchive_cons_ok _ _ _ _ herr⟩
  rw [List.length_take, ← maxSize_eq]
  omega

/-- C4 (amended), at the entry of 2^30 + 1 bytes unpacked into `/d` under
the umask 022. -/
theorem oversized_entry_truncated_witness :
    bigEntry.Typeflag = TypeReg ∧ maxSize < bigEntry.Size ∧
    maxSize ≤ bigEntry.data.length ∧
    (unpackEntry 0o022 "/d".toList bigEntry fsD).err = none ∧
    (bigEntry.data.take maxSize).length = 2 ^ 30 :=
  have hsz : maxSize < bigEntry.Size := by
    rw [maxSize_eq]; show 2 ^ 30 < 2 ^ 30 + 1; omega
  have hdata : maxSize ≤ bigEntry.data.length := by
    rw [maxSize_eq, bigEntry_data_length]; omega
  have hj : Join ["/d".toList, bigEntry.Name] = "/d/big".toList := by decide
  have hmk : MkdirAll 0o022 fsD (Dir ("/d/big".toList)) 0o750 = some fsD := rfl
  have hcr : osCreate 0o022 fsD ("/d/big".toList)
      = some (fsD.set "/d/big".toList (Node.file [] (applyUmask 0o666 0o022))) := rfl
  have hreg : bigEntry.Typeflag = TypeReg := rfl
  have h := oversized_entry_truncated 0o022 "/d".toList bigEntry [] fsD fsD
    (fsD.set "/d/big".toList (Node.file [] (applyUmask 0o666 0o022))) hreg hsz hdata (by decide)
    (by rw [hj]; exact hmk) (by rw [hj]; exact hcr)
  ⟨hreg, hsz, hdata, h.1, h.2.2.1⟩

/-- C5: when `extractFile` succeeds, the mode of the extracted file is the
header's mode AND 0750: bit by bit, a permission bit is set exactly when it
is a bit of 0750 and a bit of the header's mode. -/
theorem extractFile_mode_masked (umask : Nat) (target : GoString) (e : TarEntry) (mode : Int)
    (fs : FS)
    (h : (extractFile umask target e mode fs).err = none) :
    ∃ c, (extractFile umask target e mode fs).fs target
        = some (Node.file c (toFileMode mode &&& 0o750)) ∧
      ∀ i, (toFileMode mode &&& 0o750).testBit i = (Nat.testBit 0o750 i && mode.testBit i) := by
  cases hc : osCreate umask fs target with
  | none =>
    rw [extractFile_not_created target e mode fs hc] at h
    exact absurd h (by simp)
  | some fs1 =>
    obtain ⟨herr, ⟨m, hm, hmode⟩, _⟩ := extractFile_created target e mode fs fs1 hc
    have hcopy : (copyLimited e).2 = false := by
      cases hb : (copyLimited e).2 with
      | false => rfl
      | true =>
        rw [hb] at herr
        rw [herr] at h
        exact absurd h (by simp)
    rw [hmode hcopy] at hm
    exact ⟨_, hm, masked_mode_bits mode⟩

/-- C5, for a header that claims every bit (mode -1) under the umask 022:
the file gets 0750. -/
theorem extractFile_mode_masked_witness :
    (extractFile 0o022 "/d/f".toList fileEntry (-1) fsD).err = none ∧
    ∃ c, (extractFile 0o022 "/d/f".toList fileEntry (-1) fsD).fs "/d/f".toList
        = some (Node.file c (toFileMode (-1) &&& 0o750)) ∧
      ∀ i, (toFileMode (-1) &&& 0o750).testBit i
        = (Nat.testBit 0o750 i && (-1 : Int).testBit i) :=
  ⟨by decide, extractFile_mode_masked 0o022 "/d/f".toList fileEntry (-1) fsD (by decide)⟩

/-- C6: an entry that is neither a directory nor a regular file and passes
the traversal check changes nothing on disk and raises no error, so the
archive is unpacked exactly as if the entry were not there. -/
theorem unpack_ignores_other_types (umask : Nat) (dest : GoString) (e : TarEntry)
    (hdir : e.Typeflag ≠ TypeDir) (hreg : e.Typeflag ≠ TypeReg)
    (hok : traversalOK dest (Join [dest, e.Name]) = true) :
    ∀ (pre post : List TarEntry) (fs : FS),
      unpackEntry umask dest e fs = ⟨none, fs⟩ ∧
      UnpackArchive umask (pre ++ e :: post) dest fs
        = UnpackArchive umask (pre ++ post) dest fs := by
  intro pre post fs
  refine ⟨unpackEntry_other umask dest e fs hdir hreg hok, ?_⟩
  induction pre generalizing fs with
  | nil =>
    have h := unpackEntry_other umask dest e fs hdir hreg hok
    rw [List.nil_append, UnpackArchive_cons_ok _ _ _ _ (by rw [h]), h]
    rfl
  | cons p pre ih =>
    cases hp : (unpackEntry umask dest p fs).err with
    | none =>
      rw [List.cons_append, List.cons_append, UnpackArchive_cons_ok _ _ _ _ hp,
        UnpackArchive_cons_ok _ _ _ _ hp]
      exact ih _
    | some err =>
      rw [List.cons_append, List.cons_append, UnpackArchive_cons_err _ _ _ _ err hp,
        UnpackArchive_cons_err _ _ _ _ err hp]

/-- C6, for a symbolic link between a directory and a file of an archive
unpacked into `/d` under the umask 022. -/
theorem unpack_ignores_other_types_witness :
    linkEntry.Typeflag ≠ TypeDir ∧ linkEntry.Typeflag ≠ TypeReg ∧
    traversalOK "/d".toList (Join ["/d".toList, linkEntry.Name]) = true ∧
    UnpackArchive 0o022 ([subEntry] ++ linkEntry :: [fileEntry]) "/d".toList fsD
      = UnpackArchive 0o022 ([subEntry] ++ [fileEntry]) "/d".toList fsD :=
  ⟨by decide, by decide, by decide,
    (unpack_ignores_other_types 0o022 "/d".toList linkEntry (by decide) (by decide) (by decide)
      [subEntry] [fileEntry] fsD).2⟩

/-! ### Helper lemmas: Go maps -/

theorem GoMap.get?_set_same {V : Type} (m : GoMap V) (k : GoString) (v : V) :
    GoMap.get? (GoMap.set m k v) k = some v := by
  induction m with
  | nil => simp [GoMap.set, GoMap.get?]
  | cons b m ih =>
    obtain ⟨a, w⟩ := b
    by_cases h : k = a
    · simp [GoMap.set, GoMap.get?, h]
    · simp [GoMap.set, GoMap.get?, h, ih]

theorem GoMap.get?_set_other {V : Type} (m : GoMap V) (k q : GoString) (v : V) (h : q ≠ k) :
    GoMap.get? (GoMap.set m k v) q = GoMap.get? m q := by
  induction m with
  | nil => simp [GoMap.set, GoMap.get?, h]
  | cons b m ih =>
    obtain ⟨a, w⟩ := b
    by_cases hk : k = a
    · subst hk
      simp [GoMap.set, GoMap.get?, h]
    · by_cases hq : q = a
      · simp [GoMap.set, GoMap.get?, hk, hq]
      · simp [GoMap.set, GoMap.get?, hk, hq, ih]

/-- The collected labels bind a key exactly when it is not one of the six
and the discovered labels bind it, and to the same value. -/
theorem collectLabels_get? (d : GoMap GoString) (k : GoString) :
    GoMap.get? (collectLabels d) k = if isInternalLabel k then none else GoMap.get? d k := by
  induction d with
  | nil => simp [collectLabels, GoMap.get?]
  | cons b d ih =>
    obtain ⟨a, w⟩ := b
    unfold collectLabels at ih ⊢
    by_cases ha : isInternalLabel a = true
    · rw [List.filter_cons_of_neg (by simp [ha]), ih]
      by_cases hk : k = a
      · subst hk; simp [ha]
      · simp [GoMap.get?, hk]
    · rw [List.filter_cons_of_pos (by simp [ha])]
      by_cases hk : k = a
      · subst hk; simp [GoMap.get?, ha]
      · simp only [GoMap.get?, hk, if_false]
        exact ih

/-- A target without origin or without address leaves the map as it is. -/
theorem queryStep_skip (m : GoMap (List TargetGroup)) (t : ActiveTarget)
    (h : GoMap.index t.DiscoveredLabels labelMetaFilepath = [] ∨
      GoMap.index t.DiscoveredLabels labelAddress = []) :
    queryStep m t = m := by
  unfold queryStep
  rcases h with h | h
  · simp [h]
  · simp [h]

/-- A target with origin and address appends its group under its origin. -/
theorem queryStep_add (m : GoMap (List TargetGroup)) (t : ActiveTarget)
    (h1 : GoMap.index t.DiscoveredLabels labelMetaFilepath ≠ [])
    (h2 : GoMap.index t.DiscoveredLabels labelAddress ≠ []) :
    queryStep m t = GoMap.set m (GoMap.index t.DiscoveredLabels labelMetaFilepath)
      ((GoMap.get? m (GoMap.index t.DiscoveredLabels labelMetaFilepath)).getD []
        ++ [groupOf t]) := by
  unfold queryStep
  simp [h1, h2, groupOf]

/-- The groups a map holds under a path after one more target. -/
theorem queryStep_get? (m : GoMap (List TargetGroup)) (t : ActiveTarget) (p : GoString) :
    GoMap.get? (queryStep m t) p =
      if hasOrigin p t then some ((GoMap.get? m p).getD [] ++ [groupOf t])
      else GoMap.get? m p := by
  by_cases h1 : GoMap.index t.DiscoveredLabels labelMetaFilepath = []
  · rw [queryStep_skip m t (Or.inl h1)]
    simp [hasOrigin, h1]
  · by_cases h2 : GoMap.index t.DiscoveredLabels labelAddress = []
    · rw [queryStep_skip m t (Or.inr h2)]
      simp [hasOrigin, h2]
    · rw [queryStep_add m t h1 h2]
      by_cases hp : p = GoMap.index t.DiscoveredLabels labelMetaFilepath
      · subst hp
        rw [GoMap.get?_set_same]
        simp [hasOrigin, h1, h2]
      · rw [GoMap.get?_set_other _ _ _ _ hp]
        have : ¬ GoMap.index t.DiscoveredLabels labelMetaFilepath = p :=
          fun h => hp h.symm
        simp [hasOrigin, this]

/-- The loop of `QueryTargetGroups` from any map: under each path, the groups
already there followed by those of the listed targets of that origin. -/
theorem foldl_queryStep_get? (ts : List ActiveTarget) (m : GoMap (List TargetGroup))
    (p : GoString) :
    GoMap.get? (ts.foldl queryStep m) p =
      if groupsFor ts p = [] then GoMap.get? m p
      else some ((GoMap.get? m p).getD [] ++ groupsFor ts p) := by
  induction ts generalizing m with
  | nil => simp [groupsFor]
  | cons t ts ih =>
    rw [List.foldl_cons, ih, queryStep_get?]
    by_cases ht : hasOrigin p t = true
    · have hg : groupsFor (t :: ts) p = groupOf t :: groupsFor ts p := by
        simp [groupsFor, List.filter_cons_of_pos ht]
      rw [hg]
      simp [ht]
    · have hg : groupsFor (t :: ts) p = groupsFor ts p := by
        simp [groupsFor, List.filter_cons_of_neg ht]
      rw [hg]
      simp [ht]

/-! ### Target-group reconstruction: claims -/

/-- C7: a target whose discovered labels give no origin file path, or no
address (the label is missing, or empty), contributes to no group: the map
returned is that of the listing without the target. -/
theorem query_skips_target_without_origin (t : ActiveTarget)
    (h : GoMap.index t.DiscoveredLabels labelMetaFilepath = [] ∨
      GoMap.index t.DiscoveredLabels labelAddress = []) :
    ∀ pre post : List ActiveTarget,
      QueryTargetGroups (pre ++ t :: post) = QueryTargetGroups (pre ++ post) := by
  intro pre post
  unfold QueryTargetGroups
  rw [List.foldl_append, List.foldl_append, List.foldl_cons, queryStep_skip _ t h]

/-- C7, for the statically configured target of the sample listing. -/
theorem query_skips_target_without_origin_witness :
    (GoMap.index staticTarget.DiscoveredLabels labelMetaFilepath = [] ∨
      GoMap.index staticTarget.DiscoveredLabels labelAddress = []) ∧
    QueryTargetGroups ([sdTarget "A" "a1:1" "x"] ++ staticTarget :: [sdTarget "B" "b1:1" "y"])
      = QueryTargetGroups ([sdTarget "A" "a1:1" "x"] ++ [sdTarget "B" "b1:1" "y"]) :=
  ⟨Or.inl (by decide),
    query_skips_target_without_origin staticTarget (Or.inl (by decide))
      [sdTarget "A" "a1:1" "x"] [sdTarget "B" "b1:1" "y"]⟩

/-- C8: under every path the returned map holds exactly one group per listed
target that has this origin and an address, in listing order, and a path no
such target names is not a key; in the sample listing there are two groups
under `A`, one under `B`, and the target without origin is in neither. -/
theorem query_groups_by_origin :
    (∀ (ts : List ActiveTarget) (p : GoString),
      GoMap.get? (QueryTargetGroups ts) p =
        if (ts.filter (hasOrigin p)).map groupOf = [] then none
        else some ((ts.filter (hasOrigin p)).map groupOf)) ∧
    GoMap.get? (QueryTargetGroups sampleListing) "A".toList
      = some [groupOf (sdTarget "A" "a1:1" "x"), groupOf (sdTarget "A" "a2:1" "x")] ∧
    GoMap.get? (QueryTargetGroups sampleListing) "B".toList
      = some [groupOf (sdTarget "B" "b1:1" "y")] ∧
    (QueryTargetGroups sampleListing).map Prod.fst = ["A".toList, "B".toList] := by
  refine ⟨?_, by decide, by decide, by decide⟩
  intro ts p
  have h := foldl_queryStep_get? ts [] p
  simpa [QueryTargetGroups, groupsFor, GoMap.get?] using h

/-- C9: every group of the returned map comes from a listed target of that
origin; its targets list is the one-element list of the target's address and
its labels bind a key exactly when the key is none of the six internal keys
and the discovered labels bind it, with the same value. -/
theorem query_group_contents (ts : List ActiveTarget) (p : GoString)
    (gs : List TargetGroup) (g : TargetGroup)
    (hgs : GoMap.get? (QueryTargetGroups ts) p = some gs) (hg : g ∈ gs) :
    ∃ t, t ∈ ts ∧ GoMap.index t.DiscoveredLabels labelMetaFilepath = p ∧
      g.Targets = [GoMap.index t.DiscoveredLabels labelAddress] ∧
      ∀ k, GoMap.get? g.Labels k =
        if k ∈ [labelAddress, labelMetaFilepath, labelMetricsPath,
            labelScheme, labelScrapeInterval, labelScrapeTimeout]
        then none else GoMap.get? t.DiscoveredLabels k := by
  have h := foldl_queryStep_get? ts [] p
  rw [show ts.foldl queryStep [] = QueryTargetGroups ts from rfl, hgs] at h
  by_cases he : groupsFor ts p = []
  · simp [he, GoMap.get?] at h
  · simp only [he, if_false, GoMap.get?, Option.getD_none, List.nil_append,
      Option.some.injEq] at h
    subst h
    unfold groupsFor at hg
    obtain ⟨t, ht, rfl⟩ := List.mem_map.mp hg
    obtain ⟨hmem, horig⟩ := List.mem_filter.mp ht
    refine ⟨t, hmem, ?_, rfl, ?_⟩
    · simp only [hasOrigin, Bool.and_eq_true, decide_eq_true_eq] at horig
      exact horig.1.1
    · intro k
      show GoMap.get? (collectLabels t.DiscoveredLabels) k = _
      rw [collectLabels_get?]
      have hk : isInternalLabel k = true ↔
          k ∈ [labelAddress, labelMetaFilepath, labelMetricsPath,
            labelScheme, labelScrapeInterval, labelScrapeTimeout] := by
        simp only [isInternalLabel, Bool.or_eq_true, beq_iff_eq, List.mem_cons,
          List.mem_singleton, List.mem_nil_iff, or_false, or_assoc]
      by_cases hin : isInternalLabel k = true
      · rw [if_pos hin, if_pos (hk.mp hin)]
      · rw [if_neg hin, if_neg (fun hm => hin (hk.mpr hm))]

/-- C9, for the target with discovered labels `__address__: h:1`,
`__meta_filepath: /f`, `__scheme__: http`, `job: x`: the one group under
`/f` has targets `[h:1]` and labels `job: x`. -/
theorem query_group_contents_witness :
    GoMap.get? (QueryTargetGroups [sdTarget "/f" "h:1" "x"]) "/f".toList
      = some [⟨["h:1".toList], [("job".toList, "x".toList)]⟩] ∧
    ∃ t, t ∈ [sdTarget "/f" "h:1" "x"] ∧
      GoMap.index t.DiscoveredLabels labelMetaFilepath = "/f".toList ∧
      (⟨["h:1".toList], [("job".toList, "x".toList)]⟩ : TargetGroup).Targets
        = [GoMap.index t.DiscoveredLabels labelAddress] ∧
      ∀ k, GoMap.get?
          (⟨["h:1".toList], [("job".toList, "x".toList)]⟩ : TargetGroup).Labels k =
        if k ∈ [labelAddress, labelMetaFilepath, labelMetricsPath,
            labelScheme, labelScrapeInterval, labelScrapeTimeout]
        then none else GoMap.get? t.DiscoveredLabels k :=
  ⟨by decide,
    query_group_contents [sdTarget "/f" "h:1" "x"] "/f".toList
      [⟨["h:1".toList], [("job".toList, "x".toList)]⟩]
      ⟨["h:1".toList], [("job".toList, "x".toList)]⟩ (by decide) (by decide)⟩

/-! ### Helper lemmas: splitting and joining paths -/

theorem splitSlash_ne_nil (p : GoString) : splitSlash p ≠ [] := by
  cases p with
  | nil => simp [splitSlash]
  | cons c cs =>
    unfold splitSlash
    by_cases h : c = '/'
    · simp [h]
    · simp only [h, if_false]
      cases splitSlash cs <;> simp

theorem splitSlash_cons_slash (cs : GoString) :
    splitSlash ('/' :: cs) = [] :: splitSlash cs := by
  simp [splitSlash]

theorem splitSlash_cons_other (c : Char) (cs : GoString) (h : c ≠ '/') :
    ∃ hd tl, splitSlash cs = hd :: tl ∧ splitSlash (c :: cs) = (c :: hd) :: tl := by
  cases hs : splitSlash cs with
  | nil => exact absurd hs (splitSlash_ne_nil cs)
  | cons hd tl =>
    refine ⟨hd, tl, rfl, ?_⟩
    rw [splitSlash]
    simp [h, hs]

/-- A piece without separator splits into itself. -/
theorem splitSlash_noSlash (c : GoString) (h : '/' ∉ c) : splitSlash c = [c] := by
  induction c with
  | nil => rfl
  | cons a cs ih =>
    have ha : a ≠ '/' := fun e => h (by simp [e])
    have hcs : '/' ∉ cs := fun e => h (List.mem_cons_of_mem _ e)
    obtain ⟨hd, tl, h1, h2⟩ := splitSlash_cons_other a cs ha
    rw [h2]
    rw [ih hcs] at h1
    simp only [List.cons.injEq] at h1
    rw [← h1.1, ← h1.2]

/-- Splitting a path at one of its separators. -/
theorem splitSlash_append_slash (a b : GoString) :
    splitSlash (a ++ '/' :: b) = splitSlash a ++ splitSlash b := by
  induction a with
  | nil =>
    rw [List.nil_append, splitSlash_cons_slash]
    rfl
  | cons c cs ih =>
    by_cases h : c = '/'
    · subst h
      rw [List.cons_append, splitSlash_cons_slash, splitSlash_cons_slash, ih, List.cons_append]
    · obtain ⟨hd, tl, h1, h2⟩ := splitSlash_cons_other c cs h
      obtain ⟨hd2, tl2, h3, h4⟩ := splitSlash_cons_other c (cs ++ '/' :: b) h
      rw [List.cons_append, h4, h2]
      rw [ih, h1, List.cons_append] at h3
      simp only [List.cons.injEq] at h3
      rw [List.cons_append, ← h3.1, ← h3.2]

/-- Joined pieces without separators split back into the pieces. -/
theorem splitSlash_joinSlash (ns : List GoString) (hne : ns ≠ [])
    (h : ∀ n ∈ ns, '/' ∉ n) : splitSlash (joinSlash ns) = ns := by
  induction ns with
  | nil => exact absurd rfl hne
  | cons a rest ih =>
    cases rest with
    | nil =>
      rw [joinSlash]
      exact splitSlash_noSlash a (h a (by simp))
    | cons b rest2 =>
      rw [joinSlash, splitSlash_append_slash, splitSlash_noSlash a (h a (by simp)),
        ih (by simp) (fun n hn => h n (List.mem_cons_of_mem _ hn))]
      rfl

/-- The pieces of a path hold no separator. -/
theorem splitSlash_noSlash_mem (p c : GoString) (h : c ∈ splitSlash p) : '/' ∉ c := by
  induction p generalizing c with
  | nil =>
    simp only [splitSlash, List.mem_singleton] at h
    subst h
    simp
  | cons a cs ih =>
    by_cases ha : a = '/'
    · subst ha
      rw [splitSlash_cons_slash] at h
      rcases List.mem_cons.mp h with h | h
      · subst h; simp
      · exact ih c h
    · obtain ⟨hd, tl, h1, h2⟩ := splitSlash_cons_other a cs ha
      rw [h2] at h
      rcases List.mem_cons.mp h with h | h
      · subst h
        intro hm
        rcases List.mem_cons.mp hm with hm | hm
        · exact ha hm.symm
        · exact ih hd (by rw [h1]; simp) hm
      · exact ih c (by rw [h1]; exact List.mem_cons_of_mem _ h)

/-- The pieces of a path joined again give the path. -/
theorem joinSlash_splitSlash (p : GoString) : joinSlash (splitSlash p) = p := by
  induction p with
  | nil => rfl
  | cons a cs ih =>
    by_cases ha : a = '/'
    · subst ha
      rw [splitSlash_cons_slash]
      cases hs : splitSlash cs with
      | nil => exact absurd hs (splitSlash_ne_nil cs)
      | cons hd tl =>
        rw [joinSlash, ← hs, ih]
        rfl
    · obtain ⟨hd, tl, h1, h2⟩ := splitSlash_cons_other a cs ha
      rw [h2]
      rw [h1] at ih
      cases tl with
      | nil =>
        rw [joinSlash] at ih ⊢
        rw [ih]
      | cons b tl2 =>
        rw [joinSlash] at ih ⊢
        rw [List.cons_append, ih]

theorem joinSlash_append_singleton (ns : List GoString) (n : GoString) (hne : ns ≠ []) :
    joinSlash (ns ++ [n]) = joinSlash ns ++ '/' :: n := by
  induction ns with
  | nil => exact absurd rfl hne
  | cons a rest ih =>
    cases rest with
    | nil => rfl
    | cons b rest2 =>
      rw [List.cons_append, List.cons_append, joinSlash, joinSlash, ← List.cons_append,
        ih (by simp), List.append_assoc]
      rfl

theorem joinSlash_append (xs ys : List GoString) (hx : xs ≠ []) (hy : ys ≠ []) :
    joinSlash (xs ++ ys) = joinSlash xs ++ '/' :: joinSlash ys := by
  induction xs with
  | nil => exact absurd rfl hx
  | cons a rest ih =>
    cases rest with
    | nil =>
      cases ys with
      | nil => exact absurd rfl hy
      | cons y ys2 => rfl
    | cons b rest2 =>
      rw [List.cons_append, List.cons_append, joinSlash, joinSlash, ← List.cons_append,
        ih (by simp), List.append_assoc]
      rfl

/-! ### Helper lemmas: `filepath.Clean` -/

theorem validName_iff (n : GoString) :
    validName n = true ↔ n ≠ [] ∧ '/' ∉ n ∧ n ≠ ['.'] ∧ n ≠ dotdot := by
  simp [validName, and_assoc]

theorem validName_isElem (n : GoString) (h : validName n = true) : isElem n := by
  obtain ⟨h1, h2, h3, _⟩ := (validName_iff n).mp h
  exact ⟨h1, h2, h3⟩

theorem cleanStep_valid (r : Bool) (st : List GoString) (n : GoString)
    (h : validName n = true) : cleanStep r st n = n :: st := by
  obtain ⟨h1, _, h3, h4⟩ := (validName_iff n).mp h
  simp [cleanStep, h1, h3, h4]

theorem foldl_cleanStep_valid (r : Bool) (ns : List GoString) (st : List GoString)
    (h : ∀ n ∈ ns, validName n = true) :
    ns.foldl (cleanStep r) st = ns.reverse ++ st := by
  induction ns generalizing st with
  | nil => rfl
  | cons n rest ih =>
    rw [List.foldl_cons, cleanStep_valid r st n (h n (by simp)),
      ih _ (fun m hm => h m (List.mem_cons_of_mem _ hm))]
    simp

theorem cleanStep_preserves (r : Bool) (st : List GoString) (c : GoString)
    (hc : '/' ∉ c) (hst : CleanStack r st) : CleanStack r (cleanStep r st c) := by
  unfold cleanStep
  by_cases h1 : c = []
  · simp [h1, hst]
  · by_cases h2 : c = ['.']
    · simp [h2, hst]
    · by_cases h3 : c = dotdot
      · subst h3
        simp only [h1, h2, if_false, if_true]
        cases st with
        | nil =>
          cases r with
          | true => simp [CleanStack]
          | false =>
            simp only [Bool.false_eq_true, if_false]
            exact ⟨⟨h1, hc, h2⟩, fun _ => ⟨rfl, by simp⟩, trivial⟩
        | cons top rest =>
          by_cases ht : top = dotdot
          · simp only [ht, if_true]
            cases r with
            | true =>
              simp only [if_true]
              rw [← ht]; exact hst
            | false =>
              simp only [Bool.false_eq_true, if_false]
              refine ⟨⟨h1, hc, h2⟩, fun _ => ⟨rfl, ?_⟩, by rw [← ht]; exact hst⟩
              intro d hd
              rcases List.mem_cons.mp hd with hd | hd
              · exact hd
              · exact (hst.2.1 ht).2 d hd
          · simp only [ht, if_false]
            exact hst.2.2
      · simp only [h1, h2, h3, if_false]
        exact ⟨⟨h1, hc, h2⟩, fun e => absurd e h3, hst⟩

theorem foldl_cleanStep_preserves (r : Bool) (cs : List GoString) (st : List GoString)
    (hcs : ∀ c ∈ cs, '/' ∉ c) (hst : CleanStack r st) :
    CleanStack r (cs.foldl (cleanStep r) st) := by
  induction cs generalizing st with
  | nil => exact hst
  | cons c rest ih =>
    rw [List.foldl_cons]
    exact ih _ (fun d hd => hcs d (List.mem_cons_of_mem _ hd))
      (cleanStep_preserves r st c (hcs c (by simp)) hst)

/-- The kept elements of any path are in clean shape. -/
theorem cleanElems_cleanStack (p : GoString) :
    CleanStack (isRooted p) (cleanElems p).reverse := by
  unfold cleanElems
  rw [List.reverse_reverse]
  exact foldl_cleanStep_preserves _ _ _ (fun c hc => splitSlash_noSlash_mem p c hc) trivial

theorem CleanStack_mem (r : Bool) (st : List GoString) (h : CleanStack r st) :
    ∀ c ∈ st, isElem c := by
  induction st with
  | nil => intro c hc; simp at hc
  | cons a rest ih =>
    intro c hc
    rcases List.mem_cons.mp hc with hc | hc
    · rw [hc]; exact h.1
    · exact ih h.2.2 c hc

/-- Cleaning elements that are already in clean shape keeps them all. -/
theorem foldl_cleanStep_cleanStack (r : Bool) (st : List GoString) (h : CleanStack r st) :
    st.reverse.foldl (cleanStep r) [] = st := by
  induction st with
  | nil => rfl
  | cons c rest ih =>
    rw [List.reverse_cons, List.foldl_append, ih h.2.2, List.foldl_cons, List.foldl_nil]
    obtain ⟨⟨h1, _, h3⟩, hdd, _⟩ := h
    unfold cleanStep
    by_cases h4 : c = dotdot
    · obtain ⟨hr, hall⟩ := hdd h4
      subst h4
      simp only [h1, h3, if_false, if_true]
      cases rest with
      | nil => simp [hr]
      | cons top rest2 =>
        have ht : top = dotdot := hall top (by simp)
        simp [ht, hr]
    · simp [h1, h3, h4]

/-- Valid names on top of a clean stack keep it clean. -/
theorem CleanStack_push_valid (r : Bool) (st ns : List GoString) (h : CleanStack r st)
    (hns : ∀ n ∈ ns, validName n = true) : CleanStack r (ns ++ st) := by
  induction ns with
  | nil => exact h
  | cons n rest ih =>
    have hn := (validName_iff n).mp (hns n (by simp))
    exact ⟨validName_isElem n (hns n (by simp)), fun e => absurd e hn.2.2.2,
      ih (fun m hm => hns m (List.mem_cons_of_mem _ hm))⟩

theorem joinSlash_ne_nil (es : List GoString) (hne : es ≠ []) (h : ∀ c ∈ es, c ≠ []) :
    joinSlash es ≠ [] := by
  cases es with
  | nil => exact absurd rfl hne
  | cons a rest =>
    cases rest with
    | nil => simpa [joinSlash] using h a (by simp)
    | cons b rest2 =>
      rw [joinSlash]
      simp

theorem isRooted_joinSlash (es : List GoString) (h : ∀ c ∈ es, isElem c) :
    isRooted (joinSlash es) = false := by
  cases es with
  | nil => rfl
  | cons a rest =>
    obtain ⟨h1, h2, _⟩ := h a (by simp)
    cases a with
    | nil => exact absurd rfl h1
    | cons x xs =>
      have hx : x ≠ '/' := fun e => h2 (by simp [e])
      cases rest with
      | nil => simp [joinSlash, isRooted, hx]
      | cons b rest2 => simp [joinSlash, isRooted, hx]

/-- A path written from elements in clean shape is unchanged by cleaning:
it has the same rootedness and the same elements. -/
theorem cleanElems_renderPath (r : Bool) (es : List GoString)
    (h : CleanStack r es.reverse) :
    isRooted (renderPath r es) = r ∧ cleanElems (renderPath r es) = es := by
  have hel : ∀ c ∈ es, isElem c := fun c hc =>
    CleanStack_mem r _ h c (List.mem_reverse.mpr hc)
  have hfold := foldl_cleanStep_cleanStack r _ h
  rw [List.reverse_reverse] at hfold
  cases r with
  | true =>
    have hr : isRooted (renderPath true es) = true := by simp [renderPath, isRooted]
    refine ⟨hr, ?_⟩
    unfold cleanElems
    rw [hr]
    simp only [renderPath, if_true]
    rw [splitSlash_cons_slash]
    by_cases hes : es = []
    · subst hes
      rfl
    · rw [splitSlash_joinSlash es hes (fun n hn => (hel n hn).2.1), List.foldl_cons]
      have : cleanStep true [] [] = [] := rfl
      rw [this, hfold, List.reverse_reverse]
  | false =>
    by_cases hes : es = []
    · subst hes
      exact ⟨rfl, rfl⟩
    · have hrp : renderPath false es = joinSlash es := by simp [renderPath, hes]
      have hr : isRooted (renderPath false es) = false := by
        rw [hrp]; exact isRooted_joinSlash es hel
      refine ⟨hr, ?_⟩
      unfold cleanElems
      rw [hr, hrp, splitSlash_joinSlash es hes (fun n hn => (hel n hn).2.1), hfold,
        List.reverse_reverse]

/-! ### Helper lemmas: paths below the destination -/

theorem dirChain_eq_chainOf (p : GoString) : dirChain p = chainOf (isRooted p) (cleanElems p) :=
  rfl

theorem cleanElems_nil : cleanElems [] = [] := rfl

theorem dest_ne_nil (dest : GoString) (hds : cleanElems dest ≠ []) : dest ≠ [] := by
  intro h
  rw [h] at hds
  exact hds cleanElems_nil

theorem under_nil (dest : GoString) : under dest [] = Clean dest := by
  simp [under, Clean]

/-- Below a destination that is neither `.` nor the root, a relative path
is the cleaned destination, a separator, and the names joined. -/
theorem under_eq (dest : GoString) (ns : List GoString) (hds : cleanElems dest ≠ [])
    (hns : ns ≠ []) : under dest ns = Clean dest ++ '/' :: joinSlash ns := by
  unfold under Clean renderPath
  have h1 : cleanElems dest ++ ns ≠ [] := by simp [hds]
  rw [joinSlash_append _ _ hds hns]
  cases isRooted dest with
  | true => simp
  | false => simp [h1, hds]

theorem under_cleanStack (dest : GoString) (ns : List GoString)
    (hns : ∀ n ∈ ns, validName n = true) :
    CleanStack (isRooted dest) (cleanElems dest ++ ns).reverse := by
  rw [List.reverse_append]
  exact CleanStack_push_valid _ _ _ (cleanElems_cleanStack dest)
    (fun n hn => hns n (List.mem_reverse.mp hn))

theorem isRooted_under (dest : GoString) (ns : List GoString)
    (hns : ∀ n ∈ ns, validName n = true) : isRooted (under dest ns) = isRooted dest :=
  (cleanElems_renderPath _ _ (under_cleanStack dest ns hns)).1

theorem cleanElems_under (dest : GoString) (ns : List GoString)
    (hns : ∀ n ∈ ns, validName n = true) :
    cleanElems (under dest ns) = cleanElems dest ++ ns :=
  (cleanElems_renderPath _ _ (under_cleanStack dest ns hns)).2

theorem Clean_under (dest : GoString) (ns : List GoString)
    (hns : ∀ n ∈ ns, validName n = true) : Clean (under dest ns) = under dest ns := by
  unfold Clean
  rw [isRooted_under dest ns hns, cleanElems_under dest ns hns]
  rfl

/-- A path below the destination is never the empty string. -/
theorem under_ne_nil (dest : GoString) (ns : List GoString)
    (hns : ∀ n ∈ ns, validName n = true) (h : cleanElems dest ++ ns ≠ []) :
    under dest ns ≠ [] := by
  intro e
  have h1 := cleanElems_under dest ns hns
  rw [e, cleanElems_nil] at h1
  exact h h1.symm

/-- Different names below the destination are different paths. -/
theorem under_injective (dest : GoString) (xs ys : List GoString)
    (hx : ∀ n ∈ xs, validName n = true) (hy : ∀ n ∈ ys, validName n = true)
    (h : under dest xs = under dest ys) : xs = ys := by
  have h1 := cleanElems_under dest xs hx
  rw [h, cleanElems_under dest ys hy] at h1
  exact (List.append_cancel_left h1).symm

theorem isRooted_append (a b : GoString) (ha : a ≠ []) : isRooted (a ++ b) = isRooted a := by
  cases a with
  | nil => exact absurd rfl ha
  | cons c cs => rfl

theorem foldl_cleanStep_dest (dest : GoString) :
    (splitSlash dest).foldl (cleanStep (isRooted dest)) [] = (cleanElems dest).reverse := by
  simp [cleanElems]

/-- The path `filepath.Join(destDir, name)` of a relative name made of valid
names is the path of these names below the destination. -/
theorem Join_dest (dest : GoString) (ns : List GoString) (hds : cleanElems dest ≠ [])
    (hne : ns ≠ []) (hns : ∀ n ∈ ns, validName n = true) :
    Join [dest, joinSlash ns] = under dest ns := by
  have hd := dest_ne_nil dest hds
  have hsl : ∀ n ∈ ns, '/' ∉ n := fun n hn => ((validName_iff n).mp (hns n hn)).2.1
  rw [Join]
  simp only [hd, if_false]
  show Clean (dest ++ '/' :: joinSlash ns) = _
  unfold Clean under
  rw [isRooted_append dest _ hd]
  congr 1
  unfold cleanElems
  rw [isRooted_append dest _ hd, splitSlash_append_slash, List.foldl_append,
    splitSlash_joinSlash ns hne hsl, foldl_cleanStep_dest,
    foldl_cleanStep_valid _ _ _ hns]
  simp [cleanElems]

/-- The traversal check accepts every path of valid names below a
destination that is neither `.` nor the root. -/
theorem traversalOK_under (dest : GoString) (ns : List GoString)
    (hds : cleanElems dest ≠ []) (hne : ns ≠ []) (hns : ∀ n ∈ ns, validName n = true) :
    traversalOK dest (under dest ns) = true := by
  unfold traversalOK HasPrefix
  rw [Clean_under dest ns hns, under_eq dest ns hds hne, List.isPrefixOf_iff_prefix]
  exact ⟨joinSlash ns ++ ['/'], by simp⟩

theorem joinSlash_noSlash_last (ns : List GoString) (n : GoString) (hne : ns ≠ []) :
    joinSlash (ns ++ [n]) = joinSlash ns ++ '/' :: n :=
  joinSlash_append_singleton ns n hne

theorem dropWhile_reverse_noSlash (a n : GoString) (hn : '/' ∉ n) :
    ((a ++ '/' :: n).reverse.dropWhile (fun c => c != '/')).reverse = a ++ ['/'] := by
  have h1 : (a ++ '/' :: n).reverse = n.reverse ++ ('/' :: a.reverse) := by simp
  rw [h1, List.dropWhile_append_of_pos]
  · simp [List.dropWhile]
  · intro c hc
    have : c ≠ '/' := fun e => hn (by rw [← e]; exact List.mem_reverse.mp hc)
    simp [this]

/-- The parent directory `filepath.Dir` gives for a path below the
destination. -/
theorem Dir_under (dest : GoString) (ns : List GoString) (n : GoString)
    (hds : cleanElems dest ≠ []) (hns : ∀ m ∈ ns, validName m = true)
    (hn : validName n = true) : Dir (under dest (ns ++ [n])) = under dest ns := by
  have hsl : '/' ∉ n := ((validName_iff n).mp hn).2.1
  have hlast : under dest (ns ++ [n]) = under dest ns ++ '/' :: n := by
    unfold under renderPath
    have h1 : cleanElems dest ++ ns ≠ [] := by simp [hds]
    have h2 : cleanElems dest ++ (ns ++ [n]) ≠ [] := by simp [hds]
    rw [← List.append_assoc, joinSlash_append_singleton _ _ h1]
    cases isRooted dest with
    | true => simp
    | false => simp [h1]
  have hune : under dest ns ≠ [] := by
    unfold under renderPath
    cases isRooted dest with
    | true => simp
    | false =>
      have h1 : cleanElems dest ++ ns ≠ [] := by simp [hds]
      simp only [Bool.false_eq_true, if_false, h1]
      refine joinSlash_ne_nil _ h1 ?_
      intro c hc
      exact (CleanStack_mem _ _ (under_cleanStack dest ns hns) c
        (List.mem_reverse.mpr hc)).1
  unfold Dir
  rw [hlast, dropWhile_reverse_noSlash _ _ hsl]
  have hcl : Clean (under dest ns ++ ['/']) = Clean (under dest ns) := by
    unfold Clean cleanElems
    rw [isRooted_append _ _ hune, splitSlash_append_slash, List.foldl_append]
    rfl
  rw [hcl, Clean_under dest ns hns]

/-! ### Helper lemmas: `os.MkdirAll` -/

theorem chainOf_snoc (r : Bool) (es : List GoString) (n : GoString) :
    chainOf r (es ++ [n]) = chainOf r es ++ [renderPath r (es ++ [n])] := by
  have hmap : (List.range (es.length + 1)).tail.map
        (fun k => renderPath r ((es ++ [n]).take k))
      = (List.range (es.length + 1)).tail.map (fun k => renderPath r (es.take k)) := by
    apply List.map_congr_left
    intro k hk
    have hk2 : k < es.length + 1 := List.mem_range.mp (List.mem_of_mem_tail hk)
    rw [List.take_append_of_le_length (by omega)]
  have hr : (List.range (es.length + 1 + 1)).tail
      = (List.range (es.length + 1)).tail ++ [es.length + 1] := by
    rw [List.range_succ (n := es.length + 1)]
    cases hrg : List.range (es.length + 1) with
    | nil => simp [List.range_succ] at hrg
    | cons a l => simp
  unfold chainOf
  simp only [List.length_append, List.length_singleton]
  rw [hr, List.map_append, hmap]
  have hlast : (es ++ [n]).take (es.length + 1) = es ++ [n] := by
    apply List.take_of_length_le
    simp
  cases r with
  | true => simp [hlast]
  | false => simp [hlast]

theorem mem_chainOf_self (r : Bool) (es : List GoString) (hes : es ≠ []) :
    renderPath r es ∈ chainOf r es := by
  obtain ⟨init, last, rfl⟩ : ∃ init last, es = init ++ [last] :=
    ⟨es.dropLast, es.getLast hes, (List.dropLast_append_getLast hes).symm⟩
  rw [chainOf_snoc]
  simp

theorem dirChain_under (dest : GoString) (ns : List GoString)
    (hns : ∀ n ∈ ns, validName n = true) :
    dirChain (under dest ns) = chainOf (isRooted dest) (cleanElems dest ++ ns) := by
  rw [dirChain_eq_chainOf, isRooted_under dest ns hns, cleanElems_under dest ns hns]

theorem dirChain_under_snoc (dest : GoString) (ns : List GoString) (n : GoString)
    (hns : ∀ m ∈ ns, validName m = true) (hn : validName n = true) :
    dirChain (under dest (ns ++ [n])) = dirChain (under dest ns) ++ [under dest (ns ++ [n])] := by
  have hall : ∀ m ∈ ns ++ [n], validName m = true := by
    intro m hm
    rcases List.mem_append.mp hm with hm | hm
    · exact hns m hm
    · rw [List.mem_singleton.mp hm]; exact hn
  rw [dirChain_under dest _ hall, dirChain_under dest ns hns, ← List.append_assoc,
    chainOf_snoc, List.append_assoc]
  rfl

theorem under_mem_dirChain (dest : GoString) (ns : List GoString)
    (hds : cleanElems dest ≠ []) (hns : ∀ n ∈ ns, validName n = true) :
    under dest ns ∈ dirChain (under dest ns) := by
  rw [dirChain_under dest ns hns]
  exact mem_chainOf_self _ _ (by simp [hds])

theorem mkdirChain_allDirs (perm : Nat) (chain : List GoString) (fs : FS)
    (h : ∀ q ∈ chain, ∃ m, fs q = some (Node.dir m)) : mkdirChain perm chain fs = some fs := by
  induction chain with
  | nil => rfl
  | cons q qs ih =>
    obtain ⟨m, hm⟩ := h q (by simp)
    rw [mkdirChain]
    simp only [hm]
    exact ih (fun x hx => h x (List.mem_cons_of_mem _ hx))

theorem mkdirChain_append_allDirs (perm : Nat) (a b : List GoString) (fs : FS)
    (h : ∀ q ∈ a, ∃ m, fs q = some (Node.dir m)) :
    mkdirChain perm (a ++ b) fs = mkdirChain perm b fs := by
  induction a with
  | nil => rfl
  | cons q qs ih =>
    obtain ⟨m, hm⟩ := h q (by simp)
    rw [List.cons_append, mkdirChain]
    simp only [hm]
    exact ih (fun x hx => h x (List.mem_cons_of_mem _ hx))

theorem mkdirChain_single_absent (perm : Nat) (q : GoString) (fs : FS) (h : fs q = none) :
    mkdirChain perm [q] fs = some (fs.set q (Node.dir perm)) := by
  rw [mkdirChain]
  simp only [h]
  rfl

/-- Making a new directory below existing ones adds just that directory. -/
theorem MkdirAll_new (umask : Nat) (dest : GoString) (ns : List GoString) (n : GoString)
    (fs : FS)
    (hns : ∀ m ∈ ns, validName m = true) (hn : validName n = true)
    (hchain : ∀ q ∈ dirChain (under dest ns), ∃ m, fs q = some (Node.dir m))
    (habs : fs (under dest (ns ++ [n])) = none) :
    MkdirAll umask fs (under dest (ns ++ [n])) 0o750
      = some (fs.set (under dest (ns ++ [n])) (Node.dir (applyUmask 0o750 umask))) := by
  have hall : ∀ m ∈ ns ++ [n], validName m = true := by
    intro m hm
    rcases List.mem_append.mp hm with hm | hm
    · exact hns m hm
    · rw [List.mem_singleton.mp hm]; exact hn
  unfold MkdirAll
  rw [if_neg (under_ne_nil dest (ns ++ [n]) hall (by simp)),
    dirChain_under_snoc dest ns n hns hn, mkdirChain_append_allDirs _ _ _ _ hchain,
    mkdirChain_single_absent _ _ _ habs]

/-- Making a directory whose whole chain exists changes nothing. -/
theorem MkdirAll_existing (umask : Nat) (p : GoString) (fs : FS) (hp : p ≠ [])
    (hchain : ∀ q ∈ dirChain p, ∃ m, fs q = some (Node.dir m)) :
    MkdirAll umask fs p 0o750 = some fs := by
  unfold MkdirAll
  rw [if_neg hp]
  exact mkdirChain_allDirs _ _ _ hchain

/-! ### Helper lemmas: one entry of a packed tree -/

theorem FS.set_set (fs : FS) (p : GoString) (a b : Node) :
    (fs.set p a).set p b = fs.set p b := by
  funext q
  by_cases h : q = p <;> simp [FS.set, h]

theorem toFileMode_natCast (m : Nat) : toFileMode (m : Int) &&& 0o750 = m &&& 0o750 := by
  apply Nat.eq_of_testBit_eq
  intro i
  rw [masked_mode_bits, Nat.testBit_and]
  have : (m : Int).testBit i = m.testBit i := rfl
  rw [this, Bool.and_comm]

/-- Extracting into a path that is free, inside an existing directory, when
the copy meets no read error: the file holds the copied bytes with the masked
mode. -/
theorem extractFile_fresh (umask : Nat) (target : GoString) (e : TarEntry) (mode : Int)
    (fs : FS) (d : Nat) (hne : target ≠ [])
    (habs : fs target = none) (hpar : fs (Dir target) = some (Node.dir d))
    (hcopy : (copyLimited e).2 = false) :
    extractFile umask target e mode fs
      = ⟨none, fs.set target (Node.file (copyLimited e).1 (toFileMode mode &&& 0o750))⟩ := by
  have hcr : osCreate umask fs target
      = some (fs.set target (Node.file [] (applyUmask 0o666 umask))) := by
    simp [osCreate, hne, habs, hpar]
  have hw : osWrite (fs.set target (Node.file [] (applyUmask 0o666 umask))) target (copyLimited e).1
      = fs.set target (Node.file (copyLimited e).1 (applyUmask 0o666 umask)) := by
    simp [osWrite, FS.set_same, FS.set_set]
  have hch : osChmod (fs.set target (Node.file (copyLimited e).1 (applyUmask 0o666 umask))) target
        (toFileMode mode &&& 0o750)
      = some (fs.set target (Node.file (copyLimited e).1 (toFileMode mode &&& 0o750))) := by
    simp [osChmod, FS.set_same, FS.set_set]
  unfold extractFile
  rw [hcr]
  simp only [hcopy, hw, hch]
  rfl

theorem copyLimited_within (n : GoString) (tf : Char) (mode : Int) (c : List Byte)
    (h : c.length ≤ maxSize) : copyLimited ⟨n, tf, mode, c.length, c⟩ = (c, false) := by
  simp only [copyLimited]
  have h1 : min c.length maxSize = c.length := Nat.min_eq_left h
  rw [h1, List.take_length]
  simp

theorem relJoin_joinSlash (ns : List GoString) (n : GoString)
    (hns : ∀ m ∈ ns, validName m = true) :
    relJoin (joinSlash ns) n = joinSlash (ns ++ [n]) := by
  unfold relJoin
  by_cases h : ns = []
  · subst h; rfl
  · have : joinSlash ns ≠ [] :=
      joinSlash_ne_nil ns h (fun c hc => ((validName_iff c).mp (hns c hc)).1)
    rw [if_neg this, joinSlash_append_singleton ns n h]

theorem allValid_snoc (ns : List GoString) (n : GoString)
    (hns : ∀ m ∈ ns, validName m = true) (hn : validName n = true) :
    ∀ m ∈ ns ++ [n], validName m = true := by
  intro m hm
  rcases List.mem_append.mp hm with hm | hm
  · exact hns m hm
  · rw [List.mem_singleton.mp hm]; exact hn

/-- A directory entry of the packed tree, unpacked where its parent exists
and nothing is in its place: the directory is made with mode 0750. -/
theorem unpackEntry_packed_dir (umask : Nat) (dest : GoString) (ns : List GoString) (n : GoString)
    (mode : Int) (fs : FS) (hds : cleanElems dest ≠ [])
    (hns : ∀ m ∈ ns, validName m = true) (hn : validName n = true)
    (hchain : ∀ q ∈ dirChain (under dest ns), ∃ m, fs q = some (Node.dir m))
    (habs : fs (under dest (ns ++ [n])) = none) :
    unpackEntry umask dest ⟨joinSlash (ns ++ [n]), TypeDir, mode, 0, []⟩ fs
      = ⟨none, fs.set (under dest (ns ++ [n])) (Node.dir (applyUmask 0o750 umask))⟩ := by
  have hall := allValid_snoc ns n hns hn
  have hj := Join_dest dest (ns ++ [n]) hds (by simp) hall
  have hok := traversalOK_under dest (ns ++ [n]) hds (by simp) hall
  have hmk := MkdirAll_new umask dest ns n fs hns hn hchain habs
  unfold unpackEntry
  simp only [hj, hok, hmk]
  simp

/-- A regular file entry of the packed tree, no larger than the cap,
unpacked where its parent exists and nothing is in its place: the file is
written whole, with its mode masked by 0750. -/
theorem unpackEntry_packed_file (umask : Nat) (dest : GoString) (ns : List GoString) (n : GoString)
    (c : List Byte) (m : Nat) (fs : FS) (hds : cleanElems dest ≠ [])
    (hns : ∀ k ∈ ns, validName k = true) (hn : validName n = true)
    (hsz : c.length ≤ maxSize)
    (hchain : ∀ q ∈ dirChain (under dest ns), ∃ k, fs q = some (Node.dir k))
    (habs : fs (under dest (ns ++ [n])) = none) :
    unpackEntry umask dest ⟨joinSlash (ns ++ [n]), TypeReg, (m : Int), c.length, c⟩ fs
      = ⟨none, fs.set (under dest (ns ++ [n])) (Node.file c (m &&& 0o750))⟩ := by
  have hall := allValid_snoc ns n hns hn
  have hj := Join_dest dest (ns ++ [n]) hds (by simp) hall
  have hok := traversalOK_under dest (ns ++ [n]) hds (by simp) hall
  have hdir := Dir_under dest ns n hds hns hn
  obtain ⟨d, hd⟩ := hchain _ (under_mem_dirChain dest ns hds hns)
  have hmk : MkdirAll umask fs (Dir (Join [dest, joinSlash (ns ++ [n])])) 0o750 = some fs := by
    rw [hj, hdir]
    exact MkdirAll_existing umask _ fs (under_ne_nil dest ns hns (by simp [hds])) hchain
  have hok2 : traversalOK dest (Join [dest, joinSlash (ns ++ [n])]) = true := by
    rw [hj]; exact hok
  have hcopy : copyLimited ⟨joinSlash (ns ++ [n]), TypeReg, (m : Int), c.length, c⟩
      = (c, false) := copyLimited_within _ _ _ c hsz
  have hpar : fs (Dir (under dest (ns ++ [n]))) = some (Node.dir d) := by
    rw [hdir]; exact hd
  have hreg := unpackEntry_reg dest
    ⟨joinSlash (ns ++ [n]), TypeReg, (m : Int), c.length, c⟩ fs fs rfl hok2 hmk
  rw [hreg]
  simp only [hj]
  rw [extractFile_fresh umask (under dest (ns ++ [n]))
    ⟨joinSlash (ns ++ [n]), TypeReg, (m : Int), c.length, c⟩ (m : Int) fs d
    (under_ne_nil dest (ns ++ [n]) hall (by simp)) habs hpar
    (by rw [hcopy]), hcopy, toFileMode_natCast]

/-! ### Helper lemmas: the restored (applyUmask 0o750 umask) tree -/

theorem wellFormed_cons (n : GoString) (t : DirTree) (rest : DirEntries)
    (h : (DirEntries.cons n t rest).wellFormed = true) :
    validName n = true ∧ n ∉ rest.names ∧ t.wellFormed = true ∧ rest.wellFormed = true := by
  simp only [DirEntries.wellFormed, Bool.and_eq_true, Bool.not_eq_true', List.contains_iff_exists_mem_beq] at h
  obtain ⟨⟨⟨h1, h2⟩, h3⟩, h4⟩ := h
  refine ⟨h1, ?_, h3, h4⟩
  intro hm
  have : (rest.names.contains n) = true := by
    rw [List.contains_iff_exists_mem_beq]
    exact ⟨n, hm, by simp⟩
  rw [List.contains_iff_exists_mem_beq] at this
  simp_all

theorem names_valid : ∀ (es : DirEntries), es.wellFormed = true →
    ∀ n ∈ es.names, validName n = true
  | .nil, _ => by
    intro n hn
    simp [DirEntries.names] at hn
  | .cons name t rest, h => by
    obtain ⟨h1, _, _, h4⟩ := wellFormed_cons name t rest h
    intro n hn
    rcases List.mem_cons.mp hn with hn | hn
    · rw [hn]; exact h1
    · exact names_valid rest h4 n hn

mutual
/-- Restoring a tree changes only paths at or below its place. -/
theorem plantTree_frame (dperm : Nat) (dest : GoString) :
    ∀ (t : DirTree) (ns : List GoString) (fs : FS)
    (q : GoString), t.wellFormed = true →
    (∀ ms, (∀ m ∈ ms, validName m = true) → q ≠ under dest (ns ++ ms)) →
    plantTree dperm dest ns t fs q = fs q
  | .file c m, ns, fs, q, _, hq => by
    rw [plantTree]
    exact FS.set_other _ _ _ _ (by simpa using hq [] (by simp))
  | .dir m es, ns, fs, q, hwf, hq => by
    rw [plantTree, plantEntries_frame dperm dest es ns _ q hwf]
    · exact FS.set_other _ _ _ _ (by simpa using hq [] (by simp))
    · intro n ms hn hms
      exact hq (n :: ms) (by
        intro k hk
        rcases List.mem_cons.mp hk with hk | hk
        · rw [hk]; exact names_valid es hwf n hn
        · exact hms k hk)
/-- Restoring the entries of a directory changes only paths below them. -/
theorem plantEntries_frame (dperm : Nat) (dest : GoString) :
    ∀ (es : DirEntries) (ns : List GoString)
    (fs : FS) (q : GoString), es.wellFormed = true →
    (∀ n ms, n ∈ es.names → (∀ m ∈ ms, validName m = true) →
      q ≠ under dest (ns ++ n :: ms)) →
    plantEntries dperm dest ns es fs q = fs q
  | .nil, ns, fs, q, _, _ => by
    rw [plantEntries]
  | .cons n t rest, ns, fs, q, hwf, hq => by
    obtain ⟨_, _, h3, h4⟩ := wellFormed_cons n t rest hwf
    rw [plantEntries, plantEntries_frame dperm dest rest ns _ q h4
      (fun k ms hk hms => hq k ms (List.mem_cons_of_mem _ hk) hms),
      plantTree_frame dperm dest t (ns ++ [n]) fs q h3]
    intro ms hms
    have := hq n ms (by simp [DirEntries.names]) hms
    simpa using this
end

theorem allValid_cons (n : GoString) (ms : List GoString) (hn : validName n = true)
    (hms : ∀ m ∈ ms, validName m = true) : ∀ m ∈ n :: ms, validName m = true := by
  intro m hm
  rcases List.mem_cons.mp hm with hm | hm
  · rw [hm]; exact hn
  · exact hms m hm

theorem allValid_append (xs ys : List GoString) (hx : ∀ m ∈ xs, validName m = true)
    (hy : ∀ m ∈ ys, validName m = true) : ∀ m ∈ xs ++ ys, validName m = true := by
  intro m hm
  rcases List.mem_append.mp hm with hm | hm
  · exact hx m hm
  · exact hy m hm

/-- Paths below the destination that differ in their names differ. -/
theorem under_ne (dest : GoString) (xs ys : List GoString)
    (hx : ∀ n ∈ xs, validName n = true) (hy : ∀ n ∈ ys, validName n = true)
    (h : xs ≠ ys) : under dest xs ≠ under dest ys :=
  fun e => h (under_injective dest xs ys hx hy e)

theorem restored_some_file {dperm : Nat} (c : List Byte) (m : Nat) :
    restored dperm (some (DirTree.file c m)) = some (Node.file c (m &&& 0o750)) := rfl

theorem restored_some_dir {dperm : Nat} (m : Nat) (es : DirEntries) :
    restored dperm (some (DirTree.dir m es)) = some (Node.dir dperm) := rfl

/-- What unpacking leaves is what the round trip promises, whatever the mode
of the new directories. -/
theorem restoredAs_restored (dperm : Nat) (x : Option DirTree) :
    restoredAs x (restored dperm x) = true := by
  cases x with
  | none => rfl
  | some t =>
    cases t with
    | file c m => simp [restored, restoredAs]
    | dir m es => rfl

mutual
/-- What a restored tree holds at a path of valid names below its place:
the restored form of what the source tree holds there, and what was there
before where the source tree holds nothing. -/
theorem plantTree_find (dperm : Nat) (dest : GoString) :
    ∀ (t : DirTree) (ns : List GoString) (fs : FS)
    (ms : List GoString), t.wellFormed = true → (∀ m ∈ ns, validName m = true) →
    (∀ m ∈ ms, validName m = true) →
    plantTree dperm dest ns t fs (under dest (ns ++ ms))
      = (restored dperm (t.find ms)).or (fs (under dest (ns ++ ms)))
  | .file c m, ns, fs, [], _, _, _ => by
    rw [plantTree, List.append_nil, FS.set_same, DirTree.find, restored_some_file]
    rfl
  | .file c m, ns, fs, k :: ms, _, hns, hms => by
    rw [plantTree, DirTree.find]
    rw [FS.set_other _ _ _ _ (under_ne dest _ _ (allValid_append _ _ hns hms) hns (by simp))]
    rfl
  | .dir m es, ns, fs, [], hwf, hns, _ => by
    rw [plantTree, List.append_nil, DirTree.find, restored_some_dir]
    rw [plantEntries_frame dperm dest es ns _ _ hwf, FS.set_same]
    · rfl
    · intro n ms hn hms
      exact under_ne dest _ _ hns
        (allValid_append _ _ hns (allValid_cons n ms (names_valid es hwf n hn) hms)) (by simp)
  | .dir m es, ns, fs, k :: ms, hwf, hns, hms => by
    rw [plantTree, DirTree.find]
    rw [plantEntries_find dperm dest es ns _ k ms hwf hns (hms k (by simp))
      (fun x hx => hms x (List.mem_cons_of_mem _ hx))]
    rw [FS.set_other _ _ _ _ (under_ne dest _ _ (allValid_append _ _ hns hms) hns (by simp))]
/-- What the restored entries of a directory hold at a path of valid names
below it. -/
theorem plantEntries_find (dperm : Nat) (dest : GoString) :
    ∀ (es : DirEntries) (ns : List GoString)
    (fs : FS) (k : GoString) (ms : List GoString), es.wellFormed = true →
    (∀ m ∈ ns, validName m = true) → validName k = true →
    (∀ m ∈ ms, validName m = true) →
    plantEntries dperm dest ns es fs (under dest (ns ++ k :: ms))
      = (restored dperm (es.find k ms)).or (fs (under dest (ns ++ k :: ms)))
  | .nil, ns, fs, k, ms, _, _, _, _ => by
    rw [plantEntries, DirEntries.find]
    rfl
  | .cons n t rest, ns, fs, k, ms, hwf, hns, hk, hms => by
    obtain ⟨h1, h2, h3, h4⟩ := wellFormed_cons n t rest hwf
    rw [plantEntries, DirEntries.find]
    by_cases hkn : k = n
    · subst hkn
      rw [if_pos rfl, plantEntries_frame dperm dest rest ns _ _ h4]
      · have := plantTree_find dperm dest t (ns ++ [k]) fs ms h3 (allValid_snoc ns k hns hk) hms
        simpa using this
      · intro n2 ms2 hn2 hms2
        apply under_ne dest _ _ (allValid_append _ _ hns (allValid_cons k ms hk hms))
          (allValid_append _ _ hns (allValid_cons n2 ms2 (names_valid rest h4 n2 hn2) hms2))
        intro e
        have e2 := List.append_cancel_left e
        simp only [List.cons.injEq] at e2
        exact h2 (e2.1 ▸ hn2)
    · rw [if_neg hkn, plantEntries_find dperm dest rest ns _ k ms h4 hns hk hms,
        plantTree_frame dperm dest t (ns ++ [n]) fs _ h3]
      intro ms2 hms2
      apply under_ne dest _ _ (allValid_append _ _ hns (allValid_cons k ms hk hms))
        (allValid_append _ _ (allValid_snoc ns n hns h1) hms2)
      intro e
      rw [List.append_assoc] at e
      have e2 := List.append_cancel_left e
      simp only [List.singleton_append, List.cons.injEq] at e2
      exact hkn e2.1
end

/-! ### Helper lemmas: unpacking a packed tree -/

theorem withinCap_cons (n : GoString) (t : DirTree) (rest : DirEntries)
    (h : (DirEntries.cons n t rest).withinCap = true) :
    t.withinCap = true ∧ rest.withinCap = true := by
  simpa [DirEntries.withinCap] using h

mutual
/-- Unpacking the entries packed for a tree, at a free place whose parent
directories exist, restores the tree there and goes on with the rest of the
archive. -/
theorem unpack_walkTree (umask : Nat) (dest : GoString) (hds : cleanElems dest ≠ []) :
    ∀ (t : DirTree) (p : List GoString) (n : GoString) (rest : List TarEntry) (fs : FS),
    t.wellFormed = true → t.withinCap = true → (∀ m ∈ p, validName m = true) →
    validName n = true →
    (∀ q ∈ dirChain (under dest p), ∃ m, fs q = some (Node.dir m)) →
    (∀ ms, (∀ m ∈ ms, validName m = true) → fs (under dest (p ++ n :: ms)) = none) →
    UnpackArchive umask (walkTree (joinSlash (p ++ [n])) t ++ rest) dest fs
      = UnpackArchive umask rest dest (plantTree (applyUmask 0o750 umask) dest (p ++ [n]) t fs)
  | .file c m, p, n, rest, fs, _, hcap, hp, hn, hchain, habs => by
    have hsz : c.length ≤ maxSize := by simpa [DirTree.withinCap] using hcap
    have habs0 : fs (under dest (p ++ [n])) = none := habs [] (by simp)
    have hstep := unpackEntry_packed_file umask dest p n c m fs hds hp hn hsz hchain habs0
    rw [walkTree, List.singleton_append, UnpackArchive_cons_ok _ _ _ _ (by rw [hstep]),
      hstep, plantTree]
  | .dir m es, p, n, rest, fs, hwf, hcap, hp, hn, hchain, habs => by
    have habs0 : fs (under dest (p ++ [n])) = none := habs [] (by simp)
    have hstep := unpackEntry_packed_dir umask dest p n (m : Int) fs hds hp hn hchain habs0
    have hpn := allValid_snoc p n hp hn
    rw [walkTree, List.cons_append, UnpackArchive_cons_ok _ _ _ _ (by rw [hstep]),
      hstep, plantTree]
    dsimp only
    apply unpack_walkEntries umask dest hds es (p ++ [n]) rest _ hwf hcap hpn
    · intro q hq
      rw [dirChain_under_snoc dest p n hp hn] at hq
      by_cases hqk : q = under dest (p ++ [n])
      · exact ⟨_, by rw [hqk, FS.set_same]⟩
      · rw [FS.set_other _ _ _ _ hqk]
        rcases List.mem_append.mp hq with hq | hq
        · exact hchain q hq
        · exact absurd (List.mem_singleton.mp hq) hqk
    · intro k ms hk hms
      have hkv := names_valid es hwf k hk
      rw [FS.set_other _ _ _ _ (under_ne dest _ _
        (allValid_append _ _ hpn (allValid_cons k ms hkv hms)) hpn (by simp))]
      have := habs (k :: ms) (allValid_cons k ms hkv hms)
      simpa using this
/-- Unpacking the entries packed for the entries of a directory that exists,
where nothing is in their places, restores them all. -/
theorem unpack_walkEntries (umask : Nat) (dest : GoString) (hds : cleanElems dest ≠ []) :
    ∀ (es : DirEntries) (ns : List GoString) (rest : List TarEntry) (fs : FS),
    es.wellFormed = true → es.withinCap = true → (∀ m ∈ ns, validName m = true) →
    (∀ q ∈ dirChain (under dest ns), ∃ m, fs q = some (Node.dir m)) →
    (∀ n ms, n ∈ es.names → (∀ m ∈ ms, validName m = true) →
      fs (under dest (ns ++ n :: ms)) = none) →
    UnpackArchive umask (walkEntries (joinSlash ns) es ++ rest) dest fs
      = UnpackArchive umask rest dest (plantEntries (applyUmask 0o750 umask) dest ns es fs)
  | .nil, ns, rest, fs, _, _, _, _, _ => by
    rw [walkEntries, List.nil_append, plantEntries]
  | .cons n t more, ns, rest, fs, hwf, hcap, hns, hchain, habs => by
    obtain ⟨h1, h2, h3, h4⟩ := wellFormed_cons n t more hwf
    obtain ⟨hc1, hc2⟩ := withinCap_cons n t more hcap
    rw [walkEntries, relJoin_joinSlash ns n hns, List.append_assoc,
      unpack_walkTree umask dest hds t ns n _ fs h3 hc1 hns h1 hchain
        (fun ms hms => habs n ms (by simp [DirEntries.names]) hms),
      plantEntries]
    apply unpack_walkEntries umask dest hds more ns rest _ h4 hc2 hns
    · intro q hq
      obtain ⟨d, hd⟩ := hchain q hq
      rw [plantTree_frame _ dest t (ns ++ [n]) fs q h3]
      · exact ⟨d, hd⟩
      · intro ms hms e
        have hnone := habs n ms (by simp [DirEntries.names]) hms
        rw [e, List.append_assoc] at hd
        simp only [List.singleton_append] at hd
        rw [hnone] at hd
        exact absurd hd (by simp)
    · intro k ms hk hms
      have hkv := names_valid more h4 k hk
      rw [plantTree_frame _ dest t (ns ++ [n]) fs _ h3]
      · exact habs k ms (List.mem_cons_of_mem _ hk) hms
      · intro ms2 hms2
        apply under_ne dest _ _ (allValid_append _ _ hns (allValid_cons k ms hkv hms))
          (allValid_append _ _ (allValid_snoc ns n hns h1) hms2)
        intro e
        rw [List.append_assoc] at e
        have e2 := List.append_cancel_left e
        simp only [List.singleton_append, List.cons.injEq] at e2
        exact h2 (e2.1 ▸ hk)
end

mutual
/-- A path found in a well-formed tree is made of valid names. -/
theorem findTree_valid : ∀ (t : DirTree) (ms : List GoString) (x : DirTree),
    t.wellFormed = true → t.find ms = some x → ∀ m ∈ ms, validName m = true
  | _, [], _, _, _ => by
    intro m hm
    simp at hm
  | .file _ _, _ :: _, _, _, h => by
    rw [DirTree.find] at h
    exact absurd h (by simp)
  | .dir _ es, k :: ms, x, hwf, h => by
    rw [DirTree.find] at h
    obtain ⟨h1, h2⟩ := findEntries_valid es k ms x hwf h
    exact allValid_cons k ms h1 h2
/-- A path found below the entries of a well-formed directory is made of
valid names. -/
theorem findEntries_valid : ∀ (es : DirEntries) (k : GoString) (ms : List GoString)
    (x : DirTree), es.wellFormed = true → es.find k ms = some x →
    validName k = true ∧ ∀ m ∈ ms, validName m = true
  | .nil, _, _, _, _, h => by
    rw [DirEntries.find] at h
    exact absurd h (by simp)
  | .cons n t rest, k, ms, x, hwf, h => by
    obtain ⟨h1, _, h3, h4⟩ := wellFormed_cons n t rest hwf
    rw [DirEntries.find] at h
    by_cases hkn : k = n
    · rw [if_pos hkn] at h
      exact ⟨hkn ▸ h1, findTree_valid t ms x h3 h⟩
    · rw [if_neg hkn] at h
      exact findEntries_valid rest k ms x h4 h
end

theorem cleanElems_ne_nil (dest : GoString) (hdot : Clean dest ≠ ['.'])
    (hroot : Clean dest ≠ ['/']) : cleanElems dest ≠ [] := by
  intro h
  unfold Clean renderPath at hdot hroot
  rw [h] at hdot hroot
  cases hr : isRooted dest with
  | true => rw [hr] at hroot; exact hroot rfl
  | false => rw [hr] at hdot; exact hdot rfl

theorem under_startsWith (dest : GoString) (ns : List GoString) (hds : cleanElems dest ≠ [])
    (hns : ns ≠ []) : (Clean dest ++ ['/']) <+: under dest ns := by
  rw [under_eq dest ns hds hns]
  exact ⟨joinSlash ns, by simp⟩

/-- Unpacking the archive packed from the entries of the source root, into
an existing destination with nothing below it. -/
theorem unpack_pack_entries (umask : Nat) (dest : GoString) (es : DirEntries) (fs : FS)
    (hds : cleanElems dest ≠ []) (hwf : es.wellFormed = true) (hcap : es.withinCap = true)
    (hchain : ∀ q ∈ dirChain dest, ∃ m, fs q = some (Node.dir m))
    (hempty : ∀ q, (Clean dest ++ ['/']) <+: q → fs q = none) :
    UnpackArchive umask (walkEntries [] es) dest fs
      = ⟨none, plantEntries (applyUmask 0o750 umask) dest [] es fs⟩ := by
  have h := unpack_walkEntries umask dest hds es [] [] fs hwf hcap (by simp)
    (by
      intro q hq
      rw [dirChain_under dest [] (by simp), List.append_nil, ← dirChain_eq_chainOf] at hq
      exact hchain q hq)
    (by
      intro n ms _ _
      exact hempty _ (under_startsWith dest _ hds (by simp)))
  rw [List.append_nil] at h
  exact h

/-- What the restored entries of the source root hold at any path below the
destination. -/
theorem plantEntries_root (dperm : Nat) (dest : GoString) (es : DirEntries) (fs : FS)
    (hds : cleanElems dest ≠ []) (hwf : es.wellFormed = true)
    (hempty : ∀ q, (Clean dest ++ ['/']) <+: q → fs q = none) (r : GoString) :
    plantEntries dperm dest [] es fs (Clean dest ++ '/' :: r)
      = restored dperm ((DirTree.dir 0 es).find (splitSlash r)) := by
  have hnone : fs (Clean dest ++ '/' :: r) = none := hempty _ ⟨r, by simp⟩
  cases hs : splitSlash r with
  | nil => exact absurd hs (splitSlash_ne_nil r)
  | cons k ms =>
    have hr : joinSlash (k :: ms) = r := by rw [← hs, joinSlash_splitSlash]
    rw [DirTree.find]
    by_cases hv : ∀ m ∈ k :: ms, validName m = true
    · have hkey : Clean dest ++ '/' :: r = under dest ([] ++ k :: ms) := by
        rw [List.nil_append, under_eq dest (k :: ms) hds (by simp), hr]
      rw [hkey, plantEntries_find dperm dest es [] fs k ms hwf (by simp) (hv k (by simp))
        (fun m hm => hv m (List.mem_cons_of_mem _ hm)), ← hkey, hnone, Option.or_none]
    · have hfind : es.find k ms = none := by
        cases hf : es.find k ms with
        | none => rfl
        | some x =>
          obtain ⟨h1, h2⟩ := findEntries_valid es k ms x hwf hf
          exact absurd (allValid_cons k ms h1 h2) hv
      rw [hfind, plantEntries_frame dperm dest es [] fs _ hwf, hnone]
      · rfl
      · intro n ms2 hn hms2 e
        rw [List.nil_append, under_eq dest (n :: ms2) hds (by simp)] at e
        have e2 : r = joinSlash (n :: ms2) := by
          have := List.append_cancel_left e
          simpa using this
        have hv2 := allValid_cons n ms2 (names_valid es hwf n hn) hms2
        have e3 : splitSlash r = n :: ms2 := by
          rw [e2]
          exact splitSlash_joinSlash _ (by simp)
            (fun x hx => ((validName_iff x).mp (hv2 x hx)).2.1)
        rw [hs] at e3
        rw [e3] at hv
        exact hv hv2

/-! ### Packing and unpacking: claims -/

/-- Under every umask, the tree whose only file `big` holds 2^30 + 1 bytes
is packed and unpacked into the empty directory `/d` without error, and the
file restored at `/d/big` holds only 2^30 bytes. -/
theorem roundtrip_truncates_any_umask (umask : Nat) :
    bigTree.wellFormed = true ∧
    bigTree.find ["big".toList] = some (.file (List.replicate (2 ^ 30 + 1) 0) 0o644) ∧
    (UnpackArchive umask (PackArchive bigTree) "/d".toList fsD).err = none ∧
    ∃ c m, (UnpackArchive umask (PackArchive bigTree) "/d".toList fsD).fs "/d/big".toList
        = some (Node.file c m) ∧ c.length = 2 ^ 30 ∧ c ≠ List.replicate (2 ^ 30 + 1) 0 := by
  have hpack : PackArchive bigTree = [bigPacked] := rfl
  have hlen : (List.replicate (2 ^ 30 + 1) (0 : Byte)).length = 2 ^ 30 + 1 :=
    List.length_replicate _ _
  have hsz : maxSize < bigPacked.Size := by
    show maxSize < (List.replicate (2 ^ 30 + 1) (0 : Byte)).length
    rw [hlen, maxSize_eq]; omega
  have hdata : maxSize ≤ bigPacked.data.length := by
    show maxSize ≤ (List.replicate (2 ^ 30 + 1) (0 : Byte)).length
    rw [hlen, maxSize_eq]; omega
  have hj : Join ["/d".toList, bigPacked.Name] = "/d/big".toList := by decide
  have hmk : MkdirAll umask fsD (Dir ("/d/big".toList)) 0o750 = some fsD := rfl
  have hcr : osCreate umask fsD ("/d/big".toList)
      = some (fsD.set "/d/big".toList (Node.file [] (applyUmask 0o666 umask))) := rfl
  have hreg : bigPacked.Typeflag = TypeReg := rfl
  obtain ⟨herr, m, hm⟩ := unpackEntry_oversized "/d".toList bigPacked
    fsD fsD (fsD.set "/d/big".toList (Node.file [] (applyUmask 0o666 umask))) hreg hsz hdata
    (by decide) (by rw [hj]; exact hmk) (by rw [hj]; exact hcr)
  rw [hj] at hm
  obtain ⟨h1, h2⟩ := UnpackArchive_single bigPacked "/d".toList fsD herr
  have hdl : bigPacked.data.length = 2 ^ 30 + 1 := hlen
  have htake : (bigPacked.data.take maxSize).length = 2 ^ 30 := by
    rw [List.length_take, hdl, maxSize_eq]
    omega
  refine ⟨by decide, rfl, ?_, ?_⟩
  · rw [hpack]; exact h1
  · rw [hpack, h2]
    refine ⟨bigPacked.data.take maxSize, m, hm, htake, ?_⟩
    intro e
    have e2 := congrArg List.length e
    rw [htake, hlen] at e2
    omega

/-- C2 (refuted as stated): the tree whose only file `big` holds 2^30 + 1
bytes is packed and unpacked, under the umask 022, into the empty directory
`/d` without error, and the file restored at `/d/big` holds only 2^30 bytes:
its content is not that of the original. -/
theorem roundtrip_truncates_big_file :
    bigTree.wellFormed = true ∧
    bigTree.find ["big".toList] = some (.file (List.replicate (2 ^ 30 + 1) 0) 0o644) ∧
    (UnpackArchive 0o022 (PackArchive bigTree) "/d".toList fsD).err = none ∧
    ∃ c m, (UnpackArchive 0o022 (PackArchive bigTree) "/d".toList fsD).fs "/d/big".toList
        = some (Node.file c m) ∧ c.length = 2 ^ 30 ∧ c ≠ List.replicate (2 ^ 30 + 1) 0 :=
  roundtrip_truncates_any_umask 0o022

/-- C2 (amended): for every tree of regular files and subdirectories with
valid, distinct names in which no regular file is larger than 2^30 bytes,
every umask, and every destination whose cleaned path is neither `.` nor the
root, that exists with all its parents and has nothing below it: unpacking
the packed tree succeeds; below the destination there is exactly what the
tree holds at the same relative path, a regular file with identical bytes
and its permissions masked by 0750 where the tree has a regular file, a
directory where it has a directory, nothing where it has nothing; and
nothing outside the destination changes. -/
theorem pack_unpack_roundtrip (umask : Nat) (t : DirTree) (dest : GoString) (fs : FS)
    (hwf : t.wellFormed = true) (hcap : t.withinCap = true)
    (hdot : Clean dest ≠ ['.']) (hroot : Clean dest ≠ ['/'])
    (hchain : ∀ q ∈ dirChain dest, ∃ m, fs q = some (Node.dir m))
    (hempty : ∀ q, (Clean dest ++ ['/']) <+: q → fs q = none) :
    (UnpackArchive umask (PackArchive t) dest fs).err = none ∧
    (∀ r, restoredAs (t.find (splitSlash r))
        ((UnpackArchive umask (PackArchive t) dest fs).fs (Clean dest ++ '/' :: r)) = true) ∧
    (∀ q, ¬ (Clean dest ++ ['/']) <+: q →
        (UnpackArchive umask (PackArchive t) dest fs).fs q = fs q) := by
  have hds := cleanElems_ne_nil dest hdot hroot
  cases t with
  | file c m =>
    refine ⟨rfl, ?_, fun q _ => rfl⟩
    intro r
    show restoredAs _ (fs (Clean dest ++ '/' :: r)) = true
    rw [hempty _ ⟨r, by simp⟩]
    cases hs : splitSlash r with
    | nil => exact absurd hs (splitSlash_ne_nil r)
    | cons k ms => rfl
  | dir m es =>
    have hrun := unpack_pack_entries umask dest es fs hds hwf hcap hchain hempty
    have hpack : PackArchive (DirTree.dir m es) = walkEntries [] es := rfl
    rw [hpack, hrun]
    refine ⟨rfl, ?_, ?_⟩
    · intro r
      have h := plantEntries_root (applyUmask 0o750 umask) dest es fs hds hwf hempty r
      cases hs : splitSlash r with
      | nil => exact absurd hs (splitSlash_ne_nil r)
      | cons k ms =>
        rw [hs] at h
        show restoredAs _ (plantEntries (applyUmask 0o750 umask) dest [] es fs _) = true
        rw [h]
        exact restoredAs_restored _ _
    · intro q hq
      show plantEntries (applyUmask 0o750 umask) dest [] es fs q = fs q
      apply plantEntries_frame _ dest es [] fs q hwf
      intro n ms _ _ e
      apply hq
      rw [e, List.nil_append]
      exact under_startsWith dest _ hds (by simp)

/-- C2 (amended), for the sample tree unpacked into the empty directory `/d`
under the umask 077: `sub/b.bin` comes back with its three bytes and mode
0750, `sub` comes back as a directory, and nothing is at `sub/x`. -/
theorem pack_unpack_roundtrip_witness :
    sampleTree.wellFormed = true ∧ sampleTree.withinCap = true ∧
    Clean "/d".toList ≠ ['.'] ∧ Clean "/d".toList ≠ ['/'] ∧
    (UnpackArchive 0o077 (PackArchive sampleTree) "/d".toList fsD).err = none ∧
    sampleTree.find (splitSlash "sub/b.bin".toList) = some (.file [0, 255, 7] 0o777) ∧
    restoredAs (sampleTree.find (splitSlash "sub/b.bin".toList))
      ((UnpackArchive 0o077 (PackArchive sampleTree) "/d".toList fsD).fs
        (Clean "/d".toList ++ '/' :: "sub/b.bin".toList)) = true ∧
    restoredAs (sampleTree.find (splitSlash "sub".toList))
      ((UnpackArchive 0o077 (PackArchive sampleTree) "/d".toList fsD).fs
        (Clean "/d".toList ++ '/' :: "sub".toList)) = true ∧
    restoredAs (sampleTree.find (splitSlash "sub/x".toList))
      ((UnpackArchive 0o077 (PackArchive sampleTree) "/d".toList fsD).fs
        (Clean "/d".toList ++ '/' :: "sub/x".toList)) = true :=
  have hc : Clean "/d".toList = "/d".toList := by decide
  have hchain : ∀ q ∈ dirChain "/d".toList, ∃ m, fsD q = some (Node.dir m) := by
    intro q hq
    have hd : dirChain "/d".toList = ["/".toList, "/d".toList] := by decide
    rw [hd] at hq
    rcases List.mem_cons.mp hq with hq | hq
    · exact ⟨0o755, by rw [hq]; rfl⟩
    · rw [List.mem_singleton.mp hq]
      exact ⟨0o755, rfl⟩
  have hempty : ∀ q, (Clean "/d".toList ++ ['/']) <+: q → fsD q = none := by
    intro q hq
    rw [hc] at hq
    obtain ⟨t, rfl⟩ := hq
    simp [fsD, dirsOnly]
  have h := pack_unpack_roundtrip 0o077 sampleTree "/d".toList fsD (by decide) (by decide)
    (by decide) (by decide) hchain hempty
  ⟨by decide, by decide, by decide, by decide, h.1, rfl,
    h.2.1 "sub/b.bin".toList, h.2.1 "sub".toList, h.2.1 "sub/x".toList⟩

/-! ### Helper lemmas: the backtracking matcher -/

theorem matchRe_str (w t : GoString) (c : Caps) (k : GoString → Caps → Option MatchState) :
    matchRe (Re.str w) (w ++ t) c k = k t c := by
  induction w with
  | nil => rfl
  | cons x xs ih =>
    rw [Re.str, matchRe, List.cons_append, matchRe]
    simp only [if_true]
    exact ih

theorem matchRe_str_none (w s : GoString) (c : Caps) (k : GoString → Caps → Option MatchState)
    (h : w.isPrefixOf s = false) : matchRe (Re.str w) s c k = none := by
  induction w generalizing s with
  | nil => simp at h
  | cons x xs ih =>
    rw [Re.str, matchRe]
    cases s with
    | nil => rfl
    | cons y t =>
      rw [matchRe]
      by_cases hy : y = x
      · subst hy
        simp only [if_true]
        apply ih
        simpa [List.isPrefixOf] using h
      · simp [hy]

theorem matchRe_seq (a b : Re) (s : GoString) (c : Caps)
    (k : GoString → Caps → Option MatchState) :
    matchRe (.seq a b) s c k = matchRe a s c (fun s1 c1 => matchRe b s1 c1 k) := by
  rw [matchRe]

theorem matchRe_lit_cons (x y : Char) (t : GoString) (c : Caps)
    (k : GoString → Caps → Option MatchState) :
    matchRe (.lit x) (y :: t) c k = if y = x then k t c else none := by
  rw [matchRe]

theorem matchRe_lit_nil (x : Char) (c : Caps) (k : GoString → Caps → Option MatchState) :
    matchRe (.lit x) [] c k = none := by
  rw [matchRe]

/-- The loop over a character class, when what follows fails at every point
the loop can stop at: the loop fails. -/
theorem starLoop_cls_none (g : Bool) (p : Char → Bool)
    (k : GoString → Caps → Option MatchState) (c : Caps) :
    ∀ (n : Nat) (s : GoString), s.length ≤ n →
    (∀ j, j ≤ (s.takeWhile p).length → k (s.drop j) c = none) →
    starLoop g (matchRe (.cls p)) k n s c = none := by
  intro n
  induction n with
  | zero =>
    intro s _ h
    rw [starLoop]
    exact h 0 (Nat.zero_le _)
  | succ n ih =>
    intro s hn h
    have h0 : k s c = none := h 0 (Nat.zero_le _)
    have hmore : matchRe (.cls p) s c
        (fun s1 c1 => if s1.length < s.length then starLoop g (matchRe (.cls p)) k n s1 c1
          else none) = none := by
      cases s with
      | nil => rw [matchRe]
      | cons y t =>
        rw [matchRe]
        by_cases hy : p y = true
        · simp only [hy, if_true, List.length_cons, Nat.lt_succ_self]
          apply ih t (by simpa using hn)
          intro j hj
          have := h (j + 1) (by simp [List.takeWhile, hy]; exact hj)
          simpa using this
        · simp [hy]
    rw [starLoop]
    simp only [hmore, h0]
    cases g <;> rfl

/-- The loop over a character class, when what follows gives the same
result at every point of the loop where it succeeds, and succeeds at one. -/
theorem starLoop_cls_same (g : Bool) (p : Char → Bool)
    (k : GoString → Caps → Option MatchState) (c : Caps) (r : MatchState) :
    ∀ (n : Nat) (s : GoString), s.length ≤ n →
    (∀ j, j ≤ (s.takeWhile p).length → k (s.drop j) c = none ∨ k (s.drop j) c = some r) →
    (∃ j, j ≤ (s.takeWhile p).length ∧ k (s.drop j) c = some r) →
    starLoop g (matchRe (.cls p)) k n s c = some r := by
  intro n
  induction n with
  | zero =>
    intro s hn _ hex
    have hs : s = [] := List.length_eq_zero.mp (Nat.le_zero.mp hn)
    subst hs
    obtain ⟨j, _, hj⟩ := hex
    rw [starLoop]
    simpa using hj
  | succ n ih =>
    intro s hn hall hex
    rw [starLoop]
    cases s with
    | nil =>
      obtain ⟨j, _, hj⟩ := hex
      have hk : k [] c = some r := by simpa using hj
      have hm : matchRe (.cls p) [] c
          (fun s1 c1 => if s1.length < ([] : GoString).length then
            starLoop g (matchRe (.cls p)) k n s1 c1 else none) = none := by rw [matchRe]
      simp only [hm, hk]
      cases g <;> rfl
    | cons y t =>
      have h0 := hall 0 (Nat.zero_le _)
      simp only [List.drop_zero] at h0
      by_cases hy : p y = true
      · have htw : ((y :: t).takeWhile p).length = (t.takeWhile p).length + 1 := by
          simp [List.takeWhile, hy]
        have hallt : ∀ j, j ≤ (t.takeWhile p).length →
            k (t.drop j) c = none ∨ k (t.drop j) c = some r := by
          intro j hj
          have := hall (j + 1) (by rw [htw]; omega)
          simpa using this
        have hmore : matchRe (.cls p) (y :: t) c
            (fun s1 c1 => if s1.length < (y :: t).length then
              starLoop g (matchRe (.cls p)) k n s1 c1 else none)
            = starLoop g (matchRe (.cls p)) k n t c := by
          rw [matchRe]
          simp [hy]
        rw [hmore]
        by_cases hext : ∃ j, j ≤ (t.takeWhile p).length ∧ k (t.drop j) c = some r
        · rw [ih t (by simpa using hn) hallt hext]
          rcases h0 with h0 | h0 <;> rw [h0] <;> cases g <;> rfl
        · have hnone : starLoop g (matchRe (.cls p)) k n t c = none := by
            apply starLoop_cls_none g p k c n t (by simpa using hn)
            intro j hj
            rcases hallt j hj with h | h
            · exact h
            · exact absurd ⟨j, hj, h⟩ hext
          have hk : k (y :: t) c = some r := by
            obtain ⟨j, hj, hjr⟩ := hex
            cases j with
            | zero => simpa using hjr
            | succ j =>
              exact absurd ⟨j, by rw [htw] at hj; omega, by simpa using hjr⟩ hext
          rw [hnone, hk]
          cases g <;> rfl
      · have hk : k (y :: t) c = some r := by
          obtain ⟨j, hj, hjr⟩ := hex
          have : j = 0 := by
            have : ((y :: t).takeWhile p).length = 0 := by simp [List.takeWhile, hy]
            omega
          subst this
          simpa using hjr
        have hmore : matchRe (.cls p) (y :: t) c
            (fun s1 c1 => if s1.length < (y :: t).length then
              starLoop g (matchRe (.cls p)) k n s1 c1 else none) = none := by
          rw [matchRe]
          simp [hy]
        rw [hmore, hk]
        cases g <;> rfl

/-- The greedy loop over a character class takes the whole run when what
follows succeeds there. -/
theorem starLoop_cls_greedy (p : Char → Bool) (k : GoString → Caps → Option MatchState)
    (c : Caps) (r : MatchState) :
    ∀ (n : Nat) (s : GoString), s.length ≤ n → k (s.dropWhile p) c = some r →
    starLoop true (matchRe (.cls p)) k n s c = some r := by
  intro n
  induction n with
  | zero =>
    intro s hn hk
    have hs : s = [] := List.length_eq_zero.mp (Nat.le_zero.mp hn)
    subst hs
    rw [starLoop]
    simpa using hk
  | succ n ih =>
    intro s hn hk
    rw [starLoop]
    cases s with
    | nil =>
      have hm : matchRe (.cls p) [] c
          (fun s1 c1 => if s1.length < ([] : GoString).length then
            starLoop true (matchRe (.cls p)) k n s1 c1 else none) = none := by rw [matchRe]
      have hk2 : k [] c = some r := by simpa using hk
      simp only [hm, hk2]
      rfl
    | cons y t =>
      by_cases hy : p y = true
      · have hmore : matchRe (.cls p) (y :: t) c
            (fun s1 c1 => if s1.length < (y :: t).length then
              starLoop true (matchRe (.cls p)) k n s1 c1 else none)
            = starLoop true (matchRe (.cls p)) k n t c := by
          rw [matchRe]
          simp [hy]
        have hk2 : k (t.dropWhile p) c = some r := by
          simpa [List.dropWhile, hy] using hk
        rw [hmore, ih t (by simpa using hn) hk2]
        rfl
      · have hmore : matchRe (.cls p) (y :: t) c
            (fun s1 c1 => if s1.length < (y :: t).length then
              starLoop true (matchRe (.cls p)) k n s1 c1 else none) = none := by
          rw [matchRe]
          simp [hy]
        have hk2 : k (y :: t) c = some r := by
          simpa [List.dropWhile, hy] using hk
        rw [hmore, hk2]
        rfl

theorem matchRe_star (g : Bool) (a : Re) (s : GoString) (c : Caps)
    (k : GoString → Caps → Option MatchState) :
    matchRe (.star g a) s c k = starLoop g (matchRe a) k s.length s c := by
  rw [matchRe]

/-! ### Helper lemmas: blanks, literals and the address -/

theorem takeWhile_append_dropWhile_eq (p : Char → Bool) (s : GoString) :
    s.takeWhile p ++ s.dropWhile p = s := List.takeWhile_append_dropWhile p s

theorem drop_takeWhile_length (p : Char → Bool) (s : GoString) :
    s.drop (s.takeWhile p).length = s.dropWhile p := by
  induction s with
  | nil => rfl
  | cons y t ih =>
    by_cases hy : p y = true
    · simp [List.takeWhile, List.dropWhile, hy, ih]
    · simp [List.takeWhile, List.dropWhile, hy]

/-- Inside the leading run of a class, the input left starts with a
character of that run. -/
theorem drop_lt_takeWhile (p : Char → Bool) (s : GoString) (j : Nat)
    (hj : j < (s.takeWhile p).length) :
    ∃ y t, s.drop j = y :: t ∧ p y = true ∧ y ∈ s.takeWhile p := by
  induction s generalizing j with
  | nil => simp at hj
  | cons x t ih =>
    by_cases hx : p x = true
    · cases j with
      | zero => exact ⟨x, t, rfl, hx, by simp [List.takeWhile, hx]⟩
      | succ j =>
        have hj2 : j < (t.takeWhile p).length := by
          simpa [List.takeWhile, hx] using hj
        obtain ⟨y, u, h1, h2, h3⟩ := ih j hj2
        refine ⟨y, u, by simpa using h1, h2, ?_⟩
        rw [List.takeWhile_cons_of_pos hx]
        exact List.mem_cons_of_mem _ h3
    · simp [List.takeWhile, hx] at hj

/-- After the leading run of a class, the input left does not start with a
character of the class. -/
theorem dropWhile_head (p : Char → Bool) (s : GoString) (y : Char) (t : GoString)
    (h : s.dropWhile p = y :: t) : p y = false := by
  induction s with
  | nil => simp at h
  | cons x u ih =>
    by_cases hx : p x = true
    · rw [List.dropWhile_cons_of_pos hx] at h
      exact ih h
    · rw [List.dropWhile_cons_of_neg hx] at h
      simp only [List.cons.injEq] at h
      rw [← h.1]
      simpa using hx

/-- The pattern `\s*` before something that cannot start with a blank. -/
theorem matchRe_spaces (s : GoString) (c : Caps) (k : GoString → Caps → Option MatchState)
    (hk : ∀ y t, isSpace y = true → k (y :: t) c = none) :
    matchRe reSpaces s c k = k (s.dropWhile isSpace) c := by
  rw [reSpaces, matchRe_star]
  cases hr : k (s.dropWhile isSpace) c with
  | some r => exact starLoop_cls_greedy isSpace k c r _ s (Nat.le_refl _) hr
  | none =>
    apply starLoop_cls_none true isSpace k c _ s (Nat.le_refl _)
    intro j hj
    rcases Nat.lt_or_eq_of_le hj with hlt | heq
    · obtain ⟨y, t, hyt, hy, _⟩ := drop_lt_takeWhile isSpace s j hlt
      rw [hyt]
      exact hk y t hy
    · rw [heq, drop_takeWhile_length]
      exact hr

/-- The pattern `\s+` before something that cannot start with a blank. -/
theorem matchRe_spaces1 (s : GoString) (c : Caps) (k : GoString → Caps → Option MatchState)
    (hk : ∀ y t, isSpace y = true → k (y :: t) c = none) :
    matchRe reSpaces1 s c k =
      if s.takeWhile isSpace = [] then none else k (s.dropWhile isSpace) c := by
  rw [reSpaces1, Re.plus, matchRe_seq]
  cases s with
  | nil =>
    rw [matchRe]
    rfl
  | cons y t =>
    rw [matchRe]
    by_cases hy : isSpace y = true
    · have h1 : (y :: t).takeWhile isSpace ≠ [] := by simp [List.takeWhile, hy]
      have h2 : (y :: t).dropWhile isSpace = t.dropWhile isSpace := by
        simp [List.dropWhile, hy]
      simp only [hy, if_true, h1, if_false, h2]
      exact matchRe_spaces t c k hk
    · have h1 : (y :: t).takeWhile isSpace = [] := by simp [List.takeWhile, hy]
      simp [hy, h1]

/-- The pattern `\s*\n` at the end of a line, when the blanks that follow
the newline hold no newline. -/
theorem matchRe_spaces_newline (s : GoString) (c : Caps)
    (k : GoString → Caps → Option MatchState)
    (hs : ∀ ch ∈ s.takeWhile isSpace, ch ≠ '\n') :
    matchRe reSpaces ('\n' :: s) c (fun s1 c1 => matchRe (.lit '\n') s1 c1 k) = k s c := by
  have hnl : isSpace '\n' = true := by decide
  have hfail : ∀ j, 1 ≤ j → j ≤ (('\n' :: s).takeWhile isSpace).length →
      matchRe (.lit '\n') (('\n' :: s).drop j) c k = none := by
    intro j h1 hj
    obtain ⟨i, rfl⟩ : ∃ i, j = i + 1 := ⟨j - 1, by omega⟩
    have hi : i ≤ (s.takeWhile isSpace).length := by
      simpa [List.takeWhile, hnl] using hj
    rw [List.drop_succ_cons]
    rcases Nat.lt_or_eq_of_le hi with hlt | heq
    · obtain ⟨y, t, hyt, _, hy⟩ := drop_lt_takeWhile isSpace s i hlt
      rw [hyt, matchRe_lit_cons, if_neg (hs y hy)]
    · rw [heq, drop_takeWhile_length]
      cases hd : s.dropWhile isSpace with
      | nil => rw [matchRe_lit_nil]
      | cons y t =>
        have := dropWhile_head isSpace s y t hd
        have hne : y ≠ '\n' := by
          intro e
          rw [e, hnl] at this
          exact absurd this (by simp)
        rw [matchRe_lit_cons, if_neg hne]
  rw [reSpaces, matchRe_star]
  have h0 : matchRe (.lit '\n') ('\n' :: s) c k = k s c := by
    rw [matchRe_lit_cons, if_pos rfl]
  cases hr : k s c with
  | none =>
    apply starLoop_cls_none true isSpace _ c _ _ (Nat.le_refl _)
    intro j hj
    cases j with
    | zero => simp only [List.drop_zero]; rw [h0, hr]
    | succ j => exact hfail (j + 1) (by omega) hj
  | some r =>
    apply starLoop_cls_same true isSpace _ c r _ _ (Nat.le_refl _)
    · intro j hj
      cases j with
      | zero => right; simp only [List.drop_zero]; rw [h0, hr]
      | succ j => left; exact hfail (j + 1) (by omega) hj
    · exact ⟨0, Nat.zero_le _, by simp only [List.drop_zero]; rw [h0, hr]⟩

/-! ### Helper lemmas: the pattern of `replaceStaticTarget` -/

theorem isSpace_ne_dash (y : Char) (h : isSpace y = true) : y ≠ '-' := by
  intro e
  rw [e] at h
  exact absurd h (by decide)

/-- A literal that starts with `-` fails on an input that starts with a
blank. -/
theorem matchRe_dash_fails (w : GoString) (y : Char) (t : GoString) (c : Caps)
    (k : GoString → Caps → Option MatchState) (hy : isSpace y = true) :
    matchRe (Re.str ('-' :: w)) (y :: t) c k = none := by
  rw [Re.str, matchRe_seq, matchRe_lit_cons, if_neg (isSpace_ne_dash y hy)]

theorem dropWhile_all_append (p : Char → Bool) (w x : GoString) (hw : w.all p = true)
    (hx : x.takeWhile p = []) : (w ++ x).dropWhile p = x := by
  induction w with
  | nil =>
    have := takeWhile_append_dropWhile_eq p x
    rw [hx] at this
    simpa using this
  | cons y t ih =>
    simp only [List.all_cons, Bool.and_eq_true] at hw
    rw [List.cons_append, List.dropWhile_cons_of_pos hw.1]
    exact ih hw.2

theorem takeWhile_all_append (p : Char → Bool) (w x : GoString) (hw : w.all p = true)
    (hx : x.takeWhile p = []) : (w ++ x).takeWhile p = w := by
  induction w with
  | nil => simpa using hx
  | cons y t ih =>
    simp only [List.all_cons, Bool.and_eq_true] at hw
    rw [List.cons_append, List.takeWhile_cons_of_pos hw.1, ih hw.2]

theorem isIndent_iff (w : GoString) :
    isIndent w = true ↔ w ≠ [] ∧ w.all isSpace = true ∧ ∀ ch ∈ w, ch ≠ '\n' := by
  unfold isIndent
  simp only [Bool.and_eq_true, decide_eq_true_eq, List.all_eq_true, bne_iff_ne, ne_eq]
  constructor
  · rintro ⟨h1, h2⟩
    exact ⟨h1, fun x hx => (h2 x hx).1, fun x hx => (h2 x hx).2⟩
  · rintro ⟨h1, h2, h3⟩
    exact ⟨h1, fun x hx => ⟨h2 x hx, h3 x hx⟩⟩

/-- The second group on an address followed by a blank or by nothing: the
whole address. -/
theorem matchRe_address (old post : GoString) (c : Caps)
    (hold : isAddress old = true) (hpost : post.takeWhile notSpace = []) :
    matchRe reAddress (old ++ post) c (fun s1 c1 => some (s1, c1))
      = some (post, (2, (old ++ post, post)) :: c) := by
  unfold isAddress at hold
  simp only [Bool.and_eq_true, decide_eq_true_eq] at hold
  obtain ⟨hne, hall⟩ := hold
  cases old with
  | nil => exact absurd rfl hne
  | cons y t =>
    simp only [List.all_cons, Bool.and_eq_true] at hall
    rw [reAddress, matchRe, Re.plus, matchRe_seq, List.cons_append, matchRe]
    simp only [hall.1, if_true]
    rw [matchRe_star]
    apply starLoop_cls_greedy notSpace _ c _ _ _ (Nat.le_refl _)
    rw [dropWhile_all_append notSpace t post hall.2 hpost]

/-- The end of the first group, `\s+- targets:\s*\n\s+- `, on a target list
written after an indentation with its first item on the next line. -/
theorem matchRe_targetsHead (ind1 ind2 rest : GoString) (c : Caps)
    (k : GoString → Caps → Option MatchState)
    (h1 : isIndent ind1 = true) (h2 : isIndent ind2 = true) :
    matchRe reTargetsHead
      (ind1 ++ ("- targets:".toList ++ '\n' :: (ind2 ++ ("- ".toList ++ rest)))) c k
      = k rest c := by
  obtain ⟨hne1, hall1, _⟩ := (isIndent_iff ind1).mp h1
  obtain ⟨hne2, hall2, hnl2⟩ := (isIndent_iff ind2).mp h2
  have hd1 : ∀ (x : GoString), ("- targets:".toList ++ x).takeWhile isSpace = [] :=
    fun _ => rfl
  have hd2 : ∀ (x : GoString), ("- ".toList ++ x).takeWhile isSpace = [] :=
    fun _ => rfl
  unfold reTargetsHead
  simp only [matchRe_seq]
  rw [matchRe_spaces1 _ _ _ (fun y t hy => matchRe_dash_fails _ y t c _ hy)]
  rw [takeWhile_all_append isSpace ind1 _ hall1 (hd1 _),
    dropWhile_all_append isSpace ind1 _ hall1 (hd1 _), if_neg hne1, matchRe_str]
  rw [matchRe_spaces_newline]
  · rw [matchRe_spaces1 _ _ _ (fun y t hy => matchRe_dash_fails _ y t c _ hy)]
    rw [takeWhile_all_append isSpace ind2 _ hall2 (hd2 _),
      dropWhile_all_append isSpace ind2 _ hall2 (hd2 _), if_neg hne2, matchRe_str]
  · intro ch hch
    rw [takeWhile_all_append isSpace ind2 _ hall2 (hd2 _)] at hch
    exact hnl2 ch hch

/-- The end of the first group fails where no target list starts. -/
theorem matchRe_targetsHead_none (s : GoString) (c : Caps)
    (k : GoString → Caps → Option MatchState)
    (h : "- targets:".toList.isPrefixOf (s.dropWhile isSpace) = false) :
    matchRe reTargetsHead s c k = none := by
  unfold reTargetsHead
  simp only [matchRe_seq]
  rw [matchRe_spaces1 _ _ _ (fun y t hy => matchRe_dash_fails _ y t c _ hy)]
  split
  · rfl
  · exact matchRe_str_none _ _ _ _ h

theorem isPrefixOf_append_newline (w a b : GoString) (hw : '\n' ∉ w)
    (h : w.isPrefixOf (a ++ '\n' :: b) = true) : w.isPrefixOf a = true := by
  induction w generalizing a with
  | nil => simp
  | cons x xs ih =>
    cases a with
    | nil =>
      simp only [List.nil_append, List.isPrefixOf, Bool.and_eq_true, beq_iff_eq] at h
      exact absurd (by rw [h.1]; simp) hw
    | cons y a2 =>
      simp only [List.cons_append, List.isPrefixOf, Bool.and_eq_true, beq_iff_eq] at h ⊢
      exact ⟨h.1, ih a2 (fun hm => hw (List.mem_cons_of_mem _ hm)) h.2⟩

theorem dropWhile_append_of_ne (p : Char → Bool) (l x : GoString)
    (h : l.dropWhile p ≠ []) : (l ++ x).dropWhile p = l.dropWhile p ++ x := by
  induction l with
  | nil => simp at h
  | cons y t ih =>
    by_cases hy : p y = true
    · rw [List.cons_append, List.dropWhile_cons_of_pos hy, List.dropWhile_cons_of_pos hy]
      rw [List.dropWhile_cons_of_pos hy] at h
      exact ih h
    · rw [List.cons_append, List.dropWhile_cons_of_neg hy, List.dropWhile_cons_of_neg hy]
      rfl

theorem takeWhile_append_of_ne (p : Char → Bool) (l x : GoString)
    (h : l.dropWhile p ≠ []) : (l ++ x).takeWhile p = l.takeWhile p := by
  induction l with
  | nil => simp at h
  | cons y t ih =>
    by_cases hy : p y = true
    · rw [List.cons_append, List.takeWhile_cons_of_pos hy, List.takeWhile_cons_of_pos hy]
      rw [List.dropWhile_cons_of_pos hy] at h
      rw [ih h]
    · rw [List.cons_append, List.takeWhile_cons_of_neg hy, List.takeWhile_cons_of_neg hy]

theorem plainLine_iff (l : GoString) :
    plainLine l = true ↔ '\n' ∉ l ∧ l.dropWhile isSpace ≠ [] ∧
      "- targets:".toList.isPrefixOf (l.dropWhile isSpace) = false := by
  unfold plainLine
  simp [and_assoc]

/-- At the start of a plain line no target list starts. -/
theorem targetsHead_plainLine (l rest : GoString) (c : Caps)
    (k : GoString → Caps → Option MatchState) (hl : plainLine l = true) :
    matchRe reTargetsHead (l ++ '\n' :: rest) c k = none := by
  obtain ⟨_, h2, h3⟩ := (plainLine_iff l).mp hl
  apply matchRe_targetsHead_none
  rw [dropWhile_append_of_ne isSpace l _ h2]
  cases hp : "- targets:".toList.isPrefixOf (l.dropWhile isSpace ++ '\n' :: rest) with
  | false => rfl
  | true =>
    have := isPrefixOf_append_newline _ _ _ (by decide) hp
    rw [h3] at this
    exact absurd this (by simp)

theorem takeWhile_notNewline_line (l rest : GoString) (hl : '\n' ∉ l) :
    (l ++ '\n' :: rest).takeWhile notNewline = l ∧
    (l ++ '\n' :: rest).drop l.length = '\n' :: rest := by
  constructor
  · apply takeWhile_all_append
    · rw [List.all_eq_true]
      intro x hx
      have : x ≠ '\n' := fun e => hl (e ▸ hx)
      simpa [notNewline] using this
    · rw [List.takeWhile_cons_of_neg (by decide)]
  · simp

/-- The pattern `.*\n` takes exactly one line. -/
theorem matchRe_line (l rest : GoString) (c : Caps)
    (k : GoString → Caps → Option MatchState) (hl : '\n' ∉ l) :
    matchRe reLine (l ++ '\n' :: rest) c k = k rest c := by
  obtain ⟨htw, hdrop⟩ := takeWhile_notNewline_line l rest hl
  have hend : matchRe (.lit '\n') ((l ++ '\n' :: rest).drop l.length) c k = k rest c := by
    rw [hdrop, matchRe_lit_cons, if_pos rfl]
  have hbefore : ∀ j, j < l.length →
      matchRe (.lit '\n') ((l ++ '\n' :: rest).drop j) c k = none := by
    intro j hj
    obtain ⟨y, t, hyt, hy, _⟩ :=
      drop_lt_takeWhile notNewline (l ++ '\n' :: rest) j (by rw [htw]; exact hj)
    have hne : y ≠ '\n' := by simpa [notNewline] using hy
    rw [hyt, matchRe_lit_cons, if_neg hne]
  rw [reLine, matchRe_seq, matchRe_star]
  cases hr : k rest c with
  | none =>
    apply starLoop_cls_none true notNewline _ c _ _ (Nat.le_refl _)
    intro j hj
    rw [htw] at hj
    rcases Nat.lt_or_eq_of_le hj with hlt | heq
    · exact hbefore j hlt
    · rw [heq, hend, hr]
  | some r =>
    apply starLoop_cls_same true notNewline _ c r _ _ (Nat.le_refl _)
    · intro j hj
      rw [htw] at hj
      rcases Nat.lt_or_eq_of_le hj with hlt | heq
      · left; exact hbefore j hlt
      · right; rw [heq, hend, hr]
    · exact ⟨l.length, by rw [htw], by rw [hend, hr]⟩

/-- The lazy loop `(?:.*\n)*?` over plain lines, before a place where the
end of the first group matches: the lines are skipped one by one. -/
theorem starLoop_lazyLines (tail : GoString) (c : Caps)
    (k : GoString → Caps → Option MatchState) (r : MatchState)
    (htail : matchRe reTargetsHead tail c k = some r) :
    ∀ (lines : List GoString), lines.all plainLine = true →
    ∀ n, (unlines lines ++ tail).length ≤ n →
    starLoop false (matchRe reLine) (fun s1 c1 => matchRe reTargetsHead s1 c1 k) n
      (unlines lines ++ tail) c = some r := by
  intro lines
  induction lines with
  | nil =>
    intro _ n _
    rw [unlines, List.nil_append]
    cases n with
    | zero => rw [starLoop]; exact htail
    | succ n =>
      rw [starLoop]
      simp only [htail]
      rfl
  | cons l ls ih =>
    intro hall n hn
    simp only [List.all_cons, Bool.and_eq_true] at hall
    obtain ⟨hl, hls⟩ := hall
    have hnl : '\n' ∉ l := ((plainLine_iff l).mp hl).1
    have hs : unlines (l :: ls) ++ tail = l ++ '\n' :: (unlines ls ++ tail) := by
      simp [unlines]
    rw [hs] at hn ⊢
    cases n with
    | zero => simp at hn
    | succ n =>
      rw [starLoop]
      simp only [targetsHead_plainLine l _ c k hl]
      rw [matchRe_line l _ c _ hnl]
      have hlen : (unlines ls ++ tail).length < (l ++ '\n' :: (unlines ls ++ tail)).length := by
        simp only [List.length_append, List.length_cons]
        omega
      have hn2 : (unlines ls ++ tail).length ≤ n := by
        simp only [List.length_append, List.length_cons] at hn ⊢
        omega
      rw [if_pos hlen, ih hls n hn2]
      rfl

theorem matchRe_opt (a : Re) (s : GoString) (c : Caps)
    (k : GoString → Caps → Option MatchState) :
    matchRe (.opt a) s c k = (matchRe a s c k).or (k s c) := by
  rw [matchRe]

theorem matchRe_group (n : Nat) (a : Re) (s : GoString) (c : Caps)
    (k : GoString → Caps → Option MatchState) :
    matchRe (.group n a) s c k = matchRe a s c (fun s1 c1 => k s1 ((n, (s, s1)) :: c1)) := by
  rw [matchRe]

/-- The pattern `\s*\n` fails on an input that starts with neither a blank
nor a newline. -/
theorem matchRe_spaces_newline_none (y : Char) (t : GoString) (c : Caps)
    (k : GoString → Caps → Option MatchState) (hy : isSpace y = false) :
    matchRe reSpaces (y :: t) c (fun s1 c1 => matchRe (.lit '\n') s1 c1 k) = none := by
  rw [reSpaces, matchRe_star]
  apply starLoop_cls_none true isSpace _ c _ _ (Nat.le_refl _)
  intro j hj
  have htw : ((y :: t).takeWhile isSpace).length = 0 := by
    simp [List.takeWhile, hy]
  have hj0 : j = 0 := by omega
  subst hj0
  have hne : y ≠ '\n' := by
    intro e
    rw [e] at hy
    exact absurd hy (by decide)
  rw [List.drop_zero, matchRe_lit_cons, if_neg hne]

/-- The text after the job line starts with blanks that hold no newline. -/
theorem blockBody_indent (lines : List GoString) (ind1 x : GoString)
    (hlines : lines.all plainLine = true) (h1 : isIndent ind1 = true)
    (hx : x.takeWhile isSpace = []) :
    ∀ ch ∈ (unlines lines ++ (ind1 ++ x)).takeWhile isSpace, ch ≠ '\n' := by
  obtain ⟨_, hall1, hnl1⟩ := (isIndent_iff ind1).mp h1
  cases lines with
  | nil =>
    intro ch hch
    rw [unlines, List.nil_append, takeWhile_all_append isSpace ind1 x hall1 hx] at hch
    exact hnl1 ch hch
  | cons l ls =>
    simp only [List.all_cons, Bool.and_eq_true] at hlines
    obtain ⟨hnl, hne, _⟩ := (plainLine_iff l).mp hlines.1
    intro ch hch
    have hs : unlines (l :: ls) ++ (ind1 ++ x) = l ++ ('\n' :: (unlines ls ++ (ind1 ++ x))) := by
      simp [unlines]
    rw [hs, takeWhile_append_of_ne isSpace l _ hne] at hch
    intro e
    exact hnl (e ▸ (List.takeWhile_prefix isSpace).subset hch)

/-- The part of the pattern after the job name, on the rest of the job line
and the block up to the address. -/
theorem matchRe_jobTail (q2 : Bool) (lines : List GoString) (ind1 ind2 rest : GoString)
    (c : Caps) (k : GoString → Caps → Option MatchState) (r : MatchState)
    (hlines : lines.all plainLine = true) (h1 : isIndent ind1 = true)
    (h2 : isIndent ind2 = true) (hk : k rest c = some r) :
    matchRe (.opt (.lit '\''))
      (quoteText q2 ++ '\n' :: (unlines lines ++ (ind1 ++ ("- targets:".toList ++
        '\n' :: (ind2 ++ ("- ".toList ++ rest)))))) c
      (fun s1 c1 => matchRe reSpaces s1 c1 (fun s2 c2 => matchRe (.lit '\n') s2 c2
        (fun s3 c3 => matchRe reLazyLines s3 c3
          (fun s4 c4 => matchRe reTargetsHead s4 c4 k)))) = some r := by
  have hbody : matchRe reSpaces
      ('\n' :: (unlines lines ++ (ind1 ++ ("- targets:".toList ++
        '\n' :: (ind2 ++ ("- ".toList ++ rest)))))) c
      (fun s2 c2 => matchRe (.lit '\n') s2 c2
        (fun s3 c3 => matchRe reLazyLines s3 c3
          (fun s4 c4 => matchRe reTargetsHead s4 c4 k))) = some r := by
    rw [matchRe_spaces_newline _ _ _ (blockBody_indent lines ind1
        ("- targets:".toList ++ '\n' :: (ind2 ++ ("- ".toList ++ rest))) hlines h1 rfl),
      reLazyLines, matchRe_star]
    apply starLoop_lazyLines _ c k r _ lines hlines _ (Nat.le_refl _)
    rw [matchRe_targetsHead ind1 ind2 rest c k h1 h2]
    exact hk
  rw [matchRe_opt]
  cases q2 with
  | false =>
    have hq : quoteText false = [] := rfl
    rw [hq, List.nil_append, matchRe_lit_cons, if_neg (by decide), hbody]
    rfl
  | true =>
    have hq : ∀ x : GoString, quoteText true ++ x = '\'' :: x := fun _ => rfl
    rw [hq, matchRe_lit_cons, if_pos rfl, hbody]
    rfl

theorem grafana_not_start (y : Char) (t : GoString) (hy : y ≠ 'g') :
    "grafana".toList.isPrefixOf (y :: t) = false := by
  have : "grafana".toList = 'g' :: "rafana".toList := rfl
  rw [this, List.isPrefixOf]
  simp [Ne.symm hy]

/-- What follows the declaration `- job_name:` and its blanks in the
pattern fails on an input that starts with a blank. -/
theorem matchRe_quotedName_space (y : Char) (t : GoString) (c : Caps)
    (k : GoString → Caps → Option MatchState) (hy : isSpace y = true) :
    matchRe (.opt (.lit '\'')) (y :: t) c
      (fun s1 c1 => matchRe (Re.str "grafana".toList) s1 c1 k) = none := by
  have h1 : y ≠ '\'' := by
    intro e; rw [e] at hy; exact absurd hy (by decide)
  have h2 : y ≠ 'g' := by
    intro e; rw [e] at hy; exact absurd hy (by decide)
  rw [matchRe_opt, matchRe_lit_cons, if_neg h1,
    matchRe_str_none _ _ _ _ (grafana_not_start y t h2)]
  rfl

/-- The optional quote and the name, on the name written bare or after a
single quote. -/
theorem matchRe_quotedName (q1 : Bool) (x : GoString) (c : Caps)
    (k : GoString → Caps → Option MatchState) :
    matchRe (.opt (.lit '\'')) (quoteText q1 ++ ("grafana".toList ++ x)) c
      (fun s1 c1 => matchRe (Re.str "grafana".toList) s1 c1 k) = k x c := by
  rw [matchRe_opt]
  cases q1 with
  | false =>
    have hq : quoteText false ++ ("grafana".toList ++ x)
        = 'g' :: ("rafana".toList ++ x) := rfl
    rw [hq, matchRe_lit_cons, if_neg (by decide)]
    have hq2 : 'g' :: ("rafana".toList ++ x) = "grafana".toList ++ x := rfl
    rw [hq2, matchRe_str]
    rfl
  | true =>
    have hq : quoteText true ++ ("grafana".toList ++ x)
        = '\'' :: ("grafana".toList ++ x) := rfl
    rw [hq, matchRe_lit_cons, if_pos rfl, matchRe_str,
      matchRe_str_none _ _ _ _ (grafana_not_start '\'' _ (by decide))]
    exact Option.or_none

theorem jobBlockHead_append (sp : GoString) (q1 q2 : Bool) (lines : List GoString)
    (ind1 ind2 x : GoString) :
    jobBlockHead sp q1 q2 lines ind1 ind2 ++ x =
      "- job_name:".toList ++ (sp ++ (quoteText q1 ++ ("grafana".toList ++ (quoteText q2 ++
        '\n' :: (unlines lines ++ (ind1 ++ ("- targets:".toList ++
          '\n' :: (ind2 ++ ("- ".toList ++ x))))))))) := by
  simp only [jobBlockHead, List.append_assoc, List.cons_append]

theorem quoted_takeWhile (q1 : Bool) (x : GoString) :
    (quoteText q1 ++ ("grafana".toList ++ x)).takeWhile isSpace = [] := by
  cases q1 <;> rfl

/-- The pattern of `replaceStaticTarget` matches the block of job `grafana`
from its declaration to the end of its target address; the first submatch is
the block up to the address, the second the address. -/
theorem matchHere_jobBlock (sp : GoString) (q1 q2 : Bool) (lines : List GoString)
    (ind1 ind2 old post : GoString)
    (hsp : sp.all isSpace = true) (hlines : lines.all plainLine = true)
    (h1 : isIndent ind1 = true) (h2 : isIndent ind2 = true)
    (hold : isAddress old = true) (hpost : post.takeWhile notSpace = []) :
    matchHere (jobRe "grafana".toList) (jobBlockHead sp q1 q2 lines ind1 ind2 ++ (old ++ post))
      = some (post, [(2, (old ++ post, post)),
          (1, (jobBlockHead sp q1 q2 lines ind1 ind2 ++ (old ++ post), old ++ post))]) := by
  unfold matchHere jobRe
  rw [matchRe_seq, matchRe_group]
  simp only [matchRe_seq]
  rw [jobBlockHead_append, matchRe_str]
  rw [matchRe_spaces _ _ _ (fun y t hy => matchRe_quotedName_space y t _ _ hy)]
  rw [dropWhile_all_append isSpace sp _ hsp (quoted_takeWhile q1 _), matchRe_quotedName]
  apply matchRe_jobTail q2 lines ind1 ind2 (old ++ post) [] _ _ hlines h1 h2
  exact matchRe_address old post _ hold hpost

theorem isPrefixOf_split (w s : GoString) (h : w.isPrefixOf s = true) :
    s = w ++ s.drop w.length := by
  obtain ⟨t, ht⟩ := List.isPrefixOf_iff_prefix.mp h
  rw [← ht]
  simp

/-- The pattern `\s*\n` fails where the blanks a text starts with hold no
newline. -/
theorem matchRe_spaces_newline_fails (w : GoString) (c : Caps)
    (k : GoString → Caps → Option MatchState) (h : endsLine w = false) :
    matchRe reSpaces w c (fun s1 c1 => matchRe (.lit '\n') s1 c1 k) = none := by
  have hno : ∀ y ∈ w.takeWhile isSpace, y ≠ '\n' := by
    intro y hy e
    rw [e] at hy
    unfold endsLine at h
    have h2 : (List.takeWhile isSpace w).contains '\n' = true :=
      List.elem_eq_true_of_mem hy
    rw [h] at h2
    exact absurd h2 (by simp)
  rw [reSpaces, matchRe_star]
  apply starLoop_cls_none true isSpace _ c _ _ (Nat.le_refl _)
  intro j hj
  rcases Nat.lt_or_eq_of_le hj with hlt | heq
  · obtain ⟨y, t, hyt, _, hy⟩ := drop_lt_takeWhile isSpace w j hlt
    rw [hyt, matchRe_lit_cons, if_neg (hno y hy)]
  · rw [heq, drop_takeWhile_length]
    cases hd : w.dropWhile isSpace with
    | nil => rw [matchRe_lit_nil]
    | cons y t =>
      have hy := dropWhile_head isSpace w y t hd
      have hne : y ≠ '\n' := by
        intro e
        rw [e] at hy
        exact absurd hy (by decide)
      rw [matchRe_lit_cons, if_neg hne]

/-- The name and what the pattern wants after it fail where the name is not
followed by an optional single quote, blanks and a newline. -/
theorem matchRe_name_fails (v : GoString) (c : Caps)
    (k : GoString → Caps → Option MatchState)
    (h : nameEndsLine "grafana".toList v = false) :
    matchRe (Re.str "grafana".toList) v c
      (fun s1 c1 => matchRe (.opt (.lit '\'')) s1 c1
        (fun s2 c2 => matchRe reSpaces s2 c2
          (fun s3 c3 => matchRe (.lit '\n') s3 c3 k))) = none := by
  cases hp : "grafana".toList.isPrefixOf v with
  | false => exact matchRe_str_none _ _ _ _ hp
  | true =>
    have hs := isPrefixOf_split _ v hp
    unfold nameEndsLine at h
    rw [hp, Bool.true_and, Bool.or_eq_false_iff] at h
    obtain ⟨hbare, hquoted⟩ := h
    rw [hs, matchRe_str, matchRe_opt, matchRe_spaces_newline_fails _ _ _ hbare]
    cases hu : v.drop "grafana".toList.length with
    | nil =>
      rw [matchRe_lit_nil]
      rfl
    | cons y t =>
      rw [hu] at hquoted
      rw [matchRe_lit_cons]
      by_cases hy : y = '\''
      · subst hy
        rw [if_pos rfl, matchRe_spaces_newline_fails _ _ _ hquoted]
        rfl
      · rw [if_neg hy]
        rfl

/-- Where no declaration of job `grafana` starts, the pattern does not
match. -/
theorem matchHere_not_declared (s : GoString)
    (h : declaresJob "grafana".toList s = false) :
    matchHere (jobRe "grafana".toList) s = none := by
  unfold matchHere jobRe
  rw [matchRe_seq, matchRe_group]
  simp only [matchRe_seq]
  cases hp : "- job_name:".toList.isPrefixOf s with
  | false => exact matchRe_str_none _ _ _ _ hp
  | true =>
    have hs := isPrefixOf_split _ s hp
    have hlen : "- job_name:".toList.length = 11 := rfl
    rw [hlen] at hs
    unfold declaresJob at h
    rw [hp, Bool.true_and, Bool.or_eq_false_iff] at h
    obtain ⟨hbare, hquoted⟩ := h
    rw [hs, matchRe_str,
      matchRe_spaces _ _ _ (fun y t hy => matchRe_quotedName_space y t _ _ hy),
      matchRe_opt, matchRe_name_fails _ _ _ hbare]
    cases hu : (s.drop 11).dropWhile isSpace with
    | nil =>
      rw [matchRe_lit_nil]
      rfl
    | cons y v =>
      rw [hu] at hquoted
      rw [matchRe_lit_cons]
      by_cases hy : y = '\''
      · subst hy
        rw [if_pos rfl, matchRe_name_fails _ _ _ hquoted]
        rfl
      · rw [if_neg hy]
        rfl

theorem all_blockLine_plain (col : Nat) (lines : List GoString)
    (h : lines.all (blockLine col) = true) : lines.all plainLine = true := by
  rw [List.all_eq_true] at *
  intro l hl
  have := h l hl
  unfold blockLine at this
  rw [Bool.and_eq_true] at this
  exact this.1

/-- The leftmost match is found after a text in which the pattern matches
nowhere. -/
theorem findMatch_after (re : Re) (s : GoString) (r : MatchState)
    (hr : matchHere re s = some r) :
    ∀ pre : GoString, (∀ i, i < pre.length → matchHere re ((pre ++ s).drop i) = none) →
    findMatch re (pre ++ s) = some (pre, s, r.1, r.2) := by
  intro pre
  induction pre with
  | nil =>
    intro _
    rw [List.nil_append]
    cases s with
    | nil =>
      rw [findMatch, hr]
      rfl
    | cons x t =>
      rw [findMatch, hr]
  | cons p ps ih =>
    intro h
    have h0 : matchHere re (p :: (ps ++ s)) = none := h 0 (by simp)
    have hrest : ∀ i, i < ps.length → matchHere re ((ps ++ s).drop i) = none := by
      intro i hi
      have := h (i + 1) (by simp; omega)
      simpa using this
    rw [List.cons_append, findMatch, h0, ih hrest]
    rfl

/-- No match is found in a text in which the pattern matches nowhere. -/
theorem findMatch_none (re : Re) :
    ∀ s : GoString, (∀ i, i ≤ s.length → matchHere re (s.drop i) = none) →
    findMatch re s = none := by
  intro s
  induction s with
  | nil =>
    intro h
    have h0 := h 0 (Nat.le_refl _)
    rw [findMatch]
    simp only [List.drop_zero] at h0
    rw [h0]
    rfl
  | cons x t ih =>
    intro h
    have h0 : matchHere re (x :: t) = none := h 0 (Nat.zero_le _)
    have hrest : ∀ i, i ≤ t.length → matchHere re (t.drop i) = none := by
      intro i hi
      have := h (i + 1) (by simp; omega)
      simpa using this
    rw [findMatch, h0, ih hrest]
    rfl

theorem replaceLoop_none (re : Re) (template s : GoString) (n : Nat)
    (h : findMatch re s = none) : replaceLoop re template n s = s := by
  cases n with
  | zero => rfl
  | succ n => rw [replaceLoop, h]

/-- A template without `$` is copied as it is. -/
theorem expand_noDollar (caps : Caps) : ∀ (n : Nat) (t : GoString), '$' ∉ t →
    expand caps n t = t := by
  intro n
  induction n with
  | zero => intro t _; cases t <;> rfl
  | succ n ih =>
    intro t ht
    cases t with
    | nil => rfl
    | cons ch t2 =>
      have hc : ch ≠ '$' := fun e => ht (by rw [e]; simp)
      have hstep : expand caps (n + 1) (ch :: t2) = ch :: expand caps n t2 := by
        simp only [expand, ne_eq, hc, not_false_eq_true, if_true]
      rw [hstep, ih t2 (fun hm => ht (List.mem_cons_of_mem _ hm))]

theorem textBetween_append (a b : GoString) : textBetween (a ++ b) b = a := by
  unfold textBetween
  rw [List.length_append, Nat.add_sub_cancel]
  exact List.take_left' rfl

/-- The template `${1}` followed by a text without `$`: the first submatch,
then the text. -/
theorem expand_group1 (caps : Caps) (new : GoString) (hnew : '$' ∉ new) :
    expand caps (("${1}".toList ++ new).length + 1) ("${1}".toList ++ new)
      = groupText caps 1 ++ new := by
  have hlen : ("${1}".toList ++ new).length + 1 = (new.length + 4) + 1 := by
    simp [List.length_append]
  have hstep : expand caps ((new.length + 4) + 1) ("${1}".toList ++ new)
      = groupText caps 1 ++ expand caps (new.length + 4) new := rfl
  rw [hlen, hstep, expand_noDollar caps _ new hnew]

/-! ### Config rewriting: claims -/

set_option maxRecDepth 100000 in
/-- C10 (refuted as stated): a configuration that holds the job `grafana`
with the one static target `old:3000`, its name written in double quotes,
comes back unchanged: the target address does not become `new:3000`. -/
theorem replaceStaticTarget_double_quoted_unchanged :
    replaceStaticTarget doubleQuotedConfig "grafana".toList "new:3000".toList
      = doubleQuotedConfig := by
  decide

/-- C10 (amended): when the declaration of job `grafana` stands on its line
after spaces only, written as `- job_name:`, blanks, the name bare or in
single quotes and a newline; when it is followed by lines of its own block,
each indented deeper than its dash, none blank and none the start of a
target list, and then, indented deeper than its dash, by `- targets:` and on
the next line, indented deeper still, by `- ` and the address; when no such
declaration of job `grafana` stands before this one or after the address,
and the new target holds no `$`: the result is the input with that address
replaced by the new target, every other character unchanged. A job whose
name only starts with `grafana` may stand anywhere; the declaration of
another job between the declaration and the target list is not a line of the
block. -/
theorem replaceStaticTarget_frame (pre post sp ind1 ind2 old new : GoString) (q1 q2 : Bool)
    (lines : List GoString)
    (hsp : sp.all isSpace = true)
    (hlines : lines.all (blockLine (lastLine pre).length) = true)
    (hins : insideBlock pre ind1 ind2 = true)
    (hold : isAddress old = true) (hpost : post.takeWhile notSpace = [])
    (hnew : '$' ∉ new)
    (hbefore : ∀ i, i < pre.length → declaresJob "grafana".toList
      ((pre ++ (jobBlockHead sp q1 q2 lines ind1 ind2 ++ (old ++ post))).drop i) = false)
    (hafter : ∀ i, i ≤ post.length → declaresJob "grafana".toList (post.drop i) = false) :
    replaceStaticTarget (pre ++ (jobBlockHead sp q1 q2 lines ind1 ind2 ++ (old ++ post)))
        "grafana".toList new
      = pre ++ (jobBlockHead sp q1 q2 lines ind1 ind2 ++ (new ++ post)) := by
  have hplain := all_blockLine_plain _ lines hlines
  have h1 : isIndent ind1 = true := by
    unfold insideBlock at hins
    simp only [Bool.and_eq_true] at hins
    exact hins.1.1.1.2
  have h2 : isIndent ind2 = true := by
    unfold insideBlock at hins
    simp only [Bool.and_eq_true] at hins
    exact hins.1.2
  have hmatch := matchHere_jobBlock sp q1 q2 lines ind1 ind2 old post hsp hplain h1 h2
    hold hpost
  have hfind := findMatch_after (jobRe "grafana".toList) _ _ hmatch pre
    (fun i hi => matchHere_not_declared _ (hbefore i hi))
  have hrest : findMatch (jobRe "grafana".toList) post = none :=
    findMatch_none _ post (fun i hi => matchHere_not_declared _ (hafter i hi))
  have hshorter : post.length
      < (jobBlockHead sp q1 q2 lines ind1 ind2 ++ (old ++ post)).length := by
    rw [jobBlockHead_append]
    simp only [List.length_append, List.length_cons]
    omega
  have hgroup : groupText
      [(0, (jobBlockHead sp q1 q2 lines ind1 ind2 ++ (old ++ post), post)),
        (2, (old ++ post, post)),
        (1, (jobBlockHead sp q1 q2 lines ind1 ind2 ++ (old ++ post), old ++ post))] 1
      = jobBlockHead sp q1 q2 lines ind1 ind2 := by
    have hl : List.lookup 1
        [(0, (jobBlockHead sp q1 q2 lines ind1 ind2 ++ (old ++ post), post)),
          (2, (old ++ post, post)),
          (1, (jobBlockHead sp q1 q2 lines ind1 ind2 ++ (old ++ post), old ++ post))]
        = some (jobBlockHead sp q1 q2 lines ind1 ind2 ++ (old ++ post), old ++ post) := rfl
    rw [groupText, hl]
    exact textBetween_append _ _
  unfold replaceStaticTarget ReplaceAllString
  rw [replaceLoop, hfind]
  simp only []
  rw [if_pos hshorter, replaceLoop_none _ _ _ _ hrest, expand_group1 _ new hnew, hgroup]
  simp only [List.append_assoc]

set_option maxRecDepth 100000 in
/-- C10 (amended), for the configuration with the jobs `prometheus`,
`grafana2`, `grafana` and `node`: only the address `old:3000` of job
`grafana` is replaced; the jobs `grafana2` before it and `node` after it
keep their targets. -/
theorem replaceStaticTarget_frame_witness :
    threeJobConfig
      = threeJobPre ++ (sampleHead ++ ("old:3000".toList ++ samplePost)) ∧
    insideBlock threeJobPre "  ".toList "    ".toList = true ∧
    (∀ i, i < threeJobPre.length → declaresJob "grafana".toList
      ((threeJobPre ++ (sampleHead ++ ("old:3000".toList ++ samplePost))).drop i) = false) ∧
    (∀ i, i ≤ samplePost.length → declaresJob "grafana".toList (samplePost.drop i) = false) ∧
    replaceStaticTarget (threeJobPre ++ (sampleHead ++ ("old:3000".toList ++ samplePost)))
        "grafana".toList "new:3000".toList
      = threeJobPre ++ (sampleHead ++ ("new:3000".toList ++ samplePost)) :=
  ⟨by decide, by decide, by decide, by decide,
    replaceStaticTarget_frame threeJobPre samplePost " ".toList "  ".toList "    ".toList
      "old:3000".toList "new:3000".toList false false ["  static_configs:".toList]
      (by decide) (by decide) (by decide) (by decide) (by decide) (by decide)
      (by decide) (by decide)⟩

/-! ### Helper lemmas: the pattern of `replaceAlertmanagerTarget` -/

/-- The loop `\s*` on an input that starts with a blank: first the loop on
the rest, then what follows at once. -/
theorem matchRe_spaces_cons (y : Char) (t : GoString) (c : Caps)
    (k : GoString → Caps → Option MatchState) (hy : isSpace y = true) :
    matchRe reSpaces (y :: t) c k = (matchRe reSpaces t c k).or (k (y :: t) c) := by
  rw [reSpaces, matchRe_star, matchRe_star]
  have hlen : (y :: t).length = t.length + 1 := rfl
  rw [hlen, starLoop]
  have hmore : matchRe (.cls isSpace) (y :: t) c
      (fun s1 c1 => if s1.length < (y :: t).length then
        starLoop true (matchRe (.cls isSpace)) k t.length s1 c1 else none)
      = starLoop true (matchRe (.cls isSpace)) k t.length t c := by
    rw [matchRe]
    simp [hy]
  rw [hmore]
  rfl

theorem isTrail_cons (y : Char) (t : GoString) (h : isTrail (y :: t) = true) :
    isSpace y = true ∧ y ≠ '\n' ∧ isTrail t = true := by
  unfold isTrail at h ⊢
  simp only [List.all_cons, Bool.and_eq_true, bne_iff_ne, ne_eq] at h
  exact ⟨h.1.1, h.1.2, h.2⟩

/-- The pattern `\s*\n` on the blanks that end a line and its newline, when
the blanks that follow the newline hold no newline. -/
theorem matchRe_trail_newline (w s : GoString) (c : Caps)
    (k : GoString → Caps → Option MatchState) (hw : isTrail w = true)
    (hs : ∀ ch ∈ s.takeWhile isSpace, ch ≠ '\n') :
    matchRe reSpaces (w ++ '\n' :: s) c (fun s1 c1 => matchRe (.lit '\n') s1 c1 k)
      = k s c := by
  induction w with
  | nil => exact matchRe_spaces_newline s c k hs
  | cons y t ih =>
    obtain ⟨hy, hne, ht⟩ := isTrail_cons y t hw
    rw [List.cons_append, matchRe_spaces_cons _ _ _ _ hy, ih ht, matchRe_lit_cons,
      if_neg hne]
    cases k s c <;> rfl

/-- The end of the first group, `\s+- targets:\s*\n\s+- `, on a target list
whose line may end in blanks. -/
theorem matchRe_targetsHead_trail (ind1 w ind2 rest : GoString) (c : Caps)
    (k : GoString → Caps → Option MatchState)
    (h1 : isIndent ind1 = true) (hw : isTrail w = true) (h2 : isIndent ind2 = true) :
    matchRe reTargetsHead
      (ind1 ++ ("- targets:".toList ++ (w ++ '\n' :: (ind2 ++ ("- ".toList ++ rest))))) c k
      = k rest c := by
  obtain ⟨hne1, hall1, _⟩ := (isIndent_iff ind1).mp h1
  obtain ⟨hne2, hall2, hnl2⟩ := (isIndent_iff ind2).mp h2
  have hd1 : ∀ (x : GoString), ("- targets:".toList ++ x).takeWhile isSpace = [] :=
    fun _ => rfl
  have hd2 : ∀ (x : GoString), ("- ".toList ++ x).takeWhile isSpace = [] :=
    fun _ => rfl
  unfold reTargetsHead
  simp only [matchRe_seq]
  rw [matchRe_spaces1 _ _ _ (fun y t hy => matchRe_dash_fails _ y t c _ hy)]
  rw [takeWhile_all_append isSpace ind1 _ hall1 (hd1 _),
    dropWhile_all_append isSpace ind1 _ hall1 (hd1 _), if_neg hne1, matchRe_str]
  rw [matchRe_trail_newline _ _ _ _ hw]
  · rw [matchRe_spaces1 _ _ _ (fun y t hy => matchRe_dash_fails _ y t c _ hy)]
    rw [takeWhile_all_append isSpace ind2 _ hall2 (hd2 _),
      dropWhile_all_append isSpace ind2 _ hall2 (hd2 _), if_neg hne2, matchRe_str]
  · intro ch hch
    rw [takeWhile_all_append isSpace ind2 _ hall2 (hd2 _)] at hch
    exact hnl2 ch hch

theorem alertBlockHead_append (w0 ind1 w1 ind2 w2 ind3 x : GoString) :
    alertBlockHead w0 ind1 w1 ind2 w2 ind3 ++ x =
      "alertmanagers:".toList ++ (w0 ++ '\n' :: (ind1 ++ ("- static_configs:".toList ++
        (w1 ++ '\n' :: (ind2 ++ ("- targets:".toList ++ (w2 ++ '\n' :: (ind3 ++
          ("- ".toList ++ x))))))))) := by
  simp only [alertBlockHead, List.append_assoc, List.cons_append]

/-- The pattern of `replaceAlertmanagerTarget` matches an alert-router block
from its key to the end of its first target address; the first submatch is
the block up to the address, the second the address. -/
theorem matchHere_alertBlock (w0 ind1 w1 ind2 w2 ind3 old post : GoString)
    (hw0 : isTrail w0 = true) (h1 : isIndent ind1 = true) (hw1 : isTrail w1 = true)
    (h2 : isIndent ind2 = true) (hw2 : isTrail w2 = true) (h3 : isIndent ind3 = true)
    (hold : isAddress old = true) (hpost : post.takeWhile notSpace = []) :
    matchHere alertRe (alertBlockHead w0 ind1 w1 ind2 w2 ind3 ++ (old ++ post))
      = some (post, [(2, (old ++ post, post)),
          (1, (alertBlockHead w0 ind1 w1 ind2 w2 ind3 ++ (old ++ post), old ++ post))]) := by
  obtain ⟨hne1, hall1, hnl1⟩ := (isIndent_iff ind1).mp h1
  obtain ⟨_, hall2, hnl2⟩ := (isIndent_iff ind2).mp h2
  have hd1 : ∀ (x : GoString), ("- static_configs:".toList ++ x).takeWhile isSpace = [] :=
    fun _ => rfl
  have hd2 : ∀ (x : GoString), ("- targets:".toList ++ x).takeWhile isSpace = [] :=
    fun _ => rfl
  unfold matchHere alertRe
  rw [matchRe_seq, matchRe_group]
  simp only [matchRe_seq]
  rw [alertBlockHead_append, matchRe_str, matchRe_trail_newline _ _ _ _ hw0]
  · rw [matchRe_spaces1 _ _ _ (fun y t hy => matchRe_dash_fails _ y t _ _ hy)]
    rw [takeWhile_all_append isSpace ind1 _ hall1 (hd1 _),
      dropWhile_all_append isSpace ind1 _ hall1 (hd1 _), if_neg hne1, matchRe_str]
    rw [matchRe_trail_newline _ _ _ _ hw1]
    · rw [matchRe_targetsHead_trail ind2 w2 ind3 (old ++ post) _ _ h2 hw2 h3]
      exact matchRe_address old post _ hold hpost
    · intro ch hch
      rw [takeWhile_all_append isSpace ind2 _ hall2 (hd2 _)] at hch
      exact hnl2 ch hch
  · intro ch hch
    rw [takeWhile_all_append isSpace ind1 _ hall1 (hd1 _)] at hch
    exact hnl1 ch hch

/-- Where the text `alertmanagers:` does not start, the pattern does not
match. -/
theorem matchHere_no_alert (s : GoString)
    (h : "alertmanagers:".toList.isPrefixOf s = false) : matchHere alertRe s = none := by
  unfold matchHere alertRe
  rw [matchRe_seq, matchRe_group]
  simp only [matchRe_seq]
  exact matchRe_str_none _ _ _ _ h

/-! ### Config rewriting of the alert router: claims -/

set_option maxRecDepth 100000 in
/-- C11 (refuted as stated): a configuration whose `alertmanagers:` key
carries a comment on its line, followed by `- static_configs:`, `- targets:`
and the target line `- old:9093`, comes back unchanged: the target address
does not become `new:9093`. -/
theorem replaceAlertmanagerTarget_comment_unchanged :
    replaceAlertmanagerTarget commentedAlertConfig "new:9093".toList
      = commentedAlertConfig := by
  decide

/-- C11 (amended): when the text `alertmanagers:` occurs once in the
document, followed on the next lines, each after an indentation, by
`- static_configs:`, `- targets:` and `- ` with the first target address,
nothing but blanks ending each of the three lines before the address, and the
new address holds no `$`: the result is the document with that first address
replaced by the new address, every other character unchanged. -/
theorem replaceAlertmanagerTarget_frame
    (pre post w0 ind1 w1 ind2 w2 ind3 old new : GoString)
    (hw0 : isTrail w0 = true) (h1 : isIndent ind1 = true) (hw1 : isTrail w1 = true)
    (h2 : isIndent ind2 = true) (hw2 : isTrail w2 = true) (h3 : isIndent ind3 = true)
    (hold : isAddress old = true) (hpost : post.takeWhile notSpace = [])
    (hnew : '$' ∉ new)
    (hbefore : ∀ i, i < pre.length → "alertmanagers:".toList.isPrefixOf
      ((pre ++ (alertBlockHead w0 ind1 w1 ind2 w2 ind3 ++ (old ++ post))).drop i) = false)
    (hafter : ∀ i, i ≤ post.length →
      "alertmanagers:".toList.isPrefixOf (post.drop i) = false) :
    replaceAlertmanagerTarget
        (pre ++ (alertBlockHead w0 ind1 w1 ind2 w2 ind3 ++ (old ++ post))) new
      = pre ++ (alertBlockHead w0 ind1 w1 ind2 w2 ind3 ++ (new ++ post)) := by
  have hmatch := matchHere_alertBlock w0 ind1 w1 ind2 w2 ind3 old post hw0 h1 hw1 h2 hw2 h3
    hold hpost
  have hfind := findMatch_after alertRe _ _ hmatch pre
    (fun i hi => matchHere_no_alert _ (hbefore i hi))
  have hrest : findMatch alertRe post = none :=
    findMatch_none _ post (fun i hi => matchHere_no_alert _ (hafter i hi))
  have hshorter : post.length
      < (alertBlockHead w0 ind1 w1 ind2 w2 ind3 ++ (old ++ post)).length := by
    rw [alertBlockHead_append]
    simp only [List.length_append, List.length_cons]
    omega
  have hgroup : groupText
      [(0, (alertBlockHead w0 ind1 w1 ind2 w2 ind3 ++ (old ++ post), post)),
        (2, (old ++ post, post)),
        (1, (alertBlockHead w0 ind1 w1 ind2 w2 ind3 ++ (old ++ post), old ++ post))] 1
      = alertBlockHead w0 ind1 w1 ind2 w2 ind3 := by
    have hl : List.lookup 1
        [(0, (alertBlockHead w0 ind1 w1 ind2 w2 ind3 ++ (old ++ post), post)),
          (2, (old ++ post, post)),
          (1, (alertBlockHead w0 ind1 w1 ind2 w2 ind3 ++ (old ++ post), old ++ post))]
        = some (alertBlockHead w0 ind1 w1 ind2 w2 ind3 ++ (old ++ post), old ++ post) := rfl
    rw [groupText, hl]
    exact textBetween_append _ _
  unfold replaceAlertmanagerTarget ReplaceAllString
  rw [replaceLoop, hfind]
  simp only []
  rw [if_pos hshorter, replaceLoop_none _ _ _ _ hrest, expand_group1 _ new hnew, hgroup]
  simp only [List.append_assoc]

set_option maxRecDepth 100000 in
/-- C11 (amended), for the sample configuration with an alert-router list of
two targets and two scrape jobs: only `old:9093` is replaced. -/
theorem replaceAlertmanagerTarget_frame_witness :
    sampleAlertConfig
      = sampleAlertPre ++ (sampleAlertHead ++ ("old:9093".toList ++ sampleAlertPost)) ∧
    (∀ i, i < sampleAlertPre.length → "alertmanagers:".toList.isPrefixOf
      ((sampleAlertPre ++ (sampleAlertHead ++ ("old:9093".toList ++ sampleAlertPost))).drop i)
        = false) ∧
    (∀ i, i ≤ sampleAlertPost.length →
      "alertmanagers:".toList.isPrefixOf (sampleAlertPost.drop i) = false) ∧
    replaceAlertmanagerTarget
        (sampleAlertPre ++ (sampleAlertHead ++ ("old:9093".toList ++ sampleAlertPost)))
        "aalert-9095:9093".toList
      = sampleAlertPre ++ (sampleAlertHead ++ ("aalert-9095:9093".toList ++ sampleAlertPost)) :=
  ⟨by decide, by decide, by decide,
    replaceAlertmanagerTarget_frame sampleAlertPre sampleAlertPost [] "  ".toList []
      "    ".toList [] "        ".toList "old:9093".toList "aalert-9095:9093".toList
      (by decide) (by decide) (by decide) (by decide) (by decide) (by decide) (by decide)
      (by decide) (by decide) (by decide) (by decide)⟩

/-! ### Helper lemmas: the calls of an orchestrator -/

theorem upserts_append (a b : List Call) : upserts (a ++ b) = upserts a ++ upserts b := by
  induction a with
  | nil => rfl
  | cons c t ih => cases c <;> simp [upserts, ih]

theorem uploads_append (a b : List Call) : uploads (a ++ b) = uploads a ++ uploads b := by
  induction a with
  | nil => rfl
  | cons c t ih => cases c <;> simp [uploads, ih]

theorem writes_append (a b : List Call) : writes (a ++ b) = writes a ++ writes b := by
  induction a with
  | nil => rfl
  | cons c t ih => cases c <;> simp [writes, ih]

theorem deploys_exportDashboardsCalls (url : GoString) (gc : Grafana) :
    ∀ c ∈ exportDashboardsCalls url gc, c.deploys = false := by
  intro c hc
  unfold exportDashboardsCalls at hc
  cases hs : gc.search with
  | none =>
    rw [hs] at hc
    simp only [List.mem_singleton] at hc
    rw [hc]; rfl
  | some results =>
    rw [hs] at hc
    simp only [List.mem_cons, List.mem_map] at hc
    rcases hc with rfl | ⟨uid, _, rfl⟩ <;> rfl

theorem upserts_exportDashboardsCalls (url : GoString) (gc : Grafana) :
    upserts (exportDashboardsCalls url gc) = [] := by
  unfold exportDashboardsCalls
  cases gc.search with
  | none => rfl
  | some results =>
    simp only [upserts]
    induction results with
    | nil => rfl
    | cons uid t ih => simpa [upserts] using ih

/-! ### CloneStack: claims -/

/-- C12: if the health probe of the source dashboard server or of the source
metrics store fails, `CloneStack` returns an error, and none of its calls
creates a network or starts a container. -/
theorem CloneStack_unreachable_source (w : World) (opts : CloneOptions)
    (h : (w.grafanaAt opts.SourceGrafanaURL).healthOk = false ∨
      (w.prometheusAt opts.SourcePrometheusURL).healthOk = false) :
    (CloneStack w opts).err ≠ none ∧
      ∀ c ∈ (CloneStack w opts).calls, c.deploys = false := by
  have hx := deploys_exportDashboardsCalls opts.SourceGrafanaURL
    (w.grafanaAt opts.SourceGrafanaURL)
  unfold CloneStack
  cases hg : (w.grafanaAt opts.SourceGrafanaURL).healthOk with
  | false => simp [hg, Call.deploys]
  | true =>
    have hp : (w.prometheusAt opts.SourcePrometheusURL).healthOk = false := by
      rcases h with h | h
      · rw [hg] at h; exact absurd h (by simp)
      · exact h
    simp only [hg, Bool.not_true, Bool.false_eq_true, if_false]
    cases exportDashboards w.codec (w.grafanaAt opts.SourceGrafanaURL) with
    | none =>
      refine ⟨by simp, ?_⟩
      intro c hc
      simp only [List.mem_append, List.mem_singleton, List.mem_cons, List.not_mem_nil,
        or_false] at hc
      rcases hc with rfl | hc
      · rfl
      · exact hx c hc
    | some dashboards =>
      cases (w.grafanaAt opts.SourceGrafanaURL).datasources with
      | none =>
        refine ⟨by simp, ?_⟩
        intro c hc
        simp only [List.mem_append, List.mem_singleton, List.mem_cons, List.not_mem_nil,
          or_false] at hc
        rcases hc with (rfl | hc) | rfl
        · rfl
        · exact hx c hc
        · rfl
      | some datasources =>
        simp only [hp, Bool.not_false, if_true]
        refine ⟨by simp, ?_⟩
        intro c hc
        simp only [List.mem_append, List.mem_singleton, List.mem_cons, List.not_mem_nil,
          or_false] at hc
        rcases hc with ((rfl | hc) | rfl) | rfl
        · rfl
        · exact hx c hc
        · rfl
        · rfl

/-- C12, for the sample world with a dashboard server that fails its health
probe. -/
theorem CloneStack_unreachable_source_witness :
    (grafanaDownWorld.grafanaAt sampleClone.SourceGrafanaURL).healthOk = false ∧
    (CloneStack grafanaDownWorld sampleClone).err ≠ none ∧
      ∀ c ∈ (CloneStack grafanaDownWorld sampleClone).calls, c.deploys = false :=
  ⟨rfl, CloneStack_unreachable_source grafanaDownWorld sampleClone (Or.inl rfl)⟩

theorem upserts_writeDirFiles (w : World) (localDir : GoString) :
    ∀ files, upserts (writeDirFiles w localDir files).2 = [] := by
  intro files
  induction files with
  | nil => rfl
  | cons f rest ih =>
    obtain ⟨filename, groups⟩ := f
    unfold writeDirFiles
    cases w.codec.encodeTargets groups with
    | none => rfl
    | some data =>
      by_cases hw : w.disk.writeFileOk (Join [localDir, filename]) = true
      · simp only [hw, if_true, upserts]
        exact ih
      · simp only [hw, Bool.false_eq_true, if_false, upserts]

theorem upserts_writeTargetDirs (w : World) (stageDir : GoString) :
    ∀ dirs mounts, upserts (writeTargetDirs w stageDir dirs mounts).2 = [] := by
  intro dirs
  induction dirs with
  | nil => intro _; rfl
  | cons d rest ih =>
    intro mounts
    obtain ⟨containerDir, files⟩ := d
    unfold writeTargetDirs
    by_cases hm : w.disk.mkdirAllOk
        (Join [stageDir, "targets".toList, replaceSlashes containerDir]) = true
    · simp only [hm, if_true]
      cases hf : (writeDirFiles w
          (Join [stageDir, "targets".toList, replaceSlashes containerDir]) files).1 with
      | some e =>
        simp only [upserts]
        exact upserts_writeDirFiles w _ files
      | none =>
        show upserts (Call.mkdirAll _ :: _ ++ _) = []
        rw [List.cons_append]
        simp only [upserts]
        rw [upserts_append, upserts_writeDirFiles, List.nil_append]
        exact ih _
    · simp only [hm, Bool.false_eq_true, if_false, upserts]

theorem upserts_cloneImport (w : World) (opts : CloneOptions) (datasources : List Datasource)
    (dashboards : GoMap GoString) :
    upserts (cloneImport w opts datasources dashboards) =
      datasources.map (cloneDatasource (cloneNames w.docker opts).promName
        (cloneNames w.docker opts).amName) := by
  unfold cloneImport
  rw [upserts_append]
  have h1 : ∀ (f : Datasource → Datasource) (t : GoString) (l : List Datasource),
      upserts (l.map (fun ds => Call.upsertDatasource t (f ds))) = l.map f := by
    intro f t l
    induction l with
    | nil => rfl
    | cons x xs ih => simp [upserts, ih]
  have h2 : ∀ (t : GoString) (l : GoMap GoString),
      upserts (l.map (fun kv => Call.uploadDashboard t kv.2 0 true)) = [] := by
    intro t l
    induction l with
    | nil => rfl
    | cons x xs ih => simpa [upserts] using ih
  simp only [h1, h2, List.append_nil]

theorem upserts_cloneDeploy (w : World) (opts : CloneOptions) (clonedConfigPath : GoString)
    (targetMounts : GoMap GoString) (datasources : List Datasource)
    (dashboards : GoMap GoString)
    (hok : (cloneDeploy w opts clonedConfigPath targetMounts datasources dashboards).err
      = none) :
    upserts (cloneDeploy w opts clonedConfigPath targetMounts datasources dashboards).calls =
      datasources.map (cloneDatasource (cloneNames w.docker opts).promName
        (cloneNames w.docker opts).amName) := by
  unfold cloneDeploy at hok ⊢
  simp only [] at hok ⊢
  split_ifs at hok ⊢
  all_goals first
    | (exfalso; simpa using hok)
    | simp [upserts_append, upserts, upserts_cloneImport]

theorem upserts_cloneStaged (w : World) (opts : CloneOptions) (stageDir : GoString)
    (targetGroups : GoMap (List TargetGroup)) (datasources : List Datasource)
    (dashboards : GoMap GoString)
    (hok : (cloneStaged w opts stageDir targetGroups datasources dashboards).err = none) :
    upserts (cloneStaged w opts stageDir targetGroups datasources dashboards).calls =
      datasources.map (cloneDatasource (cloneNames w.docker opts).promName
        (cloneNames w.docker opts).amName) := by
  have ht : upserts (writeTargetFiles w stageDir targetGroups).2 = [] :=
    upserts_writeTargetDirs w stageDir _ _
  unfold cloneStaged at hok ⊢
  simp only [] at hok ⊢
  cases h1 : (writeTargetFiles w stageDir targetGroups).1 with
  | error e =>
    rw [h1] at hok
    exact absurd hok (by simp)
  | ok targetMounts =>
    rw [h1] at hok
    simp only [] at hok ⊢
    cases h2 : w.disk.readFile "prometheus/build/prometheus.yml".toList with
    | none =>
      rw [h2] at hok
      exact absurd hok (by simp)
    | some promConfigData =>
      rw [h2] at hok
      simp only [] at hok ⊢
      cases hw : w.disk.writeFileOk (Join [stageDir, "prometheus.yml".toList]) with
      | false =>
        simp only [hw, Bool.not_false, if_true] at hok
        exact absurd hok (by simp)
      | true =>
        simp only [hw, Bool.not_true, Bool.false_eq_true, if_false] at hok ⊢
        simp only [upserts_append]
        simp only [ht, upserts, List.nil_append]
        exact upserts_cloneDeploy w opts _ _ _ _ hok

theorem cloneDatasource_eq (promName amName : GoString) (ds : Datasource) :
    cloneDatasource promName amName ds =
      { ID := 0, Name := ds.Name, Type_ := ds.Type_,
        URL :=
          if ds.Type_ = "prometheus".toList then
            "http://".toList ++ promName ++ ":9090".toList
          else if ds.Type_ = "alertmanager".toList then
            "http://".toList ++ amName ++ ":9093".toList
          else ds.URL,
        Rest := ds.Rest } := by
  unfold cloneDatasource
  by_cases h1 : ds.Type_ = "prometheus".toList
  · have h2 : ¬ ds.Type_ = "alertmanager".toList := by
      rw [h1]; decide
    simp only [if_pos h1, if_neg h2]
  · by_cases h2 : ds.Type_ = "alertmanager".toList
    · simp only [if_neg h1, if_pos h2]
    · simp only [if_neg h1, if_neg h2]

/-- C13: when a clone succeeds, the datasources upserted into the new
dashboard server are those of the source, in order, each with id 0, with the
address `http://<promName>:9090` when its type is `prometheus`,
`http://<amName>:9093` when its type is `alertmanager` and its own address
otherwise, and with its name, type and remaining fields unchanged; here
`promName` and `amName` are the generated names of the new metrics-store and
alert-router containers. -/
theorem CloneStack_upserts (w : World) (opts : CloneOptions) (datasources : List Datasource)
    (hds : (w.grafanaAt opts.SourceGrafanaURL).datasources = some datasources)
    (hok : (CloneStack w opts).err = none) :
    upserts (CloneStack w opts).calls = datasources.map (fun ds =>
      { ID := 0, Name := ds.Name, Type_ := ds.Type_,
        URL :=
          if ds.Type_ = "prometheus".toList then
            "http://".toList ++ w.docker.ContainerName "aprom".toList opts.PrometheusPort 9090
              ++ ":9090".toList
          else if ds.Type_ = "alertmanager".toList then
            "http://".toList ++ w.docker.ContainerName "aalert".toList opts.AlertManagerPort
              9093 ++ ":9093".toList
          else ds.URL,
        Rest := ds.Rest }) := by
  have hx := upserts_exportDashboardsCalls opts.SourceGrafanaURL
    (w.grafanaAt opts.SourceGrafanaURL)
  unfold CloneStack at hok ⊢
  simp only [] at hok ⊢
  rw [hds] at hok ⊢
  cases hg : (w.grafanaAt opts.SourceGrafanaURL).healthOk with
  | false =>
    simp only [hg, Bool.not_false, if_true] at hok
    exact absurd hok (by simp)
  | true =>
    simp only [hg, Bool.not_true, Bool.false_eq_true, if_false] at hok ⊢
    cases h1 : exportDashboards w.codec (w.grafanaAt opts.SourceGrafanaURL) with
    | none =>
      rw [h1] at hok
      exact absurd hok (by simp)
    | some dashboards =>
      rw [h1] at hok
      simp only [] at hok ⊢
      cases hp : (w.prometheusAt opts.SourcePrometheusURL).healthOk with
      | false =>
        simp only [hp, Bool.not_false, if_true] at hok
        exact absurd hok (by simp)
      | true =>
        simp only [hp, Bool.not_true, Bool.false_eq_true, if_false] at hok ⊢
        cases h2 : (w.prometheusAt opts.SourcePrometheusURL).activeTargets with
        | none =>
          rw [h2] at hok
          exact absurd hok (by simp)
        | some listing =>
          rw [h2] at hok
          simp only [] at hok ⊢
          cases h3 : w.disk.mkdirTemp "scylla-monitor-clone-*".toList with
          | none =>
            rw [h3] at hok
            exact absurd hok (by simp)
          | some stageDir =>
            rw [h3] at hok
            simp only [] at hok ⊢
            simp only [upserts_append]
            simp only [upserts, hx, List.nil_append, List.append_nil]
            rw [upserts_cloneStaged w opts stageDir _ _ _ hok]
            apply List.map_congr_left
            intro ds _
            rw [cloneDatasource_eq]
            rfl

set_option maxRecDepth 100000 in
/-- C13, for the sample world: the three datasources of the source, of type
`prometheus`, `alertmanager` and `loki`. -/
theorem CloneStack_upserts_witness :
    (sampleWorld.grafanaAt sampleClone.SourceGrafanaURL).datasources
      = some [promSource, amSource, lokiSource] ∧
    (CloneStack sampleWorld sampleClone).err = none ∧
    upserts (CloneStack sampleWorld sampleClone).calls =
      [⟨0, "prometheus".toList, "prometheus".toList, "http://aprom-9091:9090".toList,
         "access=proxy".toList⟩,
       ⟨0, "alertmanager".toList, "alertmanager".toList, "http://aalert-9095:9093".toList, []⟩,
       ⟨0, "loki".toList, "loki".toList, "http://loki:3100".toList, []⟩] :=
  ⟨rfl, by decide,
    (CloneStack_upserts sampleWorld sampleClone [promSource, amSource, lokiSource] rfl
      (by decide)).trans (by decide)⟩

/-- C14 (refuted as stated): two clone requests with the same three external
ports and the stack identifiers 1 and 2: whatever the name-generation helpers
of the container runtime are, the three container names generated for the
one are the three generated for the other. -/
theorem cloneNames_shared_across_stacks :
    sampleClone.StackID ≠ sampleCloneTwo.StackID ∧
    ∀ d : Docker,
      (cloneNames d sampleClone).promName = (cloneNames d sampleCloneTwo).promName ∧
      (cloneNames d sampleClone).grafName = (cloneNames d sampleCloneTwo).grafName ∧
      (cloneNames d sampleClone).amName = (cloneNames d sampleCloneTwo).amName :=
  ⟨by decide, fun _ => ⟨rfl, rfl, rfl⟩⟩

/-- C14 (amended): each container name is generated from the role, the
service's external port and the role's default port, and the network name
from the stack identifier alone: two clone requests with the same three
external ports are given the same three container names, whatever their stack
identifiers; these are the names the containers are started under, and the
network of a request is the one the runtime names for its stack identifier. -/
theorem cloneNames_from_ports (w : World) (o1 o2 : CloneOptions)
    (hp : o1.PrometheusPort = o2.PrometheusPort) (hg : o1.GrafanaPort = o2.GrafanaPort)
    (ha : o1.AlertManagerPort = o2.AlertManagerPort) :
    (amCfg w o1).Name = (amCfg w o2).Name ∧
    (∀ p1 p2 m1 m2, (promCfg w o1 p1 m1).Name = (promCfg w o2 p2 m2).Name) ∧
    (grafCfg w o1).Name = (grafCfg w o2).Name ∧
    (amCfg w o1).Name = w.docker.ContainerName "aalert".toList o1.AlertManagerPort 9093 ∧
    (∀ p m, (promCfg w o1 p m).Name =
      w.docker.ContainerName "aprom".toList o1.PrometheusPort 9090) ∧
    (grafCfg w o1).Name = w.docker.ContainerName "agraf".toList o1.GrafanaPort 3000 ∧
    (amCfg w o1).NetworkName = w.docker.NetworkName o1.StackID ∧
    (∀ p m, (promCfg w o1 p m).NetworkName = w.docker.NetworkName o1.StackID) ∧
    (grafCfg w o1).NetworkName = w.docker.NetworkName o1.StackID := by
  refine ⟨?_, ?_, ?_, rfl, fun _ _ => rfl, rfl, rfl, fun _ _ => rfl, rfl⟩
  · show w.docker.ContainerName _ o1.AlertManagerPort _ = w.docker.ContainerName _ o2.AlertManagerPort _
    rw [ha]
  · intro _ _ _ _
    show w.docker.ContainerName _ o1.PrometheusPort _ = w.docker.ContainerName _ o2.PrometheusPort _
    rw [hp]
  · show w.docker.ContainerName _ o1.GrafanaPort _ = w.docker.ContainerName _ o2.GrafanaPort _
    rw [hg]

/-- C14 (amended), for the sample requests with stack identifiers 1 and 2. -/
theorem cloneNames_from_ports_witness :
    sampleClone.PrometheusPort = sampleCloneTwo.PrometheusPort ∧
    sampleClone.GrafanaPort = sampleCloneTwo.GrafanaPort ∧
    sampleClone.AlertManagerPort = sampleCloneTwo.AlertManagerPort ∧
    (amCfg sampleWorld sampleClone).Name = (amCfg sampleWorld sampleCloneTwo).Name ∧
    (grafCfg sampleWorld sampleClone).Name = (grafCfg sampleWorld sampleCloneTwo).Name :=
  ⟨rfl, rfl, rfl,
    (cloneNames_from_ports sampleWorld sampleClone sampleCloneTwo rfl rfl rfl).1,
    (cloneNames_from_ports sampleWorld sampleClone sampleCloneTwo rfl rfl rfl).2.2.1⟩

/-! ### Helper lemmas: the loops of `ArchiveStack` -/

theorem dashboardDocsOf_cons_none (w : World) (url dashDir uid : GoString)
    (rest : List GoString) (h : (w.grafanaAt url).download uid = none) :
    dashboardDocsOf w url dashDir (uid :: rest) = dashboardDocsOf w url dashDir rest := by
  unfold dashboardDocsOf
  rw [List.filterMap_cons, h]
  rfl

theorem dashboardDocsOf_cons_some (w : World) (url dashDir uid data : GoString)
    (rest : List GoString) (h : (w.grafanaAt url).download uid = some data) :
    dashboardDocsOf w url dashDir (uid :: rest) =
      (Join [dashDir, uid ++ ".json".toList], stripDashboardId w.codec data) ::
        dashboardDocsOf w url dashDir rest := by
  unfold dashboardDocsOf
  rw [List.filterMap_cons, h]
  rfl

/-- The loop over the search results ends without error exactly when every
dashboard document can be written; it then counts and writes exactly the
dashboard documents. -/
theorem exportDashboardLoop_spec (w : World) (url dashDir : GoString) :
    ∀ results : List GoString,
    ((exportDashboardLoop w url dashDir results).err = none ↔
      ∀ p ∈ dashboardDocsOf w url dashDir results, w.disk.writeFileOk p.1 = true) ∧
    ((exportDashboardLoop w url dashDir results).err = none →
      (exportDashboardLoop w url dashDir results).count
        = (dashboardDocsOf w url dashDir results).length ∧
      writes (exportDashboardLoop w url dashDir results).calls
        = dashboardDocsOf w url dashDir results) := by
  intro results
  induction results with
  | nil =>
    refine ⟨⟨fun _ p hp => ?_, fun _ => rfl⟩, fun _ => ⟨rfl, rfl⟩⟩
    simp [dashboardDocsOf] at hp
  | cons uid rest ih =>
    cases hd : (w.grafanaAt url).download uid with
    | none =>
      rw [dashboardDocsOf_cons_none w url dashDir uid rest hd]
      have hstep : exportDashboardLoop w url dashDir (uid :: rest) =
          ⟨(exportDashboardLoop w url dashDir rest).err,
            (exportDashboardLoop w url dashDir rest).count,
            .downloadDashboard url uid :: (exportDashboardLoop w url dashDir rest).calls⟩ := by
        rw [exportDashboardLoop, hd]
      rw [hstep]
      exact ⟨ih.1, fun h => ⟨(ih.2 h).1, (ih.2 h).2⟩⟩
    | some data =>
      rw [dashboardDocsOf_cons_some w url dashDir uid data rest hd]
      cases hw : w.disk.writeFileOk (Join [dashDir, uid ++ ".json".toList]) with
      | false =>
        have hstep : exportDashboardLoop w url dashDir (uid :: rest) =
            ⟨some (.writingDashboard uid), 0,
              [Call.downloadDashboard url uid,
                Call.writeFile (Join [dashDir, uid ++ ".json".toList])
                  (stripDashboardId w.codec data)]⟩ := by
          rw [exportDashboardLoop, hd]
          simp only [hw, Bool.false_eq_true, if_false]
        rw [hstep]
        refine ⟨⟨fun h => absurd h (by simp), fun h => ?_⟩, fun h => absurd h (by simp)⟩
        have := h _ (List.mem_cons_self _ _)
        rw [hw] at this
        exact absurd this (by simp)
      | true =>
        have hstep : exportDashboardLoop w url dashDir (uid :: rest) =
            ⟨(exportDashboardLoop w url dashDir rest).err,
              (exportDashboardLoop w url dashDir rest).count + 1,
              [Call.downloadDashboard url uid,
                Call.writeFile (Join [dashDir, uid ++ ".json".toList])
                  (stripDashboardId w.codec data)] ++
                (exportDashboardLoop w url dashDir rest).calls⟩ := by
          rw [exportDashboardLoop, hd]
          simp only [hw, if_true]
        rw [hstep]
        refine ⟨⟨fun h p hp => ?_, fun h => ?_⟩, fun h => ⟨?_, ?_⟩⟩
        · rcases List.mem_cons.mp hp with rfl | hp
          · exact hw
          · exact ih.1.mp h p hp
        · exact ih.1.mpr (fun p hp => h p (List.mem_cons_of_mem _ hp))
        · show (exportDashboardLoop w url dashDir rest).count + 1 = _
          rw [(ih.2 h).1]
          simp
        · show writes (Call.downloadDashboard url uid :: Call.writeFile _ _ ::
            (exportDashboardLoop w url dashDir rest).calls) = _
          simp only [writes]
          rw [(ih.2 h).2]

theorem datasourceDocsOf_cons_none (w : World) (dsDir : GoString) (ds : Datasource)
    (rest : List Datasource) (h : w.codec.encodeDatasource ds = none) :
    datasourceDocsOf w dsDir (ds :: rest) = datasourceDocsOf w dsDir rest := by
  unfold datasourceDocsOf
  rw [List.filterMap_cons, h]
  rfl

theorem datasourceDocsOf_cons_some (w : World) (dsDir data : GoString) (ds : Datasource)
    (rest : List Datasource) (h : w.codec.encodeDatasource ds = some data) :
    datasourceDocsOf w dsDir (ds :: rest) =
      (Join [dsDir, ds.Name ++ ".json".toList], data) :: datasourceDocsOf w dsDir rest := by
  unfold datasourceDocsOf
  rw [List.filterMap_cons, h]
  rfl

/-- The loop over the datasources ends without error exactly when every
datasource document can be written; it then counts and writes exactly the
datasource documents. -/
theorem exportDatasourceLoop_spec (w : World) (dsDir : GoString) :
    ∀ datasources : List Datasource,
    ((exportDatasourceLoop w dsDir datasources).err = none ↔
      ∀ p ∈ datasourceDocsOf w dsDir datasources, w.disk.writeFileOk p.1 = true) ∧
    ((exportDatasourceLoop w dsDir datasources).err = none →
      (exportDatasourceLoop w dsDir datasources).count
        = (datasourceDocsOf w dsDir datasources).length ∧
      writes (exportDatasourceLoop w dsDir datasources).calls
        = datasourceDocsOf w dsDir datasources) := by
  intro datasources
  induction datasources with
  | nil =>
    refine ⟨⟨fun _ p hp => ?_, fun _ => rfl⟩, fun _ => ⟨rfl, rfl⟩⟩
    simp [datasourceDocsOf] at hp
  | cons ds rest ih =>
    cases hd : w.codec.encodeDatasource ds with
    | none =>
      rw [datasourceDocsOf_cons_none w dsDir ds rest hd]
      have hstep : exportDatasourceLoop w dsDir (ds :: rest) =
          exportDatasourceLoop w dsDir rest := by
        rw [exportDatasourceLoop, hd]
      rw [hstep]
      exact ih
    | some data =>
      rw [datasourceDocsOf_cons_some w dsDir data ds rest hd]
      cases hw : w.disk.writeFileOk (Join [dsDir, ds.Name ++ ".json".toList]) with
      | false =>
        have hstep : exportDatasourceLoop w dsDir (ds :: rest) =
            ⟨some (.writingDatasource ds.Name), 0,
              [Call.writeFile (Join [dsDir, ds.Name ++ ".json".toList]) data]⟩ := by
          rw [exportDatasourceLoop, hd]
          simp only [hw, Bool.false_eq_true, if_false]
        rw [hstep]
        refine ⟨⟨fun h => absurd h (by simp), fun h => ?_⟩, fun h => absurd h (by simp)⟩
        have := h _ (List.mem_cons_self _ _)
        rw [hw] at this
        exact absurd this (by simp)
      | true =>
        have hstep : exportDatasourceLoop w dsDir (ds :: rest) =
            ⟨(exportDatasourceLoop w dsDir rest).err,
              (exportDatasourceLoop w dsDir rest).count + 1,
              Call.writeFile (Join [dsDir, ds.Name ++ ".json".toList]) data ::
                (exportDatasourceLoop w dsDir rest).calls⟩ := by
          rw [exportDatasourceLoop, hd]
          simp only [hw, if_true]
        rw [hstep]
        refine ⟨⟨fun h p hp => ?_, fun h => ?_⟩, fun h => ⟨?_, ?_⟩⟩
        · rcases List.mem_cons.mp hp with rfl | hp
          · exact hw
          · exact ih.1.mp h p hp
        · exact ih.1.mpr (fun p hp => h p (List.mem_cons_of_mem _ hp))
        · show (exportDatasourceLoop w dsDir rest).count + 1 = _
          rw [(ih.2 h).1]
          simp
        · show writes (Call.writeFile _ _ :: (exportDatasourceLoop w dsDir rest).calls) = _
          simp only [writes]
          rw [(ih.2 h).2]

/-- The block for the dashboard server ends without error exactly when none
of its failures occurs; it then counts the dashboard and the datasource
documents, and its written documents are these and the folder listing. -/
theorem exportGrafana_spec (w : World) (opts : ArchiveOptions) (stageDir : GoString)
    (hurl : opts.GrafanaURL ≠ []) :
    ((exportGrafana w opts stageDir).err = none ↔ ¬ grafanaFailure w opts stageDir) ∧
    ((exportGrafana w opts stageDir).err = none →
      (exportGrafana w opts stageDir).dashboards = (dashboardDocs w opts stageDir).length ∧
      (exportGrafana w opts stageDir).datasources = (datasourceDocs w opts stageDir).length ∧
      writes (exportGrafana w opts stageDir).calls =
        dashboardDocs w opts stageDir ++ datasourceDocs w opts stageDir ++
          folderDocs w opts stageDir) := by
  have hdd : dashboardDocs w opts stageDir = dashboardDocsOf w opts.GrafanaURL
      (Join [stageDir, "dashboards".toList])
      ((w.grafanaAt opts.GrafanaURL).search.getD []) := by
    unfold dashboardDocs; rw [if_neg hurl]
  have hsd : datasourceDocs w opts stageDir = datasourceDocsOf w
      (Join [stageDir, "datasources".toList])
      ((w.grafanaAt opts.GrafanaURL).datasources.getD []) := by
    unfold datasourceDocs; rw [if_neg hurl]
  have hfd : folderDocs w opts stageDir =
      (match (w.grafanaAt opts.GrafanaURL).folders with
       | some data => [(Join [Join [stageDir, "folders".toList], "folders.json".toList], data)]
       | none => []) := by
    unfold folderDocs; rw [if_neg hurl]
  unfold exportGrafana grafanaFailure
  rw [hdd, hsd, hfd]
  simp only []
  generalize Join [stageDir, "dashboards".toList] = dashDir
  generalize Join [stageDir, "datasources".toList] = dsDir
  generalize Join [stageDir, "folders".toList] = folderDir
  cases h1 : w.disk.mkdirAllOk dashDir with
  | false =>
    simp only [Bool.not_false, if_true]
    exact ⟨⟨fun h => absurd h (by simp), fun h => absurd (Or.inl trivial) h⟩,
      fun h => absurd h (by simp)⟩
  | true =>
  simp only [Bool.not_true, Bool.false_eq_true, if_false]
  cases h2 : (w.grafanaAt opts.GrafanaURL).search with
  | none =>
    simp only []
    exact ⟨⟨fun h => absurd h (by simp), fun h => absurd (Or.inr (Or.inl trivial)) h⟩,
      fun h => absurd h (by simp)⟩
  | some results =>
  simp only [Option.getD_some]
  obtain ⟨hl1, hl2⟩ := exportDashboardLoop_spec w opts.GrafanaURL dashDir results
  cases h3 : (exportDashboardLoop w opts.GrafanaURL dashDir results).err with
  | some e =>
    simp only []
    refine ⟨⟨fun h => absurd h (by simp), fun h => ?_⟩, fun h => absurd h (by simp)⟩
    exfalso
    apply h
    right; right; left
    by_contra hno
    have hall : ∀ p ∈ dashboardDocsOf w opts.GrafanaURL dashDir results,
        w.disk.writeFileOk p.1 = true := by
      intro p hp
      cases hpw : w.disk.writeFileOk p.1 with
      | true => rfl
      | false => exact absurd ⟨p, hp, hpw⟩ hno
    have := hl1.mpr hall
    rw [h3] at this
    exact absurd this (by simp)
  | none =>
  simp only []
  have hdocs := hl1.mp h3
  obtain ⟨hcount1, hwrites1⟩ := hl2 h3
  cases h4 : w.disk.mkdirAllOk dsDir with
  | false =>
    simp only [Bool.not_false, if_true]
    exact ⟨⟨fun h => absurd h (by simp),
      fun h => absurd (Or.inr (Or.inr (Or.inr (Or.inl trivial)))) h⟩,
      fun h => absurd h (by simp)⟩
  | true =>
  simp only [Bool.not_true, Bool.false_eq_true, if_false]
  cases h5 : (w.grafanaAt opts.GrafanaURL).datasources with
  | none =>
    simp only []
    exact ⟨⟨fun h => absurd h (by simp),
      fun h => absurd (Or.inr (Or.inr (Or.inr (Or.inr (Or.inl trivial))))) h⟩,
      fun h => absurd h (by simp)⟩
  | some datasources =>
  simp only [Option.getD_some]
  obtain ⟨hs1, hs2⟩ := exportDatasourceLoop_spec w dsDir datasources
  cases h6 : (exportDatasourceLoop w dsDir datasources).err with
  | some e =>
    simp only []
    refine ⟨⟨fun h => absurd h (by simp), fun h => ?_⟩, fun h => absurd h (by simp)⟩
    exfalso
    apply h
    right; right; right; right; right; left
    by_contra hno
    have hall : ∀ p ∈ datasourceDocsOf w dsDir datasources,
        w.disk.writeFileOk p.1 = true := by
      intro p hp
      cases hpw : w.disk.writeFileOk p.1 with
      | true => rfl
      | false => exact absurd ⟨p, hp, hpw⟩ hno
    have := hs1.mpr hall
    rw [h6] at this
    exact absurd this (by simp)
  | none =>
  simp only []
  have hsdocs := hs1.mp h6
  obtain ⟨hcount2, hwrites2⟩ := hs2 h6
  cases h7 : w.disk.mkdirAllOk folderDir with
  | false =>
    simp only [Bool.not_false, if_true]
    exact ⟨⟨fun h => absurd h (by simp),
      fun h => absurd (Or.inr (Or.inr (Or.inr (Or.inr (Or.inr (Or.inr trivial)))))) h⟩,
      fun h => absurd h (by simp)⟩
  | true =>
  simp only [Bool.not_true, Bool.false_eq_true, if_false]
  refine ⟨⟨fun _ hf => ?_, fun _ => trivial⟩, fun _ => ⟨hcount1, hcount2, ?_⟩⟩
  · rcases hf with hf | hf | ⟨p, hp, hpw⟩ | hf | hf | ⟨p, hp, hpw⟩ | hf
    · exact absurd hf (by simp)
    · exact absurd hf (by simp)
    · rw [hdocs p hp] at hpw; exact absurd hpw (by simp)
    · exact absurd hf (by simp)
    · exact absurd hf (by simp)
    · rw [hsdocs p hp] at hpw; exact absurd hpw (by simp)
    · exact absurd hf (by simp)
  · simp only [writes_append, hwrites1, hwrites2]
    cases (w.grafanaAt opts.GrafanaURL).folders <;> simp [writes]

theorem writes_collectConfigs (opts : ArchiveOptions) (stageDir : GoString) :
    writes (collectConfigs opts stageDir) = [] := by
  have hmap : ∀ (d : GoString) (l : List GoString),
      writes (l.map (fun tf => Call.copyFile tf (Join [d, Base tf]))) = [] := by
    intro d l
    induction l with
    | nil => rfl
    | cons x xs ih => simpa [writes] using ih
  unfold collectConfigs
  simp only [writes_append]
  split_ifs <;> simp [writes, hmap]

/-- The metadata an export builds once the block for the dashboard server has
ended without error. -/
theorem archiveStaged_metadata (w : World) (opts : ArchiveOptions) (stageDir : GoString)
    (g : GrafanaStage)
    (hd : g.dashboards = (dashboardDocs w opts stageDir).length)
    (hs : g.datasources = (datasourceDocs w opts stageDir).length) :
    ({ ExportTimestamp := w.now, GrafanaURL := opts.GrafanaURL,
       PrometheusURL := opts.PrometheusURL,
       IncludesData := decide (opts.PrometheusURL ≠ []) ||
         (decide (opts.PrometheusURL ≠ []) &&
           (w.prometheusAt opts.PrometheusURL).snapshot.isSome),
       DashboardCount := g.dashboards, DatasourceCount := g.datasources } : Metadata)
      = exportMetadata w opts stageDir := by
  unfold exportMetadata
  rw [hd, hs]
  congr 1
  cases decide (opts.PrometheusURL ≠ []) <;> simp

/-- The stage of the dashboard server in `archiveStaged`: none without an
address, else the block of `exportGrafana`. -/
theorem grafanaStage_spec (w : World) (opts : ArchiveOptions) (stageDir : GoString) :
    ∀ g : GrafanaStage,
    g = (if opts.GrafanaURL ≠ [] then exportGrafana w opts stageDir else ⟨none, 0, 0, []⟩) →
    (g.err = none ↔ ¬ (opts.GrafanaURL ≠ [] ∧ grafanaFailure w opts stageDir)) ∧
    (g.err = none →
      g.dashboards = (dashboardDocs w opts stageDir).length ∧
      g.datasources = (datasourceDocs w opts stageDir).length ∧
      writes g.calls = dashboardDocs w opts stageDir ++ datasourceDocs w opts stageDir ++
        folderDocs w opts stageDir) := by
  intro g hg
  by_cases hurl : opts.GrafanaURL = []
  · have hg2 : g = ⟨none, 0, 0, []⟩ := by
      rw [hg, if_neg (by simpa using hurl)]
    rw [hg2]
    refine ⟨⟨fun _ h => h.1 hurl, fun _ => rfl⟩, fun _ => ?_⟩
    simp [dashboardDocs, datasourceDocs, folderDocs, hurl, writes]
  · have hg2 : g = exportGrafana w opts stageDir := by
      rw [hg, if_pos hurl]
    rw [hg2]
    obtain ⟨h1, h2⟩ := exportGrafana_spec w opts stageDir hurl
    refine ⟨⟨fun h hf => (h1.mp h) hf.2, fun h => h1.mpr (fun hf => h ⟨hurl, hf⟩)⟩, h2⟩

/-- The body of `ArchiveStack`: it ends without error exactly when no failure
of the export occurs; the metadata is then that of the export, and the
documents written are the dashboard documents, the datasource documents, the
folder listing and the metadata document. -/
theorem archiveStaged_spec (w : World) (opts : ArchiveOptions) (stageDir : GoString) :
    ((archiveStaged w opts stageDir).err = none ↔
      ¬ ((opts.GrafanaURL ≠ [] ∧ grafanaFailure w opts stageDir) ∨
        w.codec.encodeMetadata (exportMetadata w opts stageDir) = none ∨
        w.disk.writeFileOk (Join [stageDir, "metadata.yaml".toList]) = false ∨
        w.disk.packOk stageDir opts.OutputPath = false)) ∧
    ((archiveStaged w opts stageDir).err = none →
      (archiveStaged w opts stageDir).metadata = some (exportMetadata w opts stageDir) ∧
      ∃ metaData, w.codec.encodeMetadata (exportMetadata w opts stageDir) = some metaData ∧
        writes (archiveStaged w opts stageDir).calls =
          dashboardDocs w opts stageDir ++ datasourceDocs w opts stageDir ++
            folderDocs w opts stageDir ++
            [(Join [stageDir, "metadata.yaml".toList], metaData)]) := by
  obtain ⟨hg1, hg2⟩ := grafanaStage_spec w opts stageDir _ rfl
  unfold archiveStaged
  simp only []
  generalize (if opts.GrafanaURL ≠ [] then exportGrafana w opts stageDir
    else ⟨none, 0, 0, []⟩) = g at hg1 hg2 ⊢
  cases he : g.err with
  | some e =>
    simp only []
    have hf : opts.GrafanaURL ≠ [] ∧ grafanaFailure w opts stageDir := by
      by_contra hno
      have := hg1.mpr hno
      rw [he] at this
      exact absurd this (by simp)
    exact ⟨⟨fun h => absurd h (by simp), fun h => absurd (Or.inl hf) h⟩,
      fun h => absurd h (by simp)⟩
  | none =>
    simp only []
    have hnf := hg1.mp he
    obtain ⟨hd, hs, hwr⟩ := hg2 he
    rw [archiveStaged_metadata w opts stageDir g hd hs]
    cases hm : w.codec.encodeMetadata (exportMetadata w opts stageDir) with
    | none =>
      simp only []
      exact ⟨⟨fun h => absurd h (by simp), fun h => absurd (Or.inr (Or.inl trivial)) h⟩,
        fun h => absurd h (by simp)⟩
    | some metaData =>
      simp only []
      cases hw : w.disk.writeFileOk (Join [stageDir, "metadata.yaml".toList]) with
      | false =>
        simp only [Bool.not_false, if_true]
        exact ⟨⟨fun h => absurd h (by simp),
          fun h => absurd (Or.inr (Or.inr (Or.inl trivial))) h⟩,
          fun h => absurd h (by simp)⟩
      | true =>
        simp only [Bool.not_true, Bool.false_eq_true, if_false]
        cases hp : w.disk.packOk stageDir opts.OutputPath with
        | false =>
          simp only [Bool.not_false, if_true]
          exact ⟨⟨fun h => absurd h (by simp),
            fun h => absurd (Or.inr (Or.inr (Or.inr trivial))) h⟩,
            fun h => absurd h (by simp)⟩
        | true =>
          simp only [Bool.not_true, Bool.false_eq_true, if_false]
          refine ⟨⟨fun _ hf => ?_, fun _ => trivial⟩, fun _ => ⟨trivial, metaData, rfl, ?_⟩⟩
          · rcases hf with hf | hf | hf | hf
            · exact hnf hf
            · exact absurd hf (by simp)
            · exact absurd hf (by simp)
            · exact absurd hf (by simp)
          · simp only [writes_append, hwr, writes_collectConfigs]
            split_ifs <;> simp [writes]

/-! ### ArchiveStack: claims -/

set_option maxRecDepth 100000 in
/-- C15 (refuted as stated): with a dashboard server whose dashboard search
fails, on a file system where the staging directory is created and every
write and the packing succeed, `ArchiveStack` returns the error of the
search. -/
theorem ArchiveStack_search_failure_fatal :
    searchDownWorld.disk.mkdirTemp "scylla-monitor-export-*".toList
      = some "/tmp/scylla-monitor-export-*".toList ∧
    (∀ p, searchDownWorld.disk.writeFileOk p = true) ∧
    (∀ a b, searchDownWorld.disk.packOk a b = true) ∧
    (ArchiveStack searchDownWorld sampleArchive).err = some .searchingDashboards :=
  ⟨rfl, fun _ => rfl, fun _ _ => rfl, by decide⟩

/-- C15 (amended): `ArchiveStack` returns an error exactly when one of these
fails: creating the staging directory; with a dashboard server given,
creating `dashboards/`, `datasources/` or `folders/`, enumerating the
dashboards or the datasources, writing a dashboard or datasource document;
encoding the metadata; writing the metadata document; packing the archive.
A failed dashboard download, a datasource that cannot be encoded, a failed
folder listing, a copy of a local config path that fails and a failed
snapshot request are not among them. -/
theorem ArchiveStack_fails_iff (w : World) (opts : ArchiveOptions) :
    (ArchiveStack w opts).err ≠ none ↔ exportFailure w opts := by
  unfold ArchiveStack exportFailure
  cases hm : w.disk.mkdirTemp "scylla-monitor-export-*".toList with
  | none => simp
  | some stageDir =>
    simp only []
    rw [Ne, (archiveStaged_spec w opts stageDir).1, Classical.not_not]

set_option maxRecDepth 100000 in
/-- C15 (amended), for the sample world, where no failure of the export
occurs, and for the world whose dashboard search fails, where one does. -/
theorem ArchiveStack_fails_iff_witness :
    ¬ exportFailure sampleWorld sampleArchive ∧ exportFailure searchDownWorld sampleArchive :=
  ⟨fun hf => (ArchiveStack_fails_iff sampleWorld sampleArchive).mpr hf (by decide),
    (ArchiveStack_fails_iff searchDownWorld sampleArchive).mp (by decide)⟩

/-! ### Stripping the id of a dashboard: claims -/

theorem GoMap.get?_delete_same {V : Type} (m : GoMap V) (k : GoString) :
    GoMap.get? (GoMap.delete m k) k = none := by
  induction m with
  | nil => rfl
  | cons b m ih =>
    obtain ⟨a, v⟩ := b
    unfold GoMap.delete at ih ⊢
    rw [List.filter_cons]
    by_cases h : a = k
    · have hb : ((a, v).1 != k) = false := by simp [h]
      rw [hb]
      simp only [Bool.false_eq_true, if_false]
      exact ih
    · have hb : ((a, v).1 != k) = true := by simp [h]
      rw [hb]
      simp only [if_true]
      rw [GoMap.get?, if_neg (fun e => h e.symm)]
      exact ih

theorem GoMap.get?_delete_other {V : Type} (m : GoMap V) (k q : GoString) (h : q ≠ k) :
    GoMap.get? (GoMap.delete m k) q = GoMap.get? m q := by
  induction m with
  | nil => rfl
  | cons b m ih =>
    obtain ⟨a, v⟩ := b
    unfold GoMap.delete at ih ⊢
    rw [List.filter_cons]
    by_cases ha : a = k
    · have hb : ((a, v).1 != k) = false := by simp [ha]
      have hq : q ≠ a := by rw [ha]; exact h
      rw [hb]
      simp only [Bool.false_eq_true, if_false]
      rw [GoMap.get?, if_neg hq]
      exact ih
    · have hb : ((a, v).1 != k) = true := by simp [ha]
      rw [hb]
      simp only [if_true]
      rw [GoMap.get?, GoMap.get?]
      by_cases hq : q = a
      · rw [if_pos hq, if_pos hq]
      · rw [if_neg hq, if_neg hq]
        exact ih

/-- C17: for a downloaded envelope that is a JSON object whose field
`dashboard` is an object, the export writes the envelope with that object
replaced by one that has no key `id` and in which every other key keeps its
value, every other field of the envelope unchanged; and when the raw field
`dashboard` of the envelope denotes that object, the clone's
`exportDashboards` keeps an object with no key `id` in which every other key
keeps its value. -/
theorem dashboard_id_stripped (codec : Codec) (data raw : GoString)
    (fields dash : GoMap Json) (wrapper : GoMap GoString)
    (hparse : codec.parse data = some (.obj fields))
    (hdash : GoMap.get? fields "dashboard".toList = some (.obj dash))
    (hraw : codec.rawFields data = some wrapper)
    (hfield : GoMap.get? wrapper "dashboard".toList = some raw)
    (hrawparse : codec.parse raw = some (.obj dash)) :
    ∃ stripped : GoMap Json,
      GoMap.get? stripped "id".toList = none ∧
      (∀ k, k ≠ "id".toList → GoMap.get? stripped k = GoMap.get? dash k) ∧
      (∃ envelope : GoMap Json,
        stripDashboardId codec data = codec.marshalIndent (.obj envelope) ∧
        GoMap.get? envelope "dashboard".toList = some (.obj stripped) ∧
        ∀ k, k ≠ "dashboard".toList → GoMap.get? envelope k = GoMap.get? fields k) ∧
      innerDashboard codec data = codec.marshal (.obj stripped) := by
  refine ⟨GoMap.delete dash "id".toList, GoMap.get?_delete_same _ _,
    fun k hk => GoMap.get?_delete_other _ _ _ hk,
    ⟨GoMap.set fields "dashboard".toList (.obj (GoMap.delete dash "id".toList)), ?_,
      GoMap.get?_set_same _ _ _, fun k hk => GoMap.get?_set_other _ _ _ _ hk⟩, ?_⟩
  · unfold stripDashboardId
    rw [hparse]
    simp only [stripEnvelope, hdash]
  · unfold innerDashboard
    rw [hraw]
    simp only [hfield, hrawparse]

/-- C17, for the sample envelope, whose dashboard has the keys `id`, `uid`
and `title`. -/
theorem dashboard_id_stripped_witness :
    sampleCodec.parse envelopeText = some (.obj sampleEnvelope) ∧
    GoMap.get? sampleEnvelope "dashboard".toList = some (.obj sampleDashboard) ∧
    GoMap.get? sampleDashboard "id".toList = some (.num 5) ∧
    ∃ stripped : GoMap Json,
      GoMap.get? stripped "id".toList = none ∧
      (∀ k, k ≠ "id".toList → GoMap.get? stripped k = GoMap.get? sampleDashboard k) ∧
      (∃ envelope : GoMap Json,
        stripDashboardId sampleCodec envelopeText = sampleCodec.marshalIndent (.obj envelope) ∧
        GoMap.get? envelope "dashboard".toList = some (.obj stripped) ∧
        ∀ k, k ≠ "dashboard".toList → GoMap.get? envelope k = GoMap.get? sampleEnvelope k) ∧
      innerDashboard sampleCodec envelopeText = sampleCodec.marshal (.obj stripped) :=
  ⟨rfl, rfl, rfl,
    dashboard_id_stripped sampleCodec envelopeText dashboardText sampleEnvelope sampleDashboard
      [("meta".toList, "\x7b\x7d".toList), ("dashboard".toList, dashboardText)] rfl rfl rfl rfl rfl⟩

/-! ### RestoreStack: helper lemmas -/

/-- Without a metadata document that can be read and parsed, the body of
`RestoreStack` returns an error and makes no call. -/
theorem restoreExtracted_bad (w : World) (opts : RestoreOptions) (dir : GoString)
    (hbad : parseableMetadata w dir = false) :
    (restoreExtracted w opts dir).err ≠ none ∧ (restoreExtracted w opts dir).calls = [] := by
  unfold parseableMetadata at hbad
  unfold restoreExtracted
  cases hr : w.disk.readFile (Join [dir, "metadata.yaml".toList]) with
  | none => exact ⟨by simp, rfl⟩
  | some metaData =>
    rw [hr] at hbad
    simp only [] at hbad ⊢
    cases hd : w.codec.decodeMetadata metaData with
    | none => exact ⟨by simp, rfl⟩
    | some m =>
      rw [hd] at hbad
      exact absurd hbad (by simp)

/-- With a metadata document that can be read and parsed, the body of
`RestoreStack` restores the config files, then, if a dashboard server is
given, probes it and imports into it, and fails only if the probe fails. -/
theorem restoreExtracted_good (w : World) (opts : RestoreOptions) (dir : GoString)
    (hgood : parseableMetadata w dir = true) :
    restoreExtracted w opts dir =
      if opts.GrafanaURL ≠ [] then
        if (w.grafanaAt opts.GrafanaURL).healthOk = false then
          ⟨some .grafanaNotReady, restoreConfigs w dir ++ [Call.grafanaHealth opts.GrafanaURL]⟩
        else
          ⟨none, restoreConfigs w dir ++ [Call.grafanaHealth opts.GrafanaURL] ++
            (importGrafana w opts dir)⟩
      else ⟨none, restoreConfigs w dir⟩ := by
  unfold parseableMetadata at hgood
  unfold restoreExtracted
  cases hr : w.disk.readFile (Join [dir, "metadata.yaml".toList]) with
  | none =>
    rw [hr] at hgood
    exact absurd hgood (by simp)
  | some metaData =>
    rw [hr] at hgood
    simp only [] at hgood ⊢
    cases hd : w.codec.decodeMetadata metaData with
    | none =>
      rw [hd] at hgood
      exact absurd hgood (by simp)
    | some m =>
      simp only []
      by_cases hu : opts.GrafanaURL = []
      · simp only [hu, ne_eq, not_true_eq_false, if_false]
      · simp only [ne_eq, hu, not_false_eq_true, if_true]
        cases (w.grafanaAt opts.GrafanaURL).healthOk <;> simp

/-- Whenever `RestoreStack` has created a directory to unpack into, its last
call removes that directory. -/
theorem RestoreStack_cleanup (w : World) (opts : RestoreOptions) (tmpDir : GoString)
    (hstat : w.disk.stat opts.ArchivePath = some false)
    (htmp : w.disk.mkdirTemp "scylla-monitor-import-*".toList = some tmpDir) :
    (RestoreStack w opts).calls.getLast? = some (Call.removeAll tmpDir) := by
  unfold RestoreStack
  rw [hstat]
  simp only [htmp]
  cases w.disk.unpackOk opts.ArchivePath tmpDir with
  | false => simp
  | true =>
    simp only [Bool.not_true, Bool.false_eq_true, if_false]
    exact List.getLast?_concat _

theorem restores_restoreConfigs (w : World) (dir : GoString) :
    ∀ c ∈ restoreConfigs w dir, c.restores = true := by
  intro c hc
  unfold restoreConfigs restorePromConfig restoreRules restoreAmConfig restoreTargets at hc
  simp only [List.mem_append] at hc
  rcases hc with ((hc | hc) | hc) | hc
  · split_ifs at hc
    · simp only [List.mem_cons, List.mem_singleton, List.not_mem_nil, or_false] at hc
      rcases hc with rfl | rfl <;> rfl
    · simp at hc
  · split_ifs at hc
    · simp only [List.mem_singleton] at hc
      rw [hc]; rfl
    · simp at hc
  · split_ifs at hc
    · simp only [List.mem_singleton] at hc
      rw [hc]; rfl
    · simp at hc
  · split_ifs at hc
    · simp only [List.mem_cons, List.mem_map] at hc
      rcases hc with rfl | ⟨e, _, rfl⟩ <;> rfl
    · simp at hc

theorem upserts_of_restores (l : List Call) (h : ∀ c ∈ l, c.restores = true) :
    upserts l = [] ∧ uploads l = [] := by
  induction l with
  | nil => exact ⟨rfl, rfl⟩
  | cons c t ih =>
    have hc := h c (List.mem_cons_self _ _)
    have ht := ih (fun x hx => h x (List.mem_cons_of_mem _ hx))
    cases c <;> first
      | (simp [Call.restores] at hc; done)
      | exact ⟨by simpa [upserts] using ht.1, by simpa [uploads] using ht.2⟩

theorem upserts_importDatasources (w : World) (opts : RestoreOptions) (dsDir : GoString)
    (entries : List GoString) :
    upserts (importDatasources w opts dsDir entries) =
      (entries.filterMap (fun e =>
        (w.disk.readFile (Join [dsDir, e])).bind w.codec.decodeDatasource)).map
        (restoreDatasource opts.PrometheusURL) ∧
    uploads (importDatasources w opts dsDir entries) = [] := by
  unfold importDatasources
  induction entries with
  | nil => exact ⟨rfl, rfl⟩
  | cons e rest ih =>
    rw [List.filterMap_cons, List.filterMap_cons]
    cases hr : w.disk.readFile (Join [dsDir, e]) with
    | none => simpa using ih
    | some data =>
      cases hd : w.codec.decodeDatasource data with
      | none => simpa [hd] using ih
      | some ds =>
        simp only [hd, Option.some_bind, List.map_cons, upserts, uploads]
        exact ⟨by rw [ih.1], ih.2⟩

theorem upserts_importDashboards (w : World) (opts : RestoreOptions) (dashDir : GoString)
    (entries : List GoString) :
    upserts (importDashboards w opts dashDir entries) = [] := by
  unfold importDashboards
  induction entries with
  | nil => rfl
  | cons e rest ih =>
    rw [List.filterMap_cons]
    cases hr : w.disk.readFile (Join [dashDir, e]) with
    | none => simpa using ih
    | some data =>
      cases hd : unwrapDashboard w.codec data with
      | none => simpa [hd] using ih
      | some d =>
        simp only [hd, upserts]
        exact ih

/-- The datasources upserted by the block for the dashboard server are the
decoded datasource documents, each rewritten by `restoreDatasource`. -/
theorem upserts_importGrafana (w : World) (opts : RestoreOptions) (dir : GoString) :
    upserts (importGrafana w opts dir) =
      (datasourcesRead w dir).map (restoreDatasource opts.PrometheusURL) := by
  unfold importGrafana datasourcesRead
  simp only []
  rw [upserts_append]
  have h2 : upserts (if (w.disk.readDir (Join [dir, "dashboards".toList])).2 = true then
      (importDashboards w opts (Join [dir, "dashboards".toList])
        (w.disk.readDir (Join [dir, "dashboards".toList])).1) else []) = [] := by
    split_ifs
    · exact upserts_importDashboards w opts _ _
    · rfl
  rw [h2, List.append_nil]
  split_ifs
  · exact (upserts_importDatasources w opts _ _).1
  · rfl

theorem restoreDatasource_eq (prometheusURL : GoString) (ds : Datasource) :
    restoreDatasource prometheusURL ds =
      { ID := 0, Name := ds.Name, Type_ := ds.Type_,
        URL := if prometheusURL ≠ [] ∧ ds.Type_ = "prometheus".toList then prometheusURL
          else ds.URL,
        Rest := ds.Rest } := by
  unfold restoreDatasource
  by_cases h : prometheusURL ≠ [] ∧ ds.Type_ = "prometheus".toList
  · simp only [if_pos h]
  · simp only [if_neg h]

theorem restores_importGrafana (w : World) (opts : RestoreOptions) (dir : GoString) :
    ∀ c ∈ importGrafana w opts dir, c.restores = false := by
  intro c hc
  unfold importGrafana importDatasources importDashboards at hc
  simp only [List.mem_append] at hc
  rcases hc with hc | hc
  · split_ifs at hc
    · simp only [List.mem_filterMap] at hc
      obtain ⟨e, _, he⟩ := hc
      cases hr : w.disk.readFile (Join [Join [dir, "datasources".toList], e]) with
      | none => rw [hr] at he; simp at he
      | some data =>
        rw [hr] at he
        simp only [] at he
        cases hd : w.codec.decodeDatasource data with
        | none => rw [hd] at he; simp at he
        | some ds =>
          rw [hd] at he
          simp only [Option.some.injEq] at he
          rw [← he]; rfl
    · simp at hc
  · split_ifs at hc
    · simp only [List.mem_filterMap] at hc
      obtain ⟨e, _, he⟩ := hc
      cases hr : w.disk.readFile (Join [Join [dir, "dashboards".toList], e]) with
      | none => rw [hr] at he; simp at he
      | some data =>
        rw [hr] at he
        simp only [] at he
        cases hd : unwrapDashboard w.codec data with
        | none => rw [hd] at he; simp at he
        | some d =>
          rw [hd] at he
          simp only [Option.some.injEq] at he
          rw [← he]; rfl
    · simp at hc

theorem filter_restores_none (l : List Call) (h : ∀ c ∈ l, c.restores = false) :
    l.filter Call.restores = [] := by
  rw [List.filter_eq_nil_iff]
  intro c hc
  rw [h c hc]
  simp

theorem filter_restores_all (l : List Call) (h : ∀ c ∈ l, c.restores = true) :
    l.filter Call.restores = l :=
  List.filter_eq_self.mpr h

/-- The body of `RestoreStack` on a snapshot with a metadata document: its
error, its restoring calls, its upserts and, without a directory
`dashboards`, its uploads. -/
theorem restoreExtracted_calls (w : World) (opts : RestoreOptions) (dir : GoString)
    (hgood : parseableMetadata w dir = true) :
    (restoreExtracted w opts dir).err =
      (if opts.GrafanaURL ≠ [] ∧ (w.grafanaAt opts.GrafanaURL).healthOk = false then
        some .grafanaNotReady else none) ∧
    (restoreExtracted w opts dir).calls.filter Call.restores = restoreConfigs w dir ∧
    (upserts (restoreExtracted w opts dir).calls =
      if (restoreExtracted w opts dir).err = none ∧ opts.GrafanaURL ≠ [] then
        (datasourcesRead w dir).map (restoreDatasource opts.PrometheusURL)
      else []) ∧
    ((w.disk.readDir (Join [dir, "dashboards".toList])).2 = false →
      uploads (restoreExtracted w opts dir).calls = []) := by
  have hcfg := restores_restoreConfigs w dir
  have hup := upserts_of_restores _ hcfg
  have hfc := filter_restores_all _ hcfg
  have hfg := filter_restores_none _ (restores_importGrafana w opts dir)
  have hhealth : [Call.grafanaHealth opts.GrafanaURL].filter Call.restores = [] := rfl
  have huploads : (w.disk.readDir (Join [dir, "dashboards".toList])).2 = false →
      uploads (importGrafana w opts dir) = [] := by
    intro hno
    unfold importGrafana
    simp only [hno, Bool.false_eq_true, if_false, List.append_nil]
    split_ifs
    · exact (upserts_importDatasources w opts _ _).2
    · rfl
  rw [restoreExtracted_good w opts dir hgood]
  by_cases hu : opts.GrafanaURL = []
  · simp only [hu, ne_eq, not_true_eq_false, if_false, false_and, and_false]
    exact ⟨trivial, hfc, hup.1, fun _ => hup.2⟩
  · simp only [ne_eq, hu, not_false_eq_true, if_true, true_and, and_true]
    cases hh : (w.grafanaAt opts.GrafanaURL).healthOk with
    | false =>
      simp only [if_true]
      refine ⟨trivial, ?_, ?_, fun _ => ?_⟩
      · rw [List.filter_append, hfc, hhealth, List.append_nil]
      · rw [upserts_append, hup.1]
        simp [upserts]
      · rw [uploads_append, hup.2]
        rfl
    | true =>
      simp only [Bool.true_eq_false, if_false]
      refine ⟨trivial, ?_, ?_, fun hno => ?_⟩
      · rw [List.filter_append, List.filter_append, hfc, hhealth, hfg, List.append_nil,
          List.append_nil]
      · rw [upserts_append, upserts_append, hup.1, upserts_importGrafana]
        simp [upserts]
      · rw [uploads_append, uploads_append, hup.2, huploads hno]
        rfl

/-- With the snapshot at hand, `RestoreStack` is its body on the directory of
the snapshot, between calls that restore, upsert and upload nothing. -/
theorem RestoreStack_at_hand (w : World) (opts : RestoreOptions)
    (hsnap : snapshotAtHand w opts = true) :
    (RestoreStack w opts).err = (restoreExtracted w opts (extractDirOf w opts)).err ∧
    (RestoreStack w opts).calls.filter Call.restores =
      (restoreExtracted w opts (extractDirOf w opts)).calls.filter Call.restores ∧
    upserts (RestoreStack w opts).calls =
      upserts (restoreExtracted w opts (extractDirOf w opts)).calls ∧
    uploads (RestoreStack w opts).calls =
      uploads (restoreExtracted w opts (extractDirOf w opts)).calls := by
  unfold snapshotAtHand at hsnap
  unfold RestoreStack extractDirOf
  cases hs : w.disk.stat opts.ArchivePath with
  | none =>
    rw [hs] at hsnap
    exact absurd hsnap (by simp)
  | some isDir =>
    cases isDir with
    | true => exact ⟨rfl, rfl, rfl, rfl⟩
    | false =>
      rw [hs] at hsnap
      simp only [] at hsnap ⊢
      cases ht : w.disk.mkdirTemp "scylla-monitor-import-*".toList with
      | none =>
        rw [ht] at hsnap
        exact absurd hsnap (by simp)
      | some tmpDir =>
        rw [ht] at hsnap
        simp only [] at hsnap
        simp only [hsnap, Bool.not_true, Bool.false_eq_true, if_false, Option.getD_some]
        refine ⟨trivial, ?_, ?_, ?_⟩
        · rw [List.filter_append, List.filter_append]
          simp [Call.restores]
        · rw [upserts_append, upserts_append]
          simp [upserts]
        · rw [uploads_append, uploads_append]
          simp [uploads]

/-- A run of `RestoreStack` without error had the snapshot at hand, with a
metadata document that can be read and parsed. -/
theorem RestoreStack_ok_inv (w : World) (opts : RestoreOptions)
    (hok : (RestoreStack w opts).err = none) :
    snapshotAtHand w opts = true ∧ parseableMetadata w (extractDirOf w opts) = true := by
  have hsnap : snapshotAtHand w opts = true := by
    unfold RestoreStack at hok
    unfold snapshotAtHand
    cases hs : w.disk.stat opts.ArchivePath with
    | none =>
      rw [hs] at hok
      exact absurd hok (by simp)
    | some isDir =>
      cases isDir with
      | true => rfl
      | false =>
        rw [hs] at hok
        simp only [] at hok ⊢
        cases ht : w.disk.mkdirTemp "scylla-monitor-import-*".toList with
        | none =>
          rw [ht] at hok
          exact absurd hok (by simp)
        | some tmpDir =>
          rw [ht] at hok
          simp only [] at hok ⊢
          cases hu : w.disk.unpackOk opts.ArchivePath tmpDir with
          | true => rfl
          | false =>
            simp only [hu, Bool.not_false, if_true] at hok
            exact absurd hok (by simp)
  refine ⟨hsnap, ?_⟩
  cases hp : parseableMetadata w (extractDirOf w opts) with
  | true => rfl
  | false =>
    have h1 := (RestoreStack_at_hand w opts hsnap).1
    have h2 := (restoreExtracted_bad w opts _ hp).1
    rw [← h1] at h2
    exact absurd hok h2

/-! ### RestoreStack: claims -/

/-- C18: when the snapshot has no `metadata.yaml` that can be read and
parsed, `RestoreStack` returns an error, and none of its calls copies a file
or directory, creates a local directory or contacts the dashboard server; and
in every run that has created a directory to unpack an archive into, this one
included, the last call removes that directory. -/
theorem RestoreStack_bad_metadata (w : World) (opts : RestoreOptions)
    (hbad : parseableMetadata w (extractDirOf w opts) = false) :
    (RestoreStack w opts).err ≠ none ∧
    (∀ c ∈ (RestoreStack w opts).calls, c.restores = false ∧ c.contactsGrafana = false) ∧
    (∀ (w2 : World) (opts2 : RestoreOptions) (tmpDir : GoString),
      w2.disk.stat opts2.ArchivePath = some false →
      w2.disk.mkdirTemp "scylla-monitor-import-*".toList = some tmpDir →
      (RestoreStack w2 opts2).calls.getLast? = some (Call.removeAll tmpDir)) := by
  refine ⟨?_, ?_, fun w2 opts2 tmpDir h1 h2 => RestoreStack_cleanup w2 opts2 tmpDir h1 h2⟩
  · unfold extractDirOf at hbad
    unfold RestoreStack
    cases hs : w.disk.stat opts.ArchivePath with
    | none => simp
    | some isDir =>
      rw [hs] at hbad
      cases isDir with
      | true => exact (restoreExtracted_bad w opts _ hbad).1
      | false =>
        simp only [] at hbad ⊢
        cases ht : w.disk.mkdirTemp "scylla-monitor-import-*".toList with
        | none => simp
        | some tmpDir =>
          rw [ht] at hbad
          simp only [Option.getD_some] at hbad
          simp only []
          cases w.disk.unpackOk opts.ArchivePath tmpDir with
          | false => simp
          | true =>
            simp only [Bool.not_true, Bool.false_eq_true, if_false]
            exact (restoreExtracted_bad w opts _ hbad).1
  · unfold extractDirOf at hbad
    unfold RestoreStack
    cases hs : w.disk.stat opts.ArchivePath with
    | none => simp
    | some isDir =>
      rw [hs] at hbad
      cases isDir with
      | true =>
        simp only []
        rw [(restoreExtracted_bad w opts _ hbad).2]
        simp
      | false =>
        simp only [] at hbad ⊢
        cases ht : w.disk.mkdirTemp "scylla-monitor-import-*".toList with
        | none => simp [Call.restores, Call.contactsGrafana]
        | some tmpDir =>
          rw [ht] at hbad
          simp only [Option.getD_some] at hbad
          simp only []
          cases w.disk.unpackOk opts.ArchivePath tmpDir with
          | false => simp [Call.restores, Call.contactsGrafana]
          | true =>
            simp only [Bool.not_true, Bool.false_eq_true, if_false]
            rw [(restoreExtracted_bad w opts _ hbad).2]
            simp [Call.restores, Call.contactsGrafana]

set_option maxRecDepth 100000 in
/-- C18, for the sample archive, whose unpacked tree holds no metadata
document: the run fails, and the calls are the creation of the directory, the
unpacking and the removal of the directory. -/
theorem RestoreStack_bad_metadata_witness :
    parseableMetadata sampleWorld (extractDirOf sampleWorld sampleRestoreArchive) = false ∧
    (RestoreStack sampleWorld sampleRestoreArchive).calls =
      [Call.mkdirTemp "scylla-monitor-import-*".toList,
       Call.unpackArchive "/snap.tar.gz".toList "/tmp/scylla-monitor-import-*".toList,
       Call.removeAll "/tmp/scylla-monitor-import-*".toList] ∧
    (RestoreStack sampleWorld sampleRestoreArchive).err ≠ none ∧
    (∀ c ∈ (RestoreStack sampleWorld sampleRestoreArchive).calls,
      c.restores = false ∧ c.contactsGrafana = false) ∧
    (∀ (w2 : World) (opts2 : RestoreOptions) (tmpDir : GoString),
      w2.disk.stat opts2.ArchivePath = some false →
      w2.disk.mkdirTemp "scylla-monitor-import-*".toList = some tmpDir →
      (RestoreStack w2 opts2).calls.getLast? = some (Call.removeAll tmpDir)) :=
  ⟨by decide, by decide,
    RestoreStack_bad_metadata sampleWorld sampleRestoreArchive (by decide)⟩

/-- C19: when an import into a dashboard server succeeds, the datasources it
upserts are those decoded from the files of `datasources/`, in order, each
with id 0, with the replacement metrics-store address as its address when
that address is not empty and its type is `prometheus` and its own address
otherwise, and with its name, type and remaining fields unchanged. -/
theorem RestoreStack_upserts (w : World) (opts : RestoreOptions)
    (hok : (RestoreStack w opts).err = none) (hurl : opts.GrafanaURL ≠ []) :
    upserts (RestoreStack w opts).calls =
      (datasourcesRead w (extractDirOf w opts)).map (fun ds =>
        { ID := 0, Name := ds.Name, Type_ := ds.Type_,
          URL := if opts.PrometheusURL ≠ [] ∧ ds.Type_ = "prometheus".toList then
            opts.PrometheusURL else ds.URL,
          Rest := ds.Rest }) := by
  obtain ⟨hsnap, hmeta⟩ := RestoreStack_ok_inv w opts hok
  obtain ⟨herr, _, hups, _⟩ := RestoreStack_at_hand w opts hsnap
  obtain ⟨_, _, hups2, _⟩ := restoreExtracted_calls w opts _ hmeta
  rw [hups, hups2, ← herr, if_pos ⟨hok, hurl⟩]
  apply List.map_congr_left
  intro ds _
  exact restoreDatasource_eq _ ds

set_option maxRecDepth 100000 in
/-- C19, for the sample snapshot, with a datasource of type `prometheus`, an
unreadable file and a datasource of type `loki`, and the replacement address
`http://newprom:9090`. -/
theorem RestoreStack_upserts_witness :
    (RestoreStack sampleWorld sampleRestore).err = none ∧
    sampleRestore.GrafanaURL ≠ [] ∧
    datasourcesRead sampleWorld (extractDirOf sampleWorld sampleRestore)
      = [promSource, lokiSource] ∧
    upserts (RestoreStack sampleWorld sampleRestore).calls =
      [⟨0, "prometheus".toList, "prometheus".toList, "http://newprom:9090".toList,
         "access=proxy".toList⟩,
       ⟨0, "loki".toList, "loki".toList, "http://loki:3100".toList, []⟩] :=
  ⟨by decide, by decide, by decide,
    (RestoreStack_upserts sampleWorld sampleRestore (by decide) (by decide)).trans
      (by decide)⟩

/-- C20: for a snapshot at hand with a metadata document that can be read and
parsed, `RestoreStack` fails only when a dashboard server is given and fails
its health probe, whichever subtrees the snapshot has; the copies it makes are
those of the four blocks for the scrape configuration, the alert rules, the
alert-router configuration and the target files, and a block whose source is
missing makes none; without a directory `datasources` nothing is upserted,
and without a directory `dashboards` nothing is uploaded. The subtrees
`folders` and `loki` are read by no step. -/
theorem RestoreStack_missing_subtrees (w : World) (opts : RestoreOptions)
    (hsnap : snapshotAtHand w opts = true)
    (hmeta : parseableMetadata w (extractDirOf w opts) = true) :
    (RestoreStack w opts).err =
      (if opts.GrafanaURL ≠ [] ∧ (w.grafanaAt opts.GrafanaURL).healthOk = false then
        some .grafanaNotReady else none) ∧
    (RestoreStack w opts).calls.filter Call.restores =
      restorePromConfig w (extractDirOf w opts) ++ restoreRules w (extractDirOf w opts) ++
        restoreAmConfig w (extractDirOf w opts) ++ restoreTargets w (extractDirOf w opts) ∧
    (w.disk.stat (Join [extractDirOf w opts, "prometheus".toList, "prometheus.yml".toList])
      = none → restorePromConfig w (extractDirOf w opts) = []) ∧
    (w.disk.stat (Join [extractDirOf w opts, "prometheus".toList, "prom_rules".toList])
      = none → restoreRules w (extractDirOf w opts) = []) ∧
    (w.disk.stat (Join [extractDirOf w opts, "alertmanager".toList, "config.yml".toList])
      = none → restoreAmConfig w (extractDirOf w opts) = []) ∧
    (w.disk.stat (Join [extractDirOf w opts, "targets".toList]) = none →
      restoreTargets w (extractDirOf w opts) = []) ∧
    ((w.disk.readDir (Join [extractDirOf w opts, "datasources".toList])).2 = false →
      upserts (RestoreStack w opts).calls = []) ∧
    ((w.disk.readDir (Join [extractDirOf w opts, "dashboards".toList])).2 = false →
      uploads (RestoreStack w opts).calls = []) := by
  obtain ⟨herr, hfil, hups, hupl⟩ := RestoreStack_at_hand w opts hsnap
  obtain ⟨herr2, hfil2, hups2, hupl2⟩ := restoreExtracted_calls w opts _ hmeta
  refine ⟨herr.trans herr2, ?_, ?_, ?_, ?_, ?_, ?_, ?_⟩
  · rw [hfil, hfil2]
    rfl
  · intro h
    unfold restorePromConfig
    simp only [h, Option.isSome_none, Bool.false_eq_true, if_false]
  · intro h
    unfold restoreRules
    simp only [h, Option.isSome_none, Bool.false_eq_true, if_false]
  · intro h
    unfold restoreAmConfig
    simp only [h, Option.isSome_none, Bool.false_eq_true, if_false]
  · intro h
    unfold restoreTargets
    simp only [h, Option.isSome_none, Bool.false_eq_true, if_false]
  · intro h
    rw [hups, hups2]
    split_ifs
    · unfold datasourcesRead
      simp only [h, Bool.false_eq_true, if_false, List.map_nil]
    · rfl
  · intro h
    rw [hupl]
    exact hupl2 h

set_option maxRecDepth 100000 in
/-- C20, for the sample snapshot, which has a metadata document and a
directory `datasources` and nothing else: the import succeeds, copies nothing
and uploads nothing. -/
theorem RestoreStack_missing_subtrees_witness :
    snapshotAtHand sampleWorld sampleRestore = true ∧
    parseableMetadata sampleWorld (extractDirOf sampleWorld sampleRestore) = true ∧
    (RestoreStack sampleWorld sampleRestore).err = none ∧
    (RestoreStack sampleWorld sampleRestore).calls.filter Call.restores = [] ∧
    uploads (RestoreStack sampleWorld sampleRestore).calls = [] :=
  ⟨by decide, by decide,
    (RestoreStack_missing_subtrees sampleWorld sampleRestore (by decide) (by decide)).1.trans
      (by decide),
    (RestoreStack_missing_subtrees sampleWorld sampleRestore (by decide) (by decide)).2.1.trans
      (by decide),
    (RestoreStack_missing_subtrees sampleWorld sampleRestore (by decide)
      (by decide)).2.2.2.2.2.2.2 (by decide)⟩

/-! ### Defects of the archive codec and of the rewriting: claims -/

set_option maxRecDepth 100000 in
/-- C23 (code defect): the entry with the plain name `f` lies inside each of
the destinations `.`, the empty string and `/`, yet the string-prefix check of
`UnpackArchive` rejects it there with the path-traversal error: the cleaned
destination followed by a separator is `./` or `//`, which starts no joined
path. The same archive unpacked into `/d` is accepted. This holds under
every umask. -/
theorem unpack_rejects_inside_dot_and_root :
    ∀ umask : Nat,
    Join [".".toList, plainEntry.Name] = "f".toList ∧
    liesInside ".".toList (Join [".".toList, plainEntry.Name]) = true ∧
    traversalOK ".".toList (Join [".".toList, plainEntry.Name]) = false ∧
    (UnpackArchive umask [plainEntry] ".".toList fsAbove).err = some (.pathTraversal "f".toList) ∧
    Join [[], plainEntry.Name] = "f".toList ∧
    liesInside [] (Join [[], plainEntry.Name]) = true ∧
    traversalOK [] (Join [[], plainEntry.Name]) = false ∧
    (UnpackArchive umask [plainEntry] [] fsAbove).err = some (.pathTraversal "f".toList) ∧
    Join ["/".toList, plainEntry.Name] = "/f".toList ∧
    liesInside "/".toList (Join ["/".toList, plainEntry.Name]) = true ∧
    traversalOK "/".toList (Join ["/".toList, plainEntry.Name]) = false ∧
    (UnpackArchive umask [plainEntry] "/".toList fsRoot).err = some (.pathTraversal "f".toList) ∧
    (UnpackArchive umask [plainEntry] "/d".toList fsD).err = none := by
  intro umask
  exact ⟨by decide, by decide, by decide, rfl, by decide, by decide, by decide,
    rfl, by decide, by decide, by decide, rfl, rfl⟩

set_option maxRecDepth 100000 in
/-- C24 (code defect): in a configuration whose job `grafana` uses file-based
discovery only and is followed by the job `node` with the static target
`n1:9100`, `replaceStaticTarget` for the job `grafana` replaces the target of
the job `node`: the lazy run of lines of the pattern goes on past the end of
the named job to the next target list. -/
theorem replaceStaticTarget_rewrites_next_job :
    replaceStaticTarget discoveryConfig "grafana".toList "new:3000".toList
      = discoveryConfigRewritten ∧
    discoveryConfigRewritten ≠ discoveryConfig := by
  refine ⟨by decide, by decide⟩

set_option maxRecDepth 100000 in
/-- C25 (code defect): for two target files in the container directories
`/a/b` and `/a_b`, `writeTargetFiles` stages both in the one host directory
`targets/_a_b` and returns a mount map with a single entry, for whichever of
the two container directories the loop meets last. -/
theorem writeTargetFiles_merges_directories :
    groupByDir collidingGroups =
      [("/a/b".toList, [("x.yml".toList, [⟨["h1:9180".toList], []⟩])]),
       ("/a_b".toList, [("y.yml".toList, [⟨["h2:9180".toList], []⟩])])] ∧
    (writeTargetFiles targetsWorld "/stage".toList collidingGroups).1.toOption =
      some [("/stage/targets/_a_b".toList, "/a_b".toList)] ∧
    (writeTargetFiles targetsWorld "/stage".toList collidingGroups).2 =
      [Call.mkdirAll "/stage/targets/_a_b".toList,
        Call.writeFile "/stage/targets/_a_b/x.yml".toList "h1:9180\n".toList,
        Call.mkdirAll "/stage/targets/_a_b".toList,
        Call.writeFile "/stage/targets/_a_b/y.yml".toList "h2:9180\n".toList] ∧
    (writeTargetFiles targetsWorld "/stage".toList collidingGroupsSwapped).1.toOption =
      some [("/stage/targets/_a_b".toList, "/a/b".toList)] := by
  refine ⟨by decide, by decide, by decide, by decide⟩

set_option maxRecDepth 100000 in
/-- C26 (code defect): a `$` in the new target is read as the start of a
template reference: `graf$x:3000` is written as `graf:3000` (the unknown
name `x` stands for nothing), `pa$$:3000` as `pa$:3000`, and by
`replaceAlertmanagerTarget` `am$2:9093` as `amold:9093:9093` (the second
submatch is the old address). -/
theorem new_target_dollar_expanded :
    replaceStaticTarget oneJobConfig "grafana".toList "graf$x:3000".toList
      = "- job_name: grafana\n  static_configs:\n  - targets:\n    - graf:3000\n".toList ∧
    replaceStaticTarget oneJobConfig "grafana".toList "pa$$:3000".toList
      = "- job_name: grafana\n  static_configs:\n  - targets:\n    - pa$:3000\n".toList ∧
    replaceAlertmanagerTarget oneAlertConfig "am$2:9093".toList
      = ("alerting:\n  alertmanagers:\n  - static_configs:\n    - targets:\n" ++
         "      - amold:9093:9093\n").toList := by
  refine ⟨by decide, by decide, by decide⟩

/-! ### Health checks: claims -/

theorem countSamples_spec (samples : List Sample) :
    ∀ up down : Nat, countSamples samples (up, down) =
      (up + samples.countP isUp, down + samples.countP (fun r => !isUp r)) := by
  induction samples with
  | nil => intro up down; simp [countSamples]
  | cons r rest ih =>
    intro up down
    rw [countSamples]
    by_cases h : isUp r = true
    · simp only [h, if_true]
      rw [ih, List.countP_cons_of_pos _ _ h, List.countP_cons_of_neg]
      · congr 1
        omega
      · simp [h]
    · simp only [h, Bool.false_eq_true, if_false]
      rw [ih, List.countP_cons_of_neg _ _ h, List.countP_cons_of_pos]
      · congr 1
        omega
      · simpa using h

theorem isUp_iff (r : Sample) : isUp r = true ↔ r.Value.2 = Json.str "1".toList := by
  unfold isUp
  cases h : r.Value.2 with
  | str v => simp
  | null => simp
  | bool b => simp
  | num n => simp
  | arr xs => simp
  | obj kvs => simp

theorem countP_isUp_add (samples : List Sample) :
    samples.countP isUp + samples.countP (fun r => !isUp r) = samples.length := by
  induction samples with
  | nil => rfl
  | cons r rest ih =>
    by_cases h : isUp r = true
    · rw [List.countP_cons_of_pos _ _ h, List.countP_cons_of_neg _ _ (by simp [h]),
        List.length_cons]
      omega
    · rw [List.countP_cons_of_neg _ _ h, List.countP_cons_of_pos _ _ (by simpa using h),
        List.length_cons]
      omega

/-- C27: when the metrics store is healthy and the reply to the query `up`
decodes to a list of samples, `checkPrometheus` reports, after the health
result, the one result `Scrape targets`, where `up` counts the samples whose
value is the string `1` and `down` all the others: the status is `ok` when
`down` is 0, `fail` when `down` is not 0 and `up` is 0, `warn` when neither
is 0; the detail gives both counts; and `up + down` is the number of
samples. -/
theorem checkPrometheus_scrape_targets (prometheusURL data : GoString)
    (pc : PrometheusCheck) (samples : List Sample)
    (hh : pc.health = none) (hq : pc.queryUp = .ok data)
    (hd : pc.decode data = some samples) :
    checkPrometheus prometheusURL pc =
      [⟨"Prometheus".toList, "API Health".toList, "ok".toList, prometheusURL⟩,
       ⟨"Prometheus".toList, "Scrape targets".toList,
        (if samples.countP (fun r => !isUp r) = 0 then "ok".toList
         else if samples.countP isUp = 0 then "fail".toList else "warn".toList),
        itoa (samples.countP isUp) ++ " up, ".toList ++
          itoa (samples.countP (fun r => !isUp r)) ++ " down".toList⟩] ∧
    (∀ r, isUp r = true ↔ r.Value.2 = Json.str "1".toList) ∧
    samples.countP isUp + samples.countP (fun r => !isUp r) = samples.length := by
  refine ⟨?_, isUp_iff, countP_isUp_add samples⟩
  unfold checkPrometheus
  rw [hh]
  simp only [hq, hd, countSamples_spec, Nat.zero_add]
  have hs : scrapeStatus (samples.countP isUp) (samples.countP (fun r => !isUp r)) =
      (if samples.countP (fun r => !isUp r) = 0 then "ok".toList
       else if samples.countP isUp = 0 then "fail".toList else "warn".toList) := by
    unfold scrapeStatus
    by_cases h1 : samples.countP (fun r => !isUp r) = 0
    · simp [h1]
    · have h2 : samples.countP (fun r => !isUp r) > 0 := Nat.pos_of_ne_zero h1
      by_cases h3 : samples.countP isUp = 0
      · rw [if_pos ⟨h2, h3⟩, if_neg h1, if_pos h3]
      · rw [if_neg (fun h => h3 h.2), if_pos h2, if_neg h1, if_neg h3]
  rw [hs]
  rfl

set_option maxRecDepth 100000 in
/-- C27, for three samples, one up and two down, of which one has the number
1 as its value: the status is `warn`. -/
theorem checkPrometheus_scrape_targets_witness :
    samplePrometheusCheck.health = none ∧
    sampleSamples.countP isUp = 1 ∧
    sampleSamples.countP (fun r => !isUp r) = 2 ∧
    checkPrometheus "http://localhost:9090".toList samplePrometheusCheck =
      [⟨"Prometheus".toList, "API Health".toList, "ok".toList,
         "http://localhost:9090".toList⟩,
       ⟨"Prometheus".toList, "Scrape targets".toList, "warn".toList,
         "1 up, 2 down".toList⟩] :=
  ⟨rfl, by decide, by decide,
    (checkPrometheus_scrape_targets "http://localhost:9090".toList "up".toList
      samplePrometheusCheck sampleSamples rfl rfl rfl).1.trans (by decide)⟩

/-- C22: when the datasources are listed, `checkDatasources` gives one result
for each, in the order of the listing, named after it, with the status `fail`
when its health probe failed and its type is not `prometheus` or the fallback
through the proxy failed too, and `ok` otherwise; the probes made are, for
each datasource in turn, its health probe and, only when that failed and the
type is `prometheus`, the fallback. -/
theorem checkDatasources_results (gc : DatasourceCheck) (datasources : List Datasource)
    (hl : gc.list = .ok datasources) :
    (checkDatasources gc).1.map (fun r => (r.Component, r.Check, r.Status)) =
      datasources.map (fun ds => ("Datasource".toList, ds.Name,
        if gc.health ds.ID ≠ none ∧ (ds.Type_ ≠ "prometheus".toList ∨
            (checkPrometheusDatasourceProxy gc ds).1 ≠ none)
        then "fail".toList else "ok".toList)) ∧
    (checkDatasources gc).2 =
      datasources.flatMap (fun ds => Probe.health ds.ID ::
        (if gc.health ds.ID ≠ none ∧ ds.Type_ = "prometheus".toList
         then (checkPrometheusDatasourceProxy gc ds).2 else [])) := by
  unfold checkDatasources
  rw [hl]
  simp only [List.map_map]
  constructor
  · apply List.map_congr_left
    intro ds _
    simp only [Function.comp]
    unfold probeDatasource
    cases hh : gc.health ds.ID with
    | none => simp [datasourceResult]
    | some err =>
      by_cases ht : ds.Type_ = "prometheus".toList
      · simp only [ht, if_true]
        cases hp : (checkPrometheusDatasourceProxy gc ds).1 with
        | none => simp [datasourceResult, ht]
        | some e => simp [datasourceResult, ht]
      · simp only [ht, if_false]
        have hc : some err ≠ none ∧ (ds.Type_ ≠ "prometheus".toList ∨
            (checkPrometheusDatasourceProxy gc ds).1 ≠ none) := ⟨by simp, Or.inl ht⟩
        rw [if_pos hc]
        rfl
  · congr 1
    funext ds
    unfold probeDatasource
    cases hh : gc.health ds.ID with
    | none => simp
    | some err =>
      by_cases ht : ds.Type_ = "prometheus".toList
      · simp only [ht, if_true]
        simp
      · simp only [ht, if_false]
        simp [ht]

set_option maxRecDepth 100000 in
/-- C22, for four datasources: a `prometheus` one whose fallback succeeds, an
`alertmanager` one whose health probe fails, a healthy `loki` one, and a
`prometheus` one whose fallback fails too. -/
theorem checkDatasources_results_witness :
    sampleDatasourceCheck.list = .ok [promSource, amSource, lokiSource, promSecond] ∧
    (checkDatasources sampleDatasourceCheck).1.map (fun r => (r.Check, r.Status)) =
      [("prometheus".toList, "ok".toList), ("alertmanager".toList, "fail".toList),
       ("loki".toList, "ok".toList), ("prometheus-2".toList, "fail".toList)] ∧
    (checkDatasources sampleDatasourceCheck).2 =
      [Probe.health 7,
       Probe.proxy
         "http://localhost:3000/api/datasources/proxy/7/api/v1/query?query=up".toList,
       Probe.health 8, Probe.health 9, Probe.health 10,
       Probe.proxy
         "http://localhost:3000/api/datasources/proxy/10/api/v1/query?query=up".toList] :=
  ⟨rfl, by decide,
    (checkDatasources_results sampleDatasourceCheck
      [promSource, amSource, lokiSource, promSecond] rfl).2.trans (by decide)⟩

/-! ### The round trip of an empty stack: claim -/

/-- A run of `RestoreStack` that does not have the snapshot at hand upserts
and uploads nothing. -/
theorem RestoreStack_not_at_hand (w : World) (opts : RestoreOptions)
    (h : snapshotAtHand w opts = false) :
    upserts (RestoreStack w opts).calls = [] ∧ uploads (RestoreStack w opts).calls = [] := by
  unfold snapshotAtHand at h
  unfold RestoreStack
  cases hs : w.disk.stat opts.ArchivePath with
  | none => exact ⟨rfl, rfl⟩
  | some isDir =>
    rw [hs] at h
    cases isDir with
    | true => exact absurd h (by simp)
    | false =>
      simp only [] at h ⊢
      cases ht : w.disk.mkdirTemp "scylla-monitor-import-*".toList with
      | none => exact ⟨rfl, rfl⟩
      | some tmpDir =>
        rw [ht] at h
        simp only [] at h
        simp only [h, Bool.not_false, if_true]
        exact ⟨rfl, rfl⟩

/-- The uploads of the block for the dashboard server come from the entries
of `dashboards/`: without entries there are none. -/
theorem uploads_importGrafana_nil (w : World) (opts : RestoreOptions) (dir : GoString)
    (h : (w.disk.readDir (Join [dir, "dashboards".toList])).1 = []) :
    uploads (importGrafana w opts dir) = [] := by
  unfold importGrafana
  simp only []
  rw [uploads_append, h]
  have h1 : uploads (if (w.disk.readDir (Join [dir, "datasources".toList])).2 = true then
      (importDatasources w opts (Join [dir, "datasources".toList])
        (w.disk.readDir (Join [dir, "datasources".toList])).1) else []) = [] := by
    split_ifs
    · exact (upserts_importDatasources w opts _ _).2
    · rfl
  rw [h1]
  split_ifs <;> rfl

/-- Without entries in `datasources/` an import upserts nothing, and without
entries in `dashboards/` it uploads nothing. -/
theorem RestoreStack_nothing_to_send (w : World) (opts : RestoreOptions) :
    ((w.disk.readDir (Join [extractDirOf w opts, "datasources".toList])).1 = [] →
      upserts (RestoreStack w opts).calls = []) ∧
    ((w.disk.readDir (Join [extractDirOf w opts, "dashboards".toList])).1 = [] →
      uploads (RestoreStack w opts).calls = []) := by
  cases hsnap : snapshotAtHand w opts with
  | false =>
    exact ⟨fun _ => (RestoreStack_not_at_hand w opts hsnap).1,
      fun _ => (RestoreStack_not_at_hand w opts hsnap).2⟩
  | true =>
    obtain ⟨_, _, hups, hupl⟩ := RestoreStack_at_hand w opts hsnap
    rw [hups, hupl]
    cases hmeta : parseableMetadata w (extractDirOf w opts) with
    | false =>
      rw [(restoreExtracted_bad w opts _ hmeta).2]
      exact ⟨fun _ => rfl, fun _ => rfl⟩
    | true =>
      obtain ⟨_, _, hups2, _⟩ := restoreExtracted_calls w opts _ hmeta
      refine ⟨fun h => ?_, fun h => ?_⟩
      · rw [hups2]
        split_ifs
        · unfold datasourcesRead
          simp only [h]
          split_ifs <;> rfl
        · rfl
      · have hcfg := (upserts_of_restores _ (restores_restoreConfigs w (extractDirOf w opts))).2
        rw [restoreExtracted_good w opts _ hmeta]
        split_ifs
        · rw [uploads_append, hcfg]
          rfl
        · rw [uploads_append, uploads_append, hcfg, uploads_importGrafana_nil w opts _ h]
          rfl
        · exact hcfg

/-! ### Helper lemmas: entries of a directory of the staging tree -/

theorem entryBelow_eq_some (dir p e : GoString) (h : entryBelow dir p = some e) :
    ∃ rest, cleanElems p = cleanElems dir ++ e :: rest := by
  unfold entryBelow at h
  split_ifs at h with hc
  obtain ⟨t, ht⟩ := List.isPrefixOf_iff_prefix.mp hc.2
  rw [← ht] at h
  cases t with
  | nil => simp at h
  | cons x rest =>
    rw [List.get?_eq_getElem?, List.getElem?_append_right (Nat.le_refl _)] at h
    simp only [Nat.sub_self, List.getElem?_cons_zero, Option.some.injEq] at h
    exact ⟨rest, by rw [← ht, h]⟩

theorem entryIn_eq_some (dir p e : GoString) (h : entryIn dir p = some e) :
    cleanElems p = cleanElems dir ++ [e] := by
  unfold entryIn at h
  split_ifs at h with hl
  obtain ⟨rest, hr⟩ := entryBelow_eq_some dir p e h
  rw [hr] at hl ⊢
  simp only [List.length_append, List.length_cons] at hl
  have : rest = [] := List.eq_nil_of_length_eq_zero (by omega)
  rw [this]

/-- Below a directory with the elements `S ++ [sub]`, a path with the
elements `S ++ X` gives an entry only when `X` starts with `sub` and has an
element after it. -/
theorem entryBelow_none (dir p : GoString) (S X : List GoString) (sub : GoString)
    (hd : cleanElems dir = S ++ [sub]) (hp : cleanElems p = S ++ X)
    (hX : ∀ e rest, X ≠ sub :: e :: rest) : entryBelow dir p = none := by
  cases h : entryBelow dir p with
  | none => rfl
  | some e =>
    obtain ⟨rest, hr⟩ := entryBelow_eq_some dir p e h
    rw [hd, hp, List.append_assoc] at hr
    exact absurd (List.append_cancel_left hr) (hX e rest)

theorem entryIn_none (dir p : GoString) (S X : List GoString) (sub : GoString)
    (hd : cleanElems dir = S ++ [sub]) (hp : cleanElems p = S ++ X)
    (hX : ∀ e rest, X ≠ sub :: e :: rest) : entryIn dir p = none := by
  unfold entryIn
  split_ifs
  · exact entryBelow_none dir p S X sub hd hp hX
  · rfl

theorem entryIn_child (dir p : GoString) (n : GoString)
    (hr : isRooted p = isRooted dir) (hp : cleanElems p = cleanElems dir ++ [n]) :
    entryIn dir p = some n := by
  unfold entryIn entryBelow
  rw [hp]
  simp [hr]

theorem liesOver_false (dst dir : GoString) (S Y : List GoString) (sub : GoString)
    (hd : cleanElems dir = S ++ [sub]) (hp : cleanElems dst = S ++ Y)
    (hY : ¬ Y <+: [sub]) : liesOver dst dir = false := by
  unfold liesOver
  rw [hd, hp]
  cases h : (S ++ Y).isPrefixOf (S ++ [sub]) with
  | false => simp
  | true =>
    have := List.isPrefixOf_iff_prefix.mp h
    exact absurd ((List.prefix_append_right_inj S).mp this) hY

/-! ### Helper lemmas: the paths of the staging tree -/

theorem Join_stage (d x : GoString) (hds : cleanElems d ≠ []) (hx : validName x = true) :
    Join [d, x] = under d [x] := by
  have h := Join_dest d [x] hds (by simp) (by simpa using hx)
  exact h

theorem under_under (d : GoString) (ns ms : List GoString)
    (hns : ∀ n ∈ ns, validName n = true) : under (under d ns) ms = under d (ns ++ ms) := by
  have h1 := isRooted_under d ns hns
  have h2 := cleanElems_under d ns hns
  show renderPath (isRooted (under d ns)) (cleanElems (under d ns) ++ ms)
    = renderPath (isRooted d) (cleanElems d ++ (ns ++ ms))
  rw [h1, h2, List.append_assoc]

theorem Join_stage2 (d x y : GoString) (hds : cleanElems d ≠ []) (hx : validName x = true)
    (hy : validName y = true) : Join [Join [d, x], y] = under d [x, y] := by
  rw [Join_stage d x hds hx]
  have hx1 : ∀ n ∈ [x], validName n = true := by simpa using hx
  have hne : cleanElems (under d [x]) ≠ [] := by
    rw [cleanElems_under d [x] hx1]
    simp
  rw [Join_stage (under d [x]) y hne hy, under_under d [x] [y] hx1]
  rfl

theorem cleanElems_Clean (p : GoString) :
    isRooted (Clean p) = isRooted p ∧ cleanElems (Clean p) = cleanElems p :=
  cleanElems_renderPath _ _ (cleanElems_cleanStack p)

/-- The elements of `filepath.Join(a, b)` for a path `a` that is not empty:
those of `a`, followed through by the pieces of `b`. -/
theorem cleanElems_Join_pair (a b : GoString) (ha : a ≠ []) :
    isRooted (Join [a, b]) = isRooted a ∧
    cleanElems (Join [a, b])
      = ((splitSlash b).foldl (cleanStep (isRooted a)) (cleanElems a).reverse).reverse := by
  have hj : Join [a, b] = Clean (a ++ '/' :: b) := by
    rw [Join]
    simp only [ha, if_false]
    rfl
  rw [hj, (cleanElems_Clean _).1, (cleanElems_Clean _).2, isRooted_append a _ ha]
  refine ⟨rfl, ?_⟩
  unfold cleanElems
  rw [isRooted_append a _ ha, splitSlash_append_slash, List.foldl_append,
    List.reverse_reverse]

/-- Function `filepath.Base` gives the root or a text without separator. -/
theorem Base_shape (p : GoString) : Base p = ['/'] ∨ '/' ∉ Base p := by
  unfold Base
  by_cases h1 : p = []
  · right
    rw [if_pos h1]
    simp
  · rw [if_neg h1]
    simp only []
    by_cases h2 : (List.dropWhile (fun c => c == '/') p.reverse).reverse = []
    · left
      rw [if_pos h2]
    · right
      rw [if_neg h2]
      intro hm
      have hm2 := List.mem_reverse.mp hm
      have := List.mem_takeWhile_imp hm2
      simp at this

/-- The elements of the destination of a copied target file: those of the
staging directory, with `targets` and possibly a name after them. -/
theorem cleanElems_targetCopy (d tf : GoString) (hds : cleanElems d ≠ []) :
    cleanElems (Join [Join [d, "targets".toList], Base tf]) = cleanElems d ++ ["targets".toList] ∨
    cleanElems (Join [Join [d, "targets".toList], Base tf]) = cleanElems d ∨
    cleanElems (Join [Join [d, "targets".toList], Base tf])
      = cleanElems d ++ ["targets".toList, Base tf] := by
  have hx1 : ∀ n ∈ ["targets".toList], validName n = true := by decide
  rw [Join_stage d _ hds (by decide)]
  have hne : under d ["targets".toList] ≠ [] := under_ne_nil d _ hx1 (by simp)
  rw [(cleanElems_Join_pair _ (Base tf) hne).2, cleanElems_under d _ hx1]
  rcases Base_shape tf with hb | hb
  · left
    rw [hb]
    have : splitSlash ['/'] = [[], []] := rfl
    rw [this]
    simp [cleanStep]
  · rw [splitSlash_noSlash _ hb]
    have hrev : (cleanElems d ++ ["targets".toList]).reverse
        = "targets".toList :: (cleanElems d).reverse := by simp
    rw [hrev, List.foldl_cons, List.foldl_nil]
    have hne2 : "targets".toList ≠ dotdot := by decide
    unfold cleanStep
    by_cases h1 : Base tf = []
    · left
      rw [if_pos h1]
      simp
    · rw [if_neg h1]
      by_cases h2 : Base tf = ['.']
      · left
        rw [if_pos h2]
        simp
      · rw [if_neg h2]
        by_cases h3 : Base tf = dotdot
        · right; left
          rw [if_pos h3]
          simp only []
          rw [if_neg hne2, List.reverse_reverse]
        · right; right
          rw [if_neg h3]
          simp

/-! ### Helper lemmas: the calls of an export that create something -/

theorem mkdirs_append (a b : List Call) : mkdirs (a ++ b) = mkdirs a ++ mkdirs b := by
  induction a with
  | nil => rfl
  | cons c rest ih => cases c <;> simp [mkdirs, ih]

theorem copiedFiles_append (a b : List Call) :
    copiedFiles (a ++ b) = copiedFiles a ++ copiedFiles b := by
  induction a with
  | nil => rfl
  | cons c rest ih => cases c <;> simp [copiedFiles, ih]

theorem copiedDirs_append (a b : List Call) :
    copiedDirs (a ++ b) = copiedDirs a ++ copiedDirs b := by
  induction a with
  | nil => rfl
  | cons c rest ih => cases c <;> simp [copiedDirs, ih]

theorem leavesAlone_nil (dir : GoString) : leavesAlone dir [] :=
  ⟨fun _ h => absurd h (by simp [copiedFiles]), fun _ h => absurd h (by simp [mkdirs]),
    fun _ h => absurd h (by simp [copiedDirs])⟩

theorem leavesAlone_append (dir : GoString) (a b : List Call)
    (ha : leavesAlone dir a) (hb : leavesAlone dir b) : leavesAlone dir (a ++ b) := by
  obtain ⟨a1, a2, a3⟩ := ha
  obtain ⟨b1, b2, b3⟩ := hb
  refine ⟨?_, ?_, ?_⟩
  · intro p hp
    rw [copiedFiles_append] at hp
    rcases List.mem_append.mp hp with h | h
    · exact a1 p h
    · exact b1 p h
  · intro p hp
    rw [mkdirs_append] at hp
    rcases List.mem_append.mp hp with h | h
    · exact a2 p h
    · exact b2 p h
  · intro p hp
    rw [copiedDirs_append] at hp
    rcases List.mem_append.mp hp with h | h
    · exact a3 p h
    · exact b3 p h

/-- Calls that make no directory and copy nothing leave every directory
alone. -/
theorem leavesAlone_of_none (dir : GoString) (calls : List Call)
    (h1 : copiedFiles calls = []) (h2 : mkdirs calls = []) (h3 : copiedDirs calls = []) :
    leavesAlone dir calls := by
  unfold leavesAlone
  rw [h1, h2, h3]
  simp

theorem leavesAlone_mkdirAll (dir p : GoString) (h : entryBelow dir p = none) :
    leavesAlone dir [Call.mkdirAll p] := by
  refine ⟨fun _ hq => absurd hq (by simp [copiedFiles]), ?_,
    fun _ hq => absurd hq (by simp [copiedDirs])⟩
  intro q hq
  have : q = p := by simpa [mkdirs] using hq
  rw [this]
  exact h

theorem leavesAlone_copyFile (dir src dst : GoString) (h : entryIn dir dst = none) :
    leavesAlone dir [Call.copyFile src dst] := by
  refine ⟨?_, fun _ hq => absurd hq (by simp [mkdirs]),
    fun _ hq => absurd hq (by simp [copiedDirs])⟩
  intro q hq
  have : q = dst := by simpa [copiedFiles] using hq
  rw [this]
  exact h

theorem leavesAlone_copyDir (dir src dst : GoString) (h : entryBelow dir dst = none)
    (h2 : liesOver dst dir = false) : leavesAlone dir [Call.copyDir src dst] := by
  refine ⟨fun _ hq => absurd hq (by simp [copiedFiles]),
    fun _ hq => absurd hq (by simp [mkdirs]), ?_⟩
  intro q hq
  have : q = dst := by simpa [copiedDirs] using hq
  rw [this]
  exact ⟨h, h2⟩

theorem leavesAlone_cons (dir : GoString) (c : Call) (rest : List Call)
    (hc : leavesAlone dir [c]) (hr : leavesAlone dir rest) : leavesAlone dir (c :: rest) :=
  leavesAlone_append dir [c] rest hc hr

/-- The loop over the search results makes no directory and copies
nothing. -/
theorem leavesAlone_dashboardLoop (dir : GoString) (w : World) (url dashDir : GoString) :
    ∀ results, leavesAlone dir (exportDashboardLoop w url dashDir results).calls := by
  intro results
  induction results with
  | nil => exact leavesAlone_nil dir
  | cons uid rest ih =>
    unfold exportDashboardLoop
    cases hdl : (w.grafanaAt url).download uid with
    | none =>
      simp only []
      exact leavesAlone_cons dir _ _ (leavesAlone_of_none dir _ rfl rfl rfl) ih
    | some data =>
      simp only []
      cases hw : w.disk.writeFileOk (Join [dashDir, uid ++ ".json".toList]) with
      | false =>
        simp only [Bool.false_eq_true, if_false]
        exact leavesAlone_of_none dir _ rfl rfl rfl
      | true =>
        simp only [if_true]
        exact leavesAlone_append dir _ _ (leavesAlone_of_none dir _ rfl rfl rfl) ih

/-- The loop over the datasources makes no directory and copies nothing. -/
theorem leavesAlone_datasourceLoop (dir : GoString) (w : World) (dsDir : GoString) :
    ∀ datasources, leavesAlone dir (exportDatasourceLoop w dsDir datasources).calls := by
  intro datasources
  induction datasources with
  | nil => exact leavesAlone_nil dir
  | cons ds rest ih =>
    unfold exportDatasourceLoop
    cases henc : w.codec.encodeDatasource ds with
    | none =>
      simp only []
      exact ih
    | some data =>
      simp only []
      cases hw : w.disk.writeFileOk (Join [dsDir, ds.Name ++ ".json".toList]) with
      | false =>
        simp only [Bool.false_eq_true, if_false]
        exact leavesAlone_of_none dir _ rfl rfl rfl
      | true =>
        simp only [if_true]
        exact leavesAlone_cons dir _ _ (leavesAlone_of_none dir _ rfl rfl rfl) ih

/-- A directory made directly in the staging directory is no entry of one of
its directories. -/
theorem stage1_quiet (d x dir sub : GoString) (hds : cleanElems d ≠ [])
    (hx : validName x = true) (hd : cleanElems dir = cleanElems d ++ [sub]) :
    entryBelow dir (Join [d, x]) = none := by
  rw [Join_stage d x hds hx]
  apply entryBelow_none dir _ (cleanElems d) [x] sub hd
    (cleanElems_under d [x] (by simpa using hx))
  intro e rest h
  simp at h

/-- A path two names below the staging directory is no entry of the
directory of another name. -/
theorem stage2_quiet (d x y dir sub : GoString) (hds : cleanElems d ≠ [])
    (hx : validName x = true) (hy : validName y = true) (hne : x ≠ sub)
    (hd : cleanElems dir = cleanElems d ++ [sub]) :
    entryIn dir (Join [Join [d, x], y]) = none ∧
    entryBelow dir (Join [Join [d, x], y]) = none ∧
    liesOver (Join [Join [d, x], y]) dir = false := by
  rw [Join_stage2 d x y hds hx hy]
  have hxy : ∀ n ∈ [x, y], validName n = true := by
    intro n hn
    rcases List.mem_cons.mp hn with h | h
    · rw [h]; exact hx
    · rw [List.mem_singleton.mp h]; exact hy
  have hp := cleanElems_under d [x, y] hxy
  have hX : ∀ e rest, [x, y] ≠ sub :: e :: rest := by
    intro e rest h
    simp only [List.cons.injEq] at h
    exact hne h.1
  refine ⟨entryIn_none dir _ _ _ sub hd hp hX, entryBelow_none dir _ _ _ sub hd hp hX,
    liesOver_false _ dir _ _ sub hd hp ?_⟩
  intro h
  have := List.IsPrefix.length_le h
  simp at this

/-- The copy of a target file is no entry of a directory other than
`targets`. -/
theorem target_quiet (d tf dir sub : GoString) (hds : cleanElems d ≠ [])
    (hne : "targets".toList ≠ sub) (hd : cleanElems dir = cleanElems d ++ [sub]) :
    entryIn dir (Join [Join [d, "targets".toList], Base tf]) = none := by
  rcases cleanElems_targetCopy d tf hds with h | h | h
  · apply entryIn_none dir _ (cleanElems d) ["targets".toList] sub hd h
    intro e rest hx
    simp at hx
  · apply entryIn_none dir _ (cleanElems d) [] sub hd (by rw [h, List.append_nil])
    intro e rest hx
    simp at hx
  · apply entryIn_none dir _ (cleanElems d) ["targets".toList, Base tf] sub hd h
    intro e rest hx
    simp only [List.cons.injEq] at hx
    exact hne hx.1

/-- The block for the dashboard server leaves the directories `dashboards/`
and `datasources/` of the staging directory to its `os.WriteFile` calls: it
makes directories directly in the staging directory and copies nothing. -/
theorem leavesAlone_exportGrafana (w : World) (opts : ArchiveOptions)
    (stageDir dir sub : GoString) (hds : cleanElems stageDir ≠ [])
    (hd : cleanElems dir = cleanElems stageDir ++ [sub]) :
    leavesAlone dir (exportGrafana w opts stageDir).calls := by
  have hA1 : leavesAlone dir [Call.mkdirAll (Join [stageDir, "dashboards".toList])] :=
    leavesAlone_mkdirAll dir _ (stage1_quiet stageDir _ dir sub hds (by decide) hd)
  have hA2 : leavesAlone dir [Call.mkdirAll (Join [stageDir, "datasources".toList])] :=
    leavesAlone_mkdirAll dir _ (stage1_quiet stageDir _ dir sub hds (by decide) hd)
  have hA3 : leavesAlone dir [Call.mkdirAll (Join [stageDir, "folders".toList])] :=
    leavesAlone_mkdirAll dir _ (stage1_quiet stageDir _ dir sub hds (by decide) hd)
  unfold exportGrafana
  simp only []
  repeat' split
  all_goals
    simp only []
    repeat' first
      | exact hA1
      | exact hA2
      | exact hA3
      | exact leavesAlone_dashboardLoop dir w _ _ _
      | exact leavesAlone_datasourceLoop dir w _ _
      | exact leavesAlone_nil dir
      | exact leavesAlone_of_none dir _ rfl rfl rfl
      | apply leavesAlone_append

theorem leavesAlone_targetCopies (stageDir dir sub : GoString)
    (hds : cleanElems stageDir ≠ []) (hne : "targets".toList ≠ sub)
    (hd : cleanElems dir = cleanElems stageDir ++ [sub]) :
    ∀ l : List GoString, leavesAlone dir
      (l.map (fun tf => Call.copyFile tf (Join [Join [stageDir, "targets".toList], Base tf]))) := by
  intro l
  induction l with
  | nil => exact leavesAlone_nil dir
  | cons tf rest ih =>
    rw [List.map_cons]
    exact leavesAlone_cons dir _ _
      (leavesAlone_copyFile dir _ _ (target_quiet stageDir tf dir sub hds hne hd)) ih

/-- The copies of the config files and target files leave the directories
`dashboards/` and `datasources/` of the staging directory alone. -/
theorem leavesAlone_collectConfigs (opts : ArchiveOptions) (stageDir dir sub : GoString)
    (hds : cleanElems stageDir ≠ [])
    (hsub : sub = "dashboards".toList ∨ sub = "datasources".toList)
    (hd : cleanElems dir = cleanElems stageDir ++ [sub]) :
    leavesAlone dir (collectConfigs opts stageDir) := by
  have hn1 : "prometheus".toList ≠ sub := by rcases hsub with h | h <;> rw [h] <;> decide
  have hn2 : "alertmanager".toList ≠ sub := by rcases hsub with h | h <;> rw [h] <;> decide
  have hn3 : "loki".toList ≠ sub := by rcases hsub with h | h <;> rw [h] <;> decide
  have hn4 : "targets".toList ≠ sub := by rcases hsub with h | h <;> rw [h] <;> decide
  have hM : ∀ x, validName x = true → leavesAlone dir [Call.mkdirAll (Join [stageDir, x])] :=
    fun x hx => leavesAlone_mkdirAll dir _ (stage1_quiet stageDir x dir sub hds hx hd)
  have hF : ∀ src x y, validName x = true → validName y = true → x ≠ sub →
      leavesAlone dir [Call.copyFile src (Join [Join [stageDir, x], y])] :=
    fun src x y hx hy hne =>
      leavesAlone_copyFile dir _ _ (stage2_quiet stageDir x y dir sub hds hx hy hne hd).1
  have hD : ∀ src x y, validName x = true → validName y = true → x ≠ sub →
      leavesAlone dir [Call.copyDir src (Join [Join [stageDir, x], y])] :=
    fun src x y hx hy hne =>
      leavesAlone_copyDir dir _ _ (stage2_quiet stageDir x y dir sub hds hx hy hne hd).2.1
        (stage2_quiet stageDir x y dir sub hds hx hy hne hd).2.2
  unfold collectConfigs
  simp only []
  repeat' first
    | exact leavesAlone_nil dir
    | exact hM _ (by decide)
    | exact hF _ _ _ (by decide) (by decide) hn1
    | exact hF _ _ _ (by decide) (by decide) hn2
    | exact hF _ _ _ (by decide) (by decide) hn3
    | exact hD _ _ _ (by decide) (by decide) hn1
    | exact leavesAlone_targetCopies stageDir dir sub hds hn4 hd _
    | apply leavesAlone_append
    | apply leavesAlone_cons
    | split

/-- The calls of the body of `ArchiveStack` when it ends without error: the
block for the dashboard server, the copies, the snapshot request, then the
write of the metadata document and the packing of the staging directory. -/
theorem archiveStaged_calls (w : World) (opts : ArchiveOptions) (stageDir : GoString)
    (hok : (archiveStaged w opts stageDir).err = none) :
    ∃ metaData, w.codec.encodeMetadata (exportMetadata w opts stageDir) = some metaData ∧
      (archiveStaged w opts stageDir).calls =
        ((if opts.GrafanaURL ≠ [] then exportGrafana w opts stageDir
          else (⟨none, 0, 0, []⟩ : GrafanaStage)).calls ++
          collectConfigs opts stageDir ++
          (if opts.PrometheusURL ≠ [] then [Call.createSnapshot opts.PrometheusURL] else [])) ++
        [Call.writeFile (Join [stageDir, "metadata.yaml".toList]) metaData,
         Call.packArchive stageDir opts.OutputPath] := by
  obtain ⟨hg1, hg2⟩ := grafanaStage_spec w opts stageDir _ rfl
  unfold archiveStaged at hok ⊢
  simp only [] at hok ⊢
  generalize (if opts.GrafanaURL ≠ [] then exportGrafana w opts stageDir
    else ⟨none, 0, 0, []⟩) = g at hg1 hg2 hok ⊢
  cases he : g.err with
  | some e =>
    rw [he] at hok
    exact absurd hok (by simp)
  | none =>
    rw [he] at hok
    simp only [] at hok ⊢
    obtain ⟨hd, hs, _⟩ := hg2 he
    rw [archiveStaged_metadata w opts stageDir g hd hs] at hok ⊢
    cases hm : w.codec.encodeMetadata (exportMetadata w opts stageDir) with
    | none =>
      rw [hm] at hok
      exact absurd hok (by simp)
    | some metaData =>
      rw [hm] at hok
      simp only [] at hok ⊢
      cases hw : w.disk.writeFileOk (Join [stageDir, "metadata.yaml".toList]) with
      | false =>
        rw [hw] at hok
        exact absurd hok (by simp)
      | true =>
        rw [hw] at hok
        simp only [Bool.not_true, Bool.false_eq_true, if_false] at hok ⊢
        cases hp : w.disk.packOk stageDir opts.OutputPath with
        | false =>
          rw [hp] at hok
          exact absurd hok (by simp)
        | true =>
          simp only [Bool.not_true, Bool.false_eq_true, if_false]
          exact ⟨metaData, rfl, by simp [List.append_assoc]⟩

theorem filterMap_none {α β : Type} (f : α → Option β) (l : List α)
    (h : ∀ x ∈ l, f x = none) : l.filterMap f = [] := by
  induction l with
  | nil => rfl
  | cons a rest ih =>
    rw [List.filterMap_cons, h a (by simp)]
    exact ih (fun x hx => h x (List.mem_cons_of_mem _ hx))

/-- Where the other calls leave a directory alone, its entries are the files
written directly into it. -/
theorem stagedEntries_of_leavesAlone (dir : GoString) (calls : List Call)
    (h : leavesAlone dir calls) :
    stagedEntries dir calls
      = some ((((writes calls).map Prod.fst).filterMap (entryIn dir)).dedup) := by
  obtain ⟨h1, h2, h3⟩ := h
  have hany : (copiedDirs calls).any (fun dst => liesOver dst dir) = false := by
    rw [List.any_eq_false]
    intro p hp
    rw [(h3 p hp).2]
    simp
  unfold stagedEntries
  rw [hany]
  simp only [Bool.false_eq_true, if_false]
  rw [List.filterMap_append, List.filterMap_append, filterMap_none _ _ h1,
    filterMap_none _ _ h2, filterMap_none _ _ (fun p hp => (h3 p hp).1)]
  simp

/-- The files named by valid names in a directory of the staging directory
are its entries of these names. -/
theorem entries_own (d x : GoString) (hds : cleanElems d ≠ []) (hx : validName x = true) :
    ∀ ns : List GoString, (∀ n ∈ ns, validName n = true) →
    (ns.map (fun n => Join [Join [d, x], n])).filterMap (entryIn (Join [d, x])) = ns := by
  intro ns
  induction ns with
  | nil => intro _; rfl
  | cons n rest ih =>
    intro hv
    have hn : validName n = true := hv n (by simp)
    have hx1 : ∀ k ∈ [x], validName k = true := by simpa using hx
    have hxn : ∀ k ∈ [x, n], validName k = true := by
      intro k hk
      rcases List.mem_cons.mp hk with h | h
      · rw [h]; exact hx
      · rw [List.mem_singleton.mp h]; exact hn
    have he : entryIn (Join [d, x]) (Join [Join [d, x], n]) = some n := by
      rw [Join_stage2 d x n hds hx hn, Join_stage d x hds hx]
      apply entryIn_child
      · rw [isRooted_under d _ hxn, isRooted_under d _ hx1]
      · rw [cleanElems_under d _ hxn, cleanElems_under d _ hx1]
        simp
    rw [List.map_cons, List.filterMap_cons, he,
      ih (fun k hk => hv k (List.mem_cons_of_mem _ hk))]

/-- The files named by valid names in a directory of the staging directory
are no entries of another directory of it. -/
theorem entries_other (d x dir sub : GoString) (hds : cleanElems d ≠ [])
    (hx : validName x = true) (hne : x ≠ sub)
    (hd : cleanElems dir = cleanElems d ++ [sub]) :
    ∀ ns : List GoString, (∀ n ∈ ns, validName n = true) →
    (ns.map (fun n => Join [Join [d, x], n])).filterMap (entryIn dir) = [] := by
  intro ns hv
  apply filterMap_none
  intro p hp
  obtain ⟨n, hn, rfl⟩ := List.mem_map.mp hp
  exact (stage2_quiet d x n dir sub hds hx (hv n hn) hne hd).1

theorem dashboardDocs_paths (w : World) (opts : ArchiveOptions) (stageDir : GoString) :
    (dashboardDocs w opts stageDir).map Prod.fst
      = (dashboardNames w opts).map
          (fun n => Join [Join [stageDir, "dashboards".toList], n]) := by
  unfold dashboardDocs dashboardNames
  split_ifs
  · rfl
  · unfold dashboardDocsOf
    generalize (w.grafanaAt opts.GrafanaURL).search.getD [] = results
    induction results with
    | nil => rfl
    | cons uid rest ih =>
      rw [List.filterMap_cons, List.filterMap_cons]
      cases (w.grafanaAt opts.GrafanaURL).download uid with
      | none => exact ih
      | some data =>
        simp only [Option.map_some', List.map_cons]
        rw [ih]

theorem datasourceDocs_paths (w : World) (opts : ArchiveOptions) (stageDir : GoString) :
    (datasourceDocs w opts stageDir).map Prod.fst
      = (datasourceNames w opts).map
          (fun n => Join [Join [stageDir, "datasources".toList], n]) := by
  unfold datasourceDocs datasourceNames
  split_ifs
  · rfl
  · unfold datasourceDocsOf
    generalize (w.grafanaAt opts.GrafanaURL).datasources.getD [] = sources
    induction sources with
    | nil => rfl
    | cons ds rest ih =>
      rw [List.filterMap_cons, List.filterMap_cons]
      cases w.codec.encodeDatasource ds with
      | none => exact ih
      | some data =>
        simp only [Option.map_some', List.map_cons]
        rw [ih]

theorem stage1_quiet_in (d x dir sub : GoString) (hds : cleanElems d ≠ [])
    (hx : validName x = true) (hd : cleanElems dir = cleanElems d ++ [sub]) :
    entryIn dir (Join [d, x]) = none := by
  rw [Join_stage d x hds hx]
  apply entryIn_none dir _ (cleanElems d) [x] sub hd
    (cleanElems_under d [x] (by simpa using hx))
  intro e rest h
  simp at h

theorem cleanElems_stageSub (d x : GoString) (hds : cleanElems d ≠ [])
    (hx : validName x = true) : cleanElems (Join [d, x]) = cleanElems d ++ [x] := by
  rw [Join_stage d x hds hx]
  exact cleanElems_under d [x] (by simpa using hx)

/-- The entries of `dashboards/` and `datasources/` of the staging directory
when an export packs it: the names of the dashboard documents and of the
datasource documents, each once; the last call before the packing writes the
metadata document. -/
theorem ArchiveStack_staged (w : World) (opts : ArchiveOptions) (stageDir : GoString)
    (htmp : w.disk.mkdirTemp "scylla-monitor-export-*".toList = some stageDir)
    (hds : cleanElems stageDir ≠ [])
    (hok : (ArchiveStack w opts).err = none)
    (hdv : ∀ n ∈ dashboardNames w opts, validName n = true)
    (hsv : ∀ n ∈ datasourceNames w opts, validName n = true) :
    ∃ (metaData : GoString) (pre : List Call),
      w.codec.encodeMetadata (exportMetadata w opts stageDir) = some metaData ∧
      (ArchiveStack w opts).calls
        = (pre ++ [Call.writeFile (Join [stageDir, "metadata.yaml".toList]) metaData]) ++
            [Call.packArchive stageDir opts.OutputPath, Call.removeAll stageDir] ∧
      stagedEntries (Join [stageDir, "dashboards".toList])
          (pre ++ [Call.writeFile (Join [stageDir, "metadata.yaml".toList]) metaData])
        = some (dashboardNames w opts).dedup ∧
      stagedEntries (Join [stageDir, "datasources".toList])
          (pre ++ [Call.writeFile (Join [stageDir, "metadata.yaml".toList]) metaData])
        = some (datasourceNames w opts).dedup := by
  have hok2 : (archiveStaged w opts stageDir).err = none := by
    unfold ArchiveStack at hok
    rw [htmp] at hok
    exact hok
  obtain ⟨metaData, henc, hcalls⟩ := archiveStaged_calls w opts stageDir hok2
  obtain ⟨_, metaData2, henc2, hwr⟩ := (archiveStaged_spec w opts stageDir).2 hok2
  have hmm : metaData2 = metaData := by
    rw [henc] at henc2
    exact (Option.some.inj henc2).symm
  rw [hmm] at hwr
  have hall : (ArchiveStack w opts).calls
      = Call.mkdirTemp "scylla-monitor-export-*".toList ::
          (archiveStaged w opts stageDir).calls ++ [Call.removeAll stageDir] := by
    unfold ArchiveStack
    rw [htmp]
  have hleave : ∀ dir sub, (sub = "dashboards".toList ∨ sub = "datasources".toList) →
      cleanElems dir = cleanElems stageDir ++ [sub] →
      leavesAlone dir
        (Call.mkdirTemp "scylla-monitor-export-*".toList ::
          ((if opts.GrafanaURL ≠ [] then exportGrafana w opts stageDir
            else (⟨none, 0, 0, []⟩ : GrafanaStage)).calls ++
            collectConfigs opts stageDir ++
            (if opts.PrometheusURL ≠ [] then [Call.createSnapshot opts.PrometheusURL]
             else [])) ++
          [Call.writeFile (Join [stageDir, "metadata.yaml".toList]) metaData]) := by
    intro dir sub hsub hd
    apply leavesAlone_append
    · apply leavesAlone_cons
      · exact leavesAlone_of_none dir _ rfl rfl rfl
      · apply leavesAlone_append
        · apply leavesAlone_append
          · split_ifs
            · exact leavesAlone_exportGrafana w opts stageDir dir sub hds hd
            · exact leavesAlone_nil dir
          · exact leavesAlone_collectConfigs opts stageDir dir sub hds hsub hd
        · split_ifs
          · exact leavesAlone_of_none dir _ rfl rfl rfl
          · exact leavesAlone_nil dir
    · exact leavesAlone_of_none dir _ rfl rfl rfl
  generalize ((if opts.GrafanaURL ≠ [] then exportGrafana w opts stageDir
      else (⟨none, 0, 0, []⟩ : GrafanaStage)).calls ++
      collectConfigs opts stageDir ++
      (if opts.PrometheusURL ≠ [] then [Call.createSnapshot opts.PrometheusURL]
       else [])) = front at hcalls hleave
  have hwrites : writes
      (Call.mkdirTemp "scylla-monitor-export-*".toList :: front ++
          [Call.writeFile (Join [stageDir, "metadata.yaml".toList]) metaData])
      = dashboardDocs w opts stageDir ++ datasourceDocs w opts stageDir ++
          folderDocs w opts stageDir ++
          [(Join [stageDir, "metadata.yaml".toList], metaData)] := by
    have e1 : writes (Call.mkdirTemp "scylla-monitor-export-*".toList :: front ++
        [Call.writeFile (Join [stageDir, "metadata.yaml".toList]) metaData])
        = writes (front ++
            [Call.writeFile (Join [stageDir, "metadata.yaml".toList]) metaData]) := rfl
    have e2 : front ++ [Call.writeFile (Join [stageDir, "metadata.yaml".toList]) metaData,
        Call.packArchive stageDir opts.OutputPath]
        = (front ++ [Call.writeFile (Join [stageDir, "metadata.yaml".toList]) metaData]) ++
            [Call.packArchive stageDir opts.OutputPath] := by simp
    have e3 : writes [Call.packArchive stageDir opts.OutputPath] = [] := rfl
    rw [e1, ← hwr, hcalls, e2, writes_append _ [Call.packArchive stageDir opts.OutputPath], e3,
      List.append_nil]
  have hd1 := cleanElems_stageSub stageDir "dashboards".toList hds (by decide)
  have hd2 := cleanElems_stageSub stageDir "datasources".toList hds (by decide)
  have hfold : ∀ dir sub, cleanElems dir = cleanElems stageDir ++ [sub] →
      "folders".toList ≠ sub →
      ((folderDocs w opts stageDir).map Prod.fst).filterMap (entryIn dir) = [] := by
    intro dir sub hd hne
    unfold folderDocs
    split_ifs
    · rfl
    · cases (w.grafanaAt opts.GrafanaURL).folders with
      | none => rfl
      | some data =>
        simp only [List.map_cons, List.map_nil, List.filterMap_cons, List.filterMap_nil]
        rw [(stage2_quiet stageDir _ _ dir sub hds (by decide) (by decide) hne hd).1]
  refine ⟨metaData, Call.mkdirTemp "scylla-monitor-export-*".toList :: front, henc, ?_, ?_, ?_⟩
  · rw [hall, hcalls]
    simp only [List.cons_append, List.append_assoc, List.singleton_append, List.nil_append]
  · rw [stagedEntries_of_leavesAlone _ _ (hleave _ _ (Or.inl rfl) hd1), hwrites]
    simp only [List.map_append, List.filterMap_append, List.map_cons, List.map_nil,
      List.filterMap_cons, List.filterMap_nil]
    rw [dashboardDocs_paths, datasourceDocs_paths,
      entries_own stageDir _ hds (by decide) _ hdv,
      entries_other stageDir "datasources".toList _ "dashboards".toList hds (by decide)
        (by decide) hd1 _ hsv,
      hfold _ _ hd1 (by decide),
      stage1_quiet_in stageDir "metadata.yaml".toList _ _ hds (by decide) hd1]
    simp
  · rw [stagedEntries_of_leavesAlone _ _ (hleave _ _ (Or.inr rfl) hd2),
      hwrites]
    simp only [List.map_append, List.filterMap_append, List.map_cons, List.map_nil,
      List.filterMap_cons, List.filterMap_nil]
    rw [dashboardDocs_paths, datasourceDocs_paths,
      entries_own stageDir _ hds (by decide) _ hsv,
      entries_other stageDir "dashboards".toList _ "datasources".toList hds (by decide)
        (by decide) hd2 _ hdv,
      hfold _ _ hd2 (by decide),
      stage1_quiet_in stageDir "metadata.yaml".toList _ _ hds (by decide) hd2]
    simp

/-! ### Counting the documents of an export: claims -/

set_option maxRecDepth 100000 in
/-- C16 (refuted as stated): two exports that succeed with counts that are
not the numbers of documents. With the one datasource named
`../dashboards/x` the metadata holds `dashboard_count` 0 and
`datasource_count` 1, while the staging directory that is packed holds no
document in `datasources/` and the document `x.json` in `dashboards/`. With
the identifier `d1` listed twice the metadata holds `dashboard_count` 2,
while `dashboards/` holds the one document `d1.json`. -/
theorem ArchiveStack_counts_not_documents :
    ((ArchiveStack climbingNameWorld sampleArchive).err = none ∧
      ((ArchiveStack climbingNameWorld sampleArchive).metadata.map
        (fun m => (m.DashboardCount, m.DatasourceCount))) = some (0, 1) ∧
      (ArchiveStack climbingNameWorld sampleArchive).calls
        = beforePack (ArchiveStack climbingNameWorld sampleArchive).calls ++
          [Call.packArchive "/tmp/scylla-monitor-export-*".toList "/out/export.tar.gz".toList,
           Call.removeAll "/tmp/scylla-monitor-export-*".toList] ∧
      stagedEntries (Join ["/tmp/scylla-monitor-export-*".toList, "datasources".toList])
        (beforePack (ArchiveStack climbingNameWorld sampleArchive).calls) = some [] ∧
      stagedEntries (Join ["/tmp/scylla-monitor-export-*".toList, "dashboards".toList])
        (beforePack (ArchiveStack climbingNameWorld sampleArchive).calls)
          = some ["x.json".toList]) ∧
    ((ArchiveStack repeatedUidWorld sampleArchive).err = none ∧
      ((ArchiveStack repeatedUidWorld sampleArchive).metadata.map
        (fun m => (m.DashboardCount, m.DatasourceCount))) = some (2, 0) ∧
      (ArchiveStack repeatedUidWorld sampleArchive).calls
        = beforePack (ArchiveStack repeatedUidWorld sampleArchive).calls ++
          [Call.packArchive "/tmp/scylla-monitor-export-*".toList "/out/export.tar.gz".toList,
           Call.removeAll "/tmp/scylla-monitor-export-*".toList] ∧
      stagedEntries (Join ["/tmp/scylla-monitor-export-*".toList, "dashboards".toList])
        (beforePack (ArchiveStack repeatedUidWorld sampleArchive).calls)
          = some ["d1.json".toList]) := by
  refine ⟨⟨by decide, by decide, by decide, by decide, by decide⟩,
    ⟨by decide, by decide, by decide, by decide⟩⟩

/-- C16 (amended): when an export succeeds, its staging directory is neither
`.` nor the root, and the names `<uid>.json` of its dashboard documents and
`<name>.json` of its datasource documents are valid file names, pairwise
distinct, then the staging directory it packs holds in `dashboards/` exactly
one document for each search result whose download succeeds and none for a
result whose download fails, in `datasources/` exactly one document for each
datasource that can be encoded, and the metadata holds as `dashboard_count`
and `datasource_count` the numbers of these documents. -/
theorem ArchiveStack_counts (w : World) (opts : ArchiveOptions) (stageDir : GoString)
    (htmp : w.disk.mkdirTemp "scylla-monitor-export-*".toList = some stageDir)
    (hds : cleanElems stageDir ≠ [])
    (hok : (ArchiveStack w opts).err = none)
    (hdv : ∀ n ∈ dashboardNames w opts, validName n = true)
    (hdd : (dashboardNames w opts).Nodup)
    (hsv : ∀ n ∈ datasourceNames w opts, validName n = true)
    (hsd : (datasourceNames w opts).Nodup) :
    ∃ (m : Metadata) (pre : List Call),
      (ArchiveStack w opts).metadata = some m ∧
      (ArchiveStack w opts).calls
        = pre ++ [Call.packArchive stageDir opts.OutputPath, Call.removeAll stageDir] ∧
      stagedEntries (Join [stageDir, "dashboards".toList]) pre
        = some (dashboardNames w opts) ∧
      stagedEntries (Join [stageDir, "datasources".toList]) pre
        = some (datasourceNames w opts) ∧
      m.DashboardCount = (dashboardNames w opts).length ∧
      m.DatasourceCount = (datasourceNames w opts).length ∧
      ∀ uid ∈ (w.grafanaAt opts.GrafanaURL).search.getD [],
        (w.grafanaAt opts.GrafanaURL).download uid = none →
        uid ++ ".json".toList ∉ dashboardNames w opts := by
  obtain ⟨metaData, pre, _, hcalls, he1, he2⟩ :=
    ArchiveStack_staged w opts stageDir htmp hds hok hdv hsv
  have hok2 : (archiveStaged w opts stageDir).err = none := by
    unfold ArchiveStack at hok
    rw [htmp] at hok
    exact hok
  have hmeta : (ArchiveStack w opts).metadata = some (exportMetadata w opts stageDir) := by
    unfold ArchiveStack
    rw [htmp]
    exact ((archiveStaged_spec w opts stageDir).2 hok2).1
  have hl1 : (dashboardDocs w opts stageDir).length = (dashboardNames w opts).length := by
    have := congrArg List.length (dashboardDocs_paths w opts stageDir)
    simpa using this
  have hl2 : (datasourceDocs w opts stageDir).length = (datasourceNames w opts).length := by
    have := congrArg List.length (datasourceDocs_paths w opts stageDir)
    simpa using this
  rw [hdd.dedup] at he1
  rw [hsd.dedup] at he2
  refine ⟨exportMetadata w opts stageDir, _, hmeta, hcalls, he1, he2, ?_, ?_, ?_⟩
  · show (((dashboardDocs w opts stageDir).length : Nat) : Int) = _
    rw [hl1]
  · show (((datasourceDocs w opts stageDir).length : Nat) : Int) = _
    rw [hl2]
  · intro uid _ hfail hmem
    unfold dashboardNames at hmem
    split_ifs at hmem
    · simp at hmem
    · obtain ⟨uid2, _, h2⟩ := List.mem_filterMap.mp hmem
      cases hd : (w.grafanaAt opts.GrafanaURL).download uid2 with
      | none =>
        rw [hd] at h2
        simp at h2
      | some data =>
        rw [hd] at h2
        simp only [Option.map_some', Option.some.injEq] at h2
        have : uid2 = uid := List.append_cancel_right h2
        rw [this, hfail] at hd
        exact absurd hd (by simp)

set_option maxRecDepth 100000 in
/-- C16 (amended), for the sample world, whose second dashboard cannot be
downloaded: the export succeeds, counts one dashboard and three datasources,
and stages exactly these documents. -/
theorem ArchiveStack_counts_witness :
    sampleWorld.disk.mkdirTemp "scylla-monitor-export-*".toList
      = some "/tmp/scylla-monitor-export-*".toList ∧
    (ArchiveStack sampleWorld sampleArchive).err = none ∧
    (sampleWorld.grafanaAt sampleArchive.GrafanaURL).download "d2".toList = none ∧
    dashboardNames sampleWorld sampleArchive = ["d1.json".toList] ∧
    datasourceNames sampleWorld sampleArchive
      = ["prometheus.json".toList, "alertmanager.json".toList, "loki.json".toList] ∧
    ((ArchiveStack sampleWorld sampleArchive).metadata.map
      (fun m => (m.DashboardCount, m.DatasourceCount))) = some (1, 3) ∧
    ∃ (m : Metadata) (pre : List Call),
      (ArchiveStack sampleWorld sampleArchive).metadata = some m ∧
      (ArchiveStack sampleWorld sampleArchive).calls
        = pre ++ [Call.packArchive "/tmp/scylla-monitor-export-*".toList
            sampleArchive.OutputPath, Call.removeAll "/tmp/scylla-monitor-export-*".toList] ∧
      stagedEntries (Join ["/tmp/scylla-monitor-export-*".toList, "dashboards".toList]) pre
        = some (dashboardNames sampleWorld sampleArchive) ∧
      stagedEntries (Join ["/tmp/scylla-monitor-export-*".toList, "datasources".toList]) pre
        = some (datasourceNames sampleWorld sampleArchive) ∧
      m.DashboardCount = (dashboardNames sampleWorld sampleArchive).length ∧
      m.DatasourceCount = (datasourceNames sampleWorld sampleArchive).length ∧
      ∀ uid ∈ (sampleWorld.grafanaAt sampleArchive.GrafanaURL).search.getD [],
        (sampleWorld.grafanaAt sampleArchive.GrafanaURL).download uid = none →
        uid ++ ".json".toList ∉ dashboardNames sampleWorld sampleArchive :=
  ⟨rfl, by decide, rfl, by decide, by decide, by decide,
    ArchiveStack_counts sampleWorld sampleArchive "/tmp/scylla-monitor-export-*".toList rfl
      (by decide) (by decide) (by decide) (by decide) (by decide) (by decide)⟩

/-! ### The round trip of an empty stack: claims -/

/-- C21: when the dashboard server lists no dashboard and no datasource, the
staging directory is neither `.` nor the root, and the staging directory,
its three directories, the metadata document and the archive can be written,
the export succeeds and its metadata holds `dashboard_count` 0 and
`datasource_count` 0; its last calls write the metadata document, pack the
staging directory into the output path and remove the staging directory; the
tree that is packed holds no entry in `dashboards/` and none in
`datasources/`; and an import of the archive at the output path, in whatever
world otherwise, reads back that metadata document and these two empty
directories and makes no upsert and no upload. -/
theorem empty_stack_round_trip (w : World) (opts : ArchiveOptions)
    (stageDir metaData : GoString)
    (hurl : opts.GrafanaURL ≠ [])
    (hsearch : (w.grafanaAt opts.GrafanaURL).search = some [])
    (hlist : (w.grafanaAt opts.GrafanaURL).datasources = some [])
    (htmp : w.disk.mkdirTemp "scylla-monitor-export-*".toList = some stageDir)
    (hds : cleanElems stageDir ≠ [])
    (hd1 : w.disk.mkdirAllOk (Join [stageDir, "dashboards".toList]) = true)
    (hd2 : w.disk.mkdirAllOk (Join [stageDir, "datasources".toList]) = true)
    (hd3 : w.disk.mkdirAllOk (Join [stageDir, "folders".toList]) = true)
    (henc : w.codec.encodeMetadata
      ⟨w.now, opts.GrafanaURL, opts.PrometheusURL, decide (opts.PrometheusURL ≠ []), 0, 0⟩
        = some metaData)
    (hwrite : w.disk.writeFileOk (Join [stageDir, "metadata.yaml".toList]) = true)
    (hpack : w.disk.packOk stageDir opts.OutputPath = true) :
    (ArchiveStack w opts).err = none ∧
    (ArchiveStack w opts).metadata =
      some ⟨w.now, opts.GrafanaURL, opts.PrometheusURL, decide (opts.PrometheusURL ≠ []),
        0, 0⟩ ∧
    ∃ pre : List Call,
      (ArchiveStack w opts).calls
        = (pre ++ [Call.writeFile (Join [stageDir, "metadata.yaml".toList]) metaData]) ++
            [Call.packArchive stageDir opts.OutputPath, Call.removeAll stageDir] ∧
      stagedEntries (Join [stageDir, "dashboards".toList])
        (pre ++ [Call.writeFile (Join [stageDir, "metadata.yaml".toList]) metaData])
          = some [] ∧
      stagedEntries (Join [stageDir, "datasources".toList])
        (pre ++ [Call.writeFile (Join [stageDir, "metadata.yaml".toList]) metaData])
          = some [] ∧
      ∀ (w2 : World) (opts2 : RestoreOptions), opts2.ArchivePath = opts.OutputPath →
        (importWorld w2 opts stageDir
          (pre ++ [Call.writeFile (Join [stageDir, "metadata.yaml".toList]) metaData])).disk.readFile
            (Join [extractDirOf (importWorld w2 opts stageDir
              (pre ++ [Call.writeFile (Join [stageDir, "metadata.yaml".toList]) metaData]))
                opts2, "metadata.yaml".toList]) = some metaData ∧
        upserts (RestoreStack (importWorld w2 opts stageDir
          (pre ++ [Call.writeFile (Join [stageDir, "metadata.yaml".toList]) metaData]))
            opts2).calls = [] ∧
        uploads (RestoreStack (importWorld w2 opts stageDir
          (pre ++ [Call.writeFile (Join [stageDir, "metadata.yaml".toList]) metaData]))
            opts2).calls = [] := by
  have hdd : dashboardDocs w opts stageDir = [] := by
    unfold dashboardDocs
    rw [if_neg hurl, hsearch]
    rfl
  have hsd : datasourceDocs w opts stageDir = [] := by
    unfold datasourceDocs
    rw [if_neg hurl, hlist]
    rfl
  have hdn : dashboardNames w opts = [] := by
    unfold dashboardNames
    rw [if_neg hurl, hsearch]
    rfl
  have hsn : datasourceNames w opts = [] := by
    unfold datasourceNames
    rw [if_neg hurl, hlist]
    rfl
  have hmd : exportMetadata w opts stageDir =
      ⟨w.now, opts.GrafanaURL, opts.PrometheusURL, decide (opts.PrometheusURL ≠ []), 0, 0⟩ := by
    unfold exportMetadata
    rw [hdd, hsd]
    rfl
  have hnf : ¬ ((opts.GrafanaURL ≠ [] ∧ grafanaFailure w opts stageDir) ∨
      w.codec.encodeMetadata (exportMetadata w opts stageDir) = none ∨
      w.disk.writeFileOk (Join [stageDir, "metadata.yaml".toList]) = false ∨
      w.disk.packOk stageDir opts.OutputPath = false) := by
    rw [hmd, henc, hwrite, hpack]
    rintro (⟨_, hg⟩ | h | h | h)
    · unfold grafanaFailure at hg
      rw [hd1, hd2, hd3, hsearch, hlist, hdd, hsd] at hg
      rcases hg with h | h | ⟨p, hp, _⟩ | h | h | ⟨p, hp, _⟩ | h
      · exact absurd h (by simp)
      · exact absurd h (by simp)
      · exact absurd hp (by simp)
      · exact absurd h (by simp)
      · exact absurd h (by simp)
      · exact absurd hp (by simp)
      · exact absurd h (by simp)
    · exact absurd h (by simp)
    · exact absurd h (by simp)
    · exact absurd h (by simp)
  have hok2 := (archiveStaged_spec w opts stageDir).1.mpr hnf
  have hmeta := ((archiveStaged_spec w opts stageDir).2 hok2).1
  have hok : (ArchiveStack w opts).err = none := by
    unfold ArchiveStack
    rw [htmp]
    exact hok2
  obtain ⟨metaData2, pre, henc2, hcalls, he1, he2⟩ :=
    ArchiveStack_staged w opts stageDir htmp hds hok
      (by rw [hdn]; intro n hn; exact absurd hn (by simp))
      (by rw [hsn]; intro n hn; exact absurd hn (by simp))
  have hmm : metaData2 = metaData := by
    rw [hmd, henc] at henc2
    exact (Option.some.inj henc2).symm
  rw [hmm] at hcalls he1 he2
  rw [hdn, List.dedup_nil] at he1
  rw [hsn, List.dedup_nil] at he2
  refine ⟨hok, ?_, pre, hcalls, he1, he2, fun w2 opts2 hpath => ?_⟩
  · unfold ArchiveStack
    rw [htmp]
    simp only []
    rw [hmeta, hmd]
  · generalize hcs : pre ++ [Call.writeFile (Join [stageDir, "metadata.yaml".toList]) metaData]
      = calls at he1 he2 ⊢
    have hex : extractDirOf (importWorld w2 opts stageDir calls) opts2
        = (w2.disk.mkdirTemp "scylla-monitor-import-*".toList).getD [] := by
      unfold extractDirOf importWorld
      simp only [hpath, if_true]
    have hlast : lastWrite (Join [stageDir, "metadata.yaml".toList]) calls = some metaData := by
      unfold lastWrite
      rw [← hcs, writes_append]
      have hw1 : writes [Call.writeFile (Join [stageDir, "metadata.yaml".toList]) metaData]
          = [(Join [stageDir, "metadata.yaml".toList], metaData)] := rfl
      rw [hw1, List.reverse_append]
      simp
    have hread : ∀ sub, (sub = "dashboards".toList ∨ sub = "datasources".toList) →
        ((importWorld w2 opts stageDir calls).disk.readDir
          (Join [(w2.disk.mkdirTemp "scylla-monitor-import-*".toList).getD [], sub])).1
          = [] := by
      intro sub hsub
      unfold importWorld
      simp only []
      split_ifs
      · rw [he1]
      · rw [he2]
      · rename_i h1 h2
        rcases hsub with h | h
        · exact absurd (by rw [h]) h1
        · exact absurd (by rw [h]) h2
    refine ⟨?_, ?_, ?_⟩
    · rw [hex]
      unfold importWorld
      simp only [if_true]
      exact hlast
    · apply (RestoreStack_nothing_to_send _ opts2).1
      rw [hex]
      exact hread _ (Or.inr rfl)
    · apply (RestoreStack_nothing_to_send _ opts2).2
      rw [hex]
      exact hread _ (Or.inl rfl)

set_option maxRecDepth 100000 in
/-- C21, for the sample world with an empty dashboard server: the export
succeeds with both counts 0, and the import of its archive
`/out/export.tar.gz` reads the metadata document back, succeeds, and sends
nothing. -/
theorem empty_stack_round_trip_witness :
    (emptyStackWorld.grafanaAt sampleArchive.GrafanaURL).search = some [] ∧
    (emptyStackWorld.grafanaAt sampleArchive.GrafanaURL).datasources = some [] ∧
    cleanElems "/tmp/scylla-monitor-export-*".toList ≠ [] ∧
    restoreExport.ArchivePath = sampleArchive.OutputPath ∧
    (ArchiveStack emptyStackWorld sampleArchive).err = none ∧
    (ArchiveStack emptyStackWorld sampleArchive).metadata =
      some ⟨"2026-01-01T00:00:00Z".toList, "http://localhost:3000".toList, [], false, 0, 0⟩ ∧
    (RestoreStack (importWorld sampleWorld sampleArchive "/tmp/scylla-monitor-export-*".toList
      (beforePack (ArchiveStack emptyStackWorld sampleArchive).calls)) restoreExport).err
        = none ∧
    upserts (RestoreStack (importWorld sampleWorld sampleArchive
      "/tmp/scylla-monitor-export-*".toList
      (beforePack (ArchiveStack emptyStackWorld sampleArchive).calls)) restoreExport).calls
        = [] ∧
    uploads (RestoreStack (importWorld sampleWorld sampleArchive
      "/tmp/scylla-monitor-export-*".toList
      (beforePack (ArchiveStack emptyStackWorld sampleArchive).calls)) restoreExport).calls
        = [] ∧
    ∃ pre : List Call,
      (ArchiveStack emptyStackWorld sampleArchive).calls
        = (pre ++ [Call.writeFile (Join ["/tmp/scylla-monitor-export-*".toList,
            "metadata.yaml".toList]) "2026-01-01T00:00:00Z".toList]) ++
            [Call.packArchive "/tmp/scylla-monitor-export-*".toList sampleArchive.OutputPath,
             Call.removeAll "/tmp/scylla-monitor-export-*".toList] ∧
      upserts (RestoreStack (importWorld sampleWorld sampleArchive
        "/tmp/scylla-monitor-export-*".toList
        (pre ++ [Call.writeFile (Join ["/tmp/scylla-monitor-export-*".toList,
            "metadata.yaml".toList]) "2026-01-01T00:00:00Z".toList])) restoreExport).calls
          = [] ∧
      uploads (RestoreStack (importWorld sampleWorld sampleArchive
        "/tmp/scylla-monitor-export-*".toList
        (pre ++ [Call.writeFile (Join ["/tmp/scylla-monitor-export-*".toList,
            "metadata.yaml".toList]) "2026-01-01T00:00:00Z".toList])) restoreExport).calls
          = [] :=
  have h := empty_stack_round_trip emptyStackWorld sampleArchive
    "/tmp/scylla-monitor-export-*".toList "2026-01-01T00:00:00Z".toList
    (by decide) rfl rfl rfl (by decide) rfl rfl rfl rfl rfl rfl
  ⟨rfl, rfl, by decide, rfl, h.1, h.2.1, by decide, by decide, by decide,
    h.2.2.elim (fun pre hp =>
      ⟨pre, hp.1, (hp.2.2.2 sampleWorld restoreExport rfl).2.1,
        (hp.2.2.2 sampleWorld restoreExport rfl).2.2⟩)⟩

end ScyllaMonitor
